import Mathlib

/-!
# FEMuS `Line` (src/src/ism/Line.cpp): marker container and advection driver

A shallow embedding of `femus::Line`:

* `Line.Line`            the constructor (bucketing of the markers by process),
* `Line.UpdateLine`      the reorder by process and then by element,
* `Line.NumberOfParticlesOutsideTheDomain`,
* the Runge-Kutta stage loop of `Line::AdvectionParallel`: the sweep of one process over
  one of its markers,
* the method `Line::AdvectionParallel`: the initialisation of its parameters and its round
  loop (initialisation of the markers, local advection, tally, exchange and `UpdateLine`), with
  the processes run one after the other (see the section on the rounds).
  The exchange does not write the coordinates of a marker that stays on its process,
* the point-to-point messages of a hand-over in the exchange, sender and receiver kept apart,
* `Line.UpdateLineMPM`, and the initialisation of the parameters of
  `Line::GetParticlesToGridProjections`.

Conventions.

* `unsigned` values are natural numbers; `UINT_MAX = 2^32 - 1` is the sentinel
  used for "element not found" and "integration over".  Products that the source
  computes in `unsigned` arithmetic (`n * order`) are reduced modulo `2^32`.
* `double` values are rationals: all statements are about exact arithmetic.
* `Marker*` entries of `_particles` are marker values.  `Marker` itself
  (Marker.hpp) is not part of the sources; what `Line.cpp` reads through its
  accessors are fields of the record `Marker` below.  In particular the value of
  `GetMarkerProc(_sol)` is the field `_mproc`.  The definitions assume nothing on it; that it
  is the rank of the process that owns the marker's element is a hypothesis of the statements
  (`Line.Partitioned`, `Line.Sound`).
* An out-of-range subscript is undefined behaviour in the source.  The places
  where marker data, an empty line or the dimension can produce one (the flag vector
  `elementList[jel]`, the reads `_particles[_printList[j]]` that fill `_line`, and the
  writes to `solVIndex` in `AdvectionParallel`) are reported as `Outcome.outOfRange`;
  `abort()` is reported as `Outcome.aborted`.  All other subscripts are in range by the class invariant
  `Line.WF` together with the loop bounds.
-/

namespace Femus

/-- The value `UINT_MAX` of a 32 bit `unsigned`. -/
def UINT_MAX : Nat := 4294967295

/-- What `Line.cpp` reads and writes of a `Marker` through its accessors. -/
structure Marker where
  /-- Coordinates: `GetMarkerCoordinates`, `GetIprocMarkerCoordinates`, `SetIprocMarkerCoordinates`. -/
  _x : List ℚ
  /-- Old coordinates: `GetIprocMarkerOldCoordinates`, `SetIprocMarkerOldCoordinates`. -/
  _x0 : List ℚ
  /-- Stage vectors: `GetIprocMarkerK`, `SetIprocMarkerK`. -/
  _K : List (List ℚ)
  /-- Step: `GetIprocMarkerStep`, `SetIprocMarkerStep`. -/
  _step : Nat
  /-- Element: `GetMarkerElement`, `SetMarkerElement`; `UINT_MAX` when the marker is outside the
  domain. -/
  _elem : Nat
  /-- Previous element: `GetIprocMarkerPreviousElement`, `SetIprocMarkerPreviousElement`. -/
  _previousElem : Nat
  /-- The value returned by `GetMarkerProc(_sol)`. -/
  _mproc : Nat
deriving DecidableEq, Repr, Inhabited

/-- The members of `Line` used by the constructor and by `UpdateLine`.
`_size` is `_particles.size()` (set once in the constructor). -/
structure Line where
  /-- The member `_nprocs` (from `ParallelObject`). -/
  _nprocs : Nat
  /-- The value of `_mesh->GetNumberOfElements()`. -/
  meshElements : Nat
  _particles : List Marker
  _printList : List Nat
  _markerOffset : List Nat
  _line : List (List ℚ)
deriving DecidableEq, Repr

/-- The member `_size`. -/
def Line._size (s : Line) : Nat := s._particles.length

/-- How a call ends. -/
inductive Outcome (α : Type) where
  | returned (s : α)
  | aborted
  | outOfRange
deriving DecidableEq, Repr

/-- The arrays a reorder pass writes, with its running `counter`. -/
structure Slots (α : Type) where
  _particles : List α
  _printList : List Nat
  counter : Nat
deriving DecidableEq, Repr

/-- The search loop
`for(iList = 0; iList < _size; iList++) if(printList[iList] == j) { _printList[iList] = c; break; }`. -/
def relabel (printList cur : List Nat) (j c : Nat) : List Nat :=
  if List.indexOf j printList < printList.length then cur.set (List.indexOf j printList) c else cur

/-- One move of `UpdateLine`:
`_particles[base + counter] = particles[j]`, the search loop for `j`, `counter++`. -/
def place (particles : List Marker) (printList : List Nat) (base : Nat)
    (w : Slots Marker) (j : Nat) : Slots Marker :=
  { _particles := w._particles.set (base + w.counter) (particles.getD j default)
    _printList := relabel printList w._printList j (base + w.counter)
    counter := w.counter + 1 }

/-- Reorder by proc of `UpdateLine`: the loop over `j` for one `iproc`. -/
def procScan (particles : List Marker) (printList : List Nat) (iproc : Nat)
    (w : Slots Marker) : Slots Marker :=
  (List.range particles.length).foldl
    (fun w j => if (particles.getD j default)._mproc = iproc then place particles printList 0 w j else w) w

/-- Reorder by proc of `UpdateLine`: the loop over `iproc`, which first stores
`_markerOffset[iproc] = counter`. -/
def procPass (nprocs : Nat) (particles : List Marker) (printList : List Nat)
    (w : Slots Marker) (offs : List Nat) : Slots Marker × List Nat :=
  (List.range nprocs).foldl
    (fun acc iproc => (procScan particles printList iproc acc.1, acc.2.set iproc acc.1.counter))
    (w, offs)

/-- Progress of the element pass. -/
inductive Status where
  | running
  | aborted
  | outOfRange
deriving DecidableEq, Repr

/-- The variables of the element pass of `UpdateLine`. -/
structure Work where
  slots : Slots Marker
  elementList : List Bool
  someMarkersOutsideDomain : Bool
  status : Status
deriving DecidableEq, Repr

/-- The loop `for(ip = jp + 1; ip < _markerOffset[iproc + 1]; ip++)`. -/
def elemInner (particles : List Marker) (printList : List Nat) (base hi jel jp : Nat)
    (w : Slots Marker) : Slots Marker :=
  (List.range' (jp + 1) (hi - (jp + 1))).foldl
    (fun w ip => if (particles.getD ip default)._elem = jel then place particles printList base w ip else w) w

/-- The body of the loop over `jp` in the element pass. -/
def elemStep (particles : List Marker) (printList : List Nat) (base hi : Nat)
    (w : Work) (jp : Nat) : Work :=
  if w.status ≠ Status.running then w
  else if (particles.getD jp default)._elem ≠ UINT_MAX then
    match w.elementList[(particles.getD jp default)._elem]? with
    | none => { w with status := Status.outOfRange }
    | some true => w
    | some false =>
      { w with
        elementList := w.elementList.set (particles.getD jp default)._elem true
        slots := elemInner particles printList base hi (particles.getD jp default)._elem jp
                  (place particles printList base w.slots jp) }
  else { w with someMarkersOutsideDomain := true }

/-- The loop `for(i = 0; i < _size; i++)` run for `iproc == 0` when some marker of
its slice is outside the domain. -/
def tailFill (particles : List Marker) (printList : List Nat) (base : Nat)
    (w : Slots Marker) : Slots Marker :=
  (List.range particles.length).foldl
    (fun w i => if (particles.getD i default)._elem = UINT_MAX then place particles printList base w i else w) w

/-- The body of the loop over `iproc` in the element pass. -/
def elemProc (particles : List Marker) (printList : List Nat) (offs : List Nat)
    (w : Work) (iproc : Nat) : Work :=
  if w.status ≠ Status.running then w
  else
    let w1 := (List.range' (offs.getD iproc 0) (offs.getD (iproc + 1) 0 - offs.getD iproc 0)).foldl
      (elemStep particles printList (offs.getD iproc 0) (offs.getD (iproc + 1) 0))
      { w with someMarkersOutsideDomain := false, slots := { w.slots with counter := 0 } }
    if w1.status ≠ Status.running then w1
    else if w1.someMarkersOutsideDomain = true then
      if iproc = 0 then
        { w1 with slots := tailFill particles printList (offs.getD 0 0) w1.slots }
      else { w1 with status := Status.aborted }
    else w1

/-- Reorder also by element of `UpdateLine`: the loop over `iproc`. -/
def elemPass (nprocs meshElements : Nat) (particles : List Marker) (printList : List Nat)
    (offs : List Nat) : Work :=
  (List.range nprocs).foldl (elemProc particles printList offs)
    { slots := { _particles := particles, _printList := printList, counter := 0 }
      elementList := List.replicate meshElements false
      someMarkersOutsideDomain := false
      status := Status.running }

/-- The read `_particles[_printList[j]]->GetMarkerCoordinates(...)`; `none` when a subscript is
out of range. -/
def coordsAt (particles : List Marker) (printList : List Nat) (j : Nat) : Option (List ℚ) :=
  match printList[j]? with
  | none => none
  | some k =>
    match particles[k]? with
    | none => none
    | some m => some m._x

/-- A loop of reads, one for each `j` of the list; `none` as soon as one read fails. -/
def readAll (read : Nat → Option (List ℚ)) : List Nat → Option (List (List ℚ))
  | [] => some []
  | j :: js =>
    match read j with
    | none => none
    | some c =>
      match readAll read js with
      | none => none
      | some cs => some (c :: cs)

/-- The fill of `_line`: entries `0 .. _size - 1`, then the closing entry `_line[_size]`
read through `_printList[0]`. -/
def fillLine (particles : List Marker) (printList : List Nat) : Option (List (List ℚ)) :=
  match readAll (coordsAt particles printList) (List.range particles.length) with
  | none => none
  | some body =>
    match coordsAt particles printList 0 with
    | none => none
    | some last => some (body ++ [last])

/-- The method `Line::UpdateLine()`. -/
def Line.UpdateLine (s : Line) : Outcome Line :=
  let p1 := procPass s._nprocs s._particles s._printList
    { _particles := s._particles, _printList := s._printList, counter := 0 } s._markerOffset
  let w := elemPass s._nprocs s.meshElements p1.1._particles p1.1._printList p1.2
  match w.status with
  | Status.aborted => Outcome.aborted
  | Status.outOfRange => Outcome.outOfRange
  | Status.running =>
    match fillLine w.slots._particles w.slots._printList with
    | none => Outcome.outOfRange
    | some l =>
      Outcome.returned
        { s with _particles := w.slots._particles, _printList := w.slots._printList,
                 _markerOffset := p1.2, _line := l }

/-- The method `Line::NumberOfParticlesOutsideTheDomain()`: the loop over
`iMarker` in `[_markerOffset[0], _markerOffset[1])`. -/
def Line.NumberOfParticlesOutsideTheDomain (s : Line) : Nat :=
  (List.range' (s._markerOffset.getD 0 0) (s._markerOffset.getD 1 0 - s._markerOffset.getD 0 0)).foldl
    (fun counter iMarker =>
      if (s._particles.getD iMarker default)._elem = UINT_MAX then counter + 1 else counter) 0

/-! ## The constructor -/

/-- One move of the constructor:
`_particles[counter] = particles[j]; _printList[j] = counter; counter++`.
The entries of `_particles` are pointers, null (`none`) after `resize`. -/
def placeNew (particles : List Marker) (w : Slots (Option Marker)) (j : Nat) :
    Slots (Option Marker) :=
  { _particles := w._particles.set w.counter (some (particles.getD j default))
    _printList := w._printList.set j w.counter
    counter := w.counter + 1 }

/-- Constructor, reorder by proc: the loop over `j` for one `iproc`. -/
def ctorScan (particles : List Marker) (iproc : Nat) (w : Slots (Option Marker)) :
    Slots (Option Marker) :=
  (List.range particles.length).foldl
    (fun w j => if (particles.getD j default)._mproc = iproc then placeNew particles w j else w) w

/-- Constructor, reorder by proc: the loop over `iproc`. -/
def ctorPass (nprocs : Nat) (particles : List Marker) (w : Slots (Option Marker))
    (offs : List Nat) : Slots (Option Marker) × List Nat :=
  (List.range nprocs).foldl
    (fun acc iproc => (ctorScan particles iproc acc.1, acc.2.set iproc acc.1.counter))
    (w, offs)

/-- The arrays as the constructor's bucketing leaves them: `_markerOffset.resize(_nprocs + 1)`,
`_markerOffset[_nprocs] = _size`, `_particles.resize(_size)`, `_printList.resize(_size)`,
then the bucketing loops. -/
def ctorBuckets (nprocs : Nat) (particles : List Marker) : Slots (Option Marker) × List Nat :=
  ctorPass nprocs particles
    { _particles := List.replicate particles.length none
      _printList := List.replicate particles.length 0
      counter := 0 }
    ((List.replicate (nprocs + 1) 0).set nprocs particles.length)

/-- The read `_particles[_printList[j]]->GetMarkerCoordinates(...)` in the constructor; `none` when a
subscript is out of range or the pointer is null. -/
def coordsAtNew (particles : List (Option Marker)) (printList : List Nat) (j : Nat) :
    Option (List ℚ) :=
  match printList[j]? with
  | none => none
  | some k =>
    match particles[k]? with
    | some (some m) => some m._x
    | _ => none

/-- The fill of `_line` in the constructor. -/
def fillLineNew (particles : List (Option Marker)) (printList : List Nat) :
    Option (List (List ℚ)) :=
  match readAll (coordsAtNew particles printList) (List.range particles.length) with
  | none => none
  | some body =>
    match coordsAtNew particles printList 0 with
    | none => none
    | some last => some (body ++ [last])

/-- The markers behind a list of pointers, when none of them is null. -/
def allPresent : List (Option Marker) → Option (List Marker)
  | [] => some []
  | none :: _ => none
  | some m :: rest =>
    match allPresent rest with
    | none => none
    | some ms => some (m :: ms)

/-- The constructor `Line::Line(x, markerType, sol, solType)`, from the point where the markers
`particles[j] = new Marker(x[j], ...)` have been built.  `nprocs` is `_nprocs` and
`meshElements` the number of elements of the mesh of `sol`.
A constructed line that still holds a null pointer in `_particles` (possible only when some
marker's process is not below `nprocs`) is not a `Line` value; it is reported as
`Outcome.outOfRange`, as are a null dereference and an out-of-range subscript. -/
def Line.Line (nprocs meshElements : Nat) (particles : List Marker) : Outcome Line :=
  let b := ctorBuckets nprocs particles
  match fillLineNew b.1._particles b.1._printList with
  | none => Outcome.outOfRange
  | some l =>
    match allPresent b.1._particles with
    | none => Outcome.outOfRange
    | some ps =>
      Outcome.returned
        { _nprocs := nprocs, meshElements := meshElements, _particles := ps,
          _printList := b.1._printList, _markerOffset := b.2, _line := l }

/-! ## The Runge-Kutta stage loop of `AdvectionParallel` -/

/-- The table `Line::_a`; entries that the initialiser omits are zero. -/
def _a : List (List (List ℚ)) :=
  [ [[]],
    [[], [1, 0]],
    [[], [1/2], [-1, 2]],
    [[], [1/2], [0, 1/2], [0, 0, 1]] ]

/-- The table `Line::_b`. -/
def _b : List (List ℚ) :=
  [ [1], [1/2, 1/2], [1/6, 2/3, 1/6], [1/6, 1/3, 1/3, 1/6] ]

/-- The table `Line::_c`. -/
def _c : List (List ℚ) :=
  [ [0], [0, 1], [0, 1/2, 1], [0, 1/2, 1/2, 1] ]

/-- The entry `_a[o][i][j]`. -/
def aAt (o i j : Nat) : ℚ := ((_a.getD o []).getD i []).getD j 0

/-- The entry `_b[o][j]`. -/
def bAt (o j : Nat) : ℚ := (_b.getD o []).getD j 0

/-- The entry `_c[o][j]`. -/
def cAt (o j : Nat) : ℚ := (_c.getD o []).getD j 0

/-- The functions of `Marker`, `Solution` and `Mesh` that the stage loop calls and that are
not part of `Line.cpp`. -/
structure Collaborators where
  /-- The call `GetMarkerS(n, order, s)`: the time fraction `s` of the marker. -/
  GetMarkerS : Nat → Nat → Marker → ℚ
  /-- The calls `FindLocalCoordinates` and `updateVelocity`: the two snapshots `V[0]`, `V[1]`. -/
  updateVelocity : Marker → List ℚ × List ℚ
  /-- The value of `_sol->GetMesh()->GetElementMaterial(currentElem)`. -/
  GetElementMaterial : Nat → Nat
  /-- The call `GetElementSerial(previousElem, _sol, s)`: the new value of `previousElem`, the marker's
  new element and the value `GetMarkerProc(_sol)` then returns. -/
  GetElementSerial : Nat → ℚ → Marker → Nat × Nat × Nat

/-- The force callback: from `x`, the current `Fm` and the material to the new `Fm`. -/
abbrev ForceFunction := List ℚ → List ℚ → Nat → List ℚ

/-- The loop `for(k = 0; k < dim; k++) v[k] = f k`. -/
def assignFirst (dim : Nat) (f : Nat → ℚ) (v : List ℚ) : List ℚ :=
  (List.range dim).foldl (fun v k => v.set k (f k)) v

/-- The sum `x0[k] + sum over j < order of coef j * K[j][k]`, accumulated as in the source. -/
def combine (order : Nat) (coef : Nat → ℚ) (K : List (List ℚ)) (x0 : List ℚ) (k : Nat) : ℚ :=
  (List.range order).foldl (fun acc j => acc + coef j * (K.getD j []).getD k 0) (x0.getD k 0)

/-- The local variables of the loop over the markers that one marker's integration uses. -/
structure Local where
  marker : Marker
  currentElem : Nat
  step : Nat
  Fm : List ℚ
  markerOutsideDomain : Bool
deriving DecidableEq, Repr

/-- The product `n * order` in `unsigned` arithmetic. -/
def nTimesOrder (n order : Nat) : Nat := (n * order) % 2 ^ 32

/-- One pass through the body of `while(step < n * order)`; the flag tells whether the
body left the loop through `break`. -/
def stageBody (c : Collaborators) (force : Option ForceFunction) (dim iproc n order : Nat) (T : ℚ)
    (v : Local) : Local × Bool :=
  let h : ℚ := T / n
  let x := v.marker._x
  let s := c.GetMarkerS n order v.marker
  let V := c.updateVelocity v.marker
  let istep := v.step % order
  let x0 := if istep = 0 then x else v.marker._x0
  let K := if istep = 0 then
      (List.range order).foldl (fun K j => K.set j (List.replicate dim 0)) v.marker._K
    else v.marker._K
  let Fm := match force with
    | none => v.Fm
    | some f => f x v.Fm (c.GetElementMaterial v.currentElem)
  let K := K.set istep
    (assignFirst dim (fun k => (s * V.1.getD k 0 + (1 - s) * V.2.getD k 0 + Fm.getD k 0) * h)
      (K.getD istep []))
  let step := v.step + 1
  let istep := istep + 1
  let x := if istep < order then assignFirst dim (combine order (aAt (order - 1) istep) K x0) x
    else assignFirst dim (combine order (bAt (order - 1)) K x0) x
  let m := { v.marker with _x0 := x0, _x := x, _K := K, _step := step }
  let s := c.GetMarkerS n order m
  let r := c.GetElementSerial v.currentElem s m
  let m := { m with _previousElem := r.1, _elem := r.2.1, _mproc := r.2.2 }
  if r.2.1 = UINT_MAX then
    ({ marker := { m with _step := UINT_MAX }, currentElem := r.2.1, step := UINT_MAX, Fm := Fm,
       markerOutsideDomain := true }, true)
  else
    ({ marker := m, currentElem := r.2.1, step := step, Fm := Fm,
       markerOutsideDomain := v.markerOutsideDomain }, decide (iproc ≠ r.2.2))

/-- The first part of the body of `while(step < n * order)`, up to `SetIprocMarkerStep(step)`:
the Runge-Kutta stage, before the search for the new element. -/
def stageUpdate (c : Collaborators) (force : Option ForceFunction) (dim n order : Nat) (T : ℚ)
    (v : Local) : Local :=
  let h : ℚ := T / n
  let x := v.marker._x
  let s := c.GetMarkerS n order v.marker
  let V := c.updateVelocity v.marker
  let istep := v.step % order
  let x0 := if istep = 0 then x else v.marker._x0
  let K := if istep = 0 then
      (List.range order).foldl (fun K j => K.set j (List.replicate dim 0)) v.marker._K
    else v.marker._K
  let Fm := match force with
    | none => v.Fm
    | some f => f x v.Fm (c.GetElementMaterial v.currentElem)
  let K := K.set istep
    (assignFirst dim (fun k => (s * V.1.getD k 0 + (1 - s) * V.2.getD k 0 + Fm.getD k 0) * h)
      (K.getD istep []))
  let step := v.step + 1
  let istep := istep + 1
  let x := if istep < order then assignFirst dim (combine order (aAt (order - 1) istep) K x0) x
    else assignFirst dim (combine order (bAt (order - 1)) K x0) x
  { marker := { v.marker with _x0 := x0, _x := x, _K := K, _step := step },
    currentElem := v.currentElem, step := step, Fm := Fm,
    markerOutsideDomain := v.markerOutsideDomain }

/-- The loop `while(step < n * order) { ... }`, cut off after `fuel` passes through the body. -/
def stageLoop (c : Collaborators) (force : Option ForceFunction) (dim iproc n order : Nat) (T : ℚ) :
    Nat → Local → Local
  | 0, v => v
  | fuel + 1, v =>
    if v.step < nTimesOrder n order then
      match stageBody c force dim iproc n order T v with
      | (v1, true) => v1
      | (v1, false) => stageLoop c force dim iproc n order T fuel v1
    else v

/-- The body of the loop over `iMarker` of the local advection, for the marker `m` of process
`iproc`: the result and whether the marker is counted in `integrationIsOverCounterProc`.
The `while` loop ends after at most `n * order` passes, which is the fuel given to it. -/
def advectMarker (c : Collaborators) (force : Option ForceFunction) (dim iproc n order : Nat) (T : ℚ)
    (Fm : List ℚ) (m : Marker) : Local × Bool :=
  let v0 : Local :=
    { marker := m, currentElem := m._elem, step := m._step, Fm := Fm,
      markerOutsideDomain := decide (m._elem = UINT_MAX) }
  let v1 :=
    if v0.markerOutsideDomain = false then
      let w := stageLoop c force dim iproc n order T (nTimesOrder n order) v0
      if w.step = nTimesOrder n order then
        { w with step := UINT_MAX, marker := { w.marker with _step := UINT_MAX } }
      else w
    else { v0 with step := UINT_MAX, marker := { v0.marker with _step := UINT_MAX } }
  (v1, decide (v1.step = UINT_MAX) || v1.markerOutsideDomain)


/-! ## The rounds of `AdvectionParallel`

Every process runs `AdvectionParallel` on its own copy of the line and writes the integration
data (coordinates, old coordinates, stage vectors, step) only of the markers of its own slice;
the element and the step of every marker are broadcast by its owner in the exchange, and
`UpdateLine` depends on nothing else, so that all copies keep the same order, offsets and
labels.  The embedding has one record for each marker, which stands for the copy held by the
marker's owner, and runs the loops of the processes one after the other, in rank order.
A hand-over (the `MPI_Send`/`MPI_Recv` pairs of the exchange and the transfer of the coordinates
inside `GetElement`) passes that record on to the new owner.  In the source the copy of the new
owner takes the step from a message, and the stage vectors and the old coordinates only when
`step % order != 0`; at a macro-step boundary it keeps the stage vectors and old coordinates
that `InitializeVariables` left, which the next stage overwrites before it reads them, and
process 0 takes only the coordinates of a marker outside the domain.  The two copies are kept
apart in the section on the messages of the exchange; in the record of the round loop the
fields `_K` and `_x0` after a hand-over are those of the old owner. -/

/-- The functions of `Marker` that the round loop calls besides those of the stage loop, and the
function `GetIndex` of the solution, which the initialisation of the parameters calls. -/
structure RoundCollaborators extends Collaborators where
  /-- The call `InitializeMarkerForAdvection(order)`. -/
  InitializeMarkerForAdvection : Nat → Marker → Marker
  /-- The call `GetElement(prevElem, jproc, _sol, s)` of the exchange: the new value of `prevElem`,
  the marker's new element and the value `GetMarkerProc(_sol)` then returns. -/
  GetElement : Nat → Nat → ℚ → Marker → Nat × Nat × Nat
  /-- The positions `_sol->GetIndex("U")`, `_sol->GetIndex("V")` and `_sol->GetIndex("W")` of the
  velocity components 0, 1 and 2 in the solution. -/
  GetIndex : Nat → Nat

/-- The pairs `(jproc, iMarker)` in the order of the loops
`for(jproc = 0; jproc < _nprocs; jproc++) for(iMarker = _markerOffset[jproc];
iMarker < _markerOffset[jproc + 1]; iMarker++)`; the loop of one process over its own slice is
the part with `jproc = _iproc`. -/
def slotsOf (nprocs : Nat) (offs : List Nat) : List (Nat × Nat) :=
  (List.range nprocs).flatMap (fun jproc =>
    (List.range' (offs.getD jproc 0) (offs.getD (jproc + 1) 0 - offs.getD jproc 0)).map
      (fun iMarker => (jproc, iMarker)))

/-- The subscripts `_markerOffset[jproc + 1]` and `_particles[iMarker]` of these loops are in
range. -/
def SlotsInside (s : Line) : Prop :=
  s._nprocs < s._markerOffset.length ∧
    ∀ pk ∈ slotsOf s._nprocs s._markerOffset, pk.2 < s._particles.length

instance (s : Line) : Decidable (SlotsInside s) := by
  unfold SlotsInside; exact inferInstance

/-- The loops `_particles[iMarker]->InitializeMarkerForAdvection(order)` of all processes. -/
def initSlot (c : RoundCollaborators) (order : Nat) (ps : List Marker) (pk : Nat × Nat) :
    List Marker :=
  ps.set pk.2 (c.InitializeMarkerForAdvection order (ps.getD pk.2 default))

/-- The number of passes through the body that `stageLoop` makes (bookkeeping for the
statements, not a variable of the source). -/
def stagePasses (c : Collaborators) (force : Option ForceFunction) (dim iproc n order : Nat)
    (T : ℚ) : Nat → Local → Nat
  | 0, _ => 0
  | fuel + 1, v =>
    if v.step < nTimesOrder n order then
      match stageBody c force dim iproc n order T v with
      | (_, true) => 1
      | (v1, false) => 1 + stagePasses c force dim iproc n order T fuel v1
    else 0

/-- The number of stages that `advectMarker` runs for the marker (bookkeeping). -/
def sweepPasses (c : Collaborators) (force : Option ForceFunction) (dim iproc n order : Nat)
    (T : ℚ) (Fm : List ℚ) (m : Marker) : Nat :=
  if m._elem = UINT_MAX then 0
  else stagePasses c force dim iproc n order T (nTimesOrder n order)
    { marker := m, currentElem := m._elem, step := m._step, Fm := Fm,
      markerOutsideDomain := decide (m._elem = UINT_MAX) }

/-- The variables of the local advection of all processes: the markers, the vector `Fm` and the
counter `integrationIsOverCounterProc[_iproc]` of each process, and the number of stages run for
each slot (bookkeeping). -/
structure Sweep where
  _particles : List Marker
  Fm : List (List ℚ)
  integrationIsOverCounterProc : List Nat
  passes : List Nat
deriving DecidableEq, Repr

/-- The body of the loop over `iMarker` of the local advection of process `pk.1`, for the slot
`pk.2`. -/
def sweepSlot (c : Collaborators) (force : Option ForceFunction) (dim n order : Nat) (T : ℚ)
    (w : Sweep) (pk : Nat × Nat) : Sweep :=
  let r := advectMarker c force dim pk.1 n order T (w.Fm.getD pk.1 [])
    (w._particles.getD pk.2 default)
  { _particles := w._particles.set pk.2 r.1.marker,
    Fm := w.Fm.set pk.1 r.1.Fm,
    integrationIsOverCounterProc :=
      if r.2 = true then
        w.integrationIsOverCounterProc.set pk.1 (w.integrationIsOverCounterProc.getD pk.1 0 + 1)
      else w.integrationIsOverCounterProc,
    passes := w.passes.set pk.2
      (sweepPasses c force dim pk.1 n order T (w.Fm.getD pk.1 []) (w._particles.getD pk.2 default)) }

/-- The markers during the exchange, and the hand-overs `(iMarker, jproc, mproc)` of a marker's
step, stage vectors and old coordinates from `jproc` to `mproc` made so far (bookkeeping). -/
structure Exchange where
  _particles : List Marker
  moved : List (Nat × Nat × Nat)
deriving DecidableEq, Repr

/-- The body of the loop over `iMarker` of the exchange, for the slot `pk.2` of the slice of
`jproc = pk.1`. -/
def exchangeSlot (c : RoundCollaborators) (n order : Nat) (w : Exchange) (pk : Nat × Nat) :
    Exchange :=
  let m := w._particles.getD pk.2 default
  if m._elem ≠ UINT_MAX then
    if m._mproc ≠ pk.1 then
      let r := c.GetElement m._previousElem pk.1 (c.GetMarkerS n order m) m
      { _particles := w._particles.set pk.2
          { m with _previousElem := r.1, _elem := r.2.1, _mproc := r.2.2 },
        moved := if r.2.1 ≠ UINT_MAX ∧ r.2.2 ≠ pk.1 then w.moved ++ [(pk.2, pk.1, r.2.2)]
          else w.moved }
    else w
  else w

/-- The state of `AdvectionParallel` between two rounds: the line, the vector `Fm` of each
process and `integrationIsOverCounter`; and, as bookkeeping, the number of rounds made, the
number of stages run for each marker and the hand-overs of each round, both by the marker's
index in the constructor's input. -/
structure Run where
  line : Line
  Fm : List (List ℚ)
  integrationIsOverCounter : Nat
  rounds : Nat
  stages : List Nat
  moved : List (List (Nat × Nat × Nat))
deriving DecidableEq, Repr

/-- One pass through the body of `while(integrationIsOverCounter != _size)`: the local advection
of every process, the tally, the exchange and `UpdateLine`. -/
def round (c : RoundCollaborators) (force : Option ForceFunction) (dim n order : Nat) (T : ℚ)
    (r : Run) : Outcome Run :=
  if SlotsInside r.line then
    let slots := slotsOf r.line._nprocs r.line._markerOffset
    let w := slots.foldl (sweepSlot c.toCollaborators force dim n order T)
      { _particles := r.line._particles, Fm := r.Fm,
        integrationIsOverCounterProc := List.replicate r.line._nprocs 0,
        passes := List.replicate r.line._particles.length 0 }
    let e := slots.foldl (exchangeSlot c n order) { _particles := w._particles, moved := [] }
    match ({ r.line with _particles := e._particles } : Femus.Line).UpdateLine with
    | Outcome.returned s1 =>
      Outcome.returned
        { line := s1, Fm := w.Fm,
          integrationIsOverCounter := w.integrationIsOverCounterProc.sum,
          rounds := r.rounds + 1,
          stages := (List.range r.line._particles.length).map (fun i =>
            r.stages.getD i 0 + w.passes.getD (r.line._printList.getD i 0) 0),
          moved := r.moved ++
            [e.moved.map (fun t => (List.indexOf t.1 r.line._printList, t.2.1, t.2.2))] }
    | Outcome.aborted => Outcome.aborted
    | Outcome.outOfRange => Outcome.outOfRange
  else Outcome.outOfRange

/-- The loop `while(integrationIsOverCounter != _size)`, cut off after `fuel` rounds: `none` when
the loop has not ended by then. -/
def roundLoop (c : RoundCollaborators) (force : Option ForceFunction) (dim n order : Nat) (T : ℚ) :
    Nat → Run → Option (Outcome Run)
  | 0, r => if r.integrationIsOverCounter = r.line._size then some (Outcome.returned r) else none
  | fuel + 1, r =>
    if r.integrationIsOverCounter = r.line._size then some (Outcome.returned r)
    else
      match round c force dim n order T r with
      | Outcome.returned r1 => roundLoop c force dim n order T fuel r1
      | Outcome.aborted => some Outcome.aborted
      | Outcome.outOfRange => some Outcome.outOfRange

/-! ### The parameters of `AdvectionParallel` -/

/-- The write `v[i] = x` to a `std::vector<unsigned>`; an index that is not below the size is
out of range. -/
def writeAt (v : List Nat) (i x : Nat) : Outcome (List Nat) :=
  if i < v.length then Outcome.returned (v.set i x) else Outcome.outOfRange

/-- The initialisation of `solVIndex` in `AdvectionParallel`:
`vector<unsigned> solVIndex(_dim); solVIndex[0] = GetIndex("U"); solVIndex[1] = GetIndex("V");
if(_dim == 3) solVIndex[2] = GetIndex("W");`, followed by the read `solVIndex[0]`; the three
values of `GetIndex` are parameters. -/
def solVIndexInit (dim indexU indexV indexW : Nat) : Outcome (List Nat) :=
  match writeAt (List.replicate dim 0) 0 indexU with
  | Outcome.returned v0 =>
    match writeAt v0 1 indexV with
    | Outcome.returned v1 =>
      match (if dim = 3 then writeAt v1 2 indexW else Outcome.returned v1) with
      | Outcome.returned v2 =>
        if 0 < v2.length then Outcome.returned v2 else Outcome.outOfRange
      | Outcome.aborted => Outcome.aborted
      | Outcome.outOfRange => Outcome.outOfRange
    | Outcome.aborted => Outcome.aborted
    | Outcome.outOfRange => Outcome.outOfRange
  | Outcome.aborted => Outcome.aborted
  | Outcome.outOfRange => Outcome.outOfRange

/-- The method `Line::AdvectionParallel(n, T, order, force)` on a line of dimension `dim`, cut off
after `fuel` rounds: the initialisation of the parameters (`solVIndex`, then `Fm` and the
counter), the loop `InitializeMarkerForAdvection(order)` over the slots, and the round loop. The
writes to `solVIndex` come first: when one of them is out of range the method does not reach
the loops. -/
def Line.AdvectionParallel (s : Femus.Line) (c : RoundCollaborators) (force : Option ForceFunction)
    (dim n order : Nat) (T : ℚ) (fuel : Nat) : Option (Outcome Run) :=
  match solVIndexInit dim (c.GetIndex 0) (c.GetIndex 1) (c.GetIndex 2) with
  | Outcome.returned _ =>
    if SlotsInside s then
      roundLoop c force dim n order T fuel
        { line := { s with _particles :=
            (slotsOf s._nprocs s._markerOffset).foldl (initSlot c order) s._particles },
          Fm := List.replicate s._nprocs [0, 0, 0],
          integrationIsOverCounter := 0,
          rounds := 0,
          stages := List.replicate s._particles.length 0,
          moved := [] }
    else some Outcome.outOfRange
  | Outcome.aborted => some Outcome.aborted
  | Outcome.outOfRange => some Outcome.outOfRange

/-! ## The messages of the exchange

In the exchange of `AdvectionParallel` (and of `UpdateLineMPM`) the process `jproc` that stores
a marker hands it over with point-to-point messages: to the owner `mproc` of its new element, or
to process 0 when the marker is outside the domain.  Every process holds a copy of every marker;
the two sides of a hand-over are embedded here for one marker, with the copy of the sending
process and the copy and the local variables of the receiving process kept apart.  All
processes take the same branches, because the element is broadcast and `GetMarkerProc` and
`GetElement` are collective. -/

/-- A message `MPI_Send(buf, count, type, dest, tag, PETSC_COMM_WORLD)` posted by the process
`source`: `unsignedData` holds the values sent as `MPI_UNSIGNED`, `doubleData` those sent as
`MPI_DOUBLE`. -/
structure Message where
  source : Nat
  dest : Nat
  tag : Nat
  unsignedData : List Nat
  doubleData : List ℚ
deriving DecidableEq, Repr

/-- The `count` of a message. -/
def Message.count (m : Message) : Nat := m.unsignedData.length + m.doubleData.length

/-- The `count` values read from the send buffer `&v[0]`. -/
def firstOf (count : Nat) (v : List ℚ) : List ℚ := (List.range count).map (fun k => v.getD k 0)

/-- The values of a received message written to the receive buffer `&buf[0]` of `count`
entries. -/
def store (count : Nat) (data : List ℚ) (buf : List ℚ) : List ℚ :=
  assignFirst (min count data.length) (fun k => data.getD k 0) buf

/-- The tag `order + 1` of the message with the step, computed in `unsigned` arithmetic. -/
def stepTag (order : Nat) : Nat := (order + 1) % 2 ^ 32

/-- The sends of the process `jproc` that hands the marker `m` over to `mproc`
(the branch `jproc == _iproc`): the step with the tag `order + 1`; then, when
`step % order != 0`, the stage vectors `K[i]` with the tags `i` and the old coordinates with the
tag `order`. -/
def sendState (order dim jproc mproc : Nat) (m : Marker) : List Message :=
  let step := m._step
  let istep := step % order
  { source := jproc, dest := mproc, tag := stepTag order, unsignedData := [step],
    doubleData := [] } ::
    (if istep ≠ 0 then
      (List.range order).map (fun i =>
        { source := jproc, dest := mproc, tag := i, unsignedData := [],
          doubleData := firstOf dim (m._K.getD i []) }) ++
      [{ source := jproc, dest := mproc, tag := order, unsignedData := [],
         doubleData := firstOf dim m._x0 }]
    else [])

/-- The call `MPI_Recv(buf, count, type, source, tag, ...)` on the messages that have been sent
to the receiving process and not received yet, in the order of their sends: the first message
from `source` with the tag `tag`, and the remaining messages; `none` when there is no such
message (the call does not return). -/
def recv (source tag : Nat) : List Message → Option (Message × List Message)
  | [] => none
  | m :: q =>
    if m.source = source ∧ m.tag = tag then some (m, q)
    else
      match recv source tag q with
      | none => none
      | some (r, q1) => some (r, m :: q1)

/-- The receiving process during a hand-over: its copy of the marker, its local variables `K`,
`x0` and `x`, the messages sent to it and not received yet, and the receives `(tag, count)` it
has posted (bookkeeping). -/
structure Receiver where
  marker : Marker
  K : List (List ℚ)
  x0 : List ℚ
  x : List ℚ
  queue : List Message
  posted : List (Nat × Nat)
deriving DecidableEq, Repr

/-- The body of the loop `for(int i = 0; i < order; i++)` of the receiving process:
`MPI_Recv(&K[i][0], _dim, MPI_DOUBLE, jproc, i, ...)` and `SetIprocMarkerK(K)`. -/
def recvStage (dim jproc : Nat) (w : Receiver) (i : Nat) : Option Receiver :=
  match recv jproc i w.queue with
  | none => none
  | some (msg, q) =>
    some
      { w with
        K := w.K.set i (store dim msg.doubleData (w.K.getD i [])),
        marker := { w.marker with _K := w.K.set i (store dim msg.doubleData (w.K.getD i [])) },
        queue := q,
        posted := w.posted ++ [(i, dim)] }

/-- The loop `for(int i = 0; i < order; i++)` of the receiving process, over the list of its
indices. -/
def recvStages (dim jproc : Nat) : List Nat → Receiver → Option Receiver
  | [], w => some w
  | i :: is, w =>
    match recvStage dim jproc w i with
    | none => none
    | some w1 => recvStages dim jproc is w1

/-- The branch `mproc == _iproc` of the hand-over, on the process that receives the marker from
`jproc`: `InitializeVariables(order)` on its copy, the receive of the step, and, when
`step % order != 0`, the receives of the stage vectors and of the old coordinates.  `none`
when a receive does not return or the step message carries no value. -/
def receiveState (InitializeVariables : Nat → Marker → Marker) (order dim jproc : Nat)
    (w : Receiver) : Option Receiver :=
  match recv jproc (stepTag order) w.queue with
  | none => none
  | some (msg, q) =>
    match msg.unsignedData with
    | [] => none
    | step :: _ =>
      if step % order ≠ 0 then
        match recvStages dim jproc (List.range order)
            { w with
              marker := { InitializeVariables order w.marker with _step := step },
              queue := q,
              posted := w.posted ++ [(stepTag order, 1)] } with
        | none => none
        | some w2 =>
          match recv jproc order w2.queue with
          | none => none
          | some (msg0, q0) =>
            some
              { w2 with
                x0 := store dim msg0.doubleData w2.x0,
                marker := { w2.marker with _x0 := store dim msg0.doubleData w2.x0 },
                queue := q0,
                posted := w2.posted ++ [(order, dim)] }
      else
        some
          { w with
            marker := { InitializeVariables order w.marker with _step := step },
            queue := q,
            posted := w.posted ++ [(stepTag order, 1)] }

/-- The send of the block `if(elem == UINT_MAX && jproc != 0)` on the process `jproc` that
stores the marker `m`: the coordinates, to process 0, with the tag 1. -/
def exitedSend (dim jproc : Nat) (m : Marker) : List Message :=
  [{ source := jproc, dest := 0, tag := 1, unsignedData := [],
     doubleData := firstOf dim m._x }]

/-- The branch `_iproc == 0` of the block `if(elem == UINT_MAX && jproc != 0)`, on process 0:
`InitializeX()` on its copy, the receive of the coordinates into `x` and
`SetIprocMarkerCoordinates(x)`. -/
def exitedReceive (InitializeX : Marker → Marker) (dim jproc : Nat) (w : Receiver) :
    Option Receiver :=
  match recv jproc 1 w.queue with
  | none => none
  | some (msg, q) =>
    some
      { w with
        x := store dim msg.doubleData w.x,
        marker := { InitializeX w.marker with _x := store dim msg.doubleData w.x },
        queue := q,
        posted := w.posted ++ [(1, dim)] }

/-- The messages that the process `jproc` posts in the body of the exchange loop of
`AdvectionParallel` for the marker `m` of its slice: none when the marker stays on `jproc`, the
hand-over of its state when `GetElement` has found it on another process, the coordinates for
process 0 when its element is `UINT_MAX` and `jproc` is not 0. -/
def exchangeSends (c : RoundCollaborators) (n order dim jproc : Nat) (m : Marker) :
    List Message :=
  if m._elem ≠ UINT_MAX then
    let m1 : Marker :=
      if m._mproc ≠ jproc then
        let r := c.GetElement m._previousElem jproc (c.GetMarkerS n order m) m
        { m with _previousElem := r.1, _elem := r.2.1, _mproc := r.2.2 }
      else m
    (if m1._elem ≠ UINT_MAX then
      if m1._mproc ≠ jproc then sendState order dim jproc m1._mproc m1 else []
    else []) ++
    (if m1._elem = UINT_MAX ∧ jproc ≠ 0 then exitedSend dim jproc m1 else [])
  else
    if jproc ≠ 0 then exitedSend dim jproc m else []

/-! ## `UpdateLineMPM` -/

/-- The body of the loop over `iMarker` of `UpdateLineMPM`, for the slot `pk.2` of the slice of
`jproc = pk.1`: the new element and process of the marker.  The quantities that the hand-over
of a marker found on another process sends (`GetMPMQuantities`, `GetDeformationGradient`) are
data of `Marker` that `Line` does not read; they are not part of the record `Marker`. -/
def exchangeSlotMPM (c : RoundCollaborators) (ps : List Marker) (pk : Nat × Nat) : List Marker :=
  let m := ps.getD pk.2 default
  if m._elem ≠ UINT_MAX then
    if m._mproc ≠ pk.1 then
      let r := c.GetElement m._previousElem pk.1 0 m
      ps.set pk.2 { m with _previousElem := r.1, _elem := r.2.1, _mproc := r.2.2 }
    else ps
  else ps

/-- The coordinate messages that the process `jproc` posts in the body of the loop of
`UpdateLineMPM` for the marker `m` of its slice (the block
`if(elem == UINT_MAX && jproc != 0)`). -/
def exitedSendsMPM (c : RoundCollaborators) (dim jproc : Nat) (m : Marker) : List Message :=
  if m._elem ≠ UINT_MAX then
    let m1 : Marker :=
      if m._mproc ≠ jproc then
        let r := c.GetElement m._previousElem jproc 0 m
        { m with _previousElem := r.1, _elem := r.2.1, _mproc := r.2.2 }
      else m
    if m1._elem = UINT_MAX ∧ jproc ≠ 0 then exitedSend dim jproc m1 else []
  else
    if jproc ≠ 0 then exitedSend dim jproc m else []

/-- The method `Line::UpdateLineMPM()`: the loops over the slots of all processes, then
`UpdateLine`. -/
def Line.UpdateLineMPM (s : Femus.Line) (c : RoundCollaborators) : Outcome Femus.Line :=
  if SlotsInside s then
    ({ s with _particles :=
        (slotsOf s._nprocs s._markerOffset).foldl (exchangeSlotMPM c) s._particles } :
      Femus.Line).UpdateLine
  else Outcome.outOfRange

/-! ## The parameters of `GetParticlesToGridProjections`, and the vector `Fm` -/

/-- The initialisation of `solIndexVel` in `GetParticlesToGridProjections`:
`std::vector<unsigned> solIndexVel(_dim); solIndexVel[0] = GetIndex("U");
if(_dim > 1) solIndexVel[1] = GetIndex("V"); if(_dim > 2) solIndexVel[2] = GetIndex("W");`. -/
def solIndexVelInit (dim indexU indexV indexW : Nat) : Outcome (List Nat) :=
  match writeAt (List.replicate dim 0) 0 indexU with
  | Outcome.returned v0 =>
    match (if 1 < dim then writeAt v0 1 indexV else Outcome.returned v0) with
    | Outcome.returned v1 =>
      if 2 < dim then writeAt v1 2 indexW else Outcome.returned v1
    | Outcome.aborted => Outcome.aborted
    | Outcome.outOfRange => Outcome.outOfRange
  | Outcome.aborted => Outcome.aborted
  | Outcome.outOfRange => Outcome.outOfRange

/-- The vector `Fm` of `AdvectionParallel`: `std::vector<double> Fm(3, 0)`. -/
def FmInit : List ℚ := List.replicate 3 0

/-- The read `Fm[k]` of the stage loop, for `k < _dim`: out of range when `k` is not below the
size of `Fm`. -/
def readFm (Fm : List ℚ) (k : Nat) : Outcome ℚ :=
  if k < Fm.length then Outcome.returned (Fm.getD k 0) else Outcome.outOfRange

/-! ## Definitions used in the proofs -/

/-- The arrays after the moves for the old slots `order`, written to the consecutive new
slots `pos, pos + 1, ...` (proof device). -/
def placeAll (particles : List Marker) (printList : List Nat) :
    List Nat → Nat → List Marker × List Nat → List Marker × List Nat
  | [], _, ab => ab
  | j :: rest, pos, ab =>
    placeAll particles printList rest (pos + 1)
      (ab.1.set pos (particles.getD j default), relabel printList ab.2 j pos)


/-- The old slots in the order in which the reorder by proc moves them, for the processes
below `P`. -/
def procOrder (ps : List Marker) : Nat → List Nat
  | 0 => []
  | P + 1 => procOrder ps P ++
      (List.range ps.length).filter (fun j => decide ((ps.getD j default)._mproc = P))

/-- The element of the marker in slot `j`. -/
def keyOf (ps : List Marker) (j : Nat) : Nat := (ps.getD j default)._elem

/-- The test the element pass makes before it opens a group for the element `k`:
`k` is a found element whose flag is still `false`. -/
def fresh (el : List Bool) (k : Nat) : Bool := decide (k ≠ UINT_MAX) && (el[k]? == some false)

/-- The old slots of a slice in the order in which the loop over `jp` moves them. -/
def ordOf (key : Nat → Nat) : List Bool → List Nat → List Nat
  | _, [] => []
  | el, jp :: rest =>
    if fresh el (key jp) then
      (jp :: rest.filter (fun ip => decide (key ip = key jp))) ++ ordOf key (el.set (key jp) true) rest
    else ordOf key el rest

/-- The flag vector after the loop over `jp` of a slice. -/
def flagsOf (key : Nat → Nat) : List Bool → List Nat → List Bool
  | el, [] => el
  | el, jp :: rest =>
    if fresh el (key jp) then flagsOf key (el.set (key jp) true) rest else flagsOf key el rest

/-- Every element of the slice is `UINT_MAX` or a valid subscript of the flag vector. -/
def SliceInRange (key : Nat → Nat) (M : Nat) (l : List Nat) : Prop :=
  ∀ j ∈ l, key j = UINT_MAX ∨ key j < M

/-- No marker of the slice is outside the domain. -/
def SliceClean (key : Nat → Nat) (l : List Nat) : Prop := ∀ j ∈ l, key j ≠ UINT_MAX

instance (key : Nat → Nat) (l : List Nat) : Decidable (SliceClean key l) := by
  unfold SliceClean; exact inferInstance

instance (key : Nat → Nat) (M : Nat) (l : List Nat) : Decidable (SliceInRange key M l) := by
  unfold SliceInRange; exact inferInstance

/-- The slots of the slice of process `p`. -/
def sliceOf (offs : List Nat) (p : Nat) : List Nat :=
  List.range' (offs.getD p 0) (offs.getD (p + 1) 0 - offs.getD p 0)

/-- All old slots that the element pass moves for process `p`: the groups of its slice and, for
process 0 with a marker outside the domain in its slice, every slot holding such a marker. -/
def sliceOrder (key : Nat → Nat) (N : Nat) (el : List Bool) (offs : List Nat) (p : Nat) : List Nat :=
  ordOf key el (sliceOf offs p) ++
    (if p = 0 ∧ ¬ SliceClean key (sliceOf offs p) then
      (List.range N).filter (fun i => decide (key i = UINT_MAX)) else [])

/-- The flag vector after the slices of the processes below `p`. -/
def flagsUpTo (key : Nat → Nat) (offs : List Nat) (el : List Bool) : Nat → List Bool
  | 0 => el
  | p + 1 => flagsOf key (flagsUpTo key offs el p) (sliceOf offs p)

/-- The arrays after the slices of the processes below `p`. -/
def arraysUpTo (ps : List Marker) (pl : List Nat) (offs : List Nat) (el : List Bool) :
    Nat → List Marker × List Nat
  | 0 => (ps, pl)
  | p + 1 =>
    placeAll ps pl (sliceOrder (keyOf ps) ps.length (flagsUpTo (keyOf ps) offs el p) offs p)
      (offs.getD p 0) (arraysUpTo ps pl offs el p)

/-- The slices of the processes below `P` can be processed without an out-of-range flag
subscript and without `abort()`. -/
def SlicesOk (key : Nat → Nat) (M : Nat) (offs : List Nat) (P : Nat) : Prop :=
  ∀ p < P, SliceInRange key M (sliceOf offs p) ∧ (p ≠ 0 → SliceClean key (sliceOf offs p))

/-- The class invariant of `Line` on the arrays, as the constructor establishes it:
`_printList` and `_particles` have `_size` entries, `_markerOffset` has `_nprocs + 1` entries, the
last of which is `_size`, `_line` has `_size + 1` entries, and there is at least one process. -/
def Line.WF (s : Femus.Line) : Prop :=
  1 ≤ s._nprocs ∧ s._printList.length = s._particles.length ∧
    s._markerOffset.length = s._nprocs + 1 ∧
    s._markerOffset.getD s._nprocs 0 = s._particles.length ∧
    s._line.length = s._particles.length + 1

instance (s : Line) : Decidable s.WF := by
  unfold Line.WF; exact inferInstance

/-- The arrays and offsets of `UpdateLine` after its reorder by proc. -/
def afterProc (s : Line) : Slots Marker × List Nat :=
  procPass s._nprocs s._particles s._printList
    { _particles := s._particles, _printList := s._printList, counter := 0 } s._markerOffset

/-- The arrays of `UpdateLine` after its reorder by element, when that pass runs to its end. -/
def afterElem (s : Line) : List Marker × List Nat :=
  arraysUpTo (afterProc s).1._particles (afterProc s).1._printList (afterProc s).2
    (List.replicate s.meshElements false) s._nprocs

/-- The element of the marker in slot `j` after the reorder by proc. -/
def key1 (s : Line) : Nat → Nat := keyOf (afterProc s).1._particles

/-- All old slots that the element pass moves for the processes below `p`, in the order of the
moves. -/
def elemOrder (key : Nat → Nat) (N : Nat) (el : List Bool) (offs : List Nat) : Nat → List Nat
  | 0 => []
  | p + 1 => elemOrder key N el offs p ++ sliceOrder key N (flagsUpTo key offs el p) offs p

/-- The hypotheses on the markers under which the two reorder passes are permutations: every
process is below `_nprocs`, and two markers in the same mesh element have the same process. -/
def Line.Partitioned (s : Femus.Line) : Prop :=
  (∀ m ∈ s._particles, m._mproc < s._nprocs) ∧
    ∀ a ∈ s._particles, ∀ b ∈ s._particles,
      a._elem = b._elem → a._elem ≠ UINT_MAX → a._mproc = b._mproc

instance (s : Line) : Decidable s.Partitioned := by
  unfold Line.Partitioned; exact inferInstance

/-- The order of all the moves of the element pass of `UpdateLine`, up to process `p`. -/
def elemOrder1 (s : Line) (p : Nat) : List Nat :=
  elemOrder (key1 s) s._particles.length (List.replicate s.meshElements false) (afterProc s).2 p

/-- The arrays of the constructor after the moves for the input markers `order`, written to the
consecutive slots `pos, pos + 1, ...` (proof device). -/
def placeAllNew (particles : List Marker) :
    List Nat → Nat → List (Option Marker) × List Nat → List (Option Marker) × List Nat
  | [], _, ab => ab
  | j :: rest, pos, ab =>
    placeAllNew particles rest (pos + 1)
      (ab.1.set pos (some (particles.getD j default)), ab.2.set j pos)

/-- The input markers of the processes below `P`, process after process, each process in input
order: the stable bucketing by process. -/
def buckets (ps : List Marker) : Nat → List Marker
  | 0 => []
  | P + 1 => buckets ps P ++ ps.filter (fun m => decide (m._mproc = P))

/-- Conservation of the offsets `offs` for the markers `ps` on `P` processes: the first offset
is 0, the offsets do not decrease, the last one is the number of markers, consecutive offsets
differ by the number of markers of the process, and these numbers sum to the number of markers. -/
def Conserved (P : Nat) (ps : List Marker) (offs : List Nat) : Prop :=
  offs.getD 0 0 = 0 ∧
    (∀ p < P, offs.getD p 0 ≤ offs.getD (p + 1) 0) ∧
    offs.getD P 0 = ps.length ∧
    (∀ p < P, offs.getD (p + 1) 0 - offs.getD p 0 = ps.countP (fun m => decide (m._mproc = p))) ∧
    ((List.range P).map (fun p => ps.countP (fun m => decide (m._mproc = p)))).sum = ps.length

instance (P : Nat) (ps : List Marker) (offs : List Nat) : Decidable (Conserved P ps offs) := by
  unfold Conserved; exact inferInstance

/-- The entries of `_line` are the coordinates of the markers in the slots that `_printList`
names, and the closing entry repeats the first one. -/
def Line.LineShows (s : Femus.Line) : Prop :=
  s._line.length = s._particles.length + 1 ∧
    (∀ j < s._particles.length,
      s._line.getD j [] = (s._particles.getD (s._printList.getD j 0) default)._x) ∧
    s._line.getD s._particles.length [] = s._line.getD 0 []

instance (s : Line) : Decidable s.LineShows := by
  unfold Line.LineShows; exact inferInstance

/-- A line as a returning `UpdateLine` leaves it under `Partitioned`: the slices hold the markers
of their process, and the element pass would move every slot of every slice onto itself. -/
def Line.Reordered (s : Femus.Line) : Prop :=
  s._markerOffset.getD 0 0 = 0 ∧
    (∀ p < s._nprocs, s._markerOffset.getD p 0 ≤ s._markerOffset.getD (p + 1) 0) ∧
    (∀ p < s._nprocs, ∀ k, s._markerOffset.getD p 0 ≤ k → k < s._markerOffset.getD (p + 1) 0 →
      (s._particles.getD k default)._mproc = p) ∧
    (∀ p < s._nprocs,
      sliceOrder (keyOf s._particles) s._particles.length
        (flagsUpTo (keyOf s._particles) s._markerOffset (List.replicate s.meshElements false) p)
        s._markerOffset p = sliceOf s._markerOffset p) ∧
    SlicesOk (keyOf s._particles) s.meshElements s._markerOffset s._nprocs ∧
    fillLine s._particles s._printList = some s._line

/-- The stage vectors `K` have `order` rows of `dim` entries. -/
def KShape (order dim : Nat) (K : List (List ℚ)) : Prop :=
  K.length = order ∧ ∀ r < order, (K.getD r []).length = dim

/-- The local state of the sweep when it takes up the marker `m`. -/
def startOf (m : Marker) : Local :=
  { marker := m, currentElem := m._elem, step := m._step, Fm := [0, 0, 0],
    markerOutsideDomain := decide (m._elem = UINT_MAX) }

/-- The markers stored in the slots `[_markerOffset[p], _markerOffset[p + 1])`, in slot order. -/
def Line.sliceMarkers (s : Femus.Line) (p : Nat) : List Marker :=
  (sliceOf s._markerOffset p).map (fun k => s._particles.getD k default)

/-- The marker is outside the domain: its element is `UINT_MAX`. -/
def outside (m : Marker) : Bool := decide (m._elem = UINT_MAX)

/-- The marker is in the mesh element `e`. -/
def inElem (e : Nat) (m : Marker) : Bool := decide (m._elem = e)

/-- The marker belongs to process `p`. -/
def ofProc (p : Nat) (m : Marker) : Bool := decide (m._mproc = p)

/-- Equal values of the list occupy contiguous positions: between two positions with the same
value every position has that value. -/
def Contiguous (keys : List Nat) : Prop :=
  ∀ k < keys.length, ∀ j < k, ∀ i < j, keys.getD i 0 = keys.getD k 0 → keys.getD j 0 = keys.getD i 0

instance (keys : List Nat) : Decidable (Contiguous keys) := by
  unfold Contiguous; exact inferInstance

/-- The distinct values of a list that are not in `seen`, in the order of their first
occurrence. -/
def firstsFrom (seen : List Nat) : List Nat → List Nat
  | [] => []
  | x :: rest => if x ∈ seen then firstsFrom seen rest else x :: firstsFrom (x :: seen) rest

/-- The distinct values of a list in the order of their first occurrence. -/
def firsts (l : List Nat) : List Nat := firstsFrom [] l

/-- The state of a marker that an explicit Runge-Kutta stage reads and writes. -/
structure StageState where
  position : List ℚ
  oldPosition : List ℚ
  stages : List (List ℚ)
  step : Nat
deriving DecidableEq, Repr

/-- The reference explicit Runge-Kutta stage, written after the specification: with `h = T / n`
and `istep = step mod order`, a first stage sets the old position to the position and all stages
to zero; then `stages[istep] = h * (s * V0 + (1 - s) * V1 + Fm)`, the step increases by one, and
the new position is the old position plus the stages weighted with the row `istep + 1` of `a`
when `istep + 1 < order` and with `b` when `istep + 1 = order`. -/
def referenceStage (dim n order : Nat) (T s : ℚ) (V0 V1 Fm : List ℚ) (st : StageState) :
    StageState :=
  let h : ℚ := T / n
  let istep := st.step % order
  let oldPosition := if istep = 0 then st.position else st.oldPosition
  let stages0 := if istep = 0 then List.replicate order (List.replicate dim 0) else st.stages
  let stages := stages0.set istep
    ((List.range dim).map (fun i => h * (s * V0.getD i 0 + (1 - s) * V1.getD i 0 + Fm.getD i 0)))
  let weight : Nat → ℚ := if istep + 1 < order then aAt (order - 1) (istep + 1) else bAt (order - 1)
  { position := (List.range dim).map (fun i => oldPosition.getD i 0 +
      ((List.range order).map (fun j => weight j * (stages.getD j []).getD i 0)).sum),
    oldPosition := oldPosition,
    stages := stages,
    step := st.step + 1 }

/-- The force vector a stage uses: `Fm` as it is when no force callback is given, and what the
callback makes of it otherwise. -/
def forceOf (c : Collaborators) (force : Option ForceFunction) (v : Local) : List ℚ :=
  match force with
  | none => v.Fm
  | some f => f v.marker._x v.Fm (c.GetElementMaterial v.currentElem)

/-- The state of the marker that the stage loop is working on. -/
def stateOf (v : Local) : StageState :=
  { position := v.marker._x, oldPosition := v.marker._x0, stages := v.marker._K, step := v.step }

/-- The reference stage for the marker that the stage loop is working on, with the time fraction
and the two velocity snapshots that the collaborators return for it. -/
def referenceOf (c : Collaborators) (force : Option ForceFunction) (dim n order : Nat) (T : ℚ)
    (v : Local) : StageState :=
  referenceStage dim n order T (c.GetMarkerS n order v.marker) (c.updateVelocity v.marker).1
    (c.updateVelocity v.marker).2 (forceOf c force v) (stateOf v)

/-- Two markers that agree in all but the process that `GetMarkerProc` returns. -/
def SameTrack (a b : Marker) : Prop :=
  a._x = b._x ∧ a._x0 = b._x0 ∧ a._K = b._K ∧ a._step = b._step ∧ a._elem = b._elem ∧
    a._previousElem = b._previousElem

/-- Two states of the stage loop that agree in all but the process of the marker. -/
def SameLocal (v w : Local) : Prop :=
  SameTrack v.marker w.marker ∧ v.currentElem = w.currentElem ∧ v.step = w.step ∧ v.Fm = w.Fm ∧
    v.markerOutsideDomain = w.markerOutsideDomain

/-- The collaborators of two runs return the same values at the same points: the time fraction,
the velocity snapshots, the material, and the elements that the search returns. -/
def SameOracles (c d : Collaborators) (n order : Nat) : Prop :=
  (∀ a b, SameTrack a b → c.GetMarkerS n order a = d.GetMarkerS n order b) ∧
  (∀ a b, SameTrack a b → c.updateVelocity a = d.updateVelocity b) ∧
  (∀ e, c.GetElementMaterial e = d.GetElementMaterial e) ∧
  (∀ pe s a b, SameTrack a b →
    (c.GetElementSerial pe s a).1 = (d.GetElementSerial pe s b).1 ∧
    (c.GetElementSerial pe s a).2.1 = (d.GetElementSerial pe s b).2.1)

/-- Every search of the collaborators finds an element of process `iproc`. -/
def StaysOn (c : Collaborators) (iproc : Nat) : Prop :=
  ∀ pe s m, (c.GetElementSerial pe s m).2.1 ≠ UINT_MAX ∧ (c.GetElementSerial pe s m).2.2 = iproc

/-- The end of the body of the stage loop when the search, made for the marker of the state `u`
from the element `pe`, finds an element of the running process. -/
def located (c : Collaborators) (n order pe : Nat) (u : Local) : Local :=
  { marker :=
      { u.marker with
        _previousElem :=
          (c.GetElementSerial pe (c.GetMarkerS n order u.marker) u.marker).1,
        _elem := (c.GetElementSerial pe (c.GetMarkerS n order u.marker) u.marker).2.1,
        _mproc := (c.GetElementSerial pe (c.GetMarkerS n order u.marker) u.marker).2.2 },
    currentElem := (c.GetElementSerial pe (c.GetMarkerS n order u.marker) u.marker).2.1,
    step := u.step, Fm := u.Fm, markerOutsideDomain := u.markerOutsideDomain }

/-- The local state of the sweep when it takes up the marker `m` with the force vector `Fm`. -/
def startWith (Fm : List ℚ) (m : Marker) : Local :=
  { marker := m, currentElem := m._elem, step := m._step, Fm := Fm,
    markerOutsideDomain := decide (m._elem = UINT_MAX) }

/-- What the search answers for the marker of the state `u`, searched from the element `pe`. -/
def searchOf (c : Collaborators) (n order pe : Nat) (u : Local) : Nat × Nat × Nat :=
  c.GetElementSerial pe (c.GetMarkerS n order u.marker) u.marker

/-- The end of the body of the stage loop when the search, made for the marker of the state `u`
from the element `pe`, does not find the marker in the domain. -/
def exitedAt (c : Collaborators) (n order pe : Nat) (u : Local) : Local :=
  { marker :=
      { u.marker with
        _previousElem := (searchOf c n order pe u).1,
        _elem := (searchOf c n order pe u).2.1,
        _mproc := (searchOf c n order pe u).2.2,
        _step := UINT_MAX },
    currentElem := (searchOf c n order pe u).2.1,
    step := UINT_MAX, Fm := u.Fm, markerOutsideDomain := true }

/-- How the stage loop that started in the state `v` has ended in the state `w` after `a` passes,
`NT` being the value of `n * order`: either a search did not find the marker, which is then
marked as outside the domain with step `UINT_MAX`; or the marker is inside the domain and its
step has grown by the number of passes. -/
def LoopEnd (NT : Nat) (v w : Local) (a : Nat) : Prop :=
  (w.markerOutsideDomain = true ∧ w.step = UINT_MAX ∧ w.marker._step = UINT_MAX ∧
      w.marker._elem = UINT_MAX ∧ 1 ≤ a ∧ v.step < NT) ∨
    (w.markerOutsideDomain = false ∧ w.step = v.step + a ∧ w.marker._step = w.step ∧
      w.marker._elem ≠ UINT_MAX ∧ (v.step < NT → 1 ≤ a) ∧ (v.step ≤ NT → w.step ≤ NT) ∧
      (NT ≤ v.step → a = 0) ∧ (a = 0 → w = v))

/-- What a search may answer on a mesh of `M` elements whose element `e` belongs to the process
`owner e`: a mesh element or `UINT_MAX`, together with the owner of that answer. -/
def Located (M : Nat) (owner : Nat → Nat) (r : Nat × Nat × Nat) : Prop :=
  (r.2.1 = UINT_MAX ∨ r.2.1 < M) ∧ r.2.2 = owner r.2.1

/-- The element of the marker is a mesh element or `UINT_MAX`, and its process is the owner of
its element. -/
def GoodMarker (M : Nat) (owner : Nat → Nat) (m : Marker) : Prop :=
  (m._elem = UINT_MAX ∨ m._elem < M) ∧ m._mproc = owner m._elem

/-- The marker's step is `UINT_MAX`: its integration is over. -/
def done (m : Marker) : Bool := decide (m._step = UINT_MAX)

/-- How the sweep `advectMarker` over the marker `m` has ended, with the marker `m1`, after `a`
stages and with the flag `f` that counts the marker as integrated, `NT` being the value of
`n * order`. The flag tells whether the step of `m1` is `UINT_MAX`. A marker that starts outside
the domain only gets the step `UINT_MAX`; a marker that a search does not find ends outside the
domain with the step `UINT_MAX`; every other marker stays inside the domain, and its step grows
by the number of stages, or becomes `UINT_MAX` when it has reached `NT`. -/
def SweepEnd (NT : Nat) (m m1 : Marker) (a : Nat) (f : Bool) : Prop :=
  f = done m1 ∧
    ((m._elem = UINT_MAX ∧ m1 = { m with _step := UINT_MAX } ∧ a = 0) ∨
     (m._elem ≠ UINT_MAX ∧ m._step < NT ∧ m1._elem = UINT_MAX ∧ m1._step = UINT_MAX ∧ 1 ≤ a) ∨
     (m._elem ≠ UINT_MAX ∧ m1._elem ≠ UINT_MAX ∧ (m._step < NT → 1 ≤ a) ∧
      (NT ≤ m._step → a = 0) ∧ (m._step ≤ NT → m._step + a ≤ NT) ∧
      (m._step + a = NT → m1._step = UINT_MAX) ∧ (m._step + a ≠ NT → m1._step = m._step + a) ∧
      (a = 0 → m1 = m ∨ m1 = { m with _step := UINT_MAX })))

/-- What the body of the exchange loop makes of the marker `m` stored in the slice of `jproc`. -/
def exchangeMarker (c : RoundCollaborators) (n order jproc : Nat) (m : Marker) : Marker :=
  if m._elem ≠ UINT_MAX then
    if m._mproc ≠ jproc then
      { m with
        _previousElem := (c.GetElement m._previousElem jproc (c.GetMarkerS n order m) m).1,
        _elem := (c.GetElement m._previousElem jproc (c.GetMarkerS n order m) m).2.1,
        _mproc := (c.GetElement m._previousElem jproc (c.GetMarkerS n order m) m).2.2 }
    else m
  else m

/-- The contract of the collaborators on a mesh of `M` elements partitioned among `P` processes
by `owner`: every owner is a process, a marker outside the domain belongs to process 0, both
searches answer with a mesh element or `UINT_MAX` and its owner, and the initialisation for an
advection sets the step to 0 and leaves element and process as they are. -/
def Contract (c : RoundCollaborators) (P M order : Nat) (owner : Nat → Nat) : Prop :=
  (∀ e, owner e < P) ∧ owner UINT_MAX = 0 ∧
  (∀ pe s m, Located M owner (c.GetElementSerial pe s m)) ∧
  (∀ pe j s m, Located M owner (c.GetElement pe j s m)) ∧
  ∀ m, (c.InitializeMarkerForAdvection order m)._step = 0 ∧
    (c.InitializeMarkerForAdvection order m)._elem = m._elem ∧
    (c.InitializeMarkerForAdvection order m)._mproc = m._mproc

/-- The marker with the input index `i`: `_particles[_printList[i]]`. -/
def Line.markerOf (s : Femus.Line) (i : Nat) : Marker :=
  s._particles.getD (s._printList.getD i 0) default

/-- A line as the constructor and `UpdateLine` leave it on a mesh partitioned by `owner`: the
class invariant holds, `_printList` is a bijection, the offsets start at 0 and do not decrease,
every slice holds markers of its process only, and every marker is in a mesh element or outside
the domain and belongs to the owner of its element. -/
def Line.Sound (s : Femus.Line) (owner : Nat → Nat) : Prop :=
  s.WF ∧ s._printList.Perm (List.range s._particles.length) ∧
  s._markerOffset.getD 0 0 = 0 ∧
  (∀ p < s._nprocs, s._markerOffset.getD p 0 ≤ s._markerOffset.getD (p + 1) 0) ∧
  (∀ p < s._nprocs, ∀ k ∈ sliceOf s._markerOffset p, (s._particles.getD k default)._mproc = p) ∧
  ∀ m ∈ s._particles, GoodMarker s.meshElements owner m

/-- The state in which `AdvectionParallel` enters its round loop: every marker initialised for
the advection, the vector `Fm` of every process zero, and the counter zero. -/
def startRun (s : Femus.Line) (c : RoundCollaborators) (order : Nat) : Run :=
  { line := { s with _particles :=
      (slotsOf s._nprocs s._markerOffset).foldl (initSlot c order) s._particles },
    Fm := List.replicate s._nprocs [0, 0, 0],
    integrationIsOverCounter := 0,
    rounds := 0,
    stages := List.replicate s._particles.length 0,
    moved := [] }

/-- The state after `t` rounds, whatever the counter says. -/
def roundsFrom (c : RoundCollaborators) (force : Option ForceFunction) (dim n order : Nat)
    (T : ℚ) : Nat → Run → Outcome Run
  | 0, r => Outcome.returned r
  | t + 1, r =>
    match round c force dim n order T r with
    | Outcome.returned r1 => roundsFrom c force dim n order T t r1
    | Outcome.aborted => Outcome.aborted
    | Outcome.outOfRange => Outcome.outOfRange

/-- The step of a marker after `j` rounds, `NT` being the value of `n * order`: the integration
is over, or at least `j` stages have been made and, once a round has been made, at least one is
left. -/
def Progress (NT j : Nat) (m : Marker) : Prop :=
  m._step = UINT_MAX ∨ (j ≤ m._step ∧ m._step ≤ NT ∧ (1 ≤ j → m._step < NT))

/-- The stages `g` counted for a marker: as long as its integration is not over they are its
step; when it is over, they are `NT` or the marker is outside the domain. -/
def Counted (NT : Nat) (m : Marker) (g : Nat) : Prop :=
  (m._step ≠ UINT_MAX → g = m._step) ∧
    (m._step = UINT_MAX → g = NT ∨ m._elem = UINT_MAX)

/-- The state of `AdvectionParallel` after `j` rounds on a mesh of `M` elements partitioned among
`P` processes by `owner`, with `N` markers. -/
def RunInv (owner : Nat → Nat) (P M N NT j : Nat) (r : Run) : Prop :=
  r.line.Sound owner ∧ r.line._nprocs = P ∧ r.line.meshElements = M ∧
    r.line._particles.length = N ∧ r.rounds = j ∧
    (j = 0 → r.integrationIsOverCounter = 0) ∧
    (1 ≤ j → r.integrationIsOverCounter = r.line._particles.countP done) ∧
    ∀ i < N, Progress NT j (r.line.markerOf i) ∧ Counted NT (r.line.markerOf i) (r.stages.getD i 0)

/-- One round for one marker, from `m` to `m1`: the step of `m1` is the step that the sweep of
the process of `m` leaves, and, unless the integration of `m` was over, `m1` is integrated or has
made at least one stage more than `m`. -/
def Advanced (c : Collaborators) (force : Option ForceFunction) (dim n order : Nat) (T : ℚ)
    (m m1 : Marker) : Prop :=
  ∃ F, m1._step = (advectMarker c force dim m._mproc n order T F m).1.marker._step ∧
    (m._step = UINT_MAX ∨ m1._step = UINT_MAX ∨ m._step + 1 ≤ m1._step)

/-- The marker `m` after the sweep of its process, entered with the vector `F` for `Fm`. -/
def sweptMarker (c : Collaborators) (force : Option ForceFunction) (dim n order : Nat) (T : ℚ)
    (F : List ℚ) (m : Marker) : Marker :=
  (advectMarker c force dim m._mproc n order T F m).1.marker

/-! ### The Butcher tableaux -/

/-- The sum of `f j` over the stages `j < p`. -/
def sumOver (p : Nat) (f : Nat → ℚ) : ℚ := ((List.range p).map f).sum

/-- The tableau of order `p` is explicit: `_a[p-1][i][j] = 0` for `j ≥ i`, over the whole
4 x 4 array. -/
def tableauExplicit (p : Nat) : Prop :=
  ∀ i < 4, ∀ j < 4, i ≤ j → aAt (p - 1) i j = 0

/-- The nodes of the tableau of order `p` are the row sums: `c_i = sum_j a_ij`. -/
def tableauRowSums (p : Nat) : Prop :=
  ∀ i < p, cAt (p - 1) i = sumOver p (fun j => aAt (p - 1) i j)

/-- The order conditions of an explicit Runge-Kutta method up to order `p`, for the tableau of
order `p` (with `p` stages). -/
def orderConditions (p : Nat) : Prop :=
  sumOver p (fun i => bAt (p - 1) i) = 1 ∧
  (2 ≤ p → sumOver p (fun i => bAt (p - 1) i * cAt (p - 1) i) = 1 / 2) ∧
  (3 ≤ p →
    sumOver p (fun i => bAt (p - 1) i * cAt (p - 1) i ^ 2) = 1 / 3 ∧
    sumOver p (fun i => sumOver p (fun j =>
      bAt (p - 1) i * aAt (p - 1) i j * cAt (p - 1) j)) = 1 / 6) ∧
  (4 ≤ p →
    sumOver p (fun i => bAt (p - 1) i * cAt (p - 1) i ^ 3) = 1 / 4 ∧
    sumOver p (fun i => sumOver p (fun j =>
      bAt (p - 1) i * cAt (p - 1) i * aAt (p - 1) i j * cAt (p - 1) j)) = 1 / 8 ∧
    sumOver p (fun i => sumOver p (fun j =>
      bAt (p - 1) i * aAt (p - 1) i j * cAt (p - 1) j ^ 2)) = 1 / 12 ∧
    sumOver p (fun i => sumOver p (fun j => sumOver p (fun k =>
      bAt (p - 1) i * aAt (p - 1) i j * aAt (p - 1) j k * cAt (p - 1) k))) = 1 / 24)

instance (p : Nat) : Decidable (tableauExplicit p) := by
  unfold tableauExplicit; exact inferInstance

instance (p : Nat) : Decidable (tableauRowSums p) := by
  unfold tableauRowSums; exact inferInstance

instance (p : Nat) : Decidable (orderConditions p) := by
  unfold orderConditions; exact inferInstance

/-! ### The local phase -/

/-- After the local phase the marker `a`, which has run `g` stages in total, is integrated
because it has reached `NT` stages. -/
def ReachedEnd (NT : Nat) (a : Marker) (g : Nat) : Prop :=
  a._step = UINT_MAX ∧ a._elem ≠ UINT_MAX ∧ g = NT

/-- After the local phase the marker `a` is integrated because it is outside the domain. -/
def ExitedDone (a : Marker) : Prop := a._step = UINT_MAX ∧ a._elem = UINT_MAX

/-- After the local phase of process `iproc` the marker `a` is blocked: it has stages left, its
element is found, and the element belongs to another process. -/
def Blocked (NT iproc : Nat) (a : Marker) : Prop :=
  a._step < NT ∧ a._elem ≠ UINT_MAX ∧ a._mproc ≠ iproc

/-- The stage vectors, the old coordinates, the coordinates and the step of the marker `a` are
those that the last stage of the sweep of process `iproc` over the marker `m` has produced: the
stage run in the state `u` that the stage loop reaches after `k` passes, the sweep having
`k + 1` stages. -/
def LastStage (c : Collaborators) (force : Option ForceFunction) (dim iproc n order : Nat)
    (T : ℚ) (F : List ℚ) (m a : Marker) : Prop :=
  ∃ k u, u = stageLoop c force dim iproc n order T k (startWith F m) ∧
    k + 1 = sweepPasses c force dim iproc n order T F m ∧
    u.step < nTimesOrder n order ∧
    a._K = (stageUpdate c force dim n order T u).marker._K ∧
    a._x0 = (stageUpdate c force dim n order T u).marker._x0 ∧
    a._x = (stageUpdate c force dim n order T u).marker._x ∧
    a._step = (stageUpdate c force dim n order T u).marker._step

/-- Exactly one of the three propositions holds. -/
def ExactlyOne (p q r : Prop) : Prop :=
  (p ∨ q ∨ r) ∧ ¬ (p ∧ q) ∧ ¬ (p ∧ r) ∧ ¬ (q ∧ r)

/-- Two markers that agree in all but their stage vectors and old coordinates. -/
def SameButStages (a b : Marker) : Prop :=
  a._x = b._x ∧ a._step = b._step ∧ a._elem = b._elem ∧ a._previousElem = b._previousElem ∧
    a._mproc = b._mproc

/-- The time fraction and the velocity that the collaborators return do not depend on the
stage vectors and the old coordinates of the marker. -/
def BlindToStages (c : Collaborators) (n order : Nat) : Prop :=
  ∀ a b, SameButStages a b →
    c.GetMarkerS n order a = c.GetMarkerS n order b ∧ c.updateVelocity a = c.updateVelocity b

instance (NT : Nat) (a : Marker) (g : Nat) : Decidable (ReachedEnd NT a g) := by
  unfold ReachedEnd; exact inferInstance

instance (a : Marker) : Decidable (ExitedDone a) := by
  unfold ExitedDone; exact inferInstance

instance (NT iproc : Nat) (a : Marker) : Decidable (Blocked NT iproc a) := by
  unfold Blocked; exact inferInstance

/-! ### The messages of a hand-over -/

/-- The message with the step that `sendState` posts first. -/
def stepMessage (order jproc mproc : Nat) (m : Marker) : Message :=
  { source := jproc, dest := mproc, tag := stepTag order, unsignedData := [m._step],
    doubleData := [] }

/-- The message with the stage vector `K[i]` that `sendState` posts. -/
def stageMessage (dim jproc mproc : Nat) (m : Marker) (i : Nat) : Message :=
  { source := jproc, dest := mproc, tag := i, unsignedData := [],
    doubleData := firstOf dim (m._K.getD i []) }

/-- The message with the old coordinates that `sendState` posts. -/
def oldMessage (order dim jproc mproc : Nat) (m : Marker) : Message :=
  { source := jproc, dest := mproc, tag := order, unsignedData := [],
    doubleData := firstOf dim m._x0 }

/-- The tag and the count of each message of a list. -/
def envelopes (l : List Message) : List (Nat × Nat) := l.map (fun q => (q.tag, q.count))

/-- The marker of the slot of `jproc` after the body of the loop of `UpdateLineMPM`. -/
def exchangeMarkerMPM (c : RoundCollaborators) (jproc : Nat) (m : Marker) : Marker :=
  if m._elem ≠ UINT_MAX then
    if m._mproc ≠ jproc then
      { m with
        _previousElem := (c.GetElement m._previousElem jproc 0 m).1,
        _elem := (c.GetElement m._previousElem jproc 0 m).2.1,
        _mproc := (c.GetElement m._previousElem jproc 0 m).2.2 }
    else m
  else m

instance (order dim : Nat) (K : List (List ℚ)) : Decidable (KShape order dim K) := by
  unfold KShape; exact inferInstance

/-! ## Concrete lines used to exercise the theorems -/

/-- A marker of process `p` in element `e` with the single coordinate `x`. -/
def exMarker (p e : Nat) (x : ℚ) : Marker :=
  { _x := [x], _x0 := [x], _K := [], _step := 0, _elem := e, _previousElem := e, _mproc := p }

/-- Seven markers on two processes, two of them outside the domain. -/
def exLine : Line :=
  { _nprocs := 2, meshElements := 9,
    _particles := [exMarker 1 7 1, exMarker 0 UINT_MAX 2, exMarker 0 5 3, exMarker 1 8 4,
      exMarker 0 UINT_MAX 5, exMarker 1 7 6, exMarker 0 5 7],
    _printList := [3, 4, 5, 6, 0, 1, 2],
    _markerOffset := [0, 0, 7],
    _line := [[4], [5], [6], [7], [1], [2], [3], [4]] }

/-- The line `exLine` after `UpdateLine`. -/
def exLineAfter : Line :=
  { _nprocs := 2, meshElements := 9,
    _particles := [exMarker 0 5 3, exMarker 0 5 7, exMarker 0 UINT_MAX 2, exMarker 0 UINT_MAX 5,
      exMarker 1 7 1, exMarker 1 7 6, exMarker 1 8 4],
    _printList := [6, 3, 5, 1, 4, 2, 0],
    _markerOffset := [0, 4, 7],
    _line := [[4], [5], [6], [7], [1], [2], [3], [4]] }

/-- The line the constructor builds from the markers of `exLine`. -/
def exCtorLine : Line :=
  { _nprocs := 2, meshElements := 9,
    _particles := [exMarker 0 UINT_MAX 2, exMarker 0 5 3, exMarker 0 UINT_MAX 5, exMarker 0 5 7,
      exMarker 1 7 1, exMarker 1 8 4, exMarker 1 7 6],
    _printList := [4, 0, 1, 5, 2, 6, 3],
    _markerOffset := [0, 4, 7],
    _line := [[1], [2], [3], [4], [5], [6], [7], [1]] }

/-- A uniform field on a mesh of one process: both snapshots are `(1, 0)` at every query, the
snapshot weight is `1 / 2`, and every search finds element 0 of process 0. -/
def exField : Collaborators :=
  { GetMarkerS := fun _ _ _ => 1 / 2,
    updateVelocity := fun _ => ([1, 0], [1, 0]),
    GetElementMaterial := fun _ => 0,
    GetElementSerial := fun pe _ _ => (pe, 0, 0) }

/-- A marker of element 0 at `(1 / 10, 1 / 2)`, initialised for an advection of order `order`. -/
def exAdvected (order : Nat) : Marker :=
  { _x := [1 / 10, 1 / 2], _x0 := [0, 0], _K := List.replicate order [0, 0], _step := 0,
    _elem := 0, _previousElem := 0, _mproc := 0 }

/-- Element 5 is shared by the processes 0 and 1; process 1 holds two markers of element 5 and
two of element 7. -/
def splitGroupLine : Line :=
  { _nprocs := 2, meshElements := 8,
    _particles := [exMarker 0 5 1, exMarker 1 5 2, exMarker 1 7 3, exMarker 1 5 4, exMarker 1 7 5],
    _printList := [0, 1, 2, 3, 4],
    _markerOffset := [0, 1, 5],
    _line := [[1], [2], [3], [4], [5], [1]] }

/-- The line `splitGroupLine` after `UpdateLine`. -/
def splitGroupLineAfter : Line :=
  { _nprocs := 2, meshElements := 8,
    _particles := [exMarker 0 5 1, exMarker 1 7 3, exMarker 1 7 5, exMarker 1 5 4, exMarker 1 7 5],
    _printList := [0, 1, 1, 3, 2],
    _markerOffset := [0, 1, 5],
    _line := [[1], [3], [3], [4], [5], [1]] }

/-- One process; the first marker is outside the domain, the second one is in element 5. -/
def exitedFirstLine : Line :=
  { _nprocs := 1, meshElements := 8,
    _particles := [exMarker 0 UINT_MAX 1, exMarker 0 5 2],
    _printList := [0, 1],
    _markerOffset := [0, 2],
    _line := [[1], [2], [1]] }

/-- The line `exitedFirstLine` after `UpdateLine`. -/
def exitedFirstLineAfter : Line :=
  { _nprocs := 1, meshElements := 8,
    _particles := [exMarker 0 5 2, exMarker 0 UINT_MAX 1],
    _printList := [1, 0],
    _markerOffset := [0, 2],
    _line := [[1], [2], [1]] }

/-- Modelled from the spec: the point location (`Marker::GetElementSerial`, `Marker::GetElement`,
not part of the sources) on the mesh of the end-to-end scenario, the domain `[0,2] x [0,1]` split
at `x = 1` into two partitions of one element each: element 0 for `0 ≤ x < 1`, element 1 for
`1 ≤ x ≤ 2`, and `UINT_MAX` (not found) outside the domain. -/
def scenarioElement (x : List ℚ) : Nat :=
  if 0 ≤ x.getD 1 0 ∧ x.getD 1 0 ≤ 1 then
    if 0 ≤ x.getD 0 0 ∧ x.getD 0 0 < 1 then 0
    else if 1 ≤ x.getD 0 0 ∧ x.getD 0 0 ≤ 2 then 1
    else UINT_MAX
  else UINT_MAX

/-- Modelled from the spec: the process `Marker::GetMarkerProc` returns (not part of the
sources) in the end-to-end scenario: partition 0 owns element 0, partition 1 owns element 1, and
a marker outside the domain belongs to process 0. -/
def scenarioProc (e : Nat) : Nat := if e = UINT_MAX then 0 else e

/-- Modelled from the spec: the collaborators of the end-to-end scenario (functions of `Marker`
that are not part of the sources): uniform velocity `(1, 0)` in both snapshots, the point
location `scenarioElement` with the owner `scenarioProc`, the time fraction
`(tstep + _c[order - 1][istep]) / n`, an initialisation that sets the step to 0 and sizes
the stage vectors, and the velocity components at the positions 0, 1 and 2 of the solution. -/
def scenario : RoundCollaborators :=
  { GetMarkerS := fun n order m =>
      (((m._step / order : Nat) : ℚ) + cAt (order - 1) (m._step % order)) / n,
    updateVelocity := fun _ => ([1, 0], [1, 0]),
    GetElementMaterial := fun _ => 0,
    GetElementSerial := fun pe _ m =>
      (pe, scenarioElement m._x, scenarioProc (scenarioElement m._x)),
    InitializeMarkerForAdvection := fun order m =>
      { m with _step := 0, _x0 := m._x, _K := List.replicate order (List.replicate 2 0) },
    GetElement := fun pe _ _ m =>
      (pe, scenarioElement m._x, scenarioProc (scenarioElement m._x)),
    GetIndex := fun k => k }

/-- Modelled from the spec: the marker that the constructor builds at the point `x` in the
end-to-end scenario (`Marker::Marker` is not part of the sources). -/
def scenarioMarker (x : List ℚ) : Marker :=
  { _x := x, _x0 := x, _K := [], _step := 0, _elem := scenarioElement x,
    _previousElem := scenarioElement x, _mproc := scenarioProc (scenarioElement x) }

/-- The three markers of the end-to-end scenario, in input order. -/
def scenarioMarkers : List Marker :=
  [scenarioMarker [1 / 10, 1 / 2], scenarioMarker [9 / 10, 1 / 2], scenarioMarker [19 / 10, 1 / 2]]

/-- The line that the constructor builds from the markers of the end-to-end scenario. -/
def scenarioLine : Line :=
  { _nprocs := 2, meshElements := 2, _particles := scenarioMarkers, _printList := [0, 1, 2],
    _markerOffset := [0, 2, 3],
    _line := [[1 / 10, 1 / 2], [9 / 10, 1 / 2], [19 / 10, 1 / 2], [1 / 10, 1 / 2]] }

/-- The state in which `AdvectionParallel` ends on the end-to-end scenario. -/
def scenarioEnd : Run :=
  { line :=
      { _nprocs := 2, meshElements := 2,
        _particles :=
          [{ _x := [12 / 5, 1 / 2], _x0 := [19 / 10, 1 / 2], _K := [[1 / 2, 0]],
             _step := UINT_MAX, _elem := UINT_MAX, _previousElem := 1, _mproc := 0 },
           { _x := [11 / 10, 1 / 2], _x0 := [3 / 5, 1 / 2], _K := [[1 / 2, 0]],
             _step := UINT_MAX, _elem := 1, _previousElem := 0, _mproc := 1 },
           { _x := [19 / 10, 1 / 2], _x0 := [7 / 5, 1 / 2], _K := [[1 / 2, 0]],
             _step := UINT_MAX, _elem := 1, _previousElem := 1, _mproc := 1 }],
        _printList := [1, 2, 0],
        _markerOffset := [0, 1, 3],
        _line := [[11 / 10, 1 / 2], [19 / 10, 1 / 2], [12 / 5, 1 / 2], [11 / 10, 1 / 2]] },
    Fm := [[0, 0, 0], [0, 0, 0]],
    integrationIsOverCounter := 3,
    rounds := 2,
    stages := [2, 2, 1],
    moved := [[(0, 0, 1), (1, 0, 1)], []] }

/-- The partition of the mesh of the end-to-end scenario as a function of every number: element 1
belongs to process 1, element 0 and the value `UINT_MAX` of a marker outside the domain to
process 0. -/
def scenarioOwner (e : Nat) : Nat := if e = 1 then 1 else 0

/-- The collaborators of the end-to-end scenario, except that the search of the exchange phase
(`Marker::GetElement`) does not find the marker: it leaves the element `UINT_MAX`. -/
def scenarioLost : RoundCollaborators :=
  { scenario with GetElement := fun pe _ _ _ => (pe, UINT_MAX, 0) }

/-- The state in which `AdvectionParallel` ends on the line of the end-to-end scenario when it is
called with `n = 2 ^ 30` and `order = 4`. -/
def wrappedEnd : Run :=
  { line :=
      { _nprocs := 2, meshElements := 2,
        _particles :=
          [{ _x := [1 / 10, 1 / 2], _x0 := [1 / 10, 1 / 2],
             _K := [[0, 0], [0, 0], [0, 0], [0, 0]],
             _step := UINT_MAX, _elem := 0, _previousElem := 0, _mproc := 0 },
           { _x := [9 / 10, 1 / 2], _x0 := [9 / 10, 1 / 2],
             _K := [[0, 0], [0, 0], [0, 0], [0, 0]],
             _step := UINT_MAX, _elem := 0, _previousElem := 0, _mproc := 0 },
           { _x := [19 / 10, 1 / 2], _x0 := [19 / 10, 1 / 2],
             _K := [[0, 0], [0, 0], [0, 0], [0, 0]],
             _step := UINT_MAX, _elem := 1, _previousElem := 1, _mproc := 1 }],
        _printList := [0, 1, 2],
        _markerOffset := [0, 2, 3],
        _line := [[1 / 10, 1 / 2], [9 / 10, 1 / 2], [19 / 10, 1 / 2], [1 / 10, 1 / 2]] },
    Fm := [[0, 0, 0], [0, 0, 0]],
    integrationIsOverCounter := 3,
    rounds := 1,
    stages := [0, 0, 0],
    moved := [[]] }

/-- The state after the first round of `AdvectionParallel` on the line of the end-to-end
scenario with the collaborators `scenarioLost`, `n = 2` and `order = 1`. -/
def lostRound : Run :=
  { line :=
      { _nprocs := 2, meshElements := 2,
        _particles :=
          [{ _x := [11 / 10, 1 / 2], _x0 := [3 / 5, 1 / 2], _K := [[1 / 2, 0]],
             _step := UINT_MAX, _elem := UINT_MAX, _previousElem := 0, _mproc := 0 },
           { _x := [7 / 5, 1 / 2], _x0 := [9 / 10, 1 / 2], _K := [[1 / 2, 0]],
             _step := 1, _elem := UINT_MAX, _previousElem := 0, _mproc := 0 },
           { _x := [12 / 5, 1 / 2], _x0 := [19 / 10, 1 / 2], _K := [[1 / 2, 0]],
             _step := UINT_MAX, _elem := UINT_MAX, _previousElem := 1, _mproc := 0 }],
        _printList := [0, 1, 2],
        _markerOffset := [0, 3, 3],
        _line := [[11 / 10, 1 / 2], [7 / 5, 1 / 2], [12 / 5, 1 / 2], [11 / 10, 1 / 2]] },
    Fm := [[0, 0, 0], [0, 0, 0]],
    integrationIsOverCounter := 2,
    rounds := 1,
    stages := [2, 1, 1],
    moved := [[]] }

/-- A line without markers on two processes, as the class invariant describes it. -/
def emptyLine : Line :=
  { _nprocs := 2, meshElements := 4, _particles := [], _printList := [],
    _markerOffset := [0, 0, 0], _line := [[]] }

/-- The first marker of the end-to-end scenario, initialised for an advection of order 4. -/
def wrappedMarker : Marker :=
  scenario.InitializeMarkerForAdvection 4 (scenarioMarker [1 / 10, 1 / 2])

/-- A marker outside the domain, stored on process 0 after one stage of order 1. -/
def exitedMarker : Marker :=
  { _x := [12 / 5, 1 / 2], _x0 := [19 / 10, 1 / 2], _K := [[1 / 2, 0]], _step := 1,
    _elem := UINT_MAX, _previousElem := 1, _mproc := 0 }

/-- Modelled from the spec: `Marker::InitializeVariables(order)` (not part of the sources) in
the end-to-end scenario, where the new owner allocates storage for the marker: `order` stage
vectors of two zeros and old coordinates of two zeros. -/
def scenarioInitializeVariables (order : Nat) (m : Marker) : Marker :=
  { m with _K := List.replicate order [0, 0], _x0 := [0, 0] }

/-- Marker 2 of the end-to-end scenario as process 0 holds it after the local phase of the first
round: it has made one stage, from `(0.9, 0.5)` to `(1.4, 0.5)`, and is in element 1 of
process 1. -/
def movedMarker : Marker :=
  { _x := [7 / 5, 1 / 2], _x0 := [9 / 10, 1 / 2], _K := [[1 / 2, 0]], _step := 1, _elem := 1,
    _previousElem := 0, _mproc := 1 }

/-- The copy of `movedMarker` on process 1 before the hand-over: no storage for the stage
vectors and the old coordinates. -/
def staleCopy : Marker := { movedMarker with _K := [], _x0 := [], _step := 0 }

/-- Process 1 when it receives `movedMarker` from process 0 in an advection of order 1. -/
def newOwner : Receiver :=
  { marker := staleCopy, K := [[0, 0]], x0 := [0, 0], x := [0, 0],
    queue := sendState 1 2 0 1 movedMarker, posted := [] }

/-- A marker in the middle of a macro-step of order 2, in element 1 of process 1. -/
def midStepMarker : Marker :=
  { _x := [7 / 5, 1 / 2], _x0 := [9 / 10, 1 / 2], _K := [[1 / 2, 0], [0, 0]], _step := 1,
    _elem := 1, _previousElem := 0, _mproc := 1 }

/-- Process 1 when it receives `midStepMarker` from process 0 in an advection of order 2, with
a message of process 2 in its queue. -/
def midStepOwner : Receiver :=
  { marker := { midStepMarker with _K := [], _x0 := [], _step := 0 },
    K := [[3, 3], [3, 3]], x0 := [3, 3], x := [0, 0],
    queue :=
      { source := 2, dest := 1, tag := 3, unsignedData := [7], doubleData := [] } ::
        sendState 2 2 0 1 midStepMarker,
    posted := [] }

theorem foldl_place_eq (ps : List Marker) (pl : List Nat) (base : Nat) (order : List Nat)
    (w : Slots Marker) :
    order.foldl (place ps pl base) w =
      { _particles := (placeAll ps pl order (base + w.counter) (w._particles, w._printList)).1
        _printList := (placeAll ps pl order (base + w.counter) (w._particles, w._printList)).2
        counter := w.counter + order.length } := by
  induction order generalizing w with
  | nil => simp [placeAll]
  | cons j rest ih =>
    rw [List.foldl_cons, ih]
    simp only [place, placeAll, List.length_cons]
    have e1 : base + (w.counter + 1) = base + w.counter + 1 := by omega
    have e2 : w.counter + 1 + rest.length = w.counter + (rest.length + 1) := by omega
    rw [e1, e2]

theorem placeAll_append (ps : List Marker) (pl : List Nat) (o1 o2 : List Nat) (pos : Nat)
    (ab : List Marker × List Nat) :
    placeAll ps pl (o1 ++ o2) pos ab = placeAll ps pl o2 (pos + o1.length) (placeAll ps pl o1 pos ab) := by
  induction o1 generalizing pos ab with
  | nil => simp [placeAll]
  | cons j rest ih =>
    rw [List.cons_append]
    simp only [placeAll, List.length_cons]
    rw [ih]
    have e : pos + 1 + rest.length = pos + (rest.length + 1) := by omega
    rw [e]

theorem relabel_length (pl cur : List Nat) (j c : Nat) : (relabel pl cur j c).length = cur.length := by
  unfold relabel
  split <;> simp

theorem placeAll_length (ps : List Marker) (pl : List Nat) (order : List Nat) (pos : Nat)
    (ab : List Marker × List Nat) :
    (placeAll ps pl order pos ab).1.length = ab.1.length ∧
      (placeAll ps pl order pos ab).2.length = ab.2.length := by
  induction order generalizing pos ab with
  | nil => simp [placeAll]
  | cons j rest ih =>
    simp only [placeAll]
    have := ih (pos + 1) (ab.1.set pos (ps.getD j default), relabel pl ab.2 j pos)
    simpa [relabel_length] using this

/-- The markers after a sequence of moves. -/
theorem placeAll_fst (ps : List Marker) (pl : List Nat) (order : List Nat) (pos : Nat)
    (ab : List Marker × List Nat) (h : pos + order.length ≤ ab.1.length) :
    (placeAll ps pl order pos ab).1 =
      ab.1.take pos ++ order.map (fun j => ps.getD j default) ++ ab.1.drop (pos + order.length) := by
  induction order generalizing pos ab with
  | nil => simp [placeAll]
  | cons j rest ih =>
    simp only [placeAll, List.length_cons] at h ⊢
    rw [ih]
    · simp only [List.map_cons]
      have hp : pos < ab.1.length := by omega
      have e3 : pos + 1 + rest.length = pos + (rest.length + 1) := by omega
      rw [List.drop_set_of_lt _ _ (by omega), e3]
      have e4 : List.take (pos + 1) (ab.1.set pos (ps.getD j default))
          = List.take pos ab.1 ++ [ps.getD j default] := by
        rw [List.set_eq_take_append_cons_drop, if_pos hp]
        rw [List.take_append_eq_append_take]
        simp [List.length_take, Nat.min_eq_left (Nat.le_of_lt hp), List.take_take]
      rw [e4]
      simp
    · simp; omega

theorem relabel_self (pl : List Nat) (j : Nat) : relabel pl pl j j = pl := by
  unfold relabel
  split
  · rename_i h
    apply List.ext_getElem (by simp)
    intro i h1 h2
    by_cases hij : List.indexOf j pl = i
    · subst hij
      simp [List.getElem_indexOf h]
    · simp [List.getElem_set_ne hij]
  · rfl

theorem set_getD_self (ps : List Marker) (j : Nat) : ps.set j (ps.getD j default) = ps := by
  by_cases h : j < ps.length
  · apply List.ext_getElem (by simp)
    intro i h1 h2
    by_cases hij : j = i
    · subst hij
      rw [List.getElem_set_self]
      exact List.getD_eq_getElem _ _ h
    · simp [List.getElem_set_ne hij]
  · exact List.set_eq_of_length_le (by omega)

/-- Moving every slot of a run of consecutive slots onto itself changes nothing. -/
theorem placeAll_id (ps : List Marker) (pl : List Nat) (n pos : Nat) :
    placeAll ps pl (List.range' pos n) pos (ps, pl) = (ps, pl) := by
  induction n generalizing pos with
  | zero => simp [placeAll]
  | succ n ih =>
    rw [List.range'_succ]
    simp only [placeAll]
    rw [set_getD_self, relabel_self]
    exact ih (pos + 1)

/-- The relabelled `_printList` after a sequence of moves, when neither the old labels nor
the moved slots repeat. -/
theorem placeAll_snd (ps : List Marker) (pl : List Nat) (hpl : pl.Nodup) (order : List Nat)
    (ho : order.Nodup) (pos : Nat) (ab : List Marker × List Nat) (hlen : ab.2.length = pl.length)
    (i : Nat) (hi : i < pl.length) :
    (placeAll ps pl order pos ab).2[i]? =
      if pl[i] ∈ order then some (pos + List.indexOf pl[i] order) else ab.2[i]? := by
  induction order generalizing pos ab with
  | nil => simp [placeAll]
  | cons j rest ih =>
    simp only [placeAll]
    have hr : rest.Nodup := (List.nodup_cons.mp ho).2
    have hj : j ∉ rest := (List.nodup_cons.mp ho).1
    rw [ih hr (pos + 1) _ (by simp [relabel_length, hlen])]
    by_cases hv : pl[i] = j
    · have h1 : pl[i] ∉ rest := by rw [hv]; exact hj
      have h2 : List.indexOf j pl = i := by
        rw [← hv]; exact List.indexOf_getElem hpl i hi
      have h3 : List.indexOf j pl < pl.length := by rw [h2]; exact hi
      simp only [h1, if_false, relabel, h3, if_true, h2]
      rw [if_pos hi, List.getElem?_set_self (by omega)]
      simp [hv]
    · have hne : j ≠ pl[i] := fun h => hv h.symm
      by_cases hm : pl[i] ∈ rest
      · simp only [hm, if_true, List.mem_cons, or_true]
        rw [List.indexOf_cons_ne _ hne]
        congr 1
        omega
      · have h4 : pl[i] ∉ j :: rest := by simp [hv, hm]
        simp only [hm, h4, if_false]
        unfold relabel
        split
        · rename_i h3
          have h5 : List.indexOf j pl ≠ i := by
            intro h
            apply hv
            have := List.getElem_indexOf h3
            simp only [h] at this
            exact this
          rw [List.getElem?_set_ne h5]
        · rfl

/-! ## The reorder by proc -/

theorem foldl_ite_eq_foldl_filter {α β : Type} (p : β → Bool) (f : α → β → α) (l : List β) (a : α) :
    l.foldl (fun w j => if p j = true then f w j else w) a = (l.filter p).foldl f a := by
  induction l generalizing a with
  | nil => rfl
  | cons x xs ih =>
    by_cases h : p x = true
    · simp [List.filter_cons, h, ih]
    · simp [List.filter_cons, h, ih]

theorem procScan_eq (ps : List Marker) (pl : List Nat) (iproc : Nat) (w : Slots Marker) :
    procScan ps pl iproc w =
      ((List.range ps.length).filter (fun j => decide ((ps.getD j default)._mproc = iproc))).foldl
        (place ps pl 0) w := by
  unfold procScan
  rw [← foldl_ite_eq_foldl_filter]
  simp

theorem procPass_succ (P : Nat) (ps : List Marker) (pl : List Nat) (w : Slots Marker)
    (offs : List Nat) :
    procPass (P + 1) ps pl w offs =
      (procScan ps pl P (procPass P ps pl w offs).1,
        (procPass P ps pl w offs).2.set P (procPass P ps pl w offs).1.counter) := by
  simp [procPass, List.range_succ, List.foldl_append]

theorem procPass_fst (P : Nat) (ps : List Marker) (pl : List Nat) (w : Slots Marker)
    (offs : List Nat) :
    (procPass P ps pl w offs).1 = (procOrder ps P).foldl (place ps pl 0) w := by
  induction P with
  | zero => simp [procPass, procOrder]
  | succ P ih =>
    rw [procPass_succ]
    simp only [procOrder, List.foldl_append]
    rw [procScan_eq, ih]

theorem procPass_snd_length (P : Nat) (ps : List Marker) (pl : List Nat) (w : Slots Marker)
    (offs : List Nat) : (procPass P ps pl w offs).2.length = offs.length := by
  induction P with
  | zero => simp [procPass]
  | succ P ih => rw [procPass_succ]; simp [ih]

/-- The offsets the reorder by proc stores. -/
theorem procPass_snd (P : Nat) (ps : List Marker) (pl : List Nat) (w : Slots Marker)
    (offs : List Nat) (p : Nat) :
    (procPass P ps pl w offs).2[p]? =
      if p < P then (offs[p]?).map (fun _ => w.counter + (procOrder ps p).length) else offs[p]? := by
  induction P with
  | zero => simp [procPass]
  | succ P ih =>
    rw [procPass_succ]
    simp only
    by_cases hp : P = p
    · subst hp
      rw [List.getElem?_set_self', ih, procPass_fst]
      simp [foldl_place_eq]
      rfl
    · rw [List.getElem?_set_ne hp, ih]
      by_cases h1 : p < P
      · have : p < P + 1 := by omega
        simp [h1, this]
      · have : ¬ p < P + 1 := by omega
        simp [h1, this]

theorem mem_procOrder (ps : List Marker) (P j : Nat) :
    j ∈ procOrder ps P ↔ j < ps.length ∧ (ps.getD j default)._mproc < P := by
  induction P with
  | zero => simp [procOrder]
  | succ P ih =>
    simp only [procOrder, List.mem_append, ih, List.mem_filter, List.mem_range, decide_eq_true_eq]
    constructor
    · rintro (⟨h1, h2⟩ | ⟨h1, h2⟩)
      · exact ⟨h1, by omega⟩
      · exact ⟨h1, by omega⟩
    · rintro ⟨h1, h2⟩
      by_cases h : (ps.getD j default)._mproc < P
      · exact Or.inl ⟨h1, h⟩
      · exact Or.inr ⟨h1, by omega⟩

theorem procOrder_nodup (ps : List Marker) (P : Nat) : (procOrder ps P).Nodup := by
  induction P with
  | zero => simp [procOrder]
  | succ P ih =>
    simp only [procOrder]
    rw [List.nodup_append]
    refine ⟨ih, (List.nodup_range _).filter _, ?_⟩
    intro j h1 h2
    rw [mem_procOrder] at h1
    simp only [List.mem_filter, List.mem_range, decide_eq_true_eq] at h2
    omega

theorem procOrder_length_le (ps : List Marker) (P : Nat) : (procOrder ps P).length ≤ ps.length := by
  have h := (List.subperm_of_subset (procOrder_nodup ps P)
    (fun j hj => List.mem_range.mpr ((mem_procOrder ps P j).mp hj).1)).length_le
  simpa using h

theorem procOrder_mono (ps : List Marker) (p q : Nat) (h : p ≤ q) :
    (procOrder ps p).length ≤ (procOrder ps q).length := by
  induction q with
  | zero =>
    have : p = 0 := by omega
    subst this; exact Nat.le_refl _
  | succ q ih =>
    by_cases hp : p = q + 1
    · subst hp; exact Nat.le_refl _
    · have := ih (by omega)
      simp only [procOrder, List.length_append]
      omega

/-- With every process below `P` the reorder by proc moves every slot exactly once. -/
theorem procOrder_perm (ps : List Marker) (P : Nat)
    (h : ∀ m ∈ ps, m._mproc < P) : (procOrder ps P).Perm (List.range ps.length) := by
  rw [List.perm_ext_iff_of_nodup (procOrder_nodup ps P) (List.nodup_range _)]
  intro j
  rw [mem_procOrder, List.mem_range]
  constructor
  · exact fun h1 => h1.1
  · intro hj
    refine ⟨hj, h _ ?_⟩
    rw [List.getD_eq_getElem _ _ hj]
    exact List.getElem_mem hj

/-! ## The reorder by element: one slice -/

theorem flagsOf_length (key : Nat → Nat) (el : List Bool) (l : List Nat) :
    (flagsOf key el l).length = el.length := by
  induction l generalizing el with
  | nil => rfl
  | cons j rest ih =>
    simp only [flagsOf]
    split
    · rw [ih]; simp
    · exact ih el

theorem elemInner_eq (ps : List Marker) (pl : List Nat) (base hi jel jp : Nat) (w : Slots Marker) :
    elemInner ps pl base hi jel jp w =
      ((List.range' (jp + 1) (hi - (jp + 1))).filter (fun ip => decide (keyOf ps ip = jel))).foldl
        (place ps pl base) w := by
  unfold elemInner
  rw [← foldl_ite_eq_foldl_filter]
  simp [keyOf]

theorem elemStep_of_not_running (ps : List Marker) (pl : List Nat) (base hi : Nat) (w : Work)
    (h : w.status ≠ Status.running) (jp : Nat) : elemStep ps pl base hi w jp = w := by
  unfold elemStep
  simp [h]

theorem foldl_elemStep_of_not_running (ps : List Marker) (pl : List Nat) (base hi : Nat)
    (l : List Nat) (w : Work) (h : w.status ≠ Status.running) :
    l.foldl (elemStep ps pl base hi) w = w := by
  induction l with
  | nil => rfl
  | cons j rest ih => rw [List.foldl_cons, elemStep_of_not_running _ _ _ _ _ h, ih]

/-- What one pass through the body of the loop over `jp` does to a running pass. -/
theorem elemStep_running (ps : List Marker) (pl : List Nat) (base hi : Nat) (w : Work)
    (h : w.status = Status.running) (jp : Nat) :
    (¬ (keyOf ps jp = UINT_MAX ∨ keyOf ps jp < w.elementList.length) →
      elemStep ps pl base hi w jp = { w with status := Status.outOfRange }) ∧
    ((keyOf ps jp = UINT_MAX ∨ keyOf ps jp < w.elementList.length) →
      elemStep ps pl base hi w jp =
        { slots :=
            if fresh w.elementList (keyOf ps jp) then
              ((List.range' (jp + 1) (hi - (jp + 1))).filter
                (fun ip => decide (keyOf ps ip = keyOf ps jp))).foldl (place ps pl base)
                (place ps pl base w.slots jp)
            else w.slots
          elementList :=
            if fresh w.elementList (keyOf ps jp) then w.elementList.set (keyOf ps jp) true
            else w.elementList
          someMarkersOutsideDomain :=
            w.someMarkersOutsideDomain || decide (keyOf ps jp = UINT_MAX)
          status := Status.running }) := by
  have hk : (ps.getD jp default)._elem = keyOf ps jp := rfl
  constructor
  · intro hr
    have h1 : keyOf ps jp ≠ UINT_MAX := fun e => hr (Or.inl e)
    have h2 : w.elementList[keyOf ps jp]? = none := by
      rw [List.getElem?_eq_none_iff]
      have := fun e => hr (Or.inr e)
      omega
    unfold elemStep
    simp only [h, hk, ne_eq, not_true_eq_false, if_false, h1, not_false_eq_true, if_true, h2]
  · intro hr
    unfold elemStep
    simp only [h, hk, ne_eq, not_true_eq_false, if_false]
    by_cases h1 : keyOf ps jp = UINT_MAX
    · cases w
      simp_all [fresh]
    · have h2 : keyOf ps jp < w.elementList.length := by
        rcases hr with hr | hr
        · exact absurd hr h1
        · exact hr
      simp only [h1, not_false_eq_true, if_true]
      rw [List.getElem?_eq_getElem h2]
      cases hb : w.elementList[keyOf ps jp]
      · cases w
        simp_all [fresh, elemInner_eq]
      · cases w
        simp_all [fresh]

theorem sliceInRange_cons (key : Nat → Nat) (M j : Nat) (l : List Nat) :
    SliceInRange key M (j :: l) ↔ (key j = UINT_MAX ∨ key j < M) ∧ SliceInRange key M l := by
  simp [SliceInRange]

/-- The loop over `jp` of one slice, when every element it meets is a valid subscript. -/
theorem foldl_elemStep_inRange (ps : List Marker) (pl : List Nat) (base hi : Nat) (n : Nat) :
    ∀ (lo : Nat) (w : Work), w.status = Status.running → hi - lo = n →
      SliceInRange (keyOf ps) w.elementList.length (List.range' lo n) →
      (List.range' lo n).foldl (elemStep ps pl base hi) w =
        { slots := (ordOf (keyOf ps) w.elementList (List.range' lo n)).foldl (place ps pl base) w.slots
          elementList := flagsOf (keyOf ps) w.elementList (List.range' lo n)
          someMarkersOutsideDomain :=
            w.someMarkersOutsideDomain ||
              (List.range' lo n).any (fun j => decide (keyOf ps j = UINT_MAX))
          status := Status.running } := by
  induction n with
  | zero =>
    intro lo w h _ _
    cases w
    simp_all [ordOf, flagsOf]
  | succ n ih =>
    intro lo w h hn hr
    rw [List.range'_succ] at hr ⊢
    rw [sliceInRange_cons] at hr
    rw [List.foldl_cons, (elemStep_running ps pl base hi w h lo).2 hr.1]
    have hn1 : hi - (lo + 1) = n := by omega
    rw [ih (lo + 1) _ rfl hn1]
    · rw [hn1]
      by_cases hf : fresh w.elementList (keyOf ps lo) = true
      · simp only [hf, if_true, ordOf, flagsOf, List.foldl_append, List.foldl_cons, List.any_cons,
          Bool.or_assoc]
      · simp only [hf, if_false, ordOf, flagsOf, List.any_cons, Bool.or_assoc]
        simp
    · simp only
      split
      · simpa using hr.2
      · exact hr.2

/-- The loop over `jp` of one slice never aborts, and it stops with an out-of-range
subscript exactly when the slice holds an element that is not a valid subscript. -/
theorem foldl_elemStep_outOfRange (ps : List Marker) (pl : List Nat) (base hi : Nat) (l : List Nat) :
    ∀ (w : Work), w.status = Status.running →
      ¬ SliceInRange (keyOf ps) w.elementList.length l →
      (l.foldl (elemStep ps pl base hi) w).status = Status.outOfRange := by
  induction l with
  | nil => intro w _ hr; exact absurd (by simp [SliceInRange]) hr
  | cons j rest ih =>
    intro w h hr
    rw [List.foldl_cons]
    by_cases hj : keyOf ps j = UINT_MAX ∨ keyOf ps j < w.elementList.length
    · rw [(elemStep_running ps pl base hi w h j).2 hj]
      apply ih _ rfl
      intro hrest
      apply hr
      rw [sliceInRange_cons]
      refine ⟨hj, ?_⟩
      simp only at hrest
      split at hrest
      · simpa using hrest
      · exact hrest
    · rw [(elemStep_running ps pl base hi w h j).1 hj]
      rw [foldl_elemStep_of_not_running _ _ _ _ _ _ (by simp)]

theorem any_outside_iff (key : Nat → Nat) (l : List Nat) :
    l.any (fun j => decide (key j = UINT_MAX)) = true ↔ ¬ SliceClean key l := by
  simp [SliceClean]

/-! ## The reorder by element: the loop over the processes -/

theorem elemProc_of_not_running (ps : List Marker) (pl : List Nat) (offs : List Nat) (w : Work)
    (h : w.status ≠ Status.running) (p : Nat) : elemProc ps pl offs w p = w := by
  unfold elemProc
  simp [h]

theorem foldl_elemProc_of_not_running (ps : List Marker) (pl : List Nat) (offs : List Nat)
    (l : List Nat) (w : Work) (h : w.status ≠ Status.running) :
    l.foldl (elemProc ps pl offs) w = w := by
  induction l with
  | nil => rfl
  | cons j rest ih => rw [List.foldl_cons, elemProc_of_not_running _ _ _ _ h, ih]

theorem tailFill_eq (ps : List Marker) (pl : List Nat) (base : Nat) (w : Slots Marker) :
    tailFill ps pl base w =
      ((List.range ps.length).filter (fun i => decide (keyOf ps i = UINT_MAX))).foldl
        (place ps pl base) w := by
  unfold tailFill
  rw [← foldl_ite_eq_foldl_filter]
  simp [keyOf]

theorem elemProc_unfold (ps : List Marker) (pl : List Nat) (offs : List Nat) (w : Work)
    (h : w.status = Status.running) (p : Nat) (w1 : Work)
    (hw1 : w1 = (sliceOf offs p).foldl (elemStep ps pl (offs.getD p 0) (offs.getD (p + 1) 0))
      { w with someMarkersOutsideDomain := false, slots := { w.slots with counter := 0 } }) :
    elemProc ps pl offs w p =
      if w1.status ≠ Status.running then w1
      else if w1.someMarkersOutsideDomain = true then
        if p = 0 then { w1 with slots := tailFill ps pl (offs.getD 0 0) w1.slots }
        else { w1 with status := Status.aborted }
      else w1 := by
  subst hw1
  unfold elemProc
  rw [if_neg (by rw [h]; exact fun hh => hh rfl)]
  rfl

/-- What the body of the loop over `iproc` does to a running pass. -/
theorem elemProc_running (ps : List Marker) (pl : List Nat) (offs : List Nat) (w : Work)
    (h : w.status = Status.running) (p : Nat) :
    (¬ SliceInRange (keyOf ps) w.elementList.length (sliceOf offs p) →
      (elemProc ps pl offs w p).status = Status.outOfRange) ∧
    (SliceInRange (keyOf ps) w.elementList.length (sliceOf offs p) →
      p ≠ 0 → ¬ SliceClean (keyOf ps) (sliceOf offs p) →
      (elemProc ps pl offs w p).status = Status.aborted) ∧
    (SliceInRange (keyOf ps) w.elementList.length (sliceOf offs p) →
      (p ≠ 0 → SliceClean (keyOf ps) (sliceOf offs p)) →
      ∃ c b, elemProc ps pl offs w p =
        { slots :=
            { _particles := (placeAll ps pl (sliceOrder (keyOf ps) ps.length w.elementList offs p)
                (offs.getD p 0) (w.slots._particles, w.slots._printList)).1
              _printList := (placeAll ps pl (sliceOrder (keyOf ps) ps.length w.elementList offs p)
                (offs.getD p 0) (w.slots._particles, w.slots._printList)).2
              counter := c }
          elementList := flagsOf (keyOf ps) w.elementList (sliceOf offs p)
          someMarkersOutsideDomain := b
          status := Status.running }) := by
  obtain ⟨w1, hw1⟩ : ∃ w1, w1 = (sliceOf offs p).foldl
      (elemStep ps pl (offs.getD p 0) (offs.getD (p + 1) 0))
      { w with someMarkersOutsideDomain := false, slots := { w.slots with counter := 0 } } :=
    ⟨_, rfl⟩
  rw [elemProc_unfold ps pl offs w h p w1 hw1]
  have hin : SliceInRange (keyOf ps) w.elementList.length (sliceOf offs p) →
      w1 = { slots := (ordOf (keyOf ps) w.elementList (sliceOf offs p)).foldl
                (place ps pl (offs.getD p 0)) { w.slots with counter := 0 }
             elementList := flagsOf (keyOf ps) w.elementList (sliceOf offs p)
             someMarkersOutsideDomain :=
               (sliceOf offs p).any (fun j => decide (keyOf ps j = UINT_MAX))
             status := Status.running } := by
    intro hr
    rw [hw1]
    exact foldl_elemStep_inRange ps pl (offs.getD p 0) (offs.getD (p + 1) 0) _ (offs.getD p 0)
      { w with someMarkersOutsideDomain := false, slots := { w.slots with counter := 0 } } h rfl hr
  have hout : ¬ SliceInRange (keyOf ps) w.elementList.length (sliceOf offs p) →
      w1.status = Status.outOfRange := by
    intro hr
    rw [hw1]
    exact foldl_elemStep_outOfRange ps pl (offs.getD p 0) (offs.getD (p + 1) 0) (sliceOf offs p)
      { w with someMarkersOutsideDomain := false, slots := { w.slots with counter := 0 } } h hr
  refine ⟨?_, ?_, ?_⟩
  · intro hr
    have h1 := hout hr
    rw [if_pos (by rw [h1]; exact fun hh => Status.noConfusion hh)]
    exact h1
  · intro hr hp hc
    have h1 := hin hr
    have ha := (any_outside_iff (keyOf ps) (sliceOf offs p)).mpr hc
    have hs : w1.status = Status.running := by rw [h1]
    have ho : w1.someMarkersOutsideDomain = true := by rw [h1]; exact ha
    rw [if_neg (by rw [hs]; exact fun hh => hh rfl), if_pos ho, if_neg hp]
  · intro hr hc
    have h1 := hin hr
    have hs : w1.status = Status.running := by rw [h1]
    rw [if_neg (by rw [hs]; exact fun hh => hh rfl)]
    by_cases hcl : SliceClean (keyOf ps) (sliceOf offs p)
    · have ha : (sliceOf offs p).any (fun j => decide (keyOf ps j = UINT_MAX)) = false := by
        rw [← Bool.not_eq_true, any_outside_iff]; simpa using hcl
      have ho : ¬ w1.someMarkersOutsideDomain = true := by
        rw [h1]; show ¬ (sliceOf offs p).any _ = true; rw [ha]; exact Bool.false_ne_true
      have e : sliceOrder (keyOf ps) ps.length w.elementList offs p
          = ordOf (keyOf ps) w.elementList (sliceOf offs p) := by
        simp [sliceOrder, hcl]
      rw [if_neg ho, h1, foldl_place_eq, e]
      exact ⟨_, _, rfl⟩
    · have hp : p = 0 := by
        by_contra hp
        exact hcl (hc hp)
      have ha := (any_outside_iff (keyOf ps) (sliceOf offs p)).mpr hcl
      have ho : w1.someMarkersOutsideDomain = true := by rw [h1]; exact ha
      have e : sliceOrder (keyOf ps) ps.length w.elementList offs p
          = ordOf (keyOf ps) w.elementList (sliceOf offs p) ++
            (List.range ps.length).filter (fun i => decide (keyOf ps i = UINT_MAX)) := by
        unfold sliceOrder
        rw [if_pos ⟨hp, hcl⟩]
      rw [if_pos ho, if_pos hp, h1, e, placeAll_append]
      subst hp
      simp only [tailFill_eq, foldl_place_eq, Nat.add_zero, Nat.zero_add]
      exact ⟨_, _, rfl⟩

theorem elemPass_succ (P M : Nat) (ps : List Marker) (pl : List Nat) (offs : List Nat) :
    elemPass (P + 1) M ps pl offs = elemProc ps pl offs (elemPass P M ps pl offs) P := by
  simp [elemPass, List.range_succ, List.foldl_append]

theorem flagsUpTo_length (key : Nat → Nat) (offs : List Nat) (el : List Bool) (p : Nat) :
    (flagsUpTo key offs el p).length = el.length := by
  induction p with
  | zero => rfl
  | succ p ih => simp only [flagsUpTo, flagsOf_length, ih]

theorem slicesOk_succ (key : Nat → Nat) (M : Nat) (offs : List Nat) (P : Nat) :
    SlicesOk key M offs (P + 1) ↔
      SlicesOk key M offs P ∧ SliceInRange key M (sliceOf offs P) ∧
        (P ≠ 0 → SliceClean key (sliceOf offs P)) := by
  constructor
  · intro h
    exact ⟨fun p hp => h p (by omega), h P (by omega)⟩
  · rintro ⟨h1, h2⟩ p hp
    by_cases e : p = P
    · subst e; exact h2
    · exact h1 p (by omega)

/-- The element pass over the processes below `P`: its result when it keeps running, and why it
stops otherwise. -/
theorem elemPass_cases (M : Nat) (ps : List Marker) (pl : List Nat) (offs : List Nat) (P : Nat) :
    (SlicesOk (keyOf ps) M offs P →
      ∃ c b, elemPass P M ps pl offs =
        { slots :=
            { _particles := (arraysUpTo ps pl offs (List.replicate M false) P).1
              _printList := (arraysUpTo ps pl offs (List.replicate M false) P).2
              counter := c }
          elementList := flagsUpTo (keyOf ps) offs (List.replicate M false) P
          someMarkersOutsideDomain := b
          status := Status.running }) ∧
    ((elemPass P M ps pl offs).status = Status.aborted →
      ∃ p < P, p ≠ 0 ∧ ¬ SliceClean (keyOf ps) (sliceOf offs p)) ∧
    ((elemPass P M ps pl offs).status = Status.outOfRange →
      ∃ p < P, ¬ SliceInRange (keyOf ps) M (sliceOf offs p)) ∧
    ((elemPass P M ps pl offs).status = Status.running → SlicesOk (keyOf ps) M offs P) := by
  induction P with
  | zero =>
    refine ⟨fun _ => ⟨0, false, rfl⟩, ?_, ?_, ?_⟩
    · intro h; exact absurd h (by simp [elemPass])
    · intro h; exact absurd h (by simp [elemPass])
    · intro _ p hp; omega
  | succ P ih =>
    obtain ⟨ihA, ihB, ihC, ihD⟩ := ih
    rw [elemPass_succ]
    by_cases hrun : (elemPass P M ps pl offs).status = Status.running
    · have hok := ihD hrun
      obtain ⟨c, b, hW⟩ := ihA hok
      have hlen : (elemPass P M ps pl offs).elementList.length = M := by
        rw [hW]; simp [flagsUpTo_length]
      obtain ⟨h1, h2, h3⟩ := elemProc_running ps pl offs (elemPass P M ps pl offs) hrun P
      rw [hlen] at h1 h2 h3
      by_cases hr : SliceInRange (keyOf ps) M (sliceOf offs P)
      · by_cases hc : P ≠ 0 → SliceClean (keyOf ps) (sliceOf offs P)
        · obtain ⟨c', b', hW'⟩ := h3 hr hc
          rw [hW']
          refine ⟨fun _ => ⟨c', b', ?_⟩, ?_, ?_, ?_⟩
          · rw [hW]; rfl
          · intro h; exact Status.noConfusion h
          · intro h; exact Status.noConfusion h
          · intro _; exact (slicesOk_succ _ _ _ _).mpr ⟨hok, hr, hc⟩
        · have hc' : P ≠ 0 ∧ ¬ SliceClean (keyOf ps) (sliceOf offs P) := by
            by_cases hP : P = 0
            · exact absurd (fun h => absurd hP h) hc
            · exact ⟨hP, fun h => hc (fun _ => h)⟩
          have hst := h2 hr hc'.1 hc'.2
          rw [hst]
          refine ⟨fun h => absurd ((slicesOk_succ _ _ _ _).mp h).2.2 hc, ?_, ?_, ?_⟩
          · intro _; exact ⟨P, by omega, hc'.1, hc'.2⟩
          · intro h; exact Status.noConfusion h
          · intro h; exact Status.noConfusion h
      · have hst := h1 hr
        rw [hst]
        refine ⟨fun h => absurd ((slicesOk_succ _ _ _ _).mp h).2.1 hr, ?_, ?_, ?_⟩
        · intro h; exact Status.noConfusion h
        · intro _; exact ⟨P, by omega, hr⟩
        · intro h; exact Status.noConfusion h
    · rw [elemProc_of_not_running _ _ _ _ hrun]
      refine ⟨fun h => absurd (ihA ((slicesOk_succ _ _ _ _).mp h).1) ?_, ?_, ?_, ?_⟩
      · rintro ⟨c, b, hW⟩
        apply hrun
        rw [hW]
      · intro h
        obtain ⟨p, hp, h'⟩ := ihB h
        exact ⟨p, by omega, h'⟩
      · intro h
        obtain ⟨p, hp, h'⟩ := ihC h
        exact ⟨p, by omega, h'⟩
      · intro h; exact absurd h hrun

/-! ## The order in which the element pass moves the slots of a slice -/

theorem fresh_set (el : List Bool) (k x : Nat) :
    fresh (el.set k true) x = (fresh el x && decide (x ≠ k)) := by
  unfold fresh
  by_cases h : k = x
  · subst h
    by_cases hk : k < el.length
    · simp [List.getElem?_set_self hk]
    · rw [List.set_eq_of_length_le (by omega)]
      have : el[k]? = none := List.getElem?_eq_none_iff.mpr (by omega)
      simp [this]
  · have h' : x ≠ k := fun e => h e.symm
    simp [List.getElem?_set_ne h, h']

theorem fresh_replicate (M x : Nat) :
    fresh (List.replicate M false) x = true ↔ x ≠ UINT_MAX ∧ x < M := by
  unfold fresh
  by_cases h : x < M
  · simp [List.getElem?_replicate, h]
  · simp [List.getElem?_replicate, h]

theorem fresh_ne (el : List Bool) (x : Nat) (h : fresh el x = true) : x ≠ UINT_MAX := by
  unfold fresh at h
  simp only [Bool.and_eq_true, decide_eq_true_eq] at h
  exact h.1

/-- The slots moved by the loop over `jp` are those whose element had an unset flag, each once. -/
theorem ordOf_perm (key : Nat → Nat) (l : List Nat) :
    ∀ el : List Bool, (ordOf key el l).Perm (l.filter (fun j => fresh el (key j))) := by
  induction l with
  | nil => intro el; simp [ordOf]
  | cons jp rest ih =>
    intro el
    by_cases hf : fresh el (key jp) = true
    · simp only [ordOf, hf, if_true, List.filter_cons, List.cons_append]
      apply List.Perm.cons
      have h1 := (ih (el.set (key jp) true)).append_left
        (rest.filter (fun ip => decide (key ip = key jp)))
      refine h1.trans ?_
      have h2 := List.filter_append_perm (fun ip => decide (key ip = key jp))
        (rest.filter (fun j => fresh el (key j)))
      refine List.Perm.trans (List.Perm.of_eq ?_) h2
      rw [List.filter_filter, List.filter_filter]
      congr 1
      · apply List.filter_congr
        intro x _
        by_cases hx : key x = key jp
        · simp [hx, hf]
        · simp [hx]
      · apply List.filter_congr
        intro x _
        rw [fresh_set]
        by_cases hx : key x = key jp
        · simp [hx]
        · simp [hx]
    · simp only [ordOf, hf, List.filter_cons]
      simpa using ih el

theorem mem_ordOf (key : Nat → Nat) (l : List Nat) (el : List Bool) (j : Nat) :
    j ∈ ordOf key el l ↔ j ∈ l ∧ fresh el (key j) = true := by
  rw [(ordOf_perm key l el).mem_iff, List.mem_filter]

theorem ordOf_nodup (key : Nat → Nat) (l : List Nat) (el : List Bool) (h : l.Nodup) :
    (ordOf key el l).Nodup :=
  (ordOf_perm key l el).nodup_iff.mpr (h.filter _)

/-- A flag is still unset after the loop over `jp` of a slice exactly when it was unset before and
the slice holds no marker of that element. -/
theorem fresh_flagsOf (key : Nat → Nat) (l : List Nat) :
    ∀ (el : List Bool) (x : Nat),
      fresh (flagsOf key el l) x = true ↔ fresh el x = true ∧ ∀ j ∈ l, key j ≠ x := by
  induction l with
  | nil => intro el x; simp [flagsOf]
  | cons jp rest ih =>
    intro el x
    by_cases hf : fresh el (key jp) = true
    · simp only [flagsOf, hf, if_true, ih, fresh_set, Bool.and_eq_true, decide_eq_true_eq,
        List.mem_cons, forall_eq_or_imp]
      constructor
      · rintro ⟨⟨h1, h2⟩, h3⟩
        exact ⟨h1, fun e => h2 e.symm, h3⟩
      · rintro ⟨h1, h2, h3⟩
        exact ⟨⟨h1, fun e => h2 e.symm⟩, h3⟩
    · have e : flagsOf key el (jp :: rest) = flagsOf key el rest := by
        simp only [flagsOf]
        rw [if_neg hf]
      rw [e, ih]
      simp only [List.mem_cons, forall_eq_or_imp]
      constructor
      · rintro ⟨h1, h3⟩
        refine ⟨h1, ?_, h3⟩
        intro e
        rw [e] at hf
        exact hf h1
      · rintro ⟨h1, _, h3⟩
        exact ⟨h1, h3⟩

theorem fresh_flagsUpTo (key : Nat → Nat) (offs : List Nat) (el : List Bool) (p x : Nat) :
    fresh (flagsUpTo key offs el p) x = true ↔
      fresh el x = true ∧ ∀ q < p, ∀ j ∈ sliceOf offs q, key j ≠ x := by
  induction p with
  | zero => simp [flagsUpTo]
  | succ p ih =>
    simp only [flagsUpTo, fresh_flagsOf, ih]
    constructor
    · rintro ⟨⟨h1, h2⟩, h3⟩
      refine ⟨h1, fun q hq => ?_⟩
      by_cases e : q = p
      · subst e; exact h3
      · exact h2 q (by omega)
    · rintro ⟨h1, h2⟩
      exact ⟨⟨h1, fun q hq => h2 q (by omega)⟩, h2 p (by omega)⟩

theorem mem_sliceOf (offs : List Nat) (p j : Nat) :
    j ∈ sliceOf offs p ↔ offs.getD p 0 ≤ j ∧ j < offs.getD (p + 1) 0 := by
  unfold sliceOf
  rw [List.mem_range']
  constructor
  · rintro ⟨i, hi, rfl⟩; omega
  · rintro ⟨h1, h2⟩; exact ⟨j - offs.getD p 0, by omega, by omega⟩

theorem sliceOf_nodup (offs : List Nat) (p : Nat) : (sliceOf offs p).Nodup := by
  unfold sliceOf
  exact List.nodup_range' _ _

theorem sliceOf_length (offs : List Nat) (p : Nat) :
    (sliceOf offs p).length = offs.getD (p + 1) 0 - offs.getD p 0 := by
  unfold sliceOf
  simp

/-- The slots the element pass moves for one process are distinct slots of its slice, as soon as
every marker outside the domain sits in the slice of process 0. -/
theorem sliceOrder_nodup_subset (key : Nat → Nat) (N : Nat) (el : List Bool) (offs : List Nat)
    (p : Nat)
    (hout : p = 0 → ∀ i < N, key i = UINT_MAX → i ∈ sliceOf offs 0) :
    (sliceOrder key N el offs p).Nodup ∧ ∀ j ∈ sliceOrder key N el offs p, j ∈ sliceOf offs p := by
  unfold sliceOrder
  have h1 := ordOf_nodup key (sliceOf offs p) el (sliceOf_nodup offs p)
  have h2 : ∀ j ∈ ordOf key el (sliceOf offs p), j ∈ sliceOf offs p :=
    fun j hj => ((mem_ordOf key _ el j).mp hj).1
  split
  · rename_i hc
    constructor
    · rw [List.nodup_append]
      refine ⟨h1, (List.nodup_range N).filter _, ?_⟩
      intro j hj1 hj2
      have := fresh_ne _ _ ((mem_ordOf key _ el j).mp hj1).2
      simp only [List.mem_filter, decide_eq_true_eq] at hj2
      exact this hj2.2
    · intro j hj
      rw [List.mem_append] at hj
      rcases hj with hj | hj
      · exact h2 j hj
      · simp only [List.mem_filter, List.mem_range, decide_eq_true_eq] at hj
        have := hout hc.1 j hj.1 hj.2
        rw [hc.1]
        exact this
  · simpa using ⟨h1, h2⟩

theorem sliceOrder_length_le (key : Nat → Nat) (N : Nat) (el : List Bool) (offs : List Nat)
    (p : Nat)
    (hout : p = 0 → ∀ i < N, key i = UINT_MAX → i ∈ sliceOf offs 0) :
    (sliceOrder key N el offs p).length ≤ offs.getD (p + 1) 0 - offs.getD p 0 := by
  obtain ⟨h1, h2⟩ := sliceOrder_nodup_subset key N el offs p hout
  have := (List.subperm_of_subset h1 h2).length_le
  rwa [sliceOf_length] at this

/-! ## `UpdateLine` as a whole -/

theorem UpdateLine_unfold (s : Line) :
    s.UpdateLine =
      match (elemPass s._nprocs s.meshElements (afterProc s).1._particles (afterProc s).1._printList
          (afterProc s).2).status with
      | Status.aborted => Outcome.aborted
      | Status.outOfRange => Outcome.outOfRange
      | Status.running =>
        match fillLine
          (elemPass s._nprocs s.meshElements (afterProc s).1._particles (afterProc s).1._printList
            (afterProc s).2).slots._particles
          (elemPass s._nprocs s.meshElements (afterProc s).1._particles (afterProc s).1._printList
            (afterProc s).2).slots._printList with
        | none => Outcome.outOfRange
        | some l =>
          Outcome.returned
            { s with
              _particles := (elemPass s._nprocs s.meshElements (afterProc s).1._particles
                (afterProc s).1._printList (afterProc s).2).slots._particles
              _printList := (elemPass s._nprocs s.meshElements (afterProc s).1._particles
                (afterProc s).1._printList (afterProc s).2).slots._printList
              _markerOffset := (afterProc s).2, _line := l } := rfl

/-- The call `UpdateLine` returns exactly when the element pass meets no out-of-range flag subscript and no
marker outside the domain in the slice of a process other than 0, and the fill of `_line` reads
in range; the returned arrays are then those of `afterElem`. -/
theorem UpdateLine_returned_iff (s s1 : Line) :
    s.UpdateLine = Outcome.returned s1 ↔
      SlicesOk (key1 s) s.meshElements (afterProc s).2 s._nprocs ∧
      ∃ l, fillLine (afterElem s).1 (afterElem s).2 = some l ∧
        s1 = { s with _particles := (afterElem s).1, _printList := (afterElem s).2,
                      _markerOffset := (afterProc s).2, _line := l } := by
  obtain ⟨hA, hB, hC, hD⟩ := elemPass_cases s.meshElements (afterProc s).1._particles
    (afterProc s).1._printList (afterProc s).2 s._nprocs
  rw [UpdateLine_unfold]
  constructor
  · intro h
    split at h
    · exact Outcome.noConfusion h
    · exact Outcome.noConfusion h
    · rename_i hst
      have hok := hD hst
      obtain ⟨c, b, hW⟩ := hA hok
      refine ⟨hok, ?_⟩
      rw [hW] at h
      simp only at h
      split at h
      · exact Outcome.noConfusion h
      · rename_i l hl
        refine ⟨l, hl, ?_⟩
        injection h with h
        exact h.symm
  · rintro ⟨hok, l, hl, rfl⟩
    obtain ⟨c, b, hW⟩ := hA hok
    rw [hW]
    simp only
    change fillLine (afterElem s).1 (afterElem s).2 = some l at hl
    have hl' : fillLine (arraysUpTo (afterProc s).1._particles (afterProc s).1._printList
        (afterProc s).2 (List.replicate s.meshElements false) s._nprocs).1
        (arraysUpTo (afterProc s).1._particles (afterProc s).1._printList
        (afterProc s).2 (List.replicate s.meshElements false) s._nprocs).2 = some l := hl
    rw [hl']
    rfl

theorem UpdateLine_aborted_iff (s : Line)
    (hr : ∀ p < s._nprocs, SliceInRange (key1 s) s.meshElements (sliceOf (afterProc s).2 p)) :
    s.UpdateLine = Outcome.aborted ↔
      ∃ p < s._nprocs, p ≠ 0 ∧ ¬ SliceClean (key1 s) (sliceOf (afterProc s).2 p) := by
  obtain ⟨hA, hB, hC, hD⟩ := elemPass_cases s.meshElements (afterProc s).1._particles
    (afterProc s).1._printList (afterProc s).2 s._nprocs
  rw [UpdateLine_unfold]
  constructor
  · intro h
    split at h
    · rename_i hst
      exact hB hst
    · exact Outcome.noConfusion h
    · split at h
      · exact Outcome.noConfusion h
      · exact Outcome.noConfusion h
  · rintro ⟨p, hp, hp0, hc⟩
    split
    · rfl
    · rename_i hst
      obtain ⟨q, hq, hq'⟩ := hC hst
      exact absurd (hr q hq) hq'
    · rename_i hst
      exact absurd ((hD hst p hp).2 hp0) hc

/-! ## The arrays after the reorder by proc -/

theorem range_map_getD (ps : List Marker) :
    (List.range ps.length).map (fun j => ps.getD j default) = ps := by
  apply List.ext_getElem (by simp)
  intro i h1 h2
  simp [List.getElem?_eq_getElem h2]

theorem afterProc_fst (s : Line) :
    (afterProc s).1 =
      { _particles := (placeAll s._particles s._printList (procOrder s._particles s._nprocs) 0
          (s._particles, s._printList)).1
        _printList := (placeAll s._particles s._printList (procOrder s._particles s._nprocs) 0
          (s._particles, s._printList)).2
        counter := (procOrder s._particles s._nprocs).length } := by
  unfold afterProc
  rw [procPass_fst, foldl_place_eq]
  simp

/-- The markers after the reorder by proc: the bucketed slots, then what the pass left in place. -/
theorem afterProc_particles (s : Line) :
    (afterProc s).1._particles =
      (procOrder s._particles s._nprocs).map (fun j => s._particles.getD j default) ++
        s._particles.drop (procOrder s._particles s._nprocs).length := by
  rw [afterProc_fst]
  simp only
  rw [placeAll_fst _ _ _ _ _ (by simpa using procOrder_length_le _ _)]
  simp

theorem afterProc_particles_length (s : Line) :
    (afterProc s).1._particles.length = s._particles.length := by
  rw [afterProc_fst]
  exact (placeAll_length _ _ _ _ _).1

theorem afterProc_printList_length (s : Line) :
    (afterProc s).1._printList.length = s._printList.length := by
  rw [afterProc_fst]
  exact (placeAll_length _ _ _ _ _).2

theorem afterProc_mem (s : Line) (m : Marker) (h : m ∈ (afterProc s).1._particles) :
    m ∈ s._particles := by
  rw [afterProc_particles, List.mem_append] at h
  rcases h with h | h
  · rw [List.mem_map] at h
    obtain ⟨j, hj, rfl⟩ := h
    have hj' := ((mem_procOrder _ _ _).mp hj).1
    rw [List.getD_eq_getElem _ _ hj']
    exact List.getElem_mem hj'
  · exact List.mem_of_mem_drop h

theorem afterProc_offs_length (s : Line) : (afterProc s).2.length = s._markerOffset.length := by
  unfold afterProc
  exact procPass_snd_length _ _ _ _ _

/-- The offsets after the reorder by proc. -/
theorem afterProc_offs (s : Line) (h : s.WF) (p : Nat) (hp : p ≤ s._nprocs) :
    (afterProc s).2.getD p 0 =
      if p < s._nprocs then (procOrder s._particles p).length else s._particles.length := by
  obtain ⟨_, _, h3, h4, _⟩ := h
  have hlt : p < s._markerOffset.length := by omega
  rw [List.getD_eq_getElem?_getD]
  unfold afterProc
  rw [procPass_snd]
  by_cases h1 : p < s._nprocs
  · simp [h1, List.getElem?_eq_getElem hlt]
  · have : p = s._nprocs := by omega
    subst this
    simp only [h1, if_false]
    rw [← List.getD_eq_getElem?_getD]
    exact h4

theorem afterProc_offs_zero (s : Line) (h : s.WF) : (afterProc s).2.getD 0 0 = 0 := by
  rw [afterProc_offs s h 0 (by omega), if_pos (show 0 < s._nprocs from h.1)]
  rfl

theorem afterProc_offs_last (s : Line) (h : s.WF) :
    (afterProc s).2.getD s._nprocs 0 = s._particles.length := by
  rw [afterProc_offs s h _ (Nat.le_refl _), if_neg (by omega)]

theorem afterProc_offs_mono (s : Line) (h : s.WF) (p q : Nat) (hpq : p ≤ q) (hq : q ≤ s._nprocs) :
    (afterProc s).2.getD p 0 ≤ (afterProc s).2.getD q 0 := by
  rw [afterProc_offs s h p (by omega), afterProc_offs s h q hq]
  by_cases h1 : q < s._nprocs
  · rw [if_pos h1, if_pos (by omega)]
    exact procOrder_mono _ _ _ hpq
  · rw [if_neg h1]
    split
    · exact procOrder_length_le _ _
    · exact Nat.le_refl _

/-- With every process below `_nprocs`, the offset of `p` counts the markers of the processes
below `p`. -/
theorem afterProc_offs_good (s : Line) (h : s.WF) (hproc : ∀ m ∈ s._particles, m._mproc < s._nprocs)
    (p : Nat) (hp : p ≤ s._nprocs) :
    (afterProc s).2.getD p 0 = (procOrder s._particles p).length := by
  rw [afterProc_offs s h p hp]
  split
  · rfl
  · have : p = s._nprocs := by omega
    subst this
    simpa using (procOrder_perm _ _ hproc).length_eq.symm

/-! ## What every returning `UpdateLine` guarantees -/

theorem placeAll_fst_getElem? (ps : List Marker) (pl : List Nat) (order : List Nat) :
    ∀ (pos : Nat) (ab : List Marker × List Nat), pos + order.length ≤ ab.1.length → ∀ k : Nat,
      (placeAll ps pl order pos ab).1[k]? =
        if pos ≤ k ∧ k < pos + order.length then
          some (ps.getD (order.getD (k - pos) 0) default)
        else ab.1[k]? := by
  induction order with
  | nil =>
    intro pos ab _ k
    have : ¬ (pos ≤ k ∧ k < pos + 0) := by omega
    simp only [placeAll, List.length_nil]
    rw [if_neg this]
  | cons j rest ih =>
    intro pos ab h k
    simp only [List.length_cons] at h
    simp only [placeAll, List.length_cons]
    rw [ih (pos + 1) _ (by simp; omega)]
    by_cases h1 : pos + 1 ≤ k ∧ k < pos + 1 + rest.length
    · have h2 : pos ≤ k ∧ k < pos + (rest.length + 1) := by omega
      rw [if_pos h1, if_pos h2]
      have e : k - pos = (k - (pos + 1)) + 1 := by omega
      rw [e, List.getD_cons_succ]
    · rw [if_neg h1]
      by_cases h3 : k = pos
      · subst h3
        have h2 : k ≤ k ∧ k < k + (rest.length + 1) := by omega
        rw [if_pos h2]
        simp only [Nat.sub_self, List.getD_cons_zero]
        rw [List.getElem?_set_self (by omega)]
      · have h2 : ¬ (pos ≤ k ∧ k < pos + (rest.length + 1)) := by omega
        rw [if_neg h2]
        simp only
        rw [List.getElem?_set_ne (fun e => h3 e.symm)]

/-- The slices of the processes below `P` cover the slots below the offset of `P`. -/
theorem slices_cover (s : Line) (h : s.WF) (P : Nat) (hP : P ≤ s._nprocs) (i : Nat)
    (hi : i < (afterProc s).2.getD P 0) : ∃ q < P, i ∈ sliceOf (afterProc s).2 q := by
  induction P with
  | zero => rw [afterProc_offs_zero s h] at hi; omega
  | succ P ih =>
    by_cases h1 : i < (afterProc s).2.getD P 0
    · obtain ⟨q, hq, hm⟩ := ih (by omega) h1
      exact ⟨q, by omega, hm⟩
    · exact ⟨P, by omega, (mem_sliceOf _ _ _).mpr ⟨by omega, hi⟩⟩

theorem slices_disjoint (s : Line) (h : s.WF) (p q k : Nat) (hp : p < s._nprocs)
    (hq : q < s._nprocs) (h1 : k ∈ sliceOf (afterProc s).2 p) (h2 : k ∈ sliceOf (afterProc s).2 q) :
    p = q := by
  rw [mem_sliceOf] at h1 h2
  by_contra hne
  rcases Nat.lt_or_gt_of_ne hne with hlt | hgt
  · have := afterProc_offs_mono s h (p + 1) q (by omega) (by omega)
    omega
  · have := afterProc_offs_mono s h (q + 1) p (by omega) (by omega)
    omega

theorem sliceOf_lt (s : Line) (h : s.WF) (p k : Nat) (hp : p < s._nprocs)
    (h1 : k ∈ sliceOf (afterProc s).2 p) : k < s._particles.length := by
  rw [mem_sliceOf] at h1
  have := afterProc_offs_mono s h (p + 1) s._nprocs (by omega) (Nat.le_refl _)
  rw [afterProc_offs_last s h] at this
  omega

/-- When the element pass runs to its end, every marker outside the domain sits in the slice of
process 0 after the reorder by proc. -/
theorem outside_in_slice_zero (s : Line) (h : s.WF)
    (hok : SlicesOk (key1 s) s.meshElements (afterProc s).2 s._nprocs)
    (i : Nat) (hi : i < s._particles.length) (hk : key1 s i = UINT_MAX) :
    i ∈ sliceOf (afterProc s).2 0 := by
  obtain ⟨q, hq, hm⟩ := slices_cover s h s._nprocs (Nat.le_refl _) i
    (by rw [afterProc_offs_last s h]; exact hi)
  by_cases h0 : q = 0
  · subst h0; exact hm
  · exact absurd hk ((hok q hq).2 h0 i hm)

theorem arraysUpTo_length (ps : List Marker) (pl : List Nat) (offs : List Nat) (el : List Bool)
    (p : Nat) :
    (arraysUpTo ps pl offs el p).1.length = ps.length ∧
      (arraysUpTo ps pl offs el p).2.length = pl.length := by
  induction p with
  | zero => exact ⟨rfl, rfl⟩
  | succ p ih =>
    simp only [arraysUpTo]
    have := placeAll_length ps pl
      (sliceOrder (keyOf ps) ps.length (flagsUpTo (keyOf ps) offs el p) offs p) (offs.getD p 0)
      (arraysUpTo ps pl offs el p)
    exact ⟨this.1.trans ih.1, this.2.trans ih.2⟩

theorem afterElem_length (s : Line) :
    (afterElem s).1.length = s._particles.length ∧ (afterElem s).2.length = s._printList.length := by
  unfold afterElem
  have := arraysUpTo_length (afterProc s).1._particles (afterProc s).1._printList (afterProc s).2
    (List.replicate s.meshElements false) s._nprocs
  rw [afterProc_particles_length, afterProc_printList_length] at this
  exact this

/-- The order of the moves of process `p` in `UpdateLine`. -/
theorem sliceOrder1_facts (s : Line) (h : s.WF)
    (hok : SlicesOk (key1 s) s.meshElements (afterProc s).2 s._nprocs) (p : Nat)
    (hp : p < s._nprocs) (el : List Bool) :
    (sliceOrder (key1 s) s._particles.length el (afterProc s).2 p).Nodup ∧
    (∀ j ∈ sliceOrder (key1 s) s._particles.length el (afterProc s).2 p,
      j ∈ sliceOf (afterProc s).2 p) ∧
    (afterProc s).2.getD p 0 +
      (sliceOrder (key1 s) s._particles.length el (afterProc s).2 p).length ≤
        (afterProc s).2.getD (p + 1) 0 := by
  have hout : p = 0 → ∀ i < s._particles.length, key1 s i = UINT_MAX →
      i ∈ sliceOf (afterProc s).2 0 := fun _ i hi hk => outside_in_slice_zero s h hok i hi hk
  obtain ⟨h1, h2⟩ := sliceOrder_nodup_subset (key1 s) s._particles.length el (afterProc s).2 p hout
  refine ⟨h1, h2, ?_⟩
  have h3 := sliceOrder_length_le (key1 s) s._particles.length el (afterProc s).2 p hout
  have h4 := afterProc_offs_mono s h p (p + 1) (by omega) (by omega)
  omega

/-- Every slot of a slice holds, after the reorder by element, a marker that the reorder by proc
had put into the same slice. -/
theorem afterElem_slice (s : Line) (h : s.WF)
    (hok : SlicesOk (key1 s) s.meshElements (afterProc s).2 s._nprocs) :
    ∀ P, P ≤ s._nprocs → ∀ q < s._nprocs, ∀ k ∈ sliceOf (afterProc s).2 q,
      ∃ j ∈ sliceOf (afterProc s).2 q,
        (arraysUpTo (afterProc s).1._particles (afterProc s).1._printList (afterProc s).2
          (List.replicate s.meshElements false) P).1[k]? =
        some ((afterProc s).1._particles.getD j default) := by
  intro P
  induction P with
  | zero =>
    intro _ q hq k hk
    refine ⟨k, hk, ?_⟩
    have hlt := sliceOf_lt s h q k hq hk
    rw [← afterProc_particles_length] at hlt
    simp only [arraysUpTo]
    rw [List.getElem?_eq_getElem hlt, List.getD_eq_getElem _ _ hlt]
  | succ P ih =>
    intro hP q hq k hk
    simp only [arraysUpTo]
    have hN := afterProc_particles_length s
    obtain ⟨_, h2, h3⟩ := sliceOrder1_facts s h hok P (by omega)
      (flagsUpTo (key1 s) (afterProc s).2 (List.replicate s.meshElements false) P)
    have hle := afterProc_offs_mono s h (P + 1) s._nprocs (by omega) (Nat.le_refl _)
    rw [afterProc_offs_last s h] at hle
    rw [← hN] at h2 h3
    rw [placeAll_fst_getElem?]
    · split
      · rename_i hin
        have hmem : k ∈ sliceOf (afterProc s).2 P := (mem_sliceOf _ _ _).mpr (by
          unfold key1 at h3; omega)
        have hqP := slices_disjoint s h q P k hq (by omega) hk hmem
        subst hqP
        refine ⟨_, h2 _ ?_, rfl⟩
        unfold key1
        rw [List.getD_eq_getElem _ _ (by omega)]
        exact List.getElem_mem _
      · exact ih (by omega) q hq k hk
    · rw [(arraysUpTo_length _ _ _ _ _).1]
      unfold key1 at h3
      omega

/-! ## The reorder by proc when every process is below `_nprocs` -/

theorem procOrder_getD_mem (ps : List Marker) (P p k : Nat) (hp : p < P)
    (h1 : (procOrder ps p).length ≤ k) (h2 : k < (procOrder ps (p + 1)).length) :
    (procOrder ps P).getD k 0 ∈
      (List.range ps.length).filter (fun j => decide ((ps.getD j default)._mproc = p)) := by
  induction P with
  | zero => omega
  | succ P ih =>
    by_cases e : p = P
    · subst e
      simp only [procOrder, List.length_append] at h2 ⊢
      rw [List.getD_eq_getElem _ _ (by rw [List.length_append]; omega),
        List.getElem_append_right h1]
      exact List.getElem_mem _
    · have hlt : p < P := by omega
      have hk : k < (procOrder ps P).length :=
        Nat.lt_of_lt_of_le h2 (procOrder_mono ps (p + 1) P (by omega))
      have := ih hlt
      simp only [procOrder]
      rw [List.getD_eq_getElem _ _ (by rw [List.length_append]; omega),
        List.getElem_append_left hk]
      rw [List.getD_eq_getElem _ _ hk] at this
      exact this

/-- After the reorder by proc the slots from `|procOrder p|` to `|procOrder (p + 1)|` hold
markers of process `p`. -/
theorem afterProc_bucket (s : Line) (p k : Nat) (hp : p < s._nprocs)
    (h1 : (procOrder s._particles p).length ≤ k)
    (h2 : k < (procOrder s._particles (p + 1)).length) :
    ((afterProc s).1._particles.getD k default)._mproc = p ∧
      (afterProc s).1._particles.getD k default ∈ s._particles := by
  have hk : k < (procOrder s._particles s._nprocs).length :=
    Nat.lt_of_lt_of_le h2 (procOrder_mono _ (p + 1) _ (by omega))
  have hm := procOrder_getD_mem s._particles s._nprocs p k hp h1 h2
  simp only [List.mem_filter, List.mem_range, decide_eq_true_eq] at hm
  have e : (afterProc s).1._particles.getD k default =
      s._particles.getD ((procOrder s._particles s._nprocs).getD k 0) default := by
    rw [afterProc_particles, List.getD_eq_getElem?_getD,
      List.getElem?_append_left (by simpa using hk)]
    rw [List.getElem?_map, List.getElem?_eq_getElem hk, List.getD_eq_getElem _ _ hk]
    rfl
  rw [e]
  refine ⟨hm.2, ?_⟩
  rw [List.getD_eq_getElem _ _ hm.1]
  exact List.getElem_mem _

theorem afterProc_slice_proc (s : Line) (h : s.WF)
    (hproc : ∀ m ∈ s._particles, m._mproc < s._nprocs) (p k : Nat) (hp : p < s._nprocs)
    (hk : k ∈ sliceOf (afterProc s).2 p) :
    ((afterProc s).1._particles.getD k default)._mproc = p ∧
      (afterProc s).1._particles.getD k default ∈ s._particles := by
  rw [mem_sliceOf, afterProc_offs_good s h hproc p (by omega),
    afterProc_offs_good s h hproc (p + 1) (by omega)] at hk
  exact afterProc_bucket s p k hp hk.1 hk.2

theorem afterProc_perm (s : Line) (hproc : ∀ m ∈ s._particles, m._mproc < s._nprocs) :
    (afterProc s).1._particles.Perm s._particles := by
  rw [afterProc_particles]
  have hp := procOrder_perm _ _ hproc
  have hl : (procOrder s._particles s._nprocs).length = s._particles.length := by
    simpa using hp.length_eq
  rw [hl, List.drop_length, List.append_nil]
  have := hp.map (fun j => s._particles.getD j default)
  rwa [range_map_getD] at this

/-! ## The reorder by element when markers of one element share their process -/

/-- Under `Partitioned`, when the pass reaches the slice of `p` the flag of every found element
of that slice is still unset. -/
theorem fresh_in_slice (s : Line) (h : s.WF) (hpart : s.Partitioned)
    (hok : SlicesOk (key1 s) s.meshElements (afterProc s).2 s._nprocs) (p j : Nat)
    (hp : p < s._nprocs) (hj : j ∈ sliceOf (afterProc s).2 p) (hne : key1 s j ≠ UINT_MAX) :
    fresh (flagsUpTo (key1 s) (afterProc s).2 (List.replicate s.meshElements false) p)
      (key1 s j) = true := by
  rw [fresh_flagsUpTo, fresh_replicate]
  refine ⟨⟨hne, ?_⟩, ?_⟩
  · rcases (hok p hp).1 j hj with h1 | h1
    · exact absurd h1 hne
    · exact h1
  · intro q hq i hi heq
    obtain ⟨h1, h2⟩ := afterProc_slice_proc s h hpart.1 q i (by omega) hi
    obtain ⟨h3, h4⟩ := afterProc_slice_proc s h hpart.1 p j hp hj
    have := hpart.2 _ h2 _ h4 heq (by
      intro e
      apply hne
      rw [← heq]
      exact e)
    omega

/-- A filter over all slots that can only keep slots of the slice of process 0. -/
theorem range_filter_slice_zero (s : Line) (h : s.WF) (key : Nat → Nat)
    (hkey : ∀ i < s._particles.length, key i = UINT_MAX → i ∈ sliceOf (afterProc s).2 0) :
    (List.range s._particles.length).filter (fun i => decide (key i = UINT_MAX)) =
      (sliceOf (afterProc s).2 0).filter (fun i => decide (key i = UINT_MAX)) := by
  have h0 := afterProc_offs_zero s h
  have hle := afterProc_offs_mono s h 1 s._nprocs h.1 (Nat.le_refl _)
  rw [afterProc_offs_last s h] at hle
  have e : List.range s._particles.length =
      sliceOf (afterProc s).2 0 ++
        List.range' ((afterProc s).2.getD 1 0) (s._particles.length - (afterProc s).2.getD 1 0) := by
    have e1 : sliceOf (afterProc s).2 0 = List.range' 0 ((afterProc s).2.getD 1 0) := by
      unfold sliceOf
      rw [h0]
      rfl
    rw [e1, List.range_eq_range']
    have e2 := List.range'_append_1 0 ((afterProc s).2.getD 1 0)
      (s._particles.length - (afterProc s).2.getD 1 0)
    rw [Nat.zero_add] at e2
    rw [e2]
    congr 1
    omega
  rw [e, List.filter_append]
  have : (List.range' ((afterProc s).2.getD 1 0)
      (s._particles.length - (afterProc s).2.getD 1 0)).filter
      (fun i => decide (key i = UINT_MAX)) = [] := by
    rw [List.filter_eq_nil_iff]
    intro i hi
    rw [List.mem_range'_1] at hi
    simp only [decide_eq_true_eq]
    intro hk
    have := (mem_sliceOf _ 0 _).mp (hkey i (by omega) hk)
    rw [Nat.zero_add] at this
    omega
  rw [this, List.append_nil]

theorem range_filter_outside (s : Line) (h : s.WF)
    (hok : SlicesOk (key1 s) s.meshElements (afterProc s).2 s._nprocs) :
    (List.range s._particles.length).filter (fun i => decide (key1 s i = UINT_MAX)) =
      (sliceOf (afterProc s).2 0).filter (fun i => decide (key1 s i = UINT_MAX)) :=
  range_filter_slice_zero s h (key1 s) (fun i hi hk => outside_in_slice_zero s h hok i hi hk)

/-- Under `Partitioned` the element pass moves every slot of a slice exactly once. -/
theorem sliceOrder_perm (s : Line) (h : s.WF) (hpart : s.Partitioned)
    (hok : SlicesOk (key1 s) s.meshElements (afterProc s).2 s._nprocs) (p : Nat)
    (hp : p < s._nprocs) :
    (sliceOrder (key1 s) s._particles.length
      (flagsUpTo (key1 s) (afterProc s).2 (List.replicate s.meshElements false) p)
      (afterProc s).2 p).Perm (sliceOf (afterProc s).2 p) := by
  have h1 := ordOf_perm (key1 s) (sliceOf (afterProc s).2 p)
    (flagsUpTo (key1 s) (afterProc s).2 (List.replicate s.meshElements false) p)
  have h2 : (sliceOf (afterProc s).2 p).filter (fun j =>
      fresh (flagsUpTo (key1 s) (afterProc s).2 (List.replicate s.meshElements false) p) (key1 s j))
      = (sliceOf (afterProc s).2 p).filter (fun j => !decide (key1 s j = UINT_MAX)) := by
    apply List.filter_congr
    intro j hj
    by_cases hne : key1 s j = UINT_MAX
    · have : fresh (flagsUpTo (key1 s) (afterProc s).2 (List.replicate s.meshElements false) p)
          (key1 s j) = false := by
        rw [← Bool.not_eq_true]
        intro hf
        exact fresh_ne _ _ hf hne
      rw [this]
      simp [hne]
    · rw [fresh_in_slice s h hpart hok p j hp hj hne]
      simp [hne]
  rw [h2] at h1
  unfold sliceOrder
  split
  · rename_i hc
    rw [range_filter_outside s h hok]
    have hp0 : p = 0 := hc.1
    subst hp0
    have h3 := List.filter_append_perm (fun i => decide (key1 s i = UINT_MAX))
      (sliceOf (afterProc s).2 0)
    exact ((h1.append_right _).trans List.perm_append_comm).trans h3
  · rename_i hc
    have hcl : SliceClean (key1 s) (sliceOf (afterProc s).2 p) := by
      by_cases hp0 : p = 0
      · by_contra hcl
        exact hc ⟨hp0, hcl⟩
      · exact (hok p hp).2 hp0
    rw [List.append_nil]
    refine h1.trans (List.Perm.of_eq ?_)
    rw [List.filter_eq_self]
    intro j hj
    simp [hcl j hj]

/-! ## A pass that moves every slot exactly once -/

theorem map_indexOf_self (l : List Nat) (h : l.Nodup) :
    l.map (fun v => List.indexOf v l) = List.range l.length := by
  apply List.ext_getElem (by simp)
  intro i h1 h2
  simp only [List.getElem_map, List.getElem_range]
  exact List.indexOf_getElem h i (by simpa using h1)

/-- The arrays after a pass whose moves are a permutation of all slots. -/
theorem placeAll_reloc (ps : List Marker) (pl order : List Nat)
    (ho : order.Perm (List.range ps.length)) (hpl : pl.Perm (List.range ps.length)) :
    placeAll ps pl order 0 (ps, pl) =
      (order.map (fun j => ps.getD j default), pl.map (fun v => List.indexOf v order)) := by
  have hlen : order.length = ps.length := by simpa using ho.length_eq
  have hpln : pl.length = ps.length := by simpa using hpl.length_eq
  apply Prod.ext
  · rw [placeAll_fst _ _ _ _ _ (by simp [hlen])]
    simp [hlen]
  · have hnd : pl.Nodup := hpl.nodup_iff.mpr (List.nodup_range _)
    have hon : order.Nodup := ho.nodup_iff.mpr (List.nodup_range _)
    apply List.ext_getElem?
    intro i
    by_cases hi : i < pl.length
    · rw [placeAll_snd ps pl hnd order hon 0 (ps, pl) rfl i hi]
      have hm : pl[i] ∈ order := by
        rw [ho.mem_iff, ← hpl.mem_iff]
        exact List.getElem_mem hi
      rw [if_pos hm, List.getElem?_map, List.getElem?_eq_getElem hi]
      simp
    · have h1 : (placeAll ps pl order 0 (ps, pl)).2.length ≤ i := by
        rw [(placeAll_length _ _ _ _ _).2]; simpa using hi
      rw [List.getElem?_eq_none_iff.mpr h1, List.getElem?_eq_none_iff.mpr (by simpa using hi)]

/-- Relabelling a bijection by the positions in a permutation gives a bijection. -/
theorem reloc_printList_perm (N : Nat) (pl order : List Nat)
    (ho : order.Perm (List.range N)) (hpl : pl.Perm (List.range N)) :
    (pl.map (fun v => List.indexOf v order)).Perm (List.range N) := by
  have hon : order.Nodup := ho.nodup_iff.mpr (List.nodup_range _)
  have h1 := (hpl.trans ho.symm).map (fun v => List.indexOf v order)
  rw [map_indexOf_self order hon] at h1
  have hlen : order.length = N := by simpa using ho.length_eq
  rwa [hlen] at h1

theorem reloc_particles_perm (ps : List Marker) (order : List Nat)
    (ho : order.Perm (List.range ps.length)) :
    (order.map (fun j => ps.getD j default)).Perm ps := by
  have := ho.map (fun j => ps.getD j default)
  rwa [range_map_getD] at this

/-- After such a pass the label of `i` points to the marker it pointed to before. -/
theorem reloc_track (ps : List Marker) (pl order : List Nat)
    (ho : order.Perm (List.range ps.length)) (hpl : pl.Perm (List.range ps.length))
    (i : Nat) (hi : i < ps.length) :
    (order.map (fun j => ps.getD j default)).getD
        ((pl.map (fun v => List.indexOf v order)).getD i 0) default =
      ps.getD (pl.getD i 0) default := by
  have hpln : pl.length = ps.length := by simpa using hpl.length_eq
  have hlen : order.length = ps.length := by simpa using ho.length_eq
  have hi' : i < pl.length := by omega
  have hm : pl[i] ∈ order := by
    rw [ho.mem_iff, ← hpl.mem_iff]
    exact List.getElem_mem hi'
  have ht : List.indexOf pl[i] order < order.length := List.indexOf_lt_length.mpr hm
  rw [List.getD_eq_getElem (pl.map _) 0 (by simpa using hi'), List.getElem_map,
    List.getD_eq_getElem _ _ (by simpa using ht), List.getElem_map,
    List.getElem_indexOf ht, List.getD_eq_getElem pl 0 hi']

/-! ## The two passes of `UpdateLine` under `Partitioned` -/

theorem arraysUpTo_succ1 (s : Line) (p : Nat) :
    arraysUpTo (afterProc s).1._particles (afterProc s).1._printList (afterProc s).2
        (List.replicate s.meshElements false) (p + 1) =
      placeAll (afterProc s).1._particles (afterProc s).1._printList
        (sliceOrder (key1 s) s._particles.length
          (flagsUpTo (key1 s) (afterProc s).2 (List.replicate s.meshElements false) p)
          (afterProc s).2 p)
        ((afterProc s).2.getD p 0)
        (arraysUpTo (afterProc s).1._particles (afterProc s).1._printList (afterProc s).2
          (List.replicate s.meshElements false) p) := by
  simp only [arraysUpTo]
  rw [afterProc_particles_length]
  rfl

theorem elemOrder1_succ (s : Line) (p : Nat) :
    elemOrder1 s (p + 1) = elemOrder1 s p ++
      sliceOrder (key1 s) s._particles.length
        (flagsUpTo (key1 s) (afterProc s).2 (List.replicate s.meshElements false) p)
        (afterProc s).2 p := rfl

/-- Under `Partitioned` the element pass up to process `p` has moved exactly the slots below the
offset of `p`. -/
theorem elemOrder1_perm (s : Line) (h : s.WF) (hpart : s.Partitioned)
    (hok : SlicesOk (key1 s) s.meshElements (afterProc s).2 s._nprocs) (p : Nat)
    (hp : p ≤ s._nprocs) :
    (elemOrder1 s p).Perm (List.range ((afterProc s).2.getD p 0)) := by
  induction p with
  | zero => rw [afterProc_offs_zero s h]; exact List.Perm.refl _
  | succ p ih =>
    rw [elemOrder1_succ]
    have h1 := sliceOrder_perm s h hpart hok p (by omega)
    have h2 := (ih (by omega)).append h1
    refine h2.trans (List.Perm.of_eq ?_)
    unfold sliceOf
    rw [List.range_eq_range', List.range_eq_range']
    have e := List.range'_append_1 0 ((afterProc s).2.getD p 0)
      ((afterProc s).2.getD (p + 1) 0 - (afterProc s).2.getD p 0)
    rw [Nat.zero_add] at e
    rw [e]
    congr 1
    have := afterProc_offs_mono s h p (p + 1) (by omega) hp
    omega

theorem arraysUpTo_eq_placeAll (s : Line) (h : s.WF) (hpart : s.Partitioned)
    (hok : SlicesOk (key1 s) s.meshElements (afterProc s).2 s._nprocs) (p : Nat)
    (hp : p ≤ s._nprocs) :
    arraysUpTo (afterProc s).1._particles (afterProc s).1._printList (afterProc s).2
        (List.replicate s.meshElements false) p =
      placeAll (afterProc s).1._particles (afterProc s).1._printList (elemOrder1 s p) 0
        ((afterProc s).1._particles, (afterProc s).1._printList) := by
  induction p with
  | zero => rfl
  | succ p ih =>
    rw [arraysUpTo_succ1, ih (by omega), elemOrder1_succ, placeAll_append, Nat.zero_add]
    have := (elemOrder1_perm s h hpart hok p (by omega)).length_eq
    rw [List.length_range] at this
    rw [this]

/-- Under `Partitioned` each pass of a returning `UpdateLine` is a relocation along a permutation
of the slots. -/
theorem passes_reloc (s : Line) (h : s.WF) (hpart : s.Partitioned)
    (hpl : s._printList.Perm (List.range s._particles.length))
    (hok : SlicesOk (key1 s) s.meshElements (afterProc s).2 s._nprocs) :
    (procOrder s._particles s._nprocs).Perm (List.range s._particles.length) ∧
    (elemOrder1 s s._nprocs).Perm (List.range s._particles.length) ∧
    (afterProc s).1._particles =
      (procOrder s._particles s._nprocs).map (fun j => s._particles.getD j default) ∧
    (afterProc s).1._printList =
      s._printList.map (fun v => List.indexOf v (procOrder s._particles s._nprocs)) ∧
    (afterElem s).1 =
      (elemOrder1 s s._nprocs).map (fun j => (afterProc s).1._particles.getD j default) ∧
    (afterElem s).2 =
      (afterProc s).1._printList.map (fun v => List.indexOf v (elemOrder1 s s._nprocs)) := by
  have ho1 := procOrder_perm s._particles s._nprocs hpart.1
  have ho2 := elemOrder1_perm s h hpart hok s._nprocs (Nat.le_refl _)
  rw [afterProc_offs_last s h] at ho2
  have hr1 := placeAll_reloc s._particles s._printList _ ho1 hpl
  have e1 : (afterProc s).1._particles =
      (procOrder s._particles s._nprocs).map (fun j => s._particles.getD j default) := by
    rw [afterProc_fst]; simp only; rw [hr1]
  have e2 : (afterProc s).1._printList =
      s._printList.map (fun v => List.indexOf v (procOrder s._particles s._nprocs)) := by
    rw [afterProc_fst]; simp only; rw [hr1]
  have hN := afterProc_particles_length s
  have hpl1 : (afterProc s).1._printList.Perm (List.range (afterProc s).1._particles.length) := by
    rw [hN, e2]
    exact reloc_printList_perm _ _ _ ho1 hpl
  have ho2' : (elemOrder1 s s._nprocs).Perm (List.range (afterProc s).1._particles.length) := by
    rw [hN]; exact ho2
  have hr2 := placeAll_reloc (afterProc s).1._particles (afterProc s).1._printList _ ho2' hpl1
  have e3 : afterElem s = _ := (arraysUpTo_eq_placeAll s h hpart hok s._nprocs (Nat.le_refl _)).trans hr2
  refine ⟨ho1, ho2, e1, e2, ?_, ?_⟩
  · rw [e3]
  · rw [e3]

/-! ## The fill of `_line` -/

theorem readAll_some (read : Nat → Option (List ℚ)) (js : List Nat) (cs : List (List ℚ))
    (h : readAll read js = some cs) : js.map read = cs.map some := by
  induction js generalizing cs with
  | nil =>
    simp only [readAll, Option.some.injEq] at h
    subst h
    rfl
  | cons j rest ih =>
    simp only [readAll] at h
    split at h
    · exact Option.noConfusion h
    · rename_i c hc
      split at h
      · exact Option.noConfusion h
      · rename_i cs1 hcs
        simp only [Option.some.injEq] at h
        subst h
        simp [hc, ih cs1 hcs]

theorem readAll_isSome (read : Nat → Option (List ℚ)) (js : List Nat)
    (h : ∀ j ∈ js, ∃ c, read j = some c) : ∃ cs, readAll read js = some cs := by
  induction js with
  | nil => exact ⟨[], rfl⟩
  | cons j rest ih =>
    obtain ⟨c, hc⟩ := h j (List.mem_cons_self _ _)
    obtain ⟨cs, hcs⟩ := ih (fun i hi => h i (List.mem_cons_of_mem _ hi))
    exact ⟨c :: cs, by simp [readAll, hc, hcs]⟩

theorem coordsAt_some (ps : List Marker) (pl : List Nat) (j : Nat) (c : List ℚ)
    (h : coordsAt ps pl j = some c) :
    j < pl.length ∧ pl.getD j 0 < ps.length ∧ c = (ps.getD (pl.getD j 0) default)._x := by
  unfold coordsAt at h
  split at h
  · exact Option.noConfusion h
  · rename_i k hk
    split at h
    · exact Option.noConfusion h
    · rename_i m hm
      simp only [Option.some.injEq] at h
      rw [List.getElem?_eq_some_iff] at hk hm
      obtain ⟨hk1, hk2⟩ := hk
      obtain ⟨hm1, hm2⟩ := hm
      rw [List.getD_eq_getElem _ _ hk1, hk2, List.getD_eq_getElem _ _ hm1, hm2]
      exact ⟨hk1, hm1, h.symm⟩

theorem coordsAt_of_lt (ps : List Marker) (pl : List Nat) (j : Nat) (hj : j < pl.length)
    (hk : pl.getD j 0 < ps.length) :
    coordsAt ps pl j = some (ps.getD (pl.getD j 0) default)._x := by
  unfold coordsAt
  rw [List.getD_eq_getElem _ _ hj] at hk ⊢
  rw [List.getElem?_eq_getElem hj]
  simp only
  rw [List.getElem?_eq_getElem hk, List.getD_eq_getElem _ _ hk]

/-- What a successful fill of `_line` stores. -/
theorem fillLine_some (ps : List Marker) (pl : List Nat) (l : List (List ℚ))
    (hlen : pl.length = ps.length) (h : fillLine ps pl = some l) :
    0 < ps.length ∧ l.length = ps.length + 1 ∧
    (∀ j < ps.length, pl.getD j 0 < ps.length ∧
      l.getD j [] = (ps.getD (pl.getD j 0) default)._x) ∧
    l.getD ps.length [] = l.getD 0 [] := by
  unfold fillLine at h
  split at h
  · exact Option.noConfusion h
  · rename_i body hbody
    split at h
    · exact Option.noConfusion h
    · rename_i last hlast
      simp only [Option.some.injEq] at h
      subst h
      have hb := readAll_some _ _ _ hbody
      have hbl : body.length = ps.length := by
        have := congrArg List.length hb
        simpa using this.symm
      obtain ⟨h0, _, hl0⟩ := coordsAt_some ps pl 0 last hlast
      have hpos : 0 < ps.length := by omega
      have hj : ∀ j < ps.length, pl.getD j 0 < ps.length ∧
          body.getD j [] = (ps.getD (pl.getD j 0) default)._x := by
        intro j hj
        have := congrArg (fun x => x[j]?) hb
        simp only [List.getElem?_map, List.getElem?_range hj, Option.map_some'] at this
        have hjb : j < body.length := by omega
        rw [List.getElem?_eq_getElem hjb, Option.map_some'] at this
        obtain ⟨_, h2, h3⟩ := coordsAt_some ps pl j _ (Option.some.inj this)
        refine ⟨h2, ?_⟩
        rw [List.getD_eq_getElem _ _ hjb]
        exact h3
      refine ⟨hpos, by simp [hbl], ?_, ?_⟩
      · intro j hj'
        refine ⟨(hj j hj').1, ?_⟩
        rw [List.getD_eq_getElem?_getD, List.getElem?_append_left (by omega),
          ← List.getD_eq_getElem?_getD]
        exact (hj j hj').2
      · have e1 : (body ++ [last]).getD 0 [] = body.getD 0 [] := by
          rw [List.getD_eq_getElem?_getD, List.getElem?_append_left (by omega),
            ← List.getD_eq_getElem?_getD]
        have e2 : (body ++ [last]).getD ps.length [] = last := by
          rw [List.getD_eq_getElem?_getD, List.getElem?_append_right (by omega), hbl]
          simp
        rw [e1, e2, (hj 0 hpos).2, hl0]

/-- The fill of `_line` succeeds on a non-empty line whose labels are valid slots. -/
theorem fillLine_isSome (ps : List Marker) (pl : List Nat) (hlen : pl.length = ps.length)
    (hpos : 0 < ps.length) (hpl : ∀ v ∈ pl, v < ps.length) : ∃ l, fillLine ps pl = some l := by
  have hc : ∀ j < ps.length, ∃ c, coordsAt ps pl j = some c := by
    intro j hj
    have hj' : j < pl.length := by omega
    refine ⟨_, coordsAt_of_lt ps pl j hj' ?_⟩
    rw [List.getD_eq_getElem _ _ hj']
    exact hpl _ (List.getElem_mem _)
  obtain ⟨body, hbody⟩ := readAll_isSome (coordsAt ps pl) (List.range ps.length)
    (fun j hj => hc j (List.mem_range.mp hj))
  obtain ⟨last, hlast⟩ := hc 0 hpos
  exact ⟨body ++ [last], by simp [fillLine, hbody, hlast]⟩

/-! ## Labels stay valid slots -/

theorem relabel_bound (pl cur : List Nat) (j c B : Nat) (h : ∀ v ∈ cur, v < B) (hc : c < B) :
    ∀ v ∈ relabel pl cur j c, v < B := by
  unfold relabel
  split
  · intro v hv
    rcases List.mem_or_eq_of_mem_set hv with h1 | h1
    · exact h v h1
    · rw [h1]; exact hc
  · exact h

theorem placeAll_snd_bound (ps : List Marker) (pl : List Nat) (B : Nat) (order : List Nat) :
    ∀ (pos : Nat) (ab : List Marker × List Nat), (∀ v ∈ ab.2, v < B) → pos + order.length ≤ B →
      ∀ v ∈ (placeAll ps pl order pos ab).2, v < B := by
  induction order with
  | nil => intro pos ab h _; exact h
  | cons j rest ih =>
    intro pos ab h hB
    simp only [List.length_cons] at hB
    simp only [placeAll]
    apply ih
    · exact relabel_bound pl ab.2 j pos B h (by omega)
    · omega

/-! ## When `UpdateLine` returns -/

theorem key1_mem (s : Line) (j : Nat) (hj : j < s._particles.length) :
    ∃ m ∈ s._particles, key1 s j = m._elem := by
  have hj' : j < (afterProc s).1._particles.length := by rw [afterProc_particles_length]; exact hj
  refine ⟨(afterProc s).1._particles.getD j default, afterProc_mem s _ ?_, rfl⟩
  rw [List.getD_eq_getElem _ _ hj']
  exact List.getElem_mem _

theorem slicesInRange_of_valid (s : Line) (h : s.WF)
    (helem : ∀ m ∈ s._particles, m._elem = UINT_MAX ∨ m._elem < s.meshElements) (p : Nat)
    (hp : p < s._nprocs) : SliceInRange (key1 s) s.meshElements (sliceOf (afterProc s).2 p) := by
  intro j hj
  obtain ⟨m, hm, e⟩ := key1_mem s j (sliceOf_lt s h p j hp hj)
  rw [e]
  exact helem m hm

theorem slicesClean_of_sink (s : Line) (h : s.WF)
    (hproc : ∀ m ∈ s._particles, m._mproc < s._nprocs)
    (hnf : ∀ m ∈ s._particles, m._elem = UINT_MAX → m._mproc = 0) (p : Nat)
    (hp : p < s._nprocs) (hp0 : p ≠ 0) : SliceClean (key1 s) (sliceOf (afterProc s).2 p) := by
  intro j hj hk
  obtain ⟨h1, h2⟩ := afterProc_slice_proc s h hproc p j hp hj
  have := hnf _ h2 hk
  omega

theorem afterProc_printList_bound (s : Line)
    (hpl : ∀ v ∈ s._printList, v < s._particles.length) :
    ∀ v ∈ (afterProc s).1._printList, v < s._particles.length := by
  rw [afterProc_fst]
  exact placeAll_snd_bound _ _ _ _ 0 _ hpl (by simpa using procOrder_length_le _ _)

theorem afterElem_printList_bound (s : Line) (h : s.WF)
    (hok : SlicesOk (key1 s) s.meshElements (afterProc s).2 s._nprocs)
    (hpl : ∀ v ∈ s._printList, v < s._particles.length) :
    ∀ v ∈ (afterElem s).2, v < s._particles.length := by
  have key : ∀ P, P ≤ s._nprocs →
      ∀ v ∈ (arraysUpTo (afterProc s).1._particles (afterProc s).1._printList (afterProc s).2
        (List.replicate s.meshElements false) P).2, v < s._particles.length := by
    intro P
    induction P with
    | zero => intro _; exact afterProc_printList_bound s hpl
    | succ P ih =>
      intro hP
      rw [arraysUpTo_succ1]
      obtain ⟨_, _, h3⟩ := sliceOrder1_facts s h hok P (by omega)
        (flagsUpTo (key1 s) (afterProc s).2 (List.replicate s.meshElements false) P)
      have hle := afterProc_offs_mono s h (P + 1) s._nprocs (by omega) (Nat.le_refl _)
      rw [afterProc_offs_last s h] at hle
      exact placeAll_snd_bound _ _ _ _ _ _ (ih (by omega)) (by omega)
  exact key s._nprocs (Nat.le_refl _)

/-- The call `UpdateLine` returns on a non-empty line with valid labels and elements when the processes
are below `_nprocs` and the markers outside the domain belong to process 0. -/
theorem UpdateLine_returns (s : Line) (h : s.WF)
    (helem : ∀ m ∈ s._particles, m._elem = UINT_MAX ∨ m._elem < s.meshElements)
    (hproc : ∀ m ∈ s._particles, m._mproc < s._nprocs)
    (hnf : ∀ m ∈ s._particles, m._elem = UINT_MAX → m._mproc = 0)
    (hpos : 0 < s._particles.length) (hpl : ∀ v ∈ s._printList, v < s._particles.length) :
    ∃ s1, s.UpdateLine = Outcome.returned s1 := by
  have hok : SlicesOk (key1 s) s.meshElements (afterProc s).2 s._nprocs :=
    fun p hp => ⟨slicesInRange_of_valid s h helem p hp,
      fun hp0 => slicesClean_of_sink s h hproc hnf p hp hp0⟩
  have hl := afterElem_length s
  obtain ⟨l, hl'⟩ := fillLine_isSome (afterElem s).1 (afterElem s).2
    (by rw [hl.1, hl.2]; exact h.2.1) (by rw [hl.1]; exact hpos)
    (by rw [hl.1]; exact afterElem_printList_bound s h hok hpl)
  exact ⟨_, (UpdateLine_returned_iff s _).mpr ⟨hok, l, hl', rfl⟩⟩

/-- After a returning `UpdateLine` every marker outside the domain is stored in the slice of
process 0. -/
theorem afterElem_outside_slots (s : Line) (h : s.WF)
    (hok : SlicesOk (key1 s) s.meshElements (afterProc s).2 s._nprocs) (k : Nat)
    (hk : k < s._particles.length)
    (he : ((afterElem s).1.getD k default)._elem = UINT_MAX) :
    k ∈ sliceOf (afterProc s).2 0 := by
  obtain ⟨q, hq, hm⟩ := slices_cover s h s._nprocs (Nat.le_refl _) k
    (by rw [afterProc_offs_last s h]; exact hk)
  by_cases h0 : q = 0
  · subst h0; exact hm
  · obtain ⟨j, hj, e⟩ := afterElem_slice s h hok s._nprocs (Nat.le_refl _) q hq k hm
    have e' : (afterElem s).1.getD k default = (afterProc s).1._particles.getD j default := by
      rw [List.getD_eq_getElem?_getD]
      unfold afterElem
      rw [e]
      rfl
    rw [e'] at he
    exact absurd he ((hok q hq).2 h0 j hj)

theorem foldl_count (p : Nat → Bool) (l : List Nat) :
    l.foldl (fun c i => if p i = true then c + 1 else c) 0 = (l.filter p).length := by
  rw [foldl_ite_eq_foldl_filter p (fun c _ => c + 1)]
  generalize l.filter p = m
  have : ∀ (m : List Nat) (a : Nat), m.foldl (fun c _ => c + 1) a = a + m.length := by
    intro m
    induction m with
    | nil => intro a; rfl
    | cons x xs ih => intro a; rw [List.foldl_cons, ih]; simp; omega
  rw [this]; simp

theorem countP_eq_range_filter (ps : List Marker) (q : Marker → Bool) :
    ps.countP q = ((List.range ps.length).filter (fun j => q (ps.getD j default))).length := by
  conv_lhs => rw [← range_map_getD ps]
  rw [List.countP_map, List.countP_eq_length_filter]
  rfl

/-! ## The constructor -/

theorem foldl_placeNew_eq (ps : List Marker) (order : List Nat) (w : Slots (Option Marker)) :
    order.foldl (placeNew ps) w =
      { _particles := (placeAllNew ps order w.counter (w._particles, w._printList)).1
        _printList := (placeAllNew ps order w.counter (w._particles, w._printList)).2
        counter := w.counter + order.length } := by
  induction order generalizing w with
  | nil => simp [placeAllNew]
  | cons j rest ih =>
    rw [List.foldl_cons, ih]
    simp only [placeNew, placeAllNew, List.length_cons]
    have e2 : w.counter + 1 + rest.length = w.counter + (rest.length + 1) := by omega
    rw [e2]

theorem placeAllNew_length (ps : List Marker) (order : List Nat) (pos : Nat)
    (ab : List (Option Marker) × List Nat) :
    (placeAllNew ps order pos ab).1.length = ab.1.length ∧
      (placeAllNew ps order pos ab).2.length = ab.2.length := by
  induction order generalizing pos ab with
  | nil => simp [placeAllNew]
  | cons j rest ih =>
    simp only [placeAllNew]
    have := ih (pos + 1) (ab.1.set pos (some (ps.getD j default)), ab.2.set j pos)
    simpa using this

theorem placeAllNew_fst (ps : List Marker) (order : List Nat) (pos : Nat)
    (ab : List (Option Marker) × List Nat) (h : pos + order.length ≤ ab.1.length) :
    (placeAllNew ps order pos ab).1 =
      ab.1.take pos ++ order.map (fun j => some (ps.getD j default)) ++
        ab.1.drop (pos + order.length) := by
  induction order generalizing pos ab with
  | nil => simp [placeAllNew]
  | cons j rest ih =>
    simp only [placeAllNew, List.length_cons] at h ⊢
    rw [ih]
    · simp only [List.map_cons]
      have hp : pos < ab.1.length := by omega
      have e3 : pos + 1 + rest.length = pos + (rest.length + 1) := by omega
      rw [List.drop_set_of_lt _ _ (by omega), e3]
      have e4 : List.take (pos + 1) (ab.1.set pos (some (ps.getD j default)))
          = List.take pos ab.1 ++ [some (ps.getD j default)] := by
        rw [List.set_eq_take_append_cons_drop, if_pos hp]
        rw [List.take_append_eq_append_take]
        simp [List.length_take, Nat.min_eq_left (Nat.le_of_lt hp), List.take_take]
      rw [e4]
      simp
    · simp; omega

/-- The labels the constructor stores: the label of a moved input marker is its new slot. -/
theorem placeAllNew_snd (ps : List Marker) (order : List Nat) (ho : order.Nodup) (pos : Nat)
    (ab : List (Option Marker) × List Nat) (i : Nat) (hi : i < ab.2.length) :
    (placeAllNew ps order pos ab).2[i]? =
      if i ∈ order then some (pos + List.indexOf i order) else ab.2[i]? := by
  induction order generalizing pos ab with
  | nil => simp [placeAllNew]
  | cons j rest ih =>
    simp only [placeAllNew]
    have hr : rest.Nodup := (List.nodup_cons.mp ho).2
    have hj : j ∉ rest := (List.nodup_cons.mp ho).1
    rw [ih hr (pos + 1) _ (by simpa using hi)]
    by_cases hv : i = j
    · subst hv
      simp only [hj, if_false, List.mem_cons, true_or, if_true, List.indexOf_cons_self]
      rw [List.getElem?_set_self hi]
      rfl
    · have hne : j ≠ i := fun e => hv e.symm
      by_cases hm : i ∈ rest
      · simp only [hm, if_true, List.mem_cons, or_true]
        rw [List.indexOf_cons_ne _ hne]
        congr 1
        omega
      · have h4 : i ∉ j :: rest := by simp [hv, hm]
        simp only [hm, h4, if_false]
        rw [List.getElem?_set_ne hne]

theorem ctorScan_eq (ps : List Marker) (iproc : Nat) (w : Slots (Option Marker)) :
    ctorScan ps iproc w =
      ((List.range ps.length).filter (fun j => decide ((ps.getD j default)._mproc = iproc))).foldl
        (placeNew ps) w := by
  unfold ctorScan
  rw [← foldl_ite_eq_foldl_filter]
  simp

theorem ctorPass_succ (P : Nat) (ps : List Marker) (w : Slots (Option Marker)) (offs : List Nat) :
    ctorPass (P + 1) ps w offs =
      (ctorScan ps P (ctorPass P ps w offs).1,
        (ctorPass P ps w offs).2.set P (ctorPass P ps w offs).1.counter) := by
  simp [ctorPass, List.range_succ, List.foldl_append]

theorem ctorPass_fst (P : Nat) (ps : List Marker) (w : Slots (Option Marker)) (offs : List Nat) :
    (ctorPass P ps w offs).1 = (procOrder ps P).foldl (placeNew ps) w := by
  induction P with
  | zero => simp [ctorPass, procOrder]
  | succ P ih =>
    rw [ctorPass_succ]
    simp only [procOrder, List.foldl_append]
    rw [ctorScan_eq, ih]

theorem ctorPass_snd_length (P : Nat) (ps : List Marker) (w : Slots (Option Marker))
    (offs : List Nat) : (ctorPass P ps w offs).2.length = offs.length := by
  induction P with
  | zero => simp [ctorPass]
  | succ P ih => rw [ctorPass_succ]; simp [ih]

theorem ctorPass_snd (P : Nat) (ps : List Marker) (w : Slots (Option Marker)) (offs : List Nat)
    (p : Nat) :
    (ctorPass P ps w offs).2[p]? =
      if p < P then (offs[p]?).map (fun _ => w.counter + (procOrder ps p).length) else offs[p]? := by
  induction P with
  | zero => simp [ctorPass]
  | succ P ih =>
    rw [ctorPass_succ]
    simp only
    by_cases hp : P = p
    · subst hp
      rw [List.getElem?_set_self', ih, ctorPass_fst]
      simp [foldl_placeNew_eq]
      rfl
    · rw [List.getElem?_set_ne hp, ih]
      by_cases h1 : p < P
      · have : p < P + 1 := by omega
        simp [h1, this]
      · have : ¬ p < P + 1 := by omega
        simp [h1, this]

/-- The offsets the constructor stores. -/
theorem ctorBuckets_offs (P : Nat) (ps : List Marker) (p : Nat) (hp : p ≤ P) :
    (ctorBuckets P ps).2.getD p 0 =
      if p < P then (procOrder ps p).length else ps.length := by
  unfold ctorBuckets
  rw [List.getD_eq_getElem?_getD, ctorPass_snd]
  by_cases h1 : p < P
  · rw [if_pos h1, if_pos h1, List.getElem?_set_ne (by omega),
      List.getElem?_replicate, if_pos (by omega)]
    simp
  · have : p = P := by omega
    subst this
    rw [if_neg h1, if_neg h1, List.getElem?_set_self (by simp)]
    rfl

theorem ctorBuckets_offs_length (P : Nat) (ps : List Marker) :
    (ctorBuckets P ps).2.length = P + 1 := by
  unfold ctorBuckets
  rw [ctorPass_snd_length]
  simp

theorem ctorBuckets_fst (P : Nat) (ps : List Marker) :
    (ctorBuckets P ps).1 =
      { _particles := (placeAllNew ps (procOrder ps P) 0
          (List.replicate ps.length none, List.replicate ps.length 0)).1
        _printList := (placeAllNew ps (procOrder ps P) 0
          (List.replicate ps.length none, List.replicate ps.length 0)).2
        counter := (procOrder ps P).length } := by
  unfold ctorBuckets
  rw [ctorPass_fst, foldl_placeNew_eq]
  simp

theorem ctorBuckets_lengths (P : Nat) (ps : List Marker) :
    (ctorBuckets P ps).1._particles.length = ps.length ∧
      (ctorBuckets P ps).1._printList.length = ps.length := by
  rw [ctorBuckets_fst]
  have := placeAllNew_length ps (procOrder ps P) 0
    (List.replicate ps.length none, List.replicate ps.length 0)
  simpa using this

theorem allPresent_map_some (l : List Marker) : allPresent (l.map some) = some l := by
  induction l with
  | nil => rfl
  | cons m rest ih => simp [allPresent, ih]

theorem allPresent_eq_some (l : List (Option Marker)) (ms : List Marker)
    (h : allPresent l = some ms) : l = ms.map some := by
  induction l generalizing ms with
  | nil =>
    simp only [allPresent, Option.some.injEq] at h
    subst h; rfl
  | cons a rest ih =>
    cases a with
    | none => simp [allPresent] at h
    | some m =>
      simp only [allPresent] at h
      split at h
      · exact Option.noConfusion h
      · rename_i ms1 h1
        simp only [Option.some.injEq] at h
        subst h
        simp [ih ms1 h1]

theorem coordsAtNew_map_some (l : List Marker) (pl : List Nat) (j : Nat) :
    coordsAtNew (l.map some) pl j = coordsAt l pl j := by
  unfold coordsAtNew coordsAt
  cases pl[j]? with
  | none => rfl
  | some k =>
    simp only [List.getElem?_map]
    cases l[k]? with
    | none => rfl
    | some m => rfl

theorem fillLineNew_map_some (l : List Marker) (pl : List Nat) :
    fillLineNew (l.map some) pl = fillLine l pl := by
  unfold fillLineNew fillLine
  have : coordsAtNew (l.map some) pl = coordsAt l pl := funext (coordsAtNew_map_some l pl)
  rw [this, List.length_map]

/-- The constructor returns exactly when its bucketing leaves no null pointer and the fill of
`_line` reads in range. -/
theorem Line_returned_iff (P M : Nat) (ps : List Marker) (s : Line) :
    Line.Line P M ps = Outcome.returned s ↔
      ∃ ms l, (ctorBuckets P ps).1._particles = ms.map some ∧
        fillLine ms (ctorBuckets P ps).1._printList = some l ∧
        s = { _nprocs := P, meshElements := M, _particles := ms,
              _printList := (ctorBuckets P ps).1._printList,
              _markerOffset := (ctorBuckets P ps).2, _line := l } := by
  unfold Line.Line
  simp only
  constructor
  · intro h
    split at h
    · exact Outcome.noConfusion h
    · rename_i l hl
      split at h
      · exact Outcome.noConfusion h
      · rename_i ms hms
        have e := allPresent_eq_some _ _ hms
        refine ⟨ms, l, e, ?_, ?_⟩
        · rw [e, fillLineNew_map_some] at hl
          exact hl
        · injection h with h
          exact h.symm
  · rintro ⟨ms, l, e, hl, rfl⟩
    rw [e, fillLineNew_map_some, hl]
    simp only
    rw [allPresent_map_some]

/-! ## The constructor when every process is below `nprocs` -/

theorem filter_range_map_getD (ps : List Marker) (q : Marker → Bool) :
    ((List.range ps.length).filter (fun j => q (ps.getD j default))).map
      (fun j => ps.getD j default) = ps.filter q := by
  have := List.filter_map (p := q) (fun j => ps.getD j default) (List.range ps.length)
  rw [range_map_getD] at this
  rw [this]
  rfl

theorem procOrder_map_getD (ps : List Marker) (P : Nat) :
    (procOrder ps P).map (fun j => ps.getD j default) = buckets ps P := by
  induction P with
  | zero => rfl
  | succ P ih =>
    simp only [procOrder, buckets, List.map_append, ih]
    rw [filter_range_map_getD ps (fun m => decide (m._mproc = P))]

theorem procOrder_length (ps : List Marker) (P : Nat) :
    (procOrder ps P).length = (buckets ps P).length := by
  rw [← procOrder_map_getD, List.length_map]

theorem procOrder_succ_length (ps : List Marker) (p : Nat) :
    (procOrder ps (p + 1)).length =
      (procOrder ps p).length + ps.countP (fun m => decide (m._mproc = p)) := by
  simp only [procOrder, List.length_append]
  rw [countP_eq_range_filter]

theorem mem_buckets (ps : List Marker) (P : Nat) (m : Marker) :
    m ∈ buckets ps P ↔ m ∈ ps ∧ m._mproc < P := by
  induction P with
  | zero => simp [buckets]
  | succ P ih =>
    simp only [buckets, List.mem_append, ih, List.mem_filter, decide_eq_true_eq]
    constructor
    · rintro (⟨h1, h2⟩ | ⟨h1, h2⟩)
      · exact ⟨h1, by omega⟩
      · exact ⟨h1, by omega⟩
    · rintro ⟨h1, h2⟩
      by_cases h : m._mproc < P
      · exact Or.inl ⟨h1, h⟩
      · exact Or.inr ⟨h1, by omega⟩

theorem buckets_sorted (ps : List Marker) (P : Nat) :
    (buckets ps P).Pairwise (fun a b => a._mproc ≤ b._mproc) := by
  induction P with
  | zero => simp [buckets]
  | succ P ih =>
    simp only [buckets]
    rw [List.pairwise_append]
    refine ⟨ih, ?_, ?_⟩
    · rw [List.pairwise_iff_forall_sublist]
      intro a b hab
      have ha := hab.subset (List.mem_cons_self _ _)
      have hb := hab.subset (List.mem_cons_of_mem _ (List.mem_singleton_self _))
      simp only [List.mem_filter, decide_eq_true_eq] at ha hb
      omega
    · intro a ha b hb
      rw [mem_buckets] at ha
      simp only [List.mem_filter, decide_eq_true_eq] at hb
      omega

theorem indexOf_lt_of_sorted (l : List Nat) (hl : l.Pairwise (fun a b => a < b)) (a b : Nat)
    (ha : a ∈ l) (hb : b ∈ l) (hab : a < b) : List.indexOf a l < List.indexOf b l := by
  induction l with
  | nil => simp at ha
  | cons x xs ih =>
    rw [List.pairwise_cons] at hl
    by_cases hax : a = x
    · subst hax
      rw [List.indexOf_cons_self, List.indexOf_cons_ne _ (by omega)]
      omega
    · have ha' : a ∈ xs := by
        rcases List.mem_cons.mp ha with h | h
        · exact absurd h hax
        · exact h
      have hxa := hl.1 a ha'
      have hbx : b ≠ x := by omega
      have hb' : b ∈ xs := by
        rcases List.mem_cons.mp hb with h | h
        · exact absurd h hbx
        · exact h
      rw [List.indexOf_cons_ne _ (fun e => hax e.symm), List.indexOf_cons_ne _ (fun e => hbx e.symm)]
      have := ih hl.2 ha' hb'
      omega

/-- The bucketing is stable: of two input markers of the same process the earlier one is moved
first. -/
theorem procOrder_indexOf_lt (ps : List Marker) (P i j : Nat) (hij : i < j) (hj : j < ps.length)
    (hp : (ps.getD i default)._mproc = (ps.getD j default)._mproc)
    (hP : (ps.getD j default)._mproc < P) :
    List.indexOf i (procOrder ps P) < List.indexOf j (procOrder ps P) := by
  induction P with
  | zero => omega
  | succ P ih =>
    simp only [procOrder]
    by_cases h : (ps.getD j default)._mproc < P
    · have hi : i ∈ procOrder ps P := (mem_procOrder _ _ _).mpr ⟨by omega, by omega⟩
      have hj' : j ∈ procOrder ps P := (mem_procOrder _ _ _).mpr ⟨hj, h⟩
      rw [List.indexOf_append_of_mem hi, List.indexOf_append_of_mem hj']
      exact ih h
    · have hi : i ∉ procOrder ps P := fun hm => by
        have := ((mem_procOrder _ _ _).mp hm).2
        omega
      have hj' : j ∉ procOrder ps P := fun hm => h ((mem_procOrder _ _ _).mp hm).2
      rw [List.indexOf_append_of_not_mem hi, List.indexOf_append_of_not_mem hj']
      have hs : ((List.range ps.length).filter
          (fun j => decide ((ps.getD j default)._mproc = P))).Pairwise (fun a b => a < b) :=
        (List.pairwise_lt_range _).filter _
      have := indexOf_lt_of_sorted _ hs i j
        (by simp only [List.mem_filter, List.mem_range, decide_eq_true_eq]; omega)
        (by simp only [List.mem_filter, List.mem_range, decide_eq_true_eq]; omega) hij
      omega

/-- The arrays the constructor's bucketing leaves when every process is below `P`. -/
theorem ctorBuckets_good (P : Nat) (ps : List Marker) (hproc : ∀ m ∈ ps, m._mproc < P) :
    (ctorBuckets P ps).1._particles = (buckets ps P).map some ∧
    (ctorBuckets P ps).1._printList =
      (List.range ps.length).map (fun j => List.indexOf j (procOrder ps P)) := by
  have ho := procOrder_perm ps P hproc
  have hlen : (procOrder ps P).length = ps.length := by simpa using ho.length_eq
  have hon : (procOrder ps P).Nodup := procOrder_nodup ps P
  rw [ctorBuckets_fst]
  simp only
  constructor
  · rw [placeAllNew_fst _ _ _ _ (by simp [hlen])]
    simp only [List.take_zero, List.nil_append, Nat.zero_add, hlen, List.length_replicate,
      List.drop_replicate, Nat.sub_self, List.replicate_zero, List.append_nil]
    rw [← procOrder_map_getD, List.map_map]
    rfl
  · apply List.ext_getElem?
    intro i
    by_cases hi : i < ps.length
    · rw [placeAllNew_snd ps _ hon 0 _ i (by simpa using hi)]
      have hm : i ∈ procOrder ps P := by rw [ho.mem_iff]; exact List.mem_range.mpr hi
      rw [if_pos hm, List.getElem?_map, List.getElem?_range hi]
      simp
    · have h1 : (placeAllNew ps (procOrder ps P) 0
          (List.replicate ps.length none, List.replicate ps.length 0)).2.length ≤ i := by
        rw [(placeAllNew_length _ _ _ _).2]; simpa using hi
      rw [List.getElem?_eq_none_iff.mpr h1, List.getElem?_eq_none_iff.mpr (by simpa using hi)]

theorem ctor_printList_perm (P : Nat) (ps : List Marker) (hproc : ∀ m ∈ ps, m._mproc < P) :
    ((List.range ps.length).map (fun j => List.indexOf j (procOrder ps P))).Perm
      (List.range ps.length) :=
  reloc_printList_perm _ _ _ (procOrder_perm ps P hproc) (List.Perm.refl _)

theorem ctor_track (P : Nat) (ps : List Marker) (hproc : ∀ m ∈ ps, m._mproc < P) (j : Nat)
    (hj : j < ps.length) :
    ((List.range ps.length).map (fun j => List.indexOf j (procOrder ps P))).getD j 0 < ps.length ∧
    (buckets ps P).getD
      (((List.range ps.length).map (fun j => List.indexOf j (procOrder ps P))).getD j 0) default =
      ps.getD j default := by
  have ho := procOrder_perm ps P hproc
  have h1 := reloc_track ps (List.range ps.length) (procOrder ps P) ho (List.Perm.refl _) j hj
  rw [procOrder_map_getD] at h1
  refine ⟨?_, ?_⟩
  · have hm := (ctor_printList_perm P ps hproc).mem_iff
      (a := ((List.range ps.length).map (fun j => List.indexOf j (procOrder ps P))).getD j 0)
    rw [List.mem_range] at hm
    apply hm.mp
    rw [List.getD_eq_getElem _ _ (by simpa using hj)]
    exact List.getElem_mem _
  · have e : (List.range ps.length).getD j 0 = j := by
      rw [List.getD_eq_getElem _ _ (by simpa using hj), List.getElem_range]
    rw [h1, e]

/-- The constructor returns on a non-empty input whose processes are all below `P`. -/
theorem Line_returns (P M : Nat) (ps : List Marker) (hproc : ∀ m ∈ ps, m._mproc < P)
    (hpos : 0 < ps.length) : ∃ s, Line.Line P M ps = Outcome.returned s := by
  obtain ⟨e1, e2⟩ := ctorBuckets_good P ps hproc
  have hbl : (buckets ps P).length = ps.length := by
    rw [← procOrder_length]; simpa using (procOrder_perm ps P hproc).length_eq
  obtain ⟨l, hl⟩ := fillLine_isSome (buckets ps P) (ctorBuckets P ps).1._printList
    (by rw [(ctorBuckets_lengths P ps).2, hbl]) (by rw [hbl]; exact hpos)
    (by
      rw [e2, hbl]
      intro v hv
      have := (ctor_printList_perm P ps hproc).mem_iff.mp hv
      exact List.mem_range.mp this)
  exact ⟨_, (Line_returned_iff P M ps _).mpr ⟨_, l, e1, hl, rfl⟩⟩

/-- The line the constructor returns when every process is below `P`. -/
theorem Line_returned_good (P M : Nat) (ps : List Marker) (hproc : ∀ m ∈ ps, m._mproc < P)
    (s : Line) (h : Line.Line P M ps = Outcome.returned s) :
    s._nprocs = P ∧ s._particles = buckets ps P ∧
    s._printList = (List.range ps.length).map (fun j => List.indexOf j (procOrder ps P)) ∧
    s._markerOffset = (ctorBuckets P ps).2 ∧
    fillLine s._particles s._printList = some s._line := by
  obtain ⟨ms, l, e, hl, rfl⟩ := (Line_returned_iff P M ps s).mp h
  obtain ⟨e1, e2⟩ := ctorBuckets_good P ps hproc
  have : ms = buckets ps P := by
    have := e.symm.trans e1
    exact List.map_injective_iff.mpr (Option.some_injective _) this
  subst this
  exact ⟨rfl, rfl, e2, rfl, hl⟩

/-! ## The class invariant -/

theorem Line_lengths (P M : Nat) (ps : List Marker) (s : Line)
    (h : Line.Line P M ps = Outcome.returned s) : s._printList.length = s._particles.length := by
  obtain ⟨ms, l, e, hl, rfl⟩ := (Line_returned_iff P M ps s).mp h
  have hms : ms.length = ps.length := by
    have := congrArg List.length e
    rw [(ctorBuckets_lengths P ps).1, List.length_map] at this
    exact this.symm
  simp only
  rw [(ctorBuckets_lengths P ps).2, hms]

/-- The constructor establishes the class invariant. -/
theorem Line_WF (P M : Nat) (ps : List Marker) (s : Line) (hP : 1 ≤ P)
    (h : Line.Line P M ps = Outcome.returned s) : s.WF := by
  obtain ⟨ms, l, e, hl, rfl⟩ := (Line_returned_iff P M ps s).mp h
  have hms : ms.length = ps.length := by
    have := congrArg List.length e
    rw [(ctorBuckets_lengths P ps).1, List.length_map] at this
    exact this.symm
  have hpl : (ctorBuckets P ps).1._printList.length = ms.length := by
    rw [(ctorBuckets_lengths P ps).2, hms]
  obtain ⟨_, h2, _, _⟩ := fillLine_some ms _ l hpl hl
  refine ⟨hP, hpl, ctorBuckets_offs_length P ps, ?_, h2⟩
  simp only
  rw [ctorBuckets_offs P ps P (Nat.le_refl _), if_neg (by omega), hms]

/-- The call `UpdateLine` preserves the class invariant. -/
theorem UpdateLine_WF (s s1 : Line) (h : s.WF) (hret : s.UpdateLine = Outcome.returned s1) :
    s1.WF := by
  obtain ⟨hok, l, hl, rfl⟩ := (UpdateLine_returned_iff s s1).mp hret
  have hlen := afterElem_length s
  obtain ⟨_, h2, _, _⟩ := fillLine_some _ _ l (by rw [hlen.1, hlen.2]; exact h.2.1) hl
  refine ⟨h.1, by simp only; rw [hlen.1, hlen.2]; exact h.2.1, ?_, ?_, h2⟩
  · simp only
    rw [afterProc_offs_length]
    exact h.2.2.1
  · simp only
    rw [afterProc_offs_last s h, hlen.1]

/-! ## Conservation of the offsets -/

theorem sum_counts (ps : List Marker) (P : Nat) :
    ((List.range P).map (fun p => ps.countP (fun m => decide (m._mproc = p)))).sum =
      (procOrder ps P).length := by
  induction P with
  | zero => rfl
  | succ P ih => rw [List.sum_range_succ, ih, procOrder_succ_length]

theorem conserved_of_offs (P : Nat) (ps : List Marker) (offs : List Nat)
    (h : ∀ p ≤ P, offs.getD p 0 = (procOrder ps p).length)
    (hN : (procOrder ps P).length = ps.length) : Conserved P ps offs := by
  refine ⟨?_, ?_, ?_, ?_, ?_⟩
  · rw [h 0 (by omega)]; rfl
  · intro p hp
    rw [h p (by omega), h (p + 1) (by omega)]
    exact procOrder_mono _ _ _ (by omega)
  · rw [h P (Nat.le_refl _), hN]
  · intro p hp
    rw [h p (by omega), h (p + 1) (by omega), procOrder_succ_length]
    omega
  · rw [sum_counts, hN]

theorem conserved_perm (P : Nat) (ps ps1 : List Marker) (offs : List Nat) (hp : ps1.Perm ps)
    (h : Conserved P ps offs) : Conserved P ps1 offs := by
  obtain ⟨h1, h2, h3, h4, h5⟩ := h
  refine ⟨h1, h2, ?_, ?_, ?_⟩
  · rw [h3, hp.length_eq]
  · intro p hp'
    rw [h4 p hp', hp.countP_eq]
  · rw [hp.length_eq, ← h5]
    congr 1
    apply List.map_congr_left
    intro p _
    exact hp.countP_eq _

theorem offsets_cover (offs : List Nat) (h0 : offs.getD 0 0 = 0) (P : Nat)
    (hmono : ∀ p < P, offs.getD p 0 ≤ offs.getD (p + 1) 0) (i : Nat)
    (hi : i < offs.getD P 0) : ∃ q < P, offs.getD q 0 ≤ i ∧ i < offs.getD (q + 1) 0 := by
  induction P with
  | zero => omega
  | succ P ih =>
    by_cases h1 : i < offs.getD P 0
    · obtain ⟨q, hq, hm⟩ := ih (fun p hp => hmono p (by omega)) h1
      exact ⟨q, by omega, hm⟩
    · exact ⟨P, by omega, by omega, hi⟩

theorem offsets_mono (offs : List Nat) (P : Nat)
    (hmono : ∀ p < P, offs.getD p 0 ≤ offs.getD (p + 1) 0) (p q : Nat) (hpq : p ≤ q)
    (hq : q ≤ P) : offs.getD p 0 ≤ offs.getD q 0 := by
  induction q with
  | zero =>
    have : p = 0 := by omega
    subst this; exact Nat.le_refl _
  | succ q ih =>
    by_cases e : p = q + 1
    · subst e; exact Nat.le_refl _
    · exact Nat.le_trans (ih (by omega) (by omega)) (hmono q (by omega))

/-- A filter over `[0, N)` whose predicate holds exactly on `[a, b)`. -/
theorem filter_range_interval (N a b : Nat) (f : Nat → Bool) (hab : a ≤ b) (hb : b ≤ N)
    (hf : ∀ i < N, f i = true ↔ a ≤ i ∧ i < b) :
    (List.range N).filter f = List.range' a (b - a) := by
  have e : List.range N = List.range' 0 a ++ (List.range' a (b - a) ++ List.range' b (N - b)) := by
    rw [List.range_eq_range']
    have e1 := List.range'_append_1 a (b - a) (N - b)
    have e2 := List.range'_append_1 0 a (N - b + (b - a))
    rw [Nat.zero_add] at e2
    have e3 : a + (b - a) = b := by omega
    rw [e3] at e1
    rw [e1, e2]
    congr 1
    omega
  rw [e, List.filter_append, List.filter_append]
  have h1 : (List.range' 0 a).filter f = [] := by
    rw [List.filter_eq_nil_iff]
    intro i hi
    rw [List.mem_range'_1] at hi
    rw [hf i (by omega)]
    omega
  have h2 : (List.range' a (b - a)).filter f = List.range' a (b - a) := by
    rw [List.filter_eq_self]
    intro i hi
    rw [List.mem_range'_1] at hi
    rw [hf i (by omega)]
    omega
  have h3 : (List.range' b (N - b)).filter f = [] := by
    rw [List.filter_eq_nil_iff]
    intro i hi
    rw [List.mem_range'_1] at hi
    rw [hf i (by omega)]
    omega
  rw [h1, h2, h3]
  simp

theorem sum_diffs (offs : List Nat) (P : Nat)
    (hmono : ∀ p < P, offs.getD p 0 ≤ offs.getD (p + 1) 0) :
    ((List.range P).map (fun p => offs.getD (p + 1) 0 - offs.getD p 0)).sum + offs.getD 0 0 =
      offs.getD P 0 := by
  induction P with
  | zero => simp
  | succ P ih =>
    rw [List.sum_range_succ]
    have := ih (fun p hp => hmono p (by omega))
    have := hmono P (by omega)
    omega

/-- Conservation from slices that hold only markers of their own process. -/
theorem conserved_of_slices (P : Nat) (ps : List Marker) (offs : List Nat)
    (h0 : offs.getD 0 0 = 0) (hmono : ∀ p < P, offs.getD p 0 ≤ offs.getD (p + 1) 0)
    (hP : offs.getD P 0 = ps.length)
    (hslice : ∀ p < P, ∀ k, offs.getD p 0 ≤ k → k < offs.getD (p + 1) 0 →
      (ps.getD k default)._mproc = p) : Conserved P ps offs := by
  have hcount : ∀ p < P, offs.getD (p + 1) 0 - offs.getD p 0 =
      ps.countP (fun m => decide (m._mproc = p)) := by
    intro p hp
    rw [countP_eq_range_filter]
    rw [filter_range_interval ps.length (offs.getD p 0) (offs.getD (p + 1) 0)
      (fun j => decide ((ps.getD j default)._mproc = p)) (hmono p hp)
      (by rw [← hP]; exact offsets_mono offs P hmono (p + 1) P (by omega) (Nat.le_refl _))]
    · simp
    · intro i hi
      simp only [decide_eq_true_eq]
      constructor
      · intro hpi
        obtain ⟨q, hq, hq1, hq2⟩ := offsets_cover offs h0 P hmono i (by rw [hP]; exact hi)
        have := hslice q hq i hq1 hq2
        have : q = p := by omega
        subst this
        exact ⟨hq1, hq2⟩
      · rintro ⟨h1, h2⟩
        exact hslice p hp i h1 h2
  refine ⟨h0, hmono, hP, hcount, ?_⟩
  have := sum_diffs offs P hmono
  rw [h0, hP, Nat.add_zero] at this
  rw [← this]
  congr 1
  apply List.map_congr_left
  intro p hp
  exact (hcount p (List.mem_range.mp hp)).symm

/-! ## The stage loop with a constant velocity -/

theorem foldl_set_getD {α : Type} (f : Nat → α) (d : α) (n : Nat) :
    ∀ (v : List α), n ≤ v.length → ∀ i,
      ((List.range n).foldl (fun v k => v.set k (f k)) v).getD i d =
        if i < n then f i else v.getD i d := by
  induction n with
  | zero => intro v _ i; simp
  | succ n ih =>
    intro v hn i
    rw [List.range_succ, List.foldl_append]
    simp only [List.foldl_cons, List.foldl_nil]
    have hlen : ((List.range n).foldl (fun v k => v.set k (f k)) v).length = v.length := by
      clear ih hn
      induction n generalizing v with
      | zero => rfl
      | succ m ihm =>
        rw [List.range_succ, List.foldl_append]
        simp only [List.foldl_cons, List.foldl_nil, List.length_set]
        exact ihm v
    rw [List.getD_eq_getElem?_getD]
    by_cases hi : n = i
    · subst hi
      rw [List.getElem?_set_self (by rw [hlen]; omega)]
      simp
    · rw [List.getElem?_set_ne hi, ← List.getD_eq_getElem?_getD, ih v (by omega)]
      by_cases h1 : i < n
      · rw [if_pos h1, if_pos (by omega)]
      · rw [if_neg h1, if_neg (by omega)]

theorem foldl_set_length {α : Type} (f : Nat → α) (n : Nat) (v : List α) :
    ((List.range n).foldl (fun v k => v.set k (f k)) v).length = v.length := by
  induction n generalizing v with
  | zero => rfl
  | succ m ihm =>
    rw [List.range_succ, List.foldl_append]
    simp only [List.foldl_cons, List.foldl_nil, List.length_set]
    exact ihm v

theorem assignFirst_length (dim : Nat) (f : Nat → ℚ) (v : List ℚ) :
    (assignFirst dim f v).length = v.length :=
  foldl_set_length f dim v

theorem assignFirst_getD (dim : Nat) (f : Nat → ℚ) (v : List ℚ) (h : v.length = dim) (i : Nat)
    (hi : i < dim) : (assignFirst dim f v).getD i 0 = f i := by
  unfold assignFirst
  rw [foldl_set_getD f 0 dim v (by omega) i, if_pos hi]

theorem combine_eq (order : Nat) (coef : Nat → ℚ) (K : List (List ℚ)) (x0 : List ℚ) (k : Nat) :
    combine order coef K x0 k =
      x0.getD k 0 + ((List.range order).map (fun j => coef j * (K.getD j []).getD k 0)).sum := by
  unfold combine
  induction order with
  | zero => simp
  | succ m ih =>
    rw [List.range_succ, List.foldl_append, List.map_append, List.sum_append, ih]
    simp only [List.foldl_cons, List.foldl_nil, List.map_cons, List.map_nil, List.sum_cons,
      List.sum_nil]
    ring

theorem getD_set_self {α : Type} (l : List α) (j : Nat) (a d : α) (h : j < l.length) :
    (l.set j a).getD j d = a := by
  rw [List.getD_eq_getElem?_getD, List.getElem?_set_self h]
  rfl

theorem getD_set_ne {α : Type} (l : List α) (j r : Nat) (a d : α) (h : j ≠ r) :
    (l.set j a).getD r d = l.getD r d := by
  rw [List.getD_eq_getElem?_getD, List.getElem?_set_ne h, ← List.getD_eq_getElem?_getD]

theorem ordOf_stale (key : Nat → Nat) (l : List Nat) (el : List Bool)
    (h : ∀ j ∈ l, fresh el (key j) = false) : ordOf key el l = [] := by
  induction l with
  | nil => rfl
  | cons j rest ih =>
    simp only [ordOf]
    rw [if_neg (by rw [h j (List.mem_cons_self _ _)]; exact Bool.false_ne_true)]
    exact ih (fun i hi => h i (List.mem_cons_of_mem _ hi))

theorem ordOf_append_stale (key : Nat → Nat) (l1 l2 : List Nat) (el : List Bool)
    (h : ∀ j ∈ l1, fresh el (key j) = false) : ordOf key el (l1 ++ l2) = ordOf key el l2 := by
  induction l1 with
  | nil => rfl
  | cons j rest ih =>
    rw [List.cons_append]
    simp only [ordOf]
    rw [if_neg (by rw [h j (List.mem_cons_self _ _)]; exact Bool.false_ne_true)]
    exact ih (fun i hi => h i (List.mem_cons_of_mem _ hi))

theorem map_eq_const_of_map_eq {f g : Nat → Nat} {l1 l2 : List Nat} (h : l1.map f = l2.map g)
    (P : Nat → Prop) (hP : ∀ y ∈ l2, P (g y)) : ∀ x ∈ l1, P (f x) := by
  intro x hx
  have : f x ∈ l2.map g := by rw [← h]; exact List.mem_map_of_mem f hx
  obtain ⟨y, hy, e⟩ := List.mem_map.mp this
  rw [← e]
  exact hP y hy

/-- If the elements found at the slots `lo, lo + 1, ...` are those of the slots that a previous
element pass moved, in the order of its moves, followed by markers outside the domain, then the
element pass moves the found slots onto themselves. -/
theorem ordOf_grouped_id (key key1 : Nat → Nat) (l : List Nat) :
    ∀ (el el1 : List Bool) (lo m : Nat),
      (List.range' lo (ordOf key el l).length).map key1 = (ordOf key el l).map key →
      (∀ j ∈ List.range' (lo + (ordOf key el l).length) m, key1 j = UINT_MAX) →
      (∀ j ∈ ordOf key el l, fresh el1 (key j) = true) →
      ordOf key1 el1 (List.range' lo ((ordOf key el l).length + m)) =
        List.range' lo (ordOf key el l).length := by
  induction l with
  | nil =>
    intro el el1 lo m _ h2 _
    simp only [ordOf, List.length_nil, Nat.zero_add, Nat.add_zero] at h2 ⊢
    apply ordOf_stale
    intro j hj
    rw [h2 j hj]
    simp [fresh]
  | cons jp rest ih =>
    intro el el1 lo m h1 h2 h3
    by_cases hf : fresh el (key jp) = true
    · have hG : ordOf key el (jp :: rest) =
          (jp :: rest.filter (fun ip => decide (key ip = key jp))) ++
            ordOf key (el.set (key jp) true) rest := by
        simp only [ordOf]; rw [if_pos hf]
      rw [hG] at h1 h2 h3 ⊢
      generalize hS : rest.filter (fun ip => decide (key ip = key jp)) = S at h1 h2 h3 ⊢
      generalize hG1 : ordOf key (el.set (key jp) true) rest = G1 at h1 h2 h3 ⊢
      have hSk : ∀ y ∈ S, key y = key jp := by
        intro y hy
        rw [← hS] at hy
        simpa using (List.mem_filter.mp hy).2
      have hG1k : ∀ y ∈ G1, key y ≠ key jp := by
        intro y hy
        rw [← hG1] at hy
        have := ((mem_ordOf key rest _ y).mp hy).2
        rw [fresh_set] at this
        simp only [Bool.and_eq_true, decide_eq_true_eq] at this
        exact this.2
      have hlen : ((jp :: S) ++ G1).length = 1 + S.length + G1.length := by
        simp only [List.length_append, List.length_cons]; omega
      have hsplit : List.range' lo (1 + S.length + G1.length) =
          lo :: (List.range' (lo + 1) S.length ++ List.range' (lo + 1 + S.length) G1.length) := by
        rw [List.range'_append_1]
        have : 1 + S.length + G1.length = (G1.length + S.length) + 1 := by omega
        rw [this, List.range'_succ]
      rw [hlen, hsplit] at h1
      simp only [List.map_cons, List.map_append, List.cons_append, List.cons.injEq] at h1
      obtain ⟨hk0, h1'⟩ := h1
      obtain ⟨hkS, hkG⟩ := List.append_inj h1' (by simp)
      have hSa : ∀ x ∈ List.range' (lo + 1) S.length, key1 x = key jp :=
        map_eq_const_of_map_eq hkS (fun v => v = key jp) hSk
      have hGa : ∀ x ∈ List.range' (lo + 1 + S.length) G1.length, key1 x ≠ key jp :=
        map_eq_const_of_map_eq hkG (fun v => v ≠ key jp) hG1k
      have hne : key jp ≠ UINT_MAX := fresh_ne _ _ hf
      have hsplit2 : List.range' lo (1 + S.length + G1.length + m) =
          lo :: (List.range' (lo + 1) S.length ++
            List.range' (lo + 1 + S.length) (G1.length + m)) := by
        rw [List.range'_append_1]
        have : 1 + S.length + G1.length + m = (G1.length + m + S.length) + 1 := by omega
        rw [this, List.range'_succ]
      have hsplit3 : List.range' (lo + 1 + S.length) (G1.length + m) =
          List.range' (lo + 1 + S.length) G1.length ++
            List.range' (lo + 1 + S.length + G1.length) m := by
        rw [List.range'_append_1]
        congr 1
        omega
      have hfr : fresh el1 (key1 lo) = true := by
        rw [hk0]
        exact h3 jp (List.mem_append_left _ (List.mem_cons_self _ _))
      rw [hlen, hsplit2]
      simp only [ordOf]
      rw [if_pos hfr, hk0]
      have hfilt : (List.range' (lo + 1) S.length ++
          List.range' (lo + 1 + S.length) (G1.length + m)).filter
            (fun ip => decide (key1 ip = key jp)) = List.range' (lo + 1) S.length := by
        rw [List.filter_append]
        have e1 : (List.range' (lo + 1) S.length).filter (fun ip => decide (key1 ip = key jp))
            = List.range' (lo + 1) S.length := by
          rw [List.filter_eq_self]
          intro x hx
          simpa using hSa x hx
        have e2 : (List.range' (lo + 1 + S.length) (G1.length + m)).filter
            (fun ip => decide (key1 ip = key jp)) = [] := by
          rw [List.filter_eq_nil_iff]
          intro x hx
          simp only [decide_eq_true_eq]
          rw [hsplit3, List.mem_append] at hx
          rcases hx with hx | hx
          · exact hGa x hx
          · have := h2 x (by
              rw [hlen]
              have e : lo + (1 + S.length + G1.length) = lo + 1 + S.length + G1.length := by omega
              rw [e]; exact hx)
            rw [this]
            exact fun e => hne e.symm
        rw [e1, e2, List.append_nil]
      rw [hfilt]
      rw [ordOf_append_stale key1 _ _ _ (by
        intro x hx
        rw [hSa x hx, fresh_set]
        simp)]
      have hih := ih (el.set (key jp) true) (el1.set (key jp) true) (lo + 1 + S.length) m
      rw [hG1] at hih
      rw [hih hkG]
      · rw [hsplit]
        simp
      · intro x hx
        apply h2
        rw [hlen]
        have e : lo + (1 + S.length + G1.length) = lo + 1 + S.length + G1.length := by omega
        rw [e]; exact hx
      · intro x hx
        rw [fresh_set, h3 x (List.mem_append_right _ hx)]
        simp [hG1k x hx]
    · have hG : ordOf key el (jp :: rest) = ordOf key el rest := by
        simp only [ordOf]; rw [if_neg hf]
      rw [hG] at h1 h2 h3 ⊢
      exact ih el el1 lo m h1 h2 h3

/-! ## `UpdateLine` on a reordered line -/

theorem filter_proc_eq_slice (P : Nat) (ps : List Marker) (offs : List Nat)
    (h0 : offs.getD 0 0 = 0) (hmono : ∀ p < P, offs.getD p 0 ≤ offs.getD (p + 1) 0)
    (hP : offs.getD P 0 = ps.length)
    (hslice : ∀ p < P, ∀ k, offs.getD p 0 ≤ k → k < offs.getD (p + 1) 0 →
      (ps.getD k default)._mproc = p) (p : Nat) (hp : p < P) :
    (List.range ps.length).filter (fun j => decide ((ps.getD j default)._mproc = p)) =
      List.range' (offs.getD p 0) (offs.getD (p + 1) 0 - offs.getD p 0) := by
  apply filter_range_interval ps.length (offs.getD p 0) (offs.getD (p + 1) 0) _ (hmono p hp)
    (by rw [← hP]; exact offsets_mono offs P hmono (p + 1) P (by omega) (Nat.le_refl _))
  intro i hi
  simp only [decide_eq_true_eq]
  constructor
  · intro hpi
    obtain ⟨q, hq, hq1, hq2⟩ := offsets_cover offs h0 P hmono i (by rw [hP]; exact hi)
    have := hslice q hq i hq1 hq2
    have : q = p := by omega
    subst this
    exact ⟨hq1, hq2⟩
  · rintro ⟨h1, h2⟩
    exact hslice p hp i h1 h2

theorem procOrder_of_slices (P : Nat) (ps : List Marker) (offs : List Nat)
    (h0 : offs.getD 0 0 = 0) (hmono : ∀ p < P, offs.getD p 0 ≤ offs.getD (p + 1) 0)
    (hP : offs.getD P 0 = ps.length)
    (hslice : ∀ p < P, ∀ k, offs.getD p 0 ≤ k → k < offs.getD (p + 1) 0 →
      (ps.getD k default)._mproc = p) (p : Nat) (hp : p ≤ P) :
    procOrder ps p = List.range' 0 (offs.getD p 0) := by
  induction p with
  | zero => rw [h0]; rfl
  | succ p ih =>
    simp only [procOrder]
    rw [ih (by omega), filter_proc_eq_slice P ps offs h0 hmono hP hslice p (by omega)]
    have e := List.range'_append_1 0 (offs.getD p 0) (offs.getD (p + 1) 0 - offs.getD p 0)
    rw [Nat.zero_add] at e
    rw [e]
    congr 1
    have := hmono p (by omega)
    omega

/-- On a reordered line `UpdateLine` returns the line itself. -/
theorem UpdateLine_of_reordered (t : Line) (h : t.WF) (hr : t.Reordered) :
    t.UpdateLine = Outcome.returned t := by
  obtain ⟨h0, hmono, hslice, hgrp, hok, hfill⟩ := hr
  have hP : t._markerOffset.getD t._nprocs 0 = t._particles.length := h.2.2.2.1
  have hpo := procOrder_of_slices t._nprocs t._particles t._markerOffset h0 hmono hP hslice
  have hpoN : procOrder t._particles t._nprocs = List.range' 0 t._particles.length := by
    rw [hpo _ (Nat.le_refl _), hP]
  have e1 : (afterProc t).1 =
      { _particles := t._particles, _printList := t._printList,
        counter := t._particles.length } := by
    rw [afterProc_fst, hpoN, placeAll_id]
    simp
  have e2 : (afterProc t).2 = t._markerOffset := by
    apply List.ext_getElem?
    intro p
    unfold afterProc
    rw [procPass_snd]
    by_cases hp : p < t._nprocs
    · rw [if_pos hp, hpo p (by omega)]
      have hlt : p < t._markerOffset.length := by rw [h.2.2.1]; omega
      rw [List.getElem?_eq_getElem hlt]
      simp only [Option.map_some', List.length_range', Nat.zero_add]
      rw [List.getD_eq_getElem _ _ hlt]
    · rw [if_neg hp]
  have e3 : afterElem t = (t._particles, t._printList) := by
    unfold afterElem
    rw [e1, e2]
    simp only
    have key : ∀ p, p ≤ t._nprocs →
        arraysUpTo t._particles t._printList t._markerOffset
          (List.replicate t.meshElements false) p = (t._particles, t._printList) := by
      intro p
      induction p with
      | zero => intro _; rfl
      | succ p ih =>
        intro hp
        simp only [arraysUpTo]
        rw [ih (by omega), hgrp p (by omega)]
        unfold sliceOf
        exact placeAll_id _ _ _ _
    exact key _ (Nat.le_refl _)
  rw [UpdateLine_returned_iff]
  refine ⟨?_, t._line, ?_, ?_⟩
  · unfold key1
    rw [e1, e2]
    exact hok
  · rw [e3]; exact hfill
  · rw [e3, e2]

/-! ## A returning `UpdateLine` leaves a reordered line -/

theorem afterElem_getD (s : Line) (h : s.WF)
    (hok : SlicesOk (key1 s) s.meshElements (afterProc s).2 s._nprocs) (q k : Nat)
    (hq : q < s._nprocs) (hk : k ∈ sliceOf (afterProc s).2 q) :
    ∃ j ∈ sliceOf (afterProc s).2 q,
      (afterElem s).1.getD k default = (afterProc s).1._particles.getD j default := by
  obtain ⟨j, hj, e⟩ := afterElem_slice s h hok s._nprocs (Nat.le_refl _) q hq k hk
  refine ⟨j, hj, ?_⟩
  rw [List.getD_eq_getElem?_getD]
  unfold afterElem
  rw [e]
  rfl

theorem afterElem_key (s : Line) (h : s.WF)
    (hok : SlicesOk (key1 s) s.meshElements (afterProc s).2 s._nprocs) (q k : Nat)
    (hq : q < s._nprocs) (hk : k ∈ sliceOf (afterProc s).2 q) :
    ∃ j ∈ sliceOf (afterProc s).2 q, keyOf (afterElem s).1 k = key1 s j := by
  obtain ⟨j, hj, e⟩ := afterElem_getD s h hok q k hq hk
  exact ⟨j, hj, by unfold keyOf key1 keyOf; rw [e]⟩

theorem afterElem_particles (s : Line) (h : s.WF) (hpart : s.Partitioned)
    (hok : SlicesOk (key1 s) s.meshElements (afterProc s).2 s._nprocs) :
    (afterElem s).1 =
      (elemOrder1 s s._nprocs).map (fun j => (afterProc s).1._particles.getD j default) := by
  have ho2 := elemOrder1_perm s h hpart hok s._nprocs (Nat.le_refl _)
  rw [afterProc_offs_last s h] at ho2
  have hlen : (elemOrder1 s s._nprocs).length = s._particles.length := by
    simpa using ho2.length_eq
  unfold afterElem
  rw [arraysUpTo_eq_placeAll s h hpart hok s._nprocs (Nat.le_refl _)]
  rw [placeAll_fst _ _ _ _ _ (by simp [hlen, afterProc_particles_length])]
  simp [hlen, afterProc_particles_length]

theorem elemOrder1_split (s : Line) (p P : Nat) (hp : p < P) :
    ∃ Y, elemOrder1 s P = elemOrder1 s p ++
      sliceOrder (key1 s) s._particles.length
        (flagsUpTo (key1 s) (afterProc s).2 (List.replicate s.meshElements false) p)
        (afterProc s).2 p ++ Y := by
  induction P with
  | zero => omega
  | succ P ih =>
    by_cases e : p = P
    · subst e
      exact ⟨[], by rw [elemOrder1_succ, List.append_nil]⟩
    · obtain ⟨Y, hY⟩ := ih (by omega)
      exact ⟨Y ++ sliceOrder (key1 s) s._particles.length
        (flagsUpTo (key1 s) (afterProc s).2 (List.replicate s.meshElements false) P)
        (afterProc s).2 P, by rw [elemOrder1_succ, hY]; simp⟩

theorem map_getD_range'_mid (X Z Y : List Marker) :
    (List.range' X.length Z.length).map (fun i => (X ++ Z ++ Y).getD i default) = Z := by
  apply List.ext_getElem (by simp)
  intro i h1 h2
  simp only [List.getElem_map, List.getElem_range'_1]
  rw [List.getD_eq_getElem?_getD, List.append_assoc, List.getElem?_append_right (by omega),
    List.getElem?_append_left (by omega)]
  have : X.length + i - X.length = i := by omega
  rw [this, List.getElem?_eq_getElem h2]
  rfl

/-- The elements found in a slice after a returning `UpdateLine` are those of the slots that the
element pass moved for it, in the order of the moves. -/
theorem afterElem_slice_keys (s : Line) (h : s.WF) (hpart : s.Partitioned)
    (hok : SlicesOk (key1 s) s.meshElements (afterProc s).2 s._nprocs) (p : Nat)
    (hp : p < s._nprocs) :
    (sliceOf (afterProc s).2 p).map (keyOf (afterElem s).1) =
      (sliceOrder (key1 s) s._particles.length
        (flagsUpTo (key1 s) (afterProc s).2 (List.replicate s.meshElements false) p)
        (afterProc s).2 p).map (key1 s) := by
  obtain ⟨Y, hY⟩ := elemOrder1_split s p s._nprocs hp
  have hX : (elemOrder1 s p).length = (afterProc s).2.getD p 0 := by
    simpa using (elemOrder1_perm s h hpart hok p (by omega)).length_eq
  have hZ := (sliceOrder_perm s h hpart hok p hp).length_eq
  rw [sliceOf_length] at hZ
  have hA := afterElem_particles s h hpart hok
  rw [hY, List.map_append, List.map_append] at hA
  have hmid := map_getD_range'_mid
    ((elemOrder1 s p).map (fun j => (afterProc s).1._particles.getD j default))
    ((sliceOrder (key1 s) s._particles.length
        (flagsUpTo (key1 s) (afterProc s).2 (List.replicate s.meshElements false) p)
        (afterProc s).2 p).map (fun j => (afterProc s).1._particles.getD j default))
    (Y.map (fun j => (afterProc s).1._particles.getD j default))
  rw [← hA, List.length_map, List.length_map, hX, hZ] at hmid
  have := congrArg (List.map (fun m : Marker => m._elem)) hmid
  rw [List.map_map, List.map_map] at this
  exact this

theorem afterElem_reordered (s s1 : Line) (h : s.WF) (hpart : s.Partitioned)
    (hret : s.UpdateLine = Outcome.returned s1) : s1.Reordered := by
  obtain ⟨hok, l, hl, rfl⟩ := (UpdateLine_returned_iff s s1).mp hret
  have hN := (afterElem_length s).1
  refine ⟨afterProc_offs_zero s h,
    fun p hp => afterProc_offs_mono s h p (p + 1) (by omega) hp, ?_, ?_, ?_, hl⟩
  · intro p hp k hk1 hk2
    have hp : p < s._nprocs := hp
    obtain ⟨j, hj, e⟩ := afterElem_getD s h hok p k hp ((mem_sliceOf _ _ _).mpr ⟨hk1, hk2⟩)
    simp only
    rw [e]
    exact (afterProc_slice_proc s h hpart.1 p j hp hj).1
  · intro p hp
    have hp : p < s._nprocs := hp
    simp only
    rw [hN]
    -- the moves of the first call for this slice
    have hkeys := afterElem_slice_keys s h hpart hok p hp
    have hperm := sliceOrder_perm s h hpart hok p hp
    have hlen := hperm.length_eq
    rw [sliceOf_length] at hlen
    generalize hel : flagsUpTo (key1 s) (afterProc s).2 (List.replicate s.meshElements false) p
      = el at hkeys hperm hlen
    generalize hel1 : flagsUpTo (keyOf (afterElem s).1) (afterProc s).2
      (List.replicate s.meshElements false) p = el1
    have hfresh : ∀ j ∈ ordOf (key1 s) el (sliceOf (afterProc s).2 p),
        fresh el1 (key1 s j) = true := by
      intro j hj
      have hf := ((mem_ordOf _ _ _ _).mp hj).2
      rw [← hel, fresh_flagsUpTo] at hf
      rw [← hel1, fresh_flagsUpTo]
      refine ⟨hf.1, ?_⟩
      intro q hq i hi
      obtain ⟨j1, hj1, e⟩ := afterElem_key s h hok q i (by omega) hi
      rw [e]
      exact hf.2 q hq j1 hj1
    unfold sliceOrder at hkeys hlen ⊢
    generalize hG : ordOf (key1 s) el (sliceOf (afterProc s).2 p) = G at hkeys hlen hfresh
    generalize hT : (if p = 0 ∧ ¬ SliceClean (key1 s) (sliceOf (afterProc s).2 p) then
      (List.range s._particles.length).filter (fun i => decide (key1 s i = UINT_MAX))
      else []) = T at hkeys hlen
    have hTk : ∀ j ∈ T, key1 s j = UINT_MAX := by
      intro j hj
      rw [← hT] at hj
      split at hj
      · simpa using (List.mem_filter.mp hj).2
      · simp at hj
    have hslice : sliceOf (afterProc s).2 p =
        List.range' ((afterProc s).2.getD p 0) G.length ++
          List.range' ((afterProc s).2.getD p 0 + G.length) T.length := by
      unfold sliceOf
      rw [List.range'_append_1, ← hlen, List.length_append]
      congr 1
      omega
    rw [hslice, List.map_append, List.map_append] at hkeys
    obtain ⟨hkG, hkT⟩ := List.append_inj hkeys (by simp)
    have hTa : ∀ x ∈ List.range' ((afterProc s).2.getD p 0 + G.length) T.length,
        keyOf (afterElem s).1 x = UINT_MAX :=
      map_eq_const_of_map_eq hkT (fun v => v = UINT_MAX) hTk
    have hGa : ∀ x ∈ List.range' ((afterProc s).2.getD p 0) G.length,
        keyOf (afterElem s).1 x ≠ UINT_MAX :=
      map_eq_const_of_map_eq hkG (fun v => v ≠ UINT_MAX) (fun y hy => by
        rw [← hG] at hy
        exact fresh_ne _ _ ((mem_ordOf _ _ _ _).mp hy).2)
    have hord : ordOf (keyOf (afterElem s).1) el1 (sliceOf (afterProc s).2 p) =
        List.range' ((afterProc s).2.getD p 0) G.length := by
      have := ordOf_grouped_id (key1 s) (keyOf (afterElem s).1) (sliceOf (afterProc s).2 p)
        el el1 ((afterProc s).2.getD p 0) T.length
      rw [hG] at this
      have e := this hkG hTa hfresh
      rw [← e, hslice, List.range'_append_1]
      congr 2
      omega
    rw [hord]
    by_cases hc : p = 0 ∧ ¬ SliceClean (key1 s) (sliceOf (afterProc s).2 p)
    · -- process 0 with markers outside the domain
      have hp0 : p = 0 := hc.1
      subst hp0
      rw [if_pos hc] at hT
      have h0 := afterProc_offs_zero s h
      have hTpos : 0 < T.length := by
        have hnc := hc.2
        unfold SliceClean at hnc
        simp only [not_forall, not_not] at hnc
        obtain ⟨j, hj, hkey⟩ := hnc
        have : j ∈ T := by
          rw [← hT]
          simp only [List.mem_filter, List.mem_range, decide_eq_true_eq]
          exact ⟨sliceOf_lt s h 0 j hp hj, hkey⟩
        exact List.length_pos_of_mem this
      have hnc1 : ¬ SliceClean (keyOf (afterElem s).1) (sliceOf (afterProc s).2 0) := by
        intro hcl
        have hm : (afterProc s).2.getD 0 0 + G.length ∈ sliceOf (afterProc s).2 0 := by
          rw [hslice, List.mem_append]
          right
          rw [List.mem_range'_1]
          omega
        exact hcl _ hm (hTa _ (by rw [List.mem_range'_1]; omega))
      rw [if_pos ⟨rfl, hnc1⟩, hslice]
      congr 1
      have hle := afterProc_offs_mono s h 1 s._nprocs h.1 (Nat.le_refl _)
      rw [afterProc_offs_last s h] at hle
      have hfi := filter_range_interval s._particles.length
        ((afterProc s).2.getD 0 0 + G.length)
        ((afterProc s).2.getD 0 0 + G.length + T.length)
        (fun i => decide (keyOf (afterElem s).1 i = UINT_MAX)) (by omega)
        (by rw [List.length_append, Nat.zero_add] at hlen; omega)
      rw [hfi]
      · congr 1
        omega
      · intro i hi
        simp only [decide_eq_true_eq]
        constructor
        · intro hkey
          have hm := afterElem_outside_slots s h hok i hi hkey
          rw [hslice, List.mem_append] at hm
          rcases hm with hm | hm
          · exact absurd hkey (hGa i hm)
          · rw [List.mem_range'_1] at hm
            exact hm
        · intro hi2
          exact hTa i (by rw [List.mem_range'_1]; exact hi2)
    · -- no marker outside the domain is moved for this slice
      rw [if_neg hc] at hT
      subst hT
      have hcl1 : SliceClean (keyOf (afterElem s).1) (sliceOf (afterProc s).2 p) := by
        intro j hj
        rw [hslice, List.mem_append] at hj
        rcases hj with hj | hj
        · exact hGa j hj
        · simp at hj
      rw [if_neg (fun hh => hh.2 hcl1), hslice]
      simp
  · intro p hp
    have hp : p < s._nprocs := hp
    simp only
    constructor
    · intro k hk
      obtain ⟨j, hj, e⟩ := afterElem_key s h hok p k hp hk
      rw [e]
      exact (hok p hp).1 j hj
    · intro hp0 k hk
      obtain ⟨j, hj, e⟩ := afterElem_key s h hok p k hp hk
      rw [e]
      exact (hok p hp).2 hp0 j hj

/-! ## Groups of equal elements -/

theorem firstsFrom_cons (seen : List Nat) (x : Nat) (rest : List Nat) :
    firstsFrom seen (x :: rest) =
      if x ∈ seen then firstsFrom seen rest else x :: firstsFrom (x :: seen) rest := rfl

theorem firstsFrom_append_seen (seen A B : List Nat) (h : ∀ a ∈ A, a ∈ seen) :
    firstsFrom seen (A ++ B) = firstsFrom seen B := by
  induction A with
  | nil => rfl
  | cons a A ih =>
    rw [List.cons_append, firstsFrom_cons, if_pos (h a (List.mem_cons_self _ _))]
    exact ih (fun x hx => h x (List.mem_cons_of_mem _ hx))

theorem firstsFrom_filter_seen (c : Nat) (l : List Nat) :
    ∀ seen : List Nat, c ∈ seen →
      firstsFrom seen (l.filter (fun x => decide (x ≠ c))) = firstsFrom seen l := by
  induction l with
  | nil => intro seen _; rfl
  | cons x rest ih =>
    intro seen hc
    by_cases hx : x = c
    · subst hx
      rw [List.filter_cons_of_neg (by simp)]
      rw [ih seen hc, firstsFrom_cons, if_pos hc]
    · rw [List.filter_cons_of_pos (by simp [hx]), firstsFrom_cons, firstsFrom_cons]
      by_cases hs : x ∈ seen
      · rw [if_pos hs, if_pos hs]
        exact ih seen hc
      · rw [if_neg hs, if_neg hs, ih (x :: seen) (List.mem_cons_of_mem _ hc)]

theorem ordOf_filter_key (key : Nat → Nat) (e : Nat) (l : List Nat) :
    ∀ el : List Bool,
      (ordOf key el l).filter (fun j => decide (key j = e)) =
        if fresh el e = true then l.filter (fun j => decide (key j = e)) else [] := by
  induction l with
  | nil => intro el; simp [ordOf]
  | cons jp rest ih =>
    intro el
    unfold ordOf
    by_cases hf : fresh el (key jp) = true
    · rw [if_pos hf, List.filter_append, ih]
      by_cases he : key jp = e
      · subst he
        have hst : fresh (el.set (key jp) true) (key jp) = false := by
          rw [fresh_set]; simp
        rw [hst, if_pos hf]
        simp
      · have hfe : fresh (el.set (key jp) true) e = fresh el e := by
          rw [fresh_set]
          have : decide (e ≠ key jp) = true := by simp; exact fun h => he h.symm
          rw [this, Bool.and_true]
        rw [hfe, List.filter_cons_of_neg (by simp [he])]
        have : (rest.filter (fun ip => decide (key ip = key jp))).filter
            (fun j => decide (key j = e)) = [] := by
          rw [List.filter_eq_nil_iff]
          intro a ha
          have := (List.mem_filter.mp ha).2
          simp only [decide_eq_true_eq] at this ⊢
          rw [this]; exact he
        rw [this, List.nil_append, List.filter_cons_of_neg (by simp [he])]
    · rw [if_neg hf, ih]
      by_cases hfe : fresh el e = true
      · rw [if_pos hfe, if_pos hfe]
        have he : key jp ≠ e := by
          intro h; rw [h] at hf; exact hf hfe
        rw [List.filter_cons_of_neg (by simp [he])]
      · rw [if_neg hfe, if_neg hfe]

theorem ordOf_firsts (key : Nat → Nat) (l : List Nat) :
    ∀ (el : List Bool) (seen : List Nat),
      firstsFrom seen ((ordOf key el l).map key) =
        firstsFrom seen ((l.filter (fun j => fresh el (key j))).map key) := by
  induction l with
  | nil => intro el seen; simp [ordOf]
  | cons jp rest ih =>
    intro el seen
    unfold ordOf
    by_cases hf : fresh el (key jp) = true
    · rw [if_pos hf, List.filter_cons, if_pos hf, List.map_append, List.map_cons, List.map_cons,
        List.cons_append]
      have hfil : (rest.filter (fun j => fresh (el.set (key jp) true) (key j))).map key =
          ((rest.filter (fun j => fresh el (key j))).map key).filter
            (fun x => decide (x ≠ key jp)) := by
        rw [List.filter_map, List.filter_filter]
        congr 1
        apply List.filter_congr
        intro j _
        simp only [Function.comp]
        rw [fresh_set, Bool.and_comm]
      have hblock : ∀ S : List Nat, key jp ∈ S →
          firstsFrom S ((rest.filter (fun ip => decide (key ip = key jp))).map key ++
            (ordOf key (el.set (key jp) true) rest).map key) =
          firstsFrom S ((rest.filter (fun j => fresh el (key j))).map key) := by
        intro S hS
        rw [firstsFrom_append_seen, ih, hfil, firstsFrom_filter_seen _ _ _ hS]
        intro a ha
        obtain ⟨j, hj, rfl⟩ := List.mem_map.mp ha
        have := (List.mem_filter.mp hj).2
        simp only [decide_eq_true_eq] at this
        rw [this]; exact hS
      rw [firstsFrom_cons, firstsFrom_cons]
      by_cases hs : key jp ∈ seen
      · rw [if_pos hs, if_pos hs]
        exact hblock seen hs
      · rw [if_neg hs, if_neg hs, hblock _ (List.mem_cons_self _ _)]
    · rw [if_neg hf, List.filter_cons, if_neg hf]
      exact ih el seen

theorem getD_mem_of_lt (l : List Nat) (i : Nat) (h : i < l.length) : l.getD i 0 ∈ l := by
  rw [List.getD_eq_getElem _ _ h]
  exact List.getElem_mem _

theorem contiguous_append (A B : List Nat) (hA : Contiguous A) (hB : Contiguous B)
    (hd : ∀ a ∈ A, a ∉ B) : Contiguous (A ++ B) := by
  intro k hk j hjk i hij e
  rw [List.length_append] at hk
  by_cases hkA : k < A.length
  · rw [List.getD_append _ _ _ _ hkA, List.getD_append _ _ _ _ (by omega : i < A.length)] at e
    rw [List.getD_append _ _ _ _ (by omega : j < A.length),
      List.getD_append _ _ _ _ (by omega : i < A.length)]
    exact hA k hkA j hjk i hij e
  · by_cases hiA : i < A.length
    · rw [List.getD_append _ _ _ _ hiA, List.getD_append_right _ _ _ _ (by omega)] at e
      exact absurd (e ▸ getD_mem_of_lt B (k - A.length) (by omega))
        (hd _ (getD_mem_of_lt A i hiA))
    · rw [List.getD_append_right _ _ _ _ (by omega), List.getD_append_right _ _ _ _ (by omega)]
        at e
      rw [List.getD_append_right _ _ _ _ (by omega), List.getD_append_right _ _ _ _ (by omega)]
      exact hB (k - A.length) (by omega) (j - A.length) (by omega) (i - A.length) (by omega) e

theorem contiguous_const (A : List Nat) (c : Nat) (h : ∀ a ∈ A, a = c) : Contiguous A := by
  intro k hk j hjk i hij _
  rw [h _ (getD_mem_of_lt A j (by omega)), h _ (getD_mem_of_lt A i (by omega))]

theorem ordOf_contiguous (key : Nat → Nat) (l : List Nat) :
    ∀ el : List Bool, Contiguous ((ordOf key el l).map key) := by
  induction l with
  | nil => intro el k hk; simp [ordOf] at hk
  | cons jp rest ih =>
    intro el
    unfold ordOf
    by_cases hf : fresh el (key jp) = true
    · rw [if_pos hf, List.map_append]
      apply contiguous_append _ _ (contiguous_const _ (key jp) _) (ih _)
      · intro a ha hb
        obtain ⟨j, hj, rfl⟩ := List.mem_map.mp hb
        have hfr := ((mem_ordOf key rest _ j).mp hj).2
        rw [fresh_set] at hfr
        have hne : key j ≠ key jp := by
          have := (Bool.and_eq_true _ _).mp hfr
          simpa using this.2
        apply hne
        obtain ⟨i, hi, e⟩ := List.mem_map.mp ha
        rcases List.mem_cons.mp hi with rfl | hi
        · exact e.symm
        · have := (List.mem_filter.mp hi).2
          simp only [decide_eq_true_eq] at this
          rw [← e, this]
      · intro a ha
        obtain ⟨i, hi, e⟩ := List.mem_map.mp ha
        rcases List.mem_cons.mp hi with rfl | hi
        · exact e.symm
        · have := (List.mem_filter.mp hi).2
          simp only [decide_eq_true_eq] at this
          rw [← e, this]
    · rw [if_neg hf]
      exact ih el

theorem buckets_split (ps : List Marker) (p P : Nat) (hp : p < P) :
    ∃ Y, buckets ps P = buckets ps p ++ ps.filter (ofProc p) ++ Y := by
  induction P with
  | zero => omega
  | succ P ih =>
    by_cases e : p = P
    · subst e
      exact ⟨[], by rw [List.append_nil]; rfl⟩
    · obtain ⟨Y, hY⟩ := ih (by omega)
      exact ⟨Y ++ ps.filter (fun m => decide (m._mproc = P)), by
        show buckets ps P ++ _ = _
        rw [hY]; simp⟩

/-- After the reorder by proc the slice of process `p` holds the markers of process `p`, in the
order they had before. -/
theorem afterProc_sliceMarkers (s : Line) (h : s.WF)
    (hproc : ∀ m ∈ s._particles, m._mproc < s._nprocs) (p : Nat) (hp : p < s._nprocs) :
    (sliceOf (afterProc s).2 p).map (fun k => (afterProc s).1._particles.getD k default) =
      s._particles.filter (ofProc p) := by
  obtain ⟨Y, hY⟩ := buckets_split s._particles p s._nprocs hp
  have e1 := afterProc_offs_good s h hproc p (by omega)
  have e2 := afterProc_offs_good s h hproc (p + 1) (by omega)
  have e3 : (procOrder s._particles (p + 1)).length - (procOrder s._particles p).length =
      (s._particles.filter (ofProc p)).length := by
    rw [procOrder_succ_length, List.countP_eq_length_filter]
    unfold ofProc
    omega
  unfold sliceOf
  rw [afterProc_particles, procOrder_map_getD, hY, e1, e2, e3, procOrder_length s._particles p,
    List.append_assoc (buckets s._particles p ++ s._particles.filter (ofProc p))]
  exact map_getD_range'_mid _ _ _

/-- When the moves of process `q` fill its slice, the slice holds after the element pass the
markers of the moved slots, in the order of the moves. -/
theorem afterElem_slice_exact (s : Line) (h : s.WF)
    (hok : SlicesOk (key1 s) s.meshElements (afterProc s).2 s._nprocs) :
    ∀ P, P ≤ s._nprocs → ∀ q < P, ∀ k ∈ sliceOf (afterProc s).2 q,
      k < (afterProc s).2.getD q 0 +
        (sliceOrder (key1 s) s._particles.length
          (flagsUpTo (key1 s) (afterProc s).2 (List.replicate s.meshElements false) q)
          (afterProc s).2 q).length →
      (arraysUpTo (afterProc s).1._particles (afterProc s).1._printList (afterProc s).2
          (List.replicate s.meshElements false) P).1[k]? =
        some ((afterProc s).1._particles.getD
          ((sliceOrder (key1 s) s._particles.length
            (flagsUpTo (key1 s) (afterProc s).2 (List.replicate s.meshElements false) q)
            (afterProc s).2 q).getD (k - (afterProc s).2.getD q 0) 0) default) := by
  intro P
  induction P with
  | zero => intro _ q hq; omega
  | succ P ih =>
    intro hP q hq k hk hlen
    simp only [arraysUpTo]
    have hN := afterProc_particles_length s
    obtain ⟨_, _, h3⟩ := sliceOrder1_facts s h hok P (by omega)
      (flagsUpTo (key1 s) (afterProc s).2 (List.replicate s.meshElements false) P)
    have hle := afterProc_offs_mono s h (P + 1) s._nprocs (by omega) (Nat.le_refl _)
    rw [afterProc_offs_last s h] at hle
    rw [← hN] at h3 hlen
    unfold key1 at h3 hlen
    rw [placeAll_fst_getElem? _ _ _ _ _ (by rw [(arraysUpTo_length _ _ _ _ _).1]; omega)]
    by_cases hin : (afterProc s).2.getD P 0 ≤ k ∧ k < (afterProc s).2.getD P 0 +
        (sliceOrder (keyOf (afterProc s).1._particles) (afterProc s).1._particles.length
          (flagsUpTo (keyOf (afterProc s).1._particles) (afterProc s).2
            (List.replicate s.meshElements false) P) (afterProc s).2 P).length
    · rw [if_pos hin]
      have hmem : k ∈ sliceOf (afterProc s).2 P := (mem_sliceOf _ _ _).mpr (by omega)
      have hqP := slices_disjoint s h q P k (by omega) (by omega) hk hmem
      subst hqP
      unfold key1
      rw [hN]
    · rw [if_neg hin]
      by_cases hqP : q = P
      · subst hqP
        exact absurd ⟨((mem_sliceOf _ _ _).mp hk).1, hlen⟩ hin
      · have := ih (by omega) q (by omega) k hk (by rw [← hN]; unfold key1; exact hlen)
        rw [this]

/-- When every found element of the slice of process `q` is still unflagged, the moves of
process `q` are the groups of the found elements followed by the slots of the slice that hold a
marker outside the domain, and they fill the slice. -/
theorem sliceOrder_grouped (s : Line) (h : s.WF)
    (hok : SlicesOk (key1 s) s.meshElements (afterProc s).2 s._nprocs) (q : Nat)
    (hq : q < s._nprocs)
    (hfresh : ∀ j ∈ sliceOf (afterProc s).2 q, key1 s j ≠ UINT_MAX →
      fresh (flagsUpTo (key1 s) (afterProc s).2 (List.replicate s.meshElements false) q)
        (key1 s j) = true) :
    sliceOrder (key1 s) s._particles.length
        (flagsUpTo (key1 s) (afterProc s).2 (List.replicate s.meshElements false) q)
        (afterProc s).2 q =
      ordOf (key1 s) (flagsUpTo (key1 s) (afterProc s).2 (List.replicate s.meshElements false) q)
          (sliceOf (afterProc s).2 q) ++
        (sliceOf (afterProc s).2 q).filter (fun i => decide (key1 s i = UINT_MAX)) ∧
    (sliceOrder (key1 s) s._particles.length
        (flagsUpTo (key1 s) (afterProc s).2 (List.replicate s.meshElements false) q)
        (afterProc s).2 q).length = (sliceOf (afterProc s).2 q).length := by
  have e1 : sliceOrder (key1 s) s._particles.length
        (flagsUpTo (key1 s) (afterProc s).2 (List.replicate s.meshElements false) q)
        (afterProc s).2 q =
      ordOf (key1 s) (flagsUpTo (key1 s) (afterProc s).2 (List.replicate s.meshElements false) q)
          (sliceOf (afterProc s).2 q) ++
        (sliceOf (afterProc s).2 q).filter (fun i => decide (key1 s i = UINT_MAX)) := by
    unfold sliceOrder
    congr 1
    by_cases hc : q = 0 ∧ ¬ SliceClean (key1 s) (sliceOf (afterProc s).2 q)
    · rw [if_pos hc]
      obtain ⟨rfl, _⟩ := hc
      exact range_filter_outside s h hok
    · rw [if_neg hc]
      symm
      rw [List.filter_eq_nil_iff]
      intro i hi
      have hcl : SliceClean (key1 s) (sliceOf (afterProc s).2 q) := by
        by_cases h0 : q = 0
        · by_contra hn; exact hc ⟨h0, hn⟩
        · exact (hok q hq).2 h0
      simpa using hcl i hi
  refine ⟨e1, ?_⟩
  have hA : (sliceOf (afterProc s).2 q).filter (fun j =>
        fresh (flagsUpTo (key1 s) (afterProc s).2 (List.replicate s.meshElements false) q)
          (key1 s j)) =
      (sliceOf (afterProc s).2 q).filter (fun i => decide (key1 s i ≠ UINT_MAX)) := by
    apply List.filter_congr
    intro j hj
    by_cases hne : key1 s j = UINT_MAX
    · have : fresh (flagsUpTo (key1 s) (afterProc s).2 (List.replicate s.meshElements false) q)
          (key1 s j) = false := by
        rw [hne]
        by_contra hn
        exact fresh_ne _ _ (by simpa using hn) rfl
      rw [this]; simp [hne]
    · rw [hfresh j hj hne]; simp [hne]
  have hB := List.length_eq_length_filter_add (l := sliceOf (afterProc s).2 q)
    (fun i => decide (key1 s i ≠ UINT_MAX))
  have hC : (sliceOf (afterProc s).2 q).filter (fun x => !decide (key1 s x ≠ UINT_MAX)) =
      (sliceOf (afterProc s).2 q).filter (fun i => decide (key1 s i = UINT_MAX)) := by
    apply List.filter_congr
    intro j _
    simp
  rw [e1, List.length_append,
    (ordOf_perm (key1 s) (sliceOf (afterProc s).2 q) _).length_eq, hA, ← hC]
  exact hB.symm

/-- The markers of a slice after the element pass, when every found element of the slice was
still unflagged: the groups, then the markers outside the domain. -/
theorem afterElem_sliceMarkers (s : Line) (h : s.WF)
    (hok : SlicesOk (key1 s) s.meshElements (afterProc s).2 s._nprocs) (q : Nat)
    (hq : q < s._nprocs)
    (hfresh : ∀ j ∈ sliceOf (afterProc s).2 q, key1 s j ≠ UINT_MAX →
      fresh (flagsUpTo (key1 s) (afterProc s).2 (List.replicate s.meshElements false) q)
        (key1 s j) = true) :
    (sliceOf (afterProc s).2 q).map (fun k => (afterElem s).1.getD k default) =
      (ordOf (key1 s) (flagsUpTo (key1 s) (afterProc s).2 (List.replicate s.meshElements false) q)
          (sliceOf (afterProc s).2 q) ++
        (sliceOf (afterProc s).2 q).filter (fun i => decide (key1 s i = UINT_MAX))).map
        (fun j => (afterProc s).1._particles.getD j default) := by
  obtain ⟨e1, e2⟩ := sliceOrder_grouped s h hok q hq hfresh
  rw [← e1]
  apply List.ext_getElem
  · rw [List.length_map, List.length_map, e2]
  · intro i h1 h2
    rw [List.length_map] at h1 h2
    rw [List.getElem_map, List.getElem_map]
    have hk : (sliceOf (afterProc s).2 q)[i] = (afterProc s).2.getD q 0 + i := by
      unfold sliceOf
      rw [List.getElem_range'_1]
    have hmem : (afterProc s).2.getD q 0 + i ∈ sliceOf (afterProc s).2 q := by
      rw [← hk]; exact List.getElem_mem _
    have := afterElem_slice_exact s h hok s._nprocs (Nat.le_refl _) q hq _ hmem (by omega)
    rw [hk, List.getD_eq_getElem?_getD]
    unfold afterElem
    rw [this, Nat.add_sub_cancel_left, List.getD_eq_getElem _ _ h2]
    rfl

theorem key1_eq (s : Line) (j : Nat) :
    key1 s j = ((afterProc s).1._particles.getD j default)._elem := rfl

/-- What the element pass does to a slice whose found elements were all still unflagged, in
terms of the markers `old` it held after the reorder by proc and the markers `new` it holds
afterwards. -/
theorem slice_grouped (s : Line) (h : s.WF)
    (hok : SlicesOk (key1 s) s.meshElements (afterProc s).2 s._nprocs) (q : Nat)
    (hq : q < s._nprocs)
    (hfresh : ∀ j ∈ sliceOf (afterProc s).2 q, key1 s j ≠ UINT_MAX →
      fresh (flagsUpTo (key1 s) (afterProc s).2 (List.replicate s.meshElements false) q)
        (key1 s j) = true)
    (old new : List Marker)
    (hold : old = (sliceOf (afterProc s).2 q).map
      (fun k => (afterProc s).1._particles.getD k default))
    (hnew : new = (sliceOf (afterProc s).2 q).map (fun k => (afterElem s).1.getD k default)) :
    Contiguous (new.map (fun m => m._elem)) ∧
    firsts ((new.filter (fun m => !outside m)).map (fun m => m._elem)) =
      firsts ((old.filter (fun m => !outside m)).map (fun m => m._elem)) ∧
    (∀ e, new.filter (inElem e) = old.filter (inElem e)) ∧
    ∃ G, new = G ++ old.filter outside ∧ ∀ m ∈ G, m._elem ≠ UINT_MAX := by
  have hN := afterElem_sliceMarkers s h hok q hq hfresh
  rw [← hnew] at hN
  have hOfound : ∀ j ∈ ordOf (key1 s)
      (flagsUpTo (key1 s) (afterProc s).2 (List.replicate s.meshElements false) q)
      (sliceOf (afterProc s).2 q), key1 s j ≠ UINT_MAX :=
    fun j hj => fresh_ne _ _ ((mem_ordOf _ _ _ _).mp hj).2
  have hfr : (sliceOf (afterProc s).2 q).filter (fun j =>
        fresh (flagsUpTo (key1 s) (afterProc s).2 (List.replicate s.meshElements false) q)
          (key1 s j)) =
      (sliceOf (afterProc s).2 q).filter (fun i => decide (key1 s i ≠ UINT_MAX)) := by
    apply List.filter_congr
    intro j hj
    by_cases hne : key1 s j = UINT_MAX
    · have : fresh (flagsUpTo (key1 s) (afterProc s).2 (List.replicate s.meshElements false) q)
          (key1 s j) = false := by
        rw [hne]
        by_contra hn
        exact fresh_ne _ _ (by simpa using hn) rfl
      rw [this]; simp [hne]
    · rw [hfresh j hj hne]; simp [hne]
  refine ⟨?_, ?_, ?_, ?_⟩
  · rw [hN, List.map_map, List.map_append]
    apply contiguous_append _ _ (ordOf_contiguous (key1 s) _ _) (contiguous_const _ UINT_MAX _)
    · intro a ha hb
      obtain ⟨j, hj, rfl⟩ := List.mem_map.mp ha
      obtain ⟨i, hi, e⟩ := List.mem_map.mp hb
      have := (List.mem_filter.mp hi).2
      simp only [decide_eq_true_eq] at this
      apply hOfound j hj
      simp only [Function.comp] at e
      exact (show key1 s j = key1 s i from e.symm).trans this
    · intro a ha
      obtain ⟨i, hi, e⟩ := List.mem_map.mp ha
      have := (List.mem_filter.mp hi).2
      simp only [decide_eq_true_eq] at this
      simp only [Function.comp] at e
      rw [← e]; exact this
  · rw [hN, hold, List.filter_map, List.filter_map, List.map_map, List.map_map,
      List.filter_append]
    have e1 : (ordOf (key1 s)
        (flagsUpTo (key1 s) (afterProc s).2 (List.replicate s.meshElements false) q)
        (sliceOf (afterProc s).2 q)).filter
          ((fun m => !outside m) ∘ fun j => (afterProc s).1._particles.getD j default) =
        ordOf (key1 s)
          (flagsUpTo (key1 s) (afterProc s).2 (List.replicate s.meshElements false) q)
          (sliceOf (afterProc s).2 q) := by
      rw [List.filter_eq_self]
      intro j hj
      have := hOfound j hj
      rw [key1_eq] at this
      show (!decide (((afterProc s).1._particles.getD j default)._elem = UINT_MAX)) = true
      rw [decide_eq_false this]
      rfl
    have e2 : ((sliceOf (afterProc s).2 q).filter (fun i => decide (key1 s i = UINT_MAX))).filter
          ((fun m => !outside m) ∘ fun j => (afterProc s).1._particles.getD j default) = [] := by
      rw [List.filter_eq_nil_iff]
      intro j hj
      have := (List.mem_filter.mp hj).2
      simp only [decide_eq_true_eq, key1_eq] at this
      show ¬ (!decide (((afterProc s).1._particles.getD j default)._elem = UINT_MAX)) = true
      rw [decide_eq_true this]
      decide
    rw [e1, e2, List.append_nil]
    have e3 := ordOf_firsts (key1 s) (sliceOf (afterProc s).2 q)
      (flagsUpTo (key1 s) (afterProc s).2 (List.replicate s.meshElements false) q) []
    have hfr2 : (sliceOf (afterProc s).2 q).filter (fun i => decide (key1 s i ≠ UINT_MAX)) =
        (sliceOf (afterProc s).2 q).filter
          ((fun m => !outside m) ∘ fun j => (afterProc s).1._particles.getD j default) := by
      apply List.filter_congr
      intro j _
      show decide (¬ key1 s j = UINT_MAX) = !decide (key1 s j = UINT_MAX)
      simp
    rw [hfr, hfr2] at e3
    exact e3
  · intro e
    rw [hN, hold, List.filter_map, List.filter_map, List.filter_append]
    congr 1
    have e0 : ∀ l : List Nat, l.filter
        (inElem e ∘ fun j => (afterProc s).1._particles.getD j default) =
        l.filter (fun j => decide (key1 s j = e)) := fun l => rfl
    rw [e0, e0, e0, ordOf_filter_key]
    by_cases hu : e = UINT_MAX
    · subst hu
      have : ¬ fresh (flagsUpTo (key1 s) (afterProc s).2 (List.replicate s.meshElements false) q)
          UINT_MAX = true := fun hn => fresh_ne _ _ hn rfl
      rw [if_neg this, List.nil_append, List.filter_filter]
      apply List.filter_congr
      intro j _
      simp
    · have e2 : ((sliceOf (afterProc s).2 q).filter
          (fun i => decide (key1 s i = UINT_MAX))).filter (fun j => decide (key1 s j = e)) = [] := by
        rw [List.filter_eq_nil_iff]
        intro j hj
        have := (List.mem_filter.mp hj).2
        simp only [decide_eq_true_eq] at this
        simp only [decide_eq_true_eq, this]
        exact fun h => hu h.symm
      rw [e2, List.append_nil]
      by_cases hfe : fresh
          (flagsUpTo (key1 s) (afterProc s).2 (List.replicate s.meshElements false) q) e = true
      · rw [if_pos hfe]
      · rw [if_neg hfe]
        symm
        rw [List.filter_eq_nil_iff]
        intro j hj hje
        simp only [decide_eq_true_eq] at hje
        apply hfe
        rw [← hje]
        exact hfresh j hj (by rw [hje]; exact hu)
  · refine ⟨(ordOf (key1 s)
        (flagsUpTo (key1 s) (afterProc s).2 (List.replicate s.meshElements false) q)
        (sliceOf (afterProc s).2 q)).map (fun j => (afterProc s).1._particles.getD j default),
      ?_, ?_⟩
    · rw [hN, hold, List.map_append, List.filter_map]
      rfl
    · intro m hm
      obtain ⟨j, hj, rfl⟩ := List.mem_map.mp hm
      exact hOfound j hj

/-! ## One stage of the loop and the reference Runge-Kutta stage -/

theorem assignFirst_eq_map (dim : Nat) (f : Nat → ℚ) (v : List ℚ) (h : v.length = dim) :
    assignFirst dim f v = (List.range dim).map f := by
  apply List.ext_getElem
  · rw [assignFirst_length, List.length_map, List.length_range, h]
  · intro i h1 h2
    rw [assignFirst_length] at h1
    have := assignFirst_getD dim f v h i (by omega)
    rw [List.getD_eq_getElem _ _ (by rw [assignFirst_length]; exact h1)] at this
    rw [this, List.getElem_map, List.getElem_range]

theorem reset_eq_replicate (order dim : Nat) (K : List (List ℚ)) (h : K.length = order) :
    (List.range order).foldl (fun K j => K.set j (List.replicate dim (0 : ℚ))) K =
      List.replicate order (List.replicate dim 0) := by
  apply List.ext_getElem
  · rw [foldl_set_length (fun _ => List.replicate dim (0 : ℚ)), List.length_replicate, h]
  · intro i h1 h2
    rw [foldl_set_length (fun _ => List.replicate dim (0 : ℚ))] at h1
    have := foldl_set_getD (fun _ => List.replicate dim (0 : ℚ)) [] order K (by omega) i
    rw [if_pos (by omega), List.getD_eq_getElem _ _ (by
      rw [foldl_set_length (fun _ => List.replicate dim (0 : ℚ))]; exact h1)] at this
    rw [this, List.getElem_replicate]

/-- The body of the stage loop is the stage followed by the search for the new element. -/
theorem stageBody_eq (c : Collaborators) (force : Option ForceFunction) (dim iproc n order : Nat)
    (T : ℚ) (v : Local) :
    (stageBody c force dim iproc n order T v).1.marker._x =
        (stageUpdate c force dim n order T v).marker._x ∧
    (stageBody c force dim iproc n order T v).1.marker._x0 =
        (stageUpdate c force dim n order T v).marker._x0 ∧
    (stageBody c force dim iproc n order T v).1.marker._K =
        (stageUpdate c force dim n order T v).marker._K ∧
    (stageBody c force dim iproc n order T v).1.Fm =
        (stageUpdate c force dim n order T v).Fm := by
  have key : ∀ (cnd : Prop) [Decidable cnd] (a b : Local × Bool) (Q : Local × Bool → Prop),
      Q a → Q b → Q (if cnd then a else b) := by
    intro cnd _ a b Q ha hb
    split
    · exact ha
    · exact hb
  exact key _ _ _
    (fun r => r.1.marker._x = (stageUpdate c force dim n order T v).marker._x ∧
      r.1.marker._x0 = (stageUpdate c force dim n order T v).marker._x0 ∧
      r.1.marker._K = (stageUpdate c force dim n order T v).marker._K ∧
      r.1.Fm = (stageUpdate c force dim n order T v).Fm)
    ⟨rfl, rfl, rfl, rfl⟩ ⟨rfl, rfl, rfl, rfl⟩

/-! ## Two runs of the stage loop on different processes -/

theorem stageBody_located (c : Collaborators) (force : Option ForceFunction)
    (dim iproc n order : Nat) (T : ℚ) (hc : StaysOn c iproc) (v : Local) :
    stageBody c force dim iproc n order T v =
      (located c n order v.currentElem (stageUpdate c force dim n order T v), false) := by
  have key : ∀ r : Nat × Nat × Nat, r.2.1 ≠ UINT_MAX → r.2.2 = iproc → ∀ (a b : Local),
      (if r.2.1 = UINT_MAX then (a, true) else (b, decide (iproc ≠ r.2.2))) = (b, false) := by
    intro r h1 h2 a b
    rw [if_neg h1, h2]
    simp
  unfold stageBody
  simp only
  rw [key _ (hc _ _ _).1 (hc _ _ _).2]
  rfl

theorem stageUpdate_same (c d : Collaborators) (force : Option ForceFunction)
    (dim n order : Nat) (T : ℚ) (ho : SameOracles c d n order) (v w : Local)
    (h : SameLocal v w) :
    SameLocal (stageUpdate c force dim n order T v) (stageUpdate d force dim n order T w) := by
  obtain ⟨hS, hV, hM, _⟩ := ho
  have hs := hS _ _ h.1
  have hv := hV _ _ h.1
  obtain ⟨⟨h1, h2, h3, _, h5, h6⟩, h7, h8, h9, h10⟩ := h
  unfold stageUpdate
  simp only [h1, h2, h3, h5, h6, h7, h8, h9, h10, hs, hv, hM]
  exact ⟨⟨rfl, rfl, rfl, rfl, rfl, rfl⟩, rfl, rfl, rfl, rfl⟩

theorem located_same (c d : Collaborators) (n order : Nat) (ho : SameOracles c d n order)
    (pe : Nat) (v w : Local) (h : SameLocal v w) :
    SameLocal (located c n order pe v) (located d n order pe w) := by
  obtain ⟨hS, _, _, hE⟩ := ho
  have hs := hS _ _ h.1
  have he := hE pe (d.GetMarkerS n order w.marker) _ _ h.1
  obtain ⟨⟨h1, h2, h3, h4, _, _⟩, _, h8, h9, h10⟩ := h
  unfold located
  simp only [hs]
  exact ⟨⟨h1, h2, h3, h4, he.2, he.1⟩, he.2, h8, h9, h10⟩

theorem stageLoop_same (c d : Collaborators) (force : Option ForceFunction)
    (dim p q n order : Nat) (T : ℚ) (ho : SameOracles c d n order) (hc : StaysOn c p)
    (hd : StaysOn d q) :
    ∀ (t : Nat) (v w : Local), SameLocal v w →
      SameLocal (stageLoop c force dim p n order T t v) (stageLoop d force dim q n order T t w) := by
  intro t
  induction t with
  | zero => intro v w h; exact h
  | succ t ih =>
    intro v w h
    unfold stageLoop
    rw [stageBody_located c force dim p n order T hc, stageBody_located d force dim q n order T hd]
    rw [← h.2.2.1]
    by_cases hlt : v.step < nTimesOrder n order
    · rw [if_pos hlt, if_pos hlt]
      apply ih
      rw [← h.2.1]
      exact located_same c d n order ho _ _ _ (stageUpdate_same c d force dim n order T ho v w h)
    · rw [if_neg hlt, if_neg hlt]
      exact h

theorem advectMarker_eq (c : Collaborators) (force : Option ForceFunction)
    (dim iproc n order : Nat) (T : ℚ) (Fm : List ℚ) (m : Marker) :
    (advectMarker c force dim iproc n order T Fm m).1 =
      if (startWith Fm m).markerOutsideDomain = false then
        if (stageLoop c force dim iproc n order T (nTimesOrder n order) (startWith Fm m)).step =
            nTimesOrder n order then
          { stageLoop c force dim iproc n order T (nTimesOrder n order) (startWith Fm m) with
            step := UINT_MAX,
            marker := { (stageLoop c force dim iproc n order T (nTimesOrder n order)
              (startWith Fm m)).marker with _step := UINT_MAX } }
        else stageLoop c force dim iproc n order T (nTimesOrder n order) (startWith Fm m)
      else { startWith Fm m with step := UINT_MAX, marker := { m with _step := UINT_MAX } } :=
  rfl

theorem advectMarker_same (c d : Collaborators) (force : Option ForceFunction)
    (dim p q n order : Nat) (T : ℚ) (ho : SameOracles c d n order) (hc : StaysOn c p)
    (hd : StaysOn d q) (Fm : List ℚ) (a b : Marker) (hab : SameTrack a b) :
    SameLocal (advectMarker c force dim p n order T Fm a).1
      (advectMarker d force dim q n order T Fm b).1 := by
  have h0 : SameLocal (startWith Fm a) (startWith Fm b) :=
    ⟨hab, hab.2.2.2.2.1, hab.2.2.2.1, rfl, by simp [startWith, hab.2.2.2.2.1]⟩
  have hl := stageLoop_same c d force dim p q n order T ho hc hd (nTimesOrder n order) _ _ h0
  rw [advectMarker_eq, advectMarker_eq, ← h0.2.2.2.2, ← hl.2.2.1]
  split
  · split
    · obtain ⟨⟨h1, h2, h3, _, h5, h6⟩, h7, _, h9, h10⟩ := hl
      exact ⟨⟨h1, h2, h3, rfl, h5, h6⟩, h7, rfl, h9, h10⟩
    · exact hl
  · obtain ⟨⟨h1, h2, h3, _, h5, h6⟩, h7, _, h9, h10⟩ := h0
    exact ⟨⟨h1, h2, h3, rfl, h5, h6⟩, h7, rfl, h9, h10⟩

/-! ## The round loop -/

/-- A round loop that has ended keeps its result when it is given more rounds. -/
theorem roundLoop_more_fuel (c : RoundCollaborators) (force : Option ForceFunction)
    (dim n order : Nat) (T : ℚ) (e : Nat) :
    ∀ (fuel : Nat) (r : Run) (o : Outcome Run),
      roundLoop c force dim n order T fuel r = some o →
      roundLoop c force dim n order T (fuel + e) r = some o := by
  intro fuel
  induction fuel with
  | zero =>
    intro r o h
    unfold roundLoop at h
    split at h
    · rename_i hc
      cases e with
      | zero => unfold roundLoop; rw [if_pos hc]; exact h
      | succ e => rw [Nat.zero_add]; unfold roundLoop; rw [if_pos hc]; exact h
    · exact absurd h (by simp)
  | succ fuel ih =>
    intro r o h
    rw [show fuel + 1 + e = (fuel + e) + 1 by omega]
    unfold roundLoop at h ⊢
    split at h
    · rename_i hc
      rw [if_pos hc]; exact h
    · rename_i hc
      rw [if_neg hc]
      split at h
      · rename_i r1 hr
        exact ih r1 o h
      · exact h
      · exact h

/-- The initialisation of `solVIndex` is in range from dimension 2 on. -/
theorem solVIndexInit_returns (dim u v w : Nat) (h : 2 ≤ dim) :
    ∃ l, solVIndexInit dim u v w = Outcome.returned l := by
  unfold solVIndexInit writeAt
  rw [if_pos (by rw [List.length_replicate]; omega)]
  simp only
  rw [if_pos (by rw [List.length_set, List.length_replicate]; omega)]
  simp only
  by_cases h3 : dim = 3
  · rw [if_pos h3, if_pos (by rw [List.length_set, List.length_set, List.length_replicate]; omega)]
    simp only
    rw [if_pos (by
      rw [List.length_set, List.length_set, List.length_set, List.length_replicate]; omega)]
    exact ⟨_, rfl⟩
  · rw [if_neg h3]
    simp only
    rw [if_pos (by rw [List.length_set, List.length_set, List.length_replicate]; omega)]
    exact ⟨_, rfl⟩

/-- The initialisation of `solVIndex` is out of range below dimension 2. -/
theorem solVIndexInit_low (dim u v w : Nat) (h : dim < 2) :
    solVIndexInit dim u v w = Outcome.outOfRange := by
  have : dim = 0 ∨ dim = 1 := by omega
  rcases this with rfl | rfl <;> rfl

/-- From dimension 2 on, and with the subscripts of the loops over the slots in range,
`AdvectionParallel` is its round loop, entered in the state `startRun`. -/
theorem advectionParallel_loop (s : Line) (c : RoundCollaborators) (force : Option ForceFunction)
    (dim n order : Nat) (T : ℚ) (hdim : 2 ≤ dim) (hin : SlotsInside s) (fuel : Nat) :
    s.AdvectionParallel c force dim n order T fuel =
      roundLoop c force dim n order T fuel (startRun s c order) := by
  obtain ⟨l, hl⟩ := solVIndexInit_returns dim (c.GetIndex 0) (c.GetIndex 1) (c.GetIndex 2) hdim
  unfold Line.AdvectionParallel
  rw [hl]
  simp only
  rw [if_pos hin]
  rfl

/-- Below dimension 2 `AdvectionParallel` ends with the out-of-range write to `solVIndex`,
whatever the line and the number of rounds allowed. -/
theorem advectionParallel_low (s : Line) (c : RoundCollaborators) (force : Option ForceFunction)
    (dim n order : Nat) (T : ℚ) (hdim : dim < 2) (fuel : Nat) :
    s.AdvectionParallel c force dim n order T fuel = some Outcome.outOfRange := by
  unfold Line.AdvectionParallel
  rw [solVIndexInit_low dim _ _ _ hdim]

/-- When `AdvectionParallel` returns, the dimension is at least 2 and the result is the one of
the round loop entered in the state `startRun`. -/
theorem advectionParallel_returned (s : Line) (c : RoundCollaborators)
    (force : Option ForceFunction) (dim n order : Nat) (T : ℚ) (fuel : Nat) (r : Run)
    (h : s.AdvectionParallel c force dim n order T fuel = some (Outcome.returned r)) :
    2 ≤ dim ∧ roundLoop c force dim n order T fuel (startRun s c order) =
      some (Outcome.returned r) := by
  by_cases hdim : 2 ≤ dim
  · refine ⟨hdim, ?_⟩
    by_cases hin : SlotsInside s
    · rw [← advectionParallel_loop s c force dim n order T hdim hin fuel]
      exact h
    · obtain ⟨l, hl⟩ :=
        solVIndexInit_returns dim (c.GetIndex 0) (c.GetIndex 1) (c.GetIndex 2) hdim
      unfold Line.AdvectionParallel at h
      rw [hl] at h
      simp only at h
      rw [if_neg hin] at h
      exact absurd h (by simp)
  · rw [advectionParallel_low s c force dim n order T (by omega) fuel] at h
    exact absurd h (by simp)

/-- The constructor on the markers of the end-to-end scenario, and the run of
`AdvectionParallel` on the line it builds: the loop ends after two rounds. -/
theorem scenario_run :
    Line.Line 2 2 scenarioMarkers = Outcome.returned scenarioLine ∧
    scenarioLine.AdvectionParallel scenario none 2 2 1 1 1 = none ∧
    scenarioLine.AdvectionParallel scenario none 2 2 1 1 2 =
      some (Outcome.returned scenarioEnd) := by
  decide!

/-- The run of the end-to-end scenario does not depend on the number of rounds allowed beyond
two. -/
theorem scenario_run_any_fuel (e : Nat) :
    scenarioLine.AdvectionParallel scenario none 2 2 1 1 (2 + e) =
      some (Outcome.returned scenarioEnd) := by
  have hin : SlotsInside scenarioLine := by decide
  have h := scenario_run.2.2
  rw [advectionParallel_loop _ _ _ _ _ _ _ (by decide) hin] at h ⊢
  exact roundLoop_more_fuel scenario none 2 2 1 1 e 2 _ _ h

/-! ## The sweep over one marker -/

theorem stageBody_split (c : Collaborators) (force : Option ForceFunction)
    (dim iproc n order : Nat) (T : ℚ) (v : Local) :
    stageBody c force dim iproc n order T v =
      if (searchOf c n order v.currentElem (stageUpdate c force dim n order T v)).2.1 = UINT_MAX
      then (exitedAt c n order v.currentElem (stageUpdate c force dim n order T v), true)
      else (located c n order v.currentElem (stageUpdate c force dim n order T v),
        decide (iproc ≠
          (searchOf c n order v.currentElem (stageUpdate c force dim n order T v)).2.2)) :=
  rfl

theorem stageUpdate_step (c : Collaborators) (force : Option ForceFunction)
    (dim n order : Nat) (T : ℚ) (v : Local) :
    (stageUpdate c force dim n order T v).step = v.step + 1 ∧
    (stageUpdate c force dim n order T v).marker._step = v.step + 1 ∧
    (stageUpdate c force dim n order T v).markerOutsideDomain = v.markerOutsideDomain :=
  ⟨rfl, rfl, rfl⟩

theorem nTimesOrder_le (n order : Nat) : nTimesOrder n order ≤ UINT_MAX := by
  unfold nTimesOrder UINT_MAX
  have := Nat.mod_lt (n * order) (by decide : 0 < 2 ^ 32)
  omega

/-- The stage loop, given the fuel to reach `n * order`, ends as `LoopEnd` says. -/
theorem stageLoop_end (c : Collaborators) (force : Option ForceFunction)
    (dim iproc n order : Nat) (T : ℚ) :
    ∀ (fuel : Nat) (v : Local), v.marker._step = v.step → v.markerOutsideDomain = false →
      v.marker._elem ≠ UINT_MAX → nTimesOrder n order ≤ v.step + fuel →
      LoopEnd (nTimesOrder n order) v (stageLoop c force dim iproc n order T fuel v)
        (stagePasses c force dim iproc n order T fuel v) := by
  intro fuel
  induction fuel with
  | zero =>
    intro v h1 h2 h3 h4
    exact Or.inr ⟨h2, rfl, h1, h3, fun h => by omega, fun h => h, fun _ => rfl, fun _ => rfl⟩
  | succ fuel ih =>
    intro v h1 h2 h3 h4
    unfold stageLoop stagePasses
    by_cases hlt : v.step < nTimesOrder n order
    · rw [if_pos hlt, if_pos hlt, stageBody_split]
      by_cases hx : (searchOf c n order v.currentElem
          (stageUpdate c force dim n order T v)).2.1 = UINT_MAX
      · rw [if_pos hx]
        show LoopEnd (nTimesOrder n order) v
          (exitedAt c n order v.currentElem (stageUpdate c force dim n order T v)) 1
        exact Or.inl ⟨rfl, rfl, rfl, hx, Nat.le_refl 1, hlt⟩
      · rw [if_neg hx]
        by_cases hp : iproc ≠ (searchOf c n order v.currentElem
            (stageUpdate c force dim n order T v)).2.2
        · rw [decide_eq_true hp]
          show LoopEnd (nTimesOrder n order) v
            (located c n order v.currentElem (stageUpdate c force dim n order T v)) 1
          exact Or.inr ⟨h2, rfl, rfl, hx, fun _ => Nat.le_refl 1, fun _ => hlt,
            fun h => absurd hlt (by omega), fun h => absurd h (by omega)⟩
        · rw [decide_eq_false hp]
          show LoopEnd (nTimesOrder n order) v
            (stageLoop c force dim iproc n order T fuel
              (located c n order v.currentElem (stageUpdate c force dim n order T v)))
            (1 + stagePasses c force dim iproc n order T fuel
              (located c n order v.currentElem (stageUpdate c force dim n order T v)))
          have := ih (located c n order v.currentElem (stageUpdate c force dim n order T v))
            rfl h2 hx (by show nTimesOrder n order ≤ v.step + 1 + fuel; omega)
          rcases this with ⟨a1, a2, a3, a4, _⟩ | ⟨a1, a2, a3, a4, _, a6, _⟩
          · exact Or.inl ⟨a1, a2, a3, a4, by omega, hlt⟩
          · refine Or.inr ⟨a1, ?_, a3, a4, fun _ => by omega, fun _ => a6 hlt,
              fun h => absurd hlt (by omega), fun h => absurd h (by omega)⟩
            rw [a2]
            show v.step + 1 + _ = _
            omega
    · rw [if_neg hlt, if_neg hlt]
      exact Or.inr ⟨h2, rfl, h1, h3, fun h => absurd h hlt, fun h => h, fun _ => rfl,
        fun _ => rfl⟩

theorem with_step_self (m : Marker) (h : m._step = UINT_MAX) :
    ({ m with _step := UINT_MAX } : Marker) = m := by
  cases m
  simp only at h
  subst h
  rfl

/-- The sweep over one marker ends as `SweepEnd` says, for every collaborator, force callback and
force vector. -/
theorem advectMarker_end (c : Collaborators) (force : Option ForceFunction)
    (dim iproc n order : Nat) (T : ℚ) (Fm : List ℚ) (m : Marker) :
    SweepEnd (nTimesOrder n order) m (advectMarker c force dim iproc n order T Fm m).1.marker
      (sweepPasses c force dim iproc n order T Fm m)
      (advectMarker c force dim iproc n order T Fm m).2 := by
  by_cases he : m._elem = UINT_MAX
  · have e1 : advectMarker c force dim iproc n order T Fm m =
        ({ startWith Fm m with step := UINT_MAX, marker := { m with _step := UINT_MAX } },
          true) := by
      unfold advectMarker
      simp [startWith, he]
    have e2 : sweepPasses c force dim iproc n order T Fm m = 0 := by
      unfold sweepPasses
      rw [if_pos he]
    rw [e1, e2]
    exact ⟨by simp [done], Or.inl ⟨he, rfl, rfl⟩⟩
  · have hl := stageLoop_end c force dim iproc n order T (nTimesOrder n order) (startWith Fm m)
      rfl (by simp [startWith, he]) he (by omega)
    have e2 : sweepPasses c force dim iproc n order T Fm m =
        stagePasses c force dim iproc n order T (nTimesOrder n order) (startWith Fm m) := by
      unfold sweepPasses
      rw [if_neg he]
      rfl
    have hout : (startWith Fm m).markerOutsideDomain = false := by simp [startWith, he]
    rw [e2]
    generalize stagePasses c force dim iproc n order T (nTimesOrder n order) (startWith Fm m) = a
      at hl
    have e1 := advectMarker_eq c force dim iproc n order T Fm m
    have e3 : (advectMarker c force dim iproc n order T Fm m).2 =
        (decide ((advectMarker c force dim iproc n order T Fm m).1.step = UINT_MAX) ||
          (advectMarker c force dim iproc n order T Fm m).1.markerOutsideDomain) := rfl
    rw [e3, e1, if_pos hout]
    generalize stageLoop c force dim iproc n order T (nTimesOrder n order) (startWith Fm m) = w
      at hl
    have hv : (startWith Fm m).step = m._step := rfl
    rcases hl with ⟨a1, a2, a3, a4, a5, a6⟩ | ⟨a1, a2, a3, a4, a5, a6, a7, a8⟩
    · rw [hv] at a6
      by_cases hN : w.step = nTimesOrder n order
      · rw [if_pos hN]
        exact ⟨by simp [done], Or.inr (Or.inl ⟨he, a6, a4, rfl, a5⟩)⟩
      · rw [if_neg hN]
        exact ⟨by simp [done, a1, a3], Or.inr (Or.inl ⟨he, a6, a4, a3, a5⟩)⟩
    · rw [hv] at a2 a5 a6 a7
      by_cases hN : w.step = nTimesOrder n order
      · rw [if_pos hN]
        refine ⟨by simp [done], Or.inr (Or.inr ⟨he, a4, a5, a7, ?_, fun _ => rfl,
          fun h => absurd (a2 ▸ hN) h, fun h => Or.inr ?_⟩)⟩
        · intro _; omega
        · rw [a8 h]; rfl
      · rw [if_neg hN]
        refine ⟨by simp [done, a1, a3], Or.inr (Or.inr ⟨he, a4, a5, a7, ?_,
          fun h => absurd (a2.trans h) hN, fun _ => a3.trans a2, fun h => Or.inl ?_⟩)⟩
        · intro h; have := a6 h; omega
        · rw [a8 h]; rfl

theorem stageLoop_good (c : Collaborators) (force : Option ForceFunction)
    (dim iproc n order : Nat) (T : ℚ) (M : Nat) (owner : Nat → Nat)
    (hc : ∀ pe s m, Located M owner (c.GetElementSerial pe s m)) :
    ∀ (fuel : Nat) (v : Local), GoodMarker M owner v.marker →
      GoodMarker M owner (stageLoop c force dim iproc n order T fuel v).marker := by
  intro fuel
  induction fuel with
  | zero => intro v h; exact h
  | succ fuel ih =>
    intro v h
    unfold stageLoop
    by_cases hlt : v.step < nTimesOrder n order
    · rw [if_pos hlt, stageBody_split]
      have hg : GoodMarker M owner
          (located c n order v.currentElem (stageUpdate c force dim n order T v)).marker :=
        hc _ _ _
      have hx : GoodMarker M owner
          (exitedAt c n order v.currentElem (stageUpdate c force dim n order T v)).marker :=
        hc _ _ _
      by_cases hx1 : (searchOf c n order v.currentElem
          (stageUpdate c force dim n order T v)).2.1 = UINT_MAX
      · rw [if_pos hx1]
        exact hx
      · rw [if_neg hx1]
        by_cases hp : iproc ≠ (searchOf c n order v.currentElem
            (stageUpdate c force dim n order T v)).2.2
        · rw [decide_eq_true hp]
          exact hg
        · rw [decide_eq_false hp]
          exact ih _ hg
    · rw [if_neg hlt]
      exact h

theorem advectMarker_good (c : Collaborators) (force : Option ForceFunction)
    (dim iproc n order : Nat) (T : ℚ) (M : Nat) (owner : Nat → Nat)
    (hc : ∀ pe s m, Located M owner (c.GetElementSerial pe s m)) (Fm : List ℚ) (m : Marker)
    (h : GoodMarker M owner m) :
    GoodMarker M owner (advectMarker c force dim iproc n order T Fm m).1.marker := by
  have hl := stageLoop_good c force dim iproc n order T M owner hc (nTimesOrder n order)
    (startWith Fm m) h
  rw [advectMarker_eq]
  split
  · split
    · exact hl
    · exact hl
  · exact h

theorem exchangeMarker_good (c : RoundCollaborators) (n order jproc M : Nat)
    (owner : Nat → Nat) (hc : ∀ pe j s m, Located M owner (c.GetElement pe j s m))
    (m : Marker) (h : GoodMarker M owner m) :
    GoodMarker M owner (exchangeMarker c n order jproc m) := by
  unfold exchangeMarker
  split
  · split
    · exact hc _ _ _ _
    · exact h
  · exact h

theorem exchangeMarker_step (c : RoundCollaborators) (n order jproc : Nat) (m : Marker) :
    (exchangeMarker c n order jproc m)._step = m._step := by
  unfold exchangeMarker
  split
  · split <;> rfl
  · rfl

theorem exchangeMarker_outside (c : RoundCollaborators) (n order jproc : Nat) (m : Marker)
    (h : m._elem = UINT_MAX) : exchangeMarker c n order jproc m = m := by
  unfold exchangeMarker
  rw [if_neg (by simp [h])]

theorem exchangeMarker_own (c : RoundCollaborators) (n order jproc : Nat) (m : Marker)
    (h : m._mproc = jproc) : exchangeMarker c n order jproc m = m := by
  unfold exchangeMarker
  split
  · rw [if_neg (by simp [h])]
  · rfl

/-! ## The loops over the slots of all processes -/

theorem mem_slotsOf (P : Nat) (offs : List Nat) (pk : Nat × Nat) :
    pk ∈ slotsOf P offs ↔ pk.1 < P ∧ pk.2 ∈ sliceOf offs pk.1 := by
  unfold slotsOf
  rw [List.mem_flatMap]
  constructor
  · rintro ⟨p, hp, hm⟩
    obtain ⟨k, hk, rfl⟩ := List.mem_map.mp hm
    exact ⟨List.mem_range.mp hp, hk⟩
  · rintro ⟨hp, hk⟩
    exact ⟨pk.1, List.mem_range.mpr hp, List.mem_map.mpr ⟨pk.2, hk, rfl⟩⟩

/-- When the offsets start at 0 and do not decrease, the loops over the slices of the processes
below `P` visit the slots below `_markerOffset[P]` once each, in increasing order. -/
theorem slotsOf_keys (offs : List Nat) (h0 : offs.getD 0 0 = 0) :
    ∀ P, (∀ p < P, offs.getD p 0 ≤ offs.getD (p + 1) 0) →
      (slotsOf P offs).map Prod.snd = List.range (offs.getD P 0) := by
  intro P
  induction P with
  | zero => intro _; rw [h0]; rfl
  | succ P ih =>
    intro hm
    have e : slotsOf (P + 1) offs = slotsOf P offs ++
        (List.range' (offs.getD P 0) (offs.getD (P + 1) 0 - offs.getD P 0)).map
          (fun iMarker => (P, iMarker)) := by
      unfold slotsOf
      rw [List.range_succ, List.flatMap_append, List.flatMap_singleton]
    rw [e, List.map_append, ih (fun p hp => hm p (by omega)), List.map_map]
    have e2 : (Prod.snd ∘ fun iMarker => (P, iMarker)) = (id : Nat → Nat) := rfl
    rw [e2, List.map_id, List.range_eq_range']
    have e3 := List.range'_append_1 0 (offs.getD P 0) (offs.getD (P + 1) 0 - offs.getD P 0)
    rw [Nat.zero_add] at e3
    rw [e3]
    have := hm P (by omega)
    rw [Nat.sub_add_cancel this, List.range_eq_range']

/-- A loop over slots that writes each slot once, into a list of the loop's state: the written
value is related by `R` to the value the slot had before the loop. -/
theorem foldl_slots_pointwise {σ : Type} (get : σ → List Marker) (f : σ → Nat × Nat → σ)
    (R : Nat → Marker → Marker → Prop)
    (hstep : ∀ w pk, ∃ m1, get (f w pk) = (get w).set pk.2 m1 ∧
      R pk.1 ((get w).getD pk.2 default) m1) :
    ∀ (L : List (Nat × Nat)) (w : σ), (L.map Prod.snd).Nodup →
      (∀ pk ∈ L, pk.2 < (get w).length) →
      (get (L.foldl f w)).length = (get w).length ∧
      (∀ k, k ∉ L.map Prod.snd →
        (get (L.foldl f w)).getD k default = (get w).getD k default) ∧
      ∀ pk ∈ L, R pk.1 ((get w).getD pk.2 default) ((get (L.foldl f w)).getD pk.2 default) := by
  intro L
  induction L with
  | nil => intro w _ _; exact ⟨rfl, fun _ _ => rfl, fun pk h => absurd h (List.not_mem_nil _)⟩
  | cons q L ih =>
    intro w hnd hlt
    rw [List.map_cons, List.nodup_cons] at hnd
    obtain ⟨m1, e1, r1⟩ := hstep w q
    have hlen : (get (f w q)).length = (get w).length := by rw [e1, List.length_set]
    obtain ⟨i1, i2, i3⟩ := ih (f w q) hnd.2 (fun pk hpk => by
      rw [hlen]; exact hlt pk (List.mem_cons_of_mem _ hpk))
    rw [List.foldl_cons]
    refine ⟨i1.trans hlen, ?_, ?_⟩
    · intro k hk
      rw [List.map_cons, List.mem_cons, not_or] at hk
      rw [i2 k hk.2, e1, getD_set_ne _ _ _ _ _ (fun e => hk.1 e.symm)]
    · intro pk hpk
      rcases List.mem_cons.mp hpk with rfl | hpk
      · rw [i2 _ hnd.1, e1, getD_set_self _ _ _ _ (hlt _ (List.mem_cons_self _ _))]
        exact r1
      · have hne : q.2 ≠ pk.2 := fun e => hnd.1 (e ▸ List.mem_map_of_mem Prod.snd hpk)
        have := i3 pk hpk
        rw [e1, getD_set_ne _ _ _ _ _ hne] at this
        exact this

theorem sum_set_succ (l : List Nat) (i : Nat) (h : i < l.length) :
    (l.set i (l.getD i 0 + 1)).sum = l.sum + 1 := by
  induction l generalizing i with
  | nil => simp at h
  | cons a l ih =>
    cases i with
    | zero => simp; omega
    | succ i =>
      simp only [List.length_cons] at h
      rw [List.set_cons_succ, List.sum_cons, List.getD_cons_succ, ih i (by omega), List.sum_cons]
      omega

/-- The local advection of all processes, as a loop over the slots: every visited slot holds
afterwards the result of the sweep `advectMarker` over the marker it held, the stages of that
sweep are recorded for the slot, and the counters of the processes have grown, in total, by the
number of visited slots whose marker has the step `UINT_MAX` afterwards. -/
theorem sweep_fold (c : Collaborators) (force : Option ForceFunction) (dim n order : Nat)
    (T : ℚ) :
    ∀ (L : List (Nat × Nat)) (w : Sweep), (L.map Prod.snd).Nodup →
      (∀ pk ∈ L, pk.2 < w._particles.length ∧ pk.2 < w.passes.length ∧
        pk.1 < w.integrationIsOverCounterProc.length) →
      (L.foldl (sweepSlot c force dim n order T) w)._particles.length = w._particles.length ∧
      (L.foldl (sweepSlot c force dim n order T) w).passes.length = w.passes.length ∧
      (L.foldl (sweepSlot c force dim n order T) w).integrationIsOverCounterProc.length =
        w.integrationIsOverCounterProc.length ∧
      (∀ k, k ∉ L.map Prod.snd →
        (L.foldl (sweepSlot c force dim n order T) w)._particles.getD k default =
          w._particles.getD k default ∧
        (L.foldl (sweepSlot c force dim n order T) w).passes.getD k 0 = w.passes.getD k 0) ∧
      (∀ pk ∈ L, ∃ F,
        (L.foldl (sweepSlot c force dim n order T) w)._particles.getD pk.2 default =
          (advectMarker c force dim pk.1 n order T F (w._particles.getD pk.2 default)).1.marker ∧
        (L.foldl (sweepSlot c force dim n order T) w).passes.getD pk.2 0 =
          sweepPasses c force dim pk.1 n order T F (w._particles.getD pk.2 default)) ∧
      (L.foldl (sweepSlot c force dim n order T) w).integrationIsOverCounterProc.sum =
        w.integrationIsOverCounterProc.sum +
          (L.filter (fun pk => done
            ((L.foldl (sweepSlot c force dim n order T) w)._particles.getD pk.2 default))).length := by
  intro L
  induction L with
  | nil =>
    intro w _ _
    exact ⟨rfl, rfl, rfl, fun _ _ => ⟨rfl, rfl⟩, fun pk h => absurd h (List.not_mem_nil _), rfl⟩
  | cons q L ih =>
    intro w hnd hlt
    rw [List.map_cons, List.nodup_cons] at hnd
    obtain ⟨hq1, hq2, hq3⟩ := hlt q (List.mem_cons_self _ _)
    have e1 : (sweepSlot c force dim n order T w q)._particles = w._particles.set q.2
        (advectMarker c force dim q.1 n order T (w.Fm.getD q.1 [])
          (w._particles.getD q.2 default)).1.marker := rfl
    have e2 : (sweepSlot c force dim n order T w q).passes = w.passes.set q.2
        (sweepPasses c force dim q.1 n order T (w.Fm.getD q.1 [])
          (w._particles.getD q.2 default)) := rfl
    have hflag := (advectMarker_end c force dim q.1 n order T (w.Fm.getD q.1 [])
      (w._particles.getD q.2 default)).1
    have e3 : (sweepSlot c force dim n order T w q).integrationIsOverCounterProc.length =
          w.integrationIsOverCounterProc.length ∧
        (sweepSlot c force dim n order T w q).integrationIsOverCounterProc.sum =
          w.integrationIsOverCounterProc.sum +
            if done (advectMarker c force dim q.1 n order T (w.Fm.getD q.1 [])
              (w._particles.getD q.2 default)).1.marker = true then 1 else 0 := by
      rw [← hflag]
      show (if _ then _ else _ : List Nat).length = _ ∧ (if _ then _ else _ : List Nat).sum = _
      split
      · rename_i hf
        rw [List.length_set, sum_set_succ _ _ hq3]
        exact ⟨rfl, rfl⟩
      · exact ⟨rfl, rfl⟩
    have hl1 : (sweepSlot c force dim n order T w q)._particles.length = w._particles.length := by
      rw [e1, List.length_set]
    have hl2 : (sweepSlot c force dim n order T w q).passes.length = w.passes.length := by
      rw [e2, List.length_set]
    obtain ⟨i1, i2, i3, i4, i5, i6⟩ := ih (sweepSlot c force dim n order T w q) hnd.2
      (fun pk hpk => by
        rw [hl1, hl2, e3.1]; exact hlt pk (List.mem_cons_of_mem _ hpk))
    rw [List.foldl_cons]
    have hq : (L.foldl (sweepSlot c force dim n order T)
          (sweepSlot c force dim n order T w q))._particles.getD q.2 default =
        (advectMarker c force dim q.1 n order T (w.Fm.getD q.1 [])
          (w._particles.getD q.2 default)).1.marker := by
      rw [(i4 _ hnd.1).1, e1, getD_set_self _ _ _ _ hq1]
    refine ⟨i1.trans hl1, i2.trans hl2, i3.trans e3.1, ?_, ?_, ?_⟩
    · intro k hk
      rw [List.map_cons, List.mem_cons, not_or] at hk
      obtain ⟨a, b⟩ := i4 k hk.2
      rw [a, b, e1, e2, getD_set_ne _ _ _ _ _ (fun e => hk.1 e.symm),
        getD_set_ne _ _ _ _ _ (fun e => hk.1 e.symm)]
      exact ⟨rfl, rfl⟩
    · intro pk hpk
      rcases List.mem_cons.mp hpk with rfl | hpk
      · refine ⟨w.Fm.getD pk.1 [], hq, ?_⟩
        rw [(i4 _ hnd.1).2, e2, getD_set_self _ _ _ _ hq2]
      · have hne : q.2 ≠ pk.2 := fun e => hnd.1 (e ▸ List.mem_map_of_mem Prod.snd hpk)
        obtain ⟨F, a, b⟩ := i5 pk hpk
        rw [e1, getD_set_ne _ _ _ _ _ hne] at a b
        exact ⟨F, a, b⟩
    · rw [i6, e3.2, List.filter_cons, hq]
      split
      · rw [List.length_cons]; omega
      · omega

theorem exchangeSlot_particles (c : RoundCollaborators) (n order : Nat) (w : Exchange)
    (pk : Nat × Nat) :
    (exchangeSlot c n order w pk)._particles =
      w._particles.set pk.2 (exchangeMarker c n order pk.1 (w._particles.getD pk.2 default)) := by
  unfold exchangeSlot exchangeMarker
  simp only
  split
  · split
    · rfl
    · rw [set_getD_self]
  · rw [set_getD_self]

theorem sound_slots (s : Line) (owner : Nat → Nat) (h : s.Sound owner) :
    (slotsOf s._nprocs s._markerOffset).map Prod.snd = List.range s._particles.length ∧
    SlotsInside s ∧
    ∀ k < s._particles.length,
      ((s._particles.getD k default)._mproc, k) ∈ slotsOf s._nprocs s._markerOffset := by
  obtain ⟨hwf, _, h0, hmono, hown, _⟩ := h
  have hk := slotsOf_keys s._markerOffset h0 s._nprocs hmono
  rw [hwf.2.2.2.1] at hk
  refine ⟨hk, ⟨by rw [hwf.2.2.1]; omega, fun pk hpk => ?_⟩, fun k hkN => ?_⟩
  · have : pk.2 ∈ (slotsOf s._nprocs s._markerOffset).map Prod.snd :=
      List.mem_map_of_mem Prod.snd hpk
    rw [hk] at this
    exact List.mem_range.mp this
  · have : k ∈ (slotsOf s._nprocs s._markerOffset).map Prod.snd := by
      rw [hk]; exact List.mem_range.mpr hkN
    obtain ⟨pk, hpk, rfl⟩ := List.mem_map.mp this
    have hm := (mem_slotsOf _ _ _).mp hpk
    rw [hown pk.1 hm.1 pk.2 hm.2]
    exact hpk

theorem countP_congr_getD (p : Marker → Bool) (l1 l2 : List Marker) (hl : l1.length = l2.length)
    (h : ∀ k < l1.length, p (l1.getD k default) = p (l2.getD k default)) :
    l1.countP p = l2.countP p := by
  rw [countP_eq_range_filter, countP_eq_range_filter, hl]
  congr 1
  apply List.filter_congr
  intro k hk
  exact h k (by rw [hl]; exact List.mem_range.mp hk)

/-- The local advection and the exchange of one round on a sound line: the arrays keep their
length, the counters of the processes sum to the number of markers whose step is `UINT_MAX`, and
every slot holds the marker it held, swept by the process of its slice and then passed through
the exchange. -/
theorem phases_spec (c : RoundCollaborators) (force : Option ForceFunction) (dim n order : Nat)
    (T : ℚ) (owner : Nat → Nat) (s : Line) (Fm : List (List ℚ)) (h : s.Sound owner)
    (w : Sweep) (e : Exchange)
    (hw : w = (slotsOf s._nprocs s._markerOffset).foldl
      (sweepSlot c.toCollaborators force dim n order T)
      { _particles := s._particles, Fm := Fm,
        integrationIsOverCounterProc := List.replicate s._nprocs 0,
        passes := List.replicate s._particles.length 0 })
    (he : e = (slotsOf s._nprocs s._markerOffset).foldl (exchangeSlot c n order)
      { _particles := w._particles, moved := [] }) :
    e._particles.length = s._particles.length ∧
    w.integrationIsOverCounterProc.sum = e._particles.countP done ∧
    ∀ k < s._particles.length, ∃ F,
      e._particles.getD k default =
        exchangeMarker c n order (s._particles.getD k default)._mproc
          (advectMarker c.toCollaborators force dim (s._particles.getD k default)._mproc n order T
            F (s._particles.getD k default)).1.marker ∧
      w.passes.getD k 0 =
        sweepPasses c.toCollaborators force dim (s._particles.getD k default)._mproc n order T F
          (s._particles.getD k default) := by
  obtain ⟨hkeys, hin, hmem⟩ := sound_slots s owner h
  have hnd : ((slotsOf s._nprocs s._markerOffset).map Prod.snd).Nodup := by
    rw [hkeys]; exact List.nodup_range _
  obtain ⟨a1, a2, a3, _, a5, a6⟩ := sweep_fold c.toCollaborators force dim n order T
    (slotsOf s._nprocs s._markerOffset)
    { _particles := s._particles, Fm := Fm,
      integrationIsOverCounterProc := List.replicate s._nprocs 0,
      passes := List.replicate s._particles.length 0 } hnd
    (fun pk hpk => ⟨hin.2 pk hpk, by rw [List.length_replicate]; exact hin.2 pk hpk, by
      rw [List.length_replicate]; exact ((mem_slotsOf _ _ _).mp hpk).1⟩)
  rw [← hw] at a1 a2 a3 a5 a6
  simp only at a1 a5 a6
  obtain ⟨b1, _, b3⟩ := foldl_slots_pointwise (fun x : Exchange => x._particles)
    (exchangeSlot c n order) (fun p m m1 => m1 = exchangeMarker c n order p m)
    (fun x pk => ⟨_, exchangeSlot_particles c n order x pk, rfl⟩)
    (slotsOf s._nprocs s._markerOffset) { _particles := w._particles, moved := [] } hnd
    (fun pk hpk => by rw [a1]; exact hin.2 pk hpk)
  rw [← he] at b1 b3
  simp only at b1 b3
  have hstep : ∀ k < s._particles.length,
      done (w._particles.getD k default) = done (e._particles.getD k default) := by
    intro k hk
    rw [b3 _ (hmem k hk)]
    simp only [done, exchangeMarker_step]
  refine ⟨b1.trans a1, ?_, fun k hk => ?_⟩
  · rw [a6, List.sum_replicate, smul_zero, Nat.zero_add,
      ← countP_congr_getD done w._particles e._particles (a1.trans (b1.trans a1).symm)
        (fun k hk => hstep k (by rw [← a1]; exact hk)),
      countP_eq_range_filter, a1, ← hkeys, List.filter_map, List.length_map]
    rfl
  · obtain ⟨F, f1, f2⟩ := a5 _ (hmem k hk)
    refine ⟨F, ?_, f2⟩
    rw [b3 _ (hmem k hk)]
    simp only
    rw [f1]

/-- A returning `UpdateLine` on a line whose markers respect the partition: the labels stay a
bijection, the marker of every input index is kept, the markers are permuted, and every slice
holds markers of its process only. -/
theorem updateLine_relocates (s s1 : Line) (h : s.WF) (hpart : s.Partitioned)
    (hpl : s._printList.Perm (List.range s._particles.length))
    (hret : s.UpdateLine = Outcome.returned s1) :
    s1._printList.Perm (List.range s1._particles.length) ∧
    (∀ j < s._particles.length,
      s1._particles.getD (s1._printList.getD j 0) default =
        s._particles.getD (s._printList.getD j 0) default) ∧
    s1._particles.Perm s._particles ∧
    ∀ p < s1._nprocs, ∀ k ∈ sliceOf s1._markerOffset p,
      (s1._particles.getD k default)._mproc = p := by
  obtain ⟨hok, l, _, rfl⟩ := (UpdateLine_returned_iff s s1).mp hret
  obtain ⟨ho1, ho2, e1, e2, e3, e4⟩ := passes_reloc s h hpart hpl hok
  have hN := afterProc_particles_length s
  have hpl1 : (afterProc s).1._printList.Perm (List.range (afterProc s).1._particles.length) := by
    rw [hN, e2]
    exact reloc_printList_perm _ _ _ ho1 hpl
  have ho2a : (elemOrder1 s s._nprocs).Perm (List.range (afterProc s).1._particles.length) := by
    rw [hN]; exact ho2
  refine ⟨?_, ?_, ?_, ?_⟩
  · simp only
    rw [(afterElem_length s).1, e4, e2]
    exact reloc_printList_perm _ _ _ ho2 (reloc_printList_perm _ _ _ ho1 hpl)
  · intro j hj
    simp only
    rw [e3, e4, reloc_track _ _ _ ho2a hpl1 j (by rw [hN]; exact hj)]
    rw [e1, e2, reloc_track _ _ _ ho1 hpl j hj]
  · simp only
    rw [e3]
    exact (reloc_particles_perm _ _ ho2a).trans (afterProc_perm s hpart.1)
  · intro p hp k hk
    obtain ⟨j, hj, e⟩ := afterElem_slice s h hok s._nprocs (Nat.le_refl _) p hp k hk
    have e5 : (afterElem s).1.getD k default = (afterProc s).1._particles.getD j default := by
      rw [List.getD_eq_getElem?_getD]
      unfold afterElem
      rw [e]
      rfl
    simp only
    rw [e5]
    exact (afterProc_slice_proc s h hpart.1 p j hp hj).1

/-- The call of `UpdateLine` that ends a round: on a sound line whose markers have been replaced
by markers that respect the partition, it returns a sound line with the same markers, and the
marker of every input index is the one that had this index before the call. -/
theorem updateLine_sound (s : Line) (owner : Nat → Nat) (h : s.Sound owner)
    (hpos : 0 < s._particles.length) (hP : ∀ e, owner e < s._nprocs)
    (h0 : owner UINT_MAX = 0) (ps : List Marker) (hlen : ps.length = s._particles.length)
    (hgood : ∀ m ∈ ps, GoodMarker s.meshElements owner m) :
    ∃ s1, ({ s with _particles := ps } : Line).UpdateLine = Outcome.returned s1 ∧
      s1.Sound owner ∧ s1._nprocs = s._nprocs ∧ s1.meshElements = s.meshElements ∧
      s1._particles.length = s._particles.length ∧ s1._particles.Perm ps ∧
      ∀ i < s._particles.length, s1.markerOf i = ps.getD (s._printList.getD i 0) default := by
  obtain ⟨hwf, hpl, _, _, _, _⟩ := h
  have h2 : ({ s with _particles := ps } : Line).WF := by
    obtain ⟨w1, w2, w3, w4, w5⟩ := hwf
    exact ⟨w1, by rw [hlen]; exact w2, w3, by rw [hlen]; exact w4, by rw [hlen]; exact w5⟩
  have hproc : ∀ m ∈ ({ s with _particles := ps } : Line)._particles,
      m._mproc < ({ s with _particles := ps } : Line)._nprocs := by
    intro m hm
    rw [(hgood m hm).2]
    exact hP _
  have hnf : ∀ m ∈ ({ s with _particles := ps } : Line)._particles,
      m._elem = UINT_MAX → m._mproc = 0 := by
    intro m hm he
    rw [(hgood m hm).2, he, h0]
  have hsame : ∀ a ∈ ({ s with _particles := ps } : Line)._particles,
      ∀ b ∈ ({ s with _particles := ps } : Line)._particles,
        a._elem = b._elem → a._mproc = b._mproc := by
    intro a ha b hb e
    rw [(hgood a ha).2, (hgood b hb).2, e]
  have hpl2 : ({ s with _particles := ps } : Line)._printList.Perm
      (List.range ({ s with _particles := ps } : Line)._particles.length) := by
    show s._printList.Perm (List.range ps.length)
    rw [hlen]; exact hpl
  obtain ⟨s1, hret⟩ := UpdateLine_returns _ h2 (fun m hm => (hgood m hm).1) hproc hnf
    (by show 0 < ps.length; rw [hlen]; exact hpos)
    (fun v hv => List.mem_range.mp (hpl2.subset hv))
  have hpart : ({ s with _particles := ps } : Line).Partitioned :=
    ⟨hproc, fun a ha b hb e _ => hsame a ha b hb e⟩
  obtain ⟨hpl1, htr, hperm, hown⟩ := updateLine_relocates _ s1 h2 hpart hpl2 hret
  have hwf1 := UpdateLine_WF _ s1 h2 hret
  obtain ⟨_, l, _, hs1⟩ := (UpdateLine_returned_iff _ s1).mp hret
  have hP1 : s1._nprocs = s._nprocs := by rw [hs1]
  have hM1 : s1.meshElements = s.meshElements := by rw [hs1]
  have hoff : s1._markerOffset = (afterProc ({ s with _particles := ps } : Line)).2 := by
    rw [hs1]
  have hN1 : s1._particles.length = s._particles.length := by
    rw [hperm.length_eq]; exact hlen
  refine ⟨s1, hret, ⟨hwf1, hpl1, ?_, ?_, ?_, ?_⟩, hP1, hM1, hN1, hperm, ?_⟩
  · rw [hoff]; exact afterProc_offs_zero _ h2
  · intro p hp
    rw [hoff]
    exact afterProc_offs_mono _ h2 p (p + 1) (by omega) (by rw [hP1] at hp; exact hp)
  · exact hown
  · intro m hm
    rw [hM1]
    exact hgood m (hperm.subset hm)
  · intro i hi
    have := htr i (by show i < ps.length; rw [hlen]; exact hi)
    exact this

theorem getD_map_range (f : Nat → Nat) (N i : Nat) (h : i < N) :
    ((List.range N).map f).getD i 0 = f i := by
  rw [List.getD_eq_getElem _ _ (by rw [List.length_map, List.length_range]; exact h),
    List.getElem_map, List.getElem_range]

/-- One round on a sound line with at least one marker, with collaborators that respect their
contract: the round returns a sound line with the same processes, mesh and number of markers;
`integrationIsOverCounter` is the number of markers whose step is `UINT_MAX`; and the marker of
every input index is the marker that had this index before the round, swept by its process and
then passed through the exchange, the stages of the sweep being added to its count. -/
theorem round_spec (c : RoundCollaborators) (force : Option ForceFunction) (dim n order : Nat)
    (T : ℚ) (owner : Nat → Nat) (r : Run) (h : r.line.Sound owner)
    (hpos : 0 < r.line._particles.length)
    (hc : Contract c r.line._nprocs r.line.meshElements order owner) :
    ∃ r1, round c force dim n order T r = Outcome.returned r1 ∧
      r1.line.Sound owner ∧ r1.line._nprocs = r.line._nprocs ∧
      r1.line.meshElements = r.line.meshElements ∧
      r1.line._particles.length = r.line._particles.length ∧
      r1.rounds = r.rounds + 1 ∧ r1.stages.length = r.line._particles.length ∧
      r1.integrationIsOverCounter = r1.line._particles.countP done ∧
      ∀ i < r.line._particles.length, ∃ F,
        r1.line.markerOf i =
          exchangeMarker c n order (r.line.markerOf i)._mproc
            (advectMarker c.toCollaborators force dim (r.line.markerOf i)._mproc n order T F
              (r.line.markerOf i)).1.marker ∧
        r1.stages.getD i 0 = r.stages.getD i 0 +
          sweepPasses c.toCollaborators force dim (r.line.markerOf i)._mproc n order T F
            (r.line.markerOf i) := by
  obtain ⟨hP, h0, hser, hget, _⟩ := hc
  obtain ⟨_, hin, _⟩ := sound_slots r.line owner h
  obtain ⟨w, hw⟩ : ∃ w, w = (slotsOf r.line._nprocs r.line._markerOffset).foldl
      (sweepSlot c.toCollaborators force dim n order T)
      { _particles := r.line._particles, Fm := r.Fm,
        integrationIsOverCounterProc := List.replicate r.line._nprocs 0,
        passes := List.replicate r.line._particles.length 0 } := ⟨_, rfl⟩
  obtain ⟨e, he⟩ : ∃ e, e = (slotsOf r.line._nprocs r.line._markerOffset).foldl
      (exchangeSlot c n order) { _particles := w._particles, moved := [] } := ⟨_, rfl⟩
  obtain ⟨p1, p2, p3⟩ := phases_spec c force dim n order T owner r.line r.Fm h w e hw he
  have hgood : ∀ m ∈ e._particles, GoodMarker r.line.meshElements owner m := by
    intro m hm
    obtain ⟨k, hk, rfl⟩ := List.getElem_of_mem hm
    rw [p1] at hk
    obtain ⟨F, f1, _⟩ := p3 k hk
    rw [List.getD_eq_getElem _ _ (by rw [p1]; exact hk)] at f1
    rw [f1]
    apply exchangeMarker_good c n order _ _ owner hget
    apply advectMarker_good c.toCollaborators force dim _ n order T _ owner hser
    apply h.2.2.2.2.2
    rw [List.getD_eq_getElem _ _ hk]
    exact List.getElem_mem _
  obtain ⟨s1, hret, hs1, u1, u2, u3, u4, u5⟩ :=
    updateLine_sound r.line owner h hpos hP h0 e._particles p1 hgood
  have hround : round c force dim n order T r = Outcome.returned
      { line := s1, Fm := w.Fm,
        integrationIsOverCounter := w.integrationIsOverCounterProc.sum,
        rounds := r.rounds + 1,
        stages := (List.range r.line._particles.length).map (fun i =>
          r.stages.getD i 0 + w.passes.getD (r.line._printList.getD i 0) 0),
        moved := r.moved ++
          [e.moved.map (fun t => (List.indexOf t.1 r.line._printList, t.2.1, t.2.2))] } := by
    unfold round
    rw [if_pos hin]
    simp only [← hw, ← he, hret]
  refine ⟨_, hround, hs1, u1, u2, u3, rfl, by simp, ?_, fun i hi => ?_⟩
  · show w.integrationIsOverCounterProc.sum = s1._particles.countP done
    rw [p2, u4.countP_eq]
  · have hk : r.line._printList.getD i 0 < r.line._particles.length := by
      have : r.line._printList.getD i 0 ∈ r.line._printList := by
        rw [List.getD_eq_getElem _ _ (by rw [h.1.2.1]; exact hi)]
        exact List.getElem_mem _
      exact List.mem_range.mp (h.2.1.subset this)
    obtain ⟨F, f1, f2⟩ := p3 _ hk
    refine ⟨F, ?_, ?_⟩
    · rw [u5 i hi]
      exact f1
    · show ((List.range r.line._particles.length).map (fun i =>
          r.stages.getD i 0 + w.passes.getD (r.line._printList.getD i 0) 0)).getD i 0 = _
      rw [getD_map_range _ _ _ hi, f2]
      rfl

/-! ## The run of `AdvectionParallel` -/

/-- One round for one marker: the sweep and the exchange take a marker that has made at least `j`
stages to a marker that has made at least `j + 1` stages or is integrated, they keep the count of
its stages, and a marker whose integration is not over ends integrated or with a larger step. -/
theorem marker_round (c : RoundCollaborators) (force : Option ForceFunction)
    (dim n order : Nat) (T : ℚ) (p q j g : Nat) (F : List ℚ) (m : Marker)
    (hp : Progress (nTimesOrder n order) j m) (hg : Counted (nTimesOrder n order) m g) :
    Progress (nTimesOrder n order) (j + 1)
      (exchangeMarker c n order q
        (advectMarker c.toCollaborators force dim p n order T F m).1.marker) ∧
    Counted (nTimesOrder n order)
      (exchangeMarker c n order q
        (advectMarker c.toCollaborators force dim p n order T F m).1.marker)
      (g + sweepPasses c.toCollaborators force dim p n order T F m) ∧
    (m._step = UINT_MAX ∨
      (exchangeMarker c n order q
        (advectMarker c.toCollaborators force dim p n order T F m).1.marker)._step = UINT_MAX ∨
      m._step + 1 ≤ (exchangeMarker c n order q
        (advectMarker c.toCollaborators force dim p n order T F m).1.marker)._step) := by
  have hN := nTimesOrder_le n order
  obtain ⟨_, hs⟩ := advectMarker_end c.toCollaborators force dim p n order T F m
  generalize sweepPasses c.toCollaborators force dim p n order T F m = a at hs
  generalize (advectMarker c.toCollaborators force dim p n order T F m).1.marker = m1 at hs
  have hst := exchangeMarker_step c n order q m1
  rcases hs with ⟨s1, s2, s3⟩ | ⟨s1, s2, s3, s4, s5⟩ | ⟨s1, s2, s3, s4, s5, s6, s7, s8⟩
  · have hd : m1._step = UINT_MAX := by rw [s2]
    have he : m1._elem = UINT_MAX := by rw [s2]; exact s1
    rw [exchangeMarker_outside c n order q m1 he]
    exact ⟨Or.inl hd, ⟨fun h => absurd hd h, fun _ => Or.inr he⟩, Or.inr (Or.inl hd)⟩
  · rw [exchangeMarker_outside c n order q m1 s3]
    exact ⟨Or.inl s4, ⟨fun h => absurd s4 h, fun _ => Or.inr s3⟩, Or.inr (Or.inl s4)⟩
  · by_cases hd : m._step = UINT_MAX
    · have ha : a = 0 := s4 (by omega)
      have hd1 : m1._step = UINT_MAX := by
        by_cases e : m._step + a = nTimesOrder n order
        · exact s6 e
        · rw [s7 e, ha]; exact hd
      have hgN : g = nTimesOrder n order := by
        rcases hg.2 hd with h | h
        · exact h
        · exact absurd h s1
      refine ⟨Or.inl (hst.trans hd1), ⟨fun h => absurd (hst.trans hd1) h, fun _ => Or.inl ?_⟩,
        Or.inl hd⟩
      rw [ha]; exact hgN
    · have hgs : g = m._step := hg.1 hd
      rcases hp with h | ⟨p1, p2, p3⟩
      · exact absurd h hd
      · by_cases e : m._step + a = nTimesOrder n order
        · have hd1 := s6 e
          refine ⟨Or.inl (hst.trans hd1),
            ⟨fun h => absurd (hst.trans hd1) h, fun _ => Or.inl ?_⟩,
            Or.inr (Or.inl (hst.trans hd1))⟩
          rw [hgs]; exact e
        · have h1 := s7 e
          have h2 := s5 p2
          have hlt : m._step < nTimesOrder n order := by
            by_contra hn
            have : a = 0 := s4 (by omega)
            omega
          have h3 := s3 hlt
          refine ⟨Or.inr ⟨by rw [hst, h1]; omega, by rw [hst, h1]; exact h2,
            fun _ => by rw [hst, h1]; omega⟩, ⟨fun _ => by rw [hst, h1, hgs], fun h => ?_⟩,
            Or.inr (Or.inr (by rw [hst, h1]; omega))⟩
          rw [hst, h1] at h
          omega

/-- The initialisation loop of `AdvectionParallel` on a sound line: every slot holds afterwards
the initialised marker it held. -/
theorem init_fold (c : RoundCollaborators) (order : Nat) (owner : Nat → Nat) (s : Line)
    (h : s.Sound owner) :
    ((slotsOf s._nprocs s._markerOffset).foldl (initSlot c order) s._particles).length =
      s._particles.length ∧
    ∀ k < s._particles.length,
      ((slotsOf s._nprocs s._markerOffset).foldl (initSlot c order) s._particles).getD k default =
        c.InitializeMarkerForAdvection order (s._particles.getD k default) := by
  obtain ⟨hkeys, hin, hmem⟩ := sound_slots s owner h
  have hnd : ((slotsOf s._nprocs s._markerOffset).map Prod.snd).Nodup := by
    rw [hkeys]; exact List.nodup_range _
  obtain ⟨b1, _, b3⟩ := foldl_slots_pointwise (fun x : List Marker => x)
    (initSlot c order) (fun _ m m1 => m1 = c.InitializeMarkerForAdvection order m)
    (fun x pk => ⟨_, rfl, rfl⟩)
    (slotsOf s._nprocs s._markerOffset) s._particles hnd (fun pk hpk => hin.2 pk hpk)
  exact ⟨b1, fun k hk => b3 _ (hmem k hk)⟩

/-- The state in which `AdvectionParallel` enters its round loop, on a sound line with
collaborators that respect their contract: the line is sound, every marker has the step 0 and no
stage is counted. -/
theorem startRun_inv (c : RoundCollaborators) (n order : Nat) (owner : Nat → Nat) (s : Line)
    (h : s.Sound owner) (hc : Contract c s._nprocs s.meshElements order owner) :
    RunInv owner s._nprocs s.meshElements s._particles.length (nTimesOrder n order) 0
      (startRun s c order) := by
  obtain ⟨i1, i2⟩ := init_fold c order owner s h
  obtain ⟨_, _, _, _, hinit⟩ := hc
  obtain ⟨hwf, hperm, h0, hmono, hown, hgood⟩ := h
  have hlabel : ∀ i < s._particles.length, s._printList.getD i 0 < s._particles.length := by
    intro i hi
    have : s._printList.getD i 0 ∈ s._printList := by
      rw [List.getD_eq_getElem _ _ (by rw [hwf.2.1]; exact hi)]
      exact List.getElem_mem _
    exact List.mem_range.mp (hperm.subset this)
  have i1' : (startRun s c order).line._particles.length = s._particles.length := i1
  refine ⟨⟨⟨hwf.1, ?_, hwf.2.2.1, ?_, ?_⟩, ?_, h0, hmono, ?_, ?_⟩, rfl, rfl, i1, rfl,
    fun _ => rfl, fun h1 => absurd h1 (by decide), fun i hi => ?_⟩
  · rw [i1']; exact hwf.2.1
  · rw [i1']; exact hwf.2.2.2.1
  · rw [i1']; exact hwf.2.2.2.2
  · rw [i1']; exact hperm
  · intro p hp k hk
    have hkN : k < s._particles.length := by
      have := (sound_slots s owner ⟨hwf, hperm, h0, hmono, hown, hgood⟩).2.1.2 (p, k)
        ((mem_slotsOf _ _ _).mpr ⟨hp, hk⟩)
      exact this
    show (((slotsOf s._nprocs s._markerOffset).foldl (initSlot c order) s._particles).getD k
      default)._mproc = p
    rw [i2 k hkN, (hinit _).2.2]
    exact hown p hp k hk
  · intro m hm
    obtain ⟨k, hk, rfl⟩ := List.getElem_of_mem hm
    have hk2 : k < ((slotsOf s._nprocs s._markerOffset).foldl (initSlot c order)
        s._particles).length := hk
    rw [i1] at hk2
    have e2 : (startRun s c order).line._particles[k] =
        c.InitializeMarkerForAdvection order (s._particles.getD k default) := by
      rw [← List.getD_eq_getElem _ default hk]
      exact i2 k hk2
    have g := hgood (s._particles.getD k default) (by
      rw [List.getD_eq_getElem _ _ hk2]; exact List.getElem_mem _)
    show GoodMarker s.meshElements owner (startRun s c order).line._particles[k]
    rw [e2]
    unfold GoodMarker at g ⊢
    rw [(hinit _).2.1, (hinit _).2.2]
    exact g
  · have e : (startRun s c order).line.markerOf i =
        c.InitializeMarkerForAdvection order (s.markerOf i) := i2 _ (hlabel i hi)
    have hs : ((startRun s c order).line.markerOf i)._step = 0 := by rw [e]; exact (hinit _).1
    have hg : (startRun s c order).stages.getD i 0 = 0 := by
      show (List.replicate s._particles.length 0).getD i 0 = 0
      rw [List.getD_eq_getElem _ _ (by rw [List.length_replicate]; exact hi),
        List.getElem_replicate]
    have hu : (0 : Nat) ≠ UINT_MAX := by decide
    refine ⟨Or.inr ⟨by omega, by omega, fun h1 => absurd h1 (by decide)⟩, ?_, ?_⟩
    · intro _; rw [hg, hs]
    · intro h1; rw [hs] at h1; exact absurd h1 hu

/-- On a sound line, the markers of the input indices are the markers of the line. -/
theorem sound_markers (s : Line) (owner : Nat → Nat) (h : s.Sound owner) (Q : Marker → Prop) :
    (∀ m ∈ s._particles, Q m) ↔ ∀ i < s._particles.length, Q (s.markerOf i) := by
  obtain ⟨hwf, hperm, _⟩ := h
  constructor
  · intro hq i hi
    have : s._printList.getD i 0 ∈ s._printList := by
      rw [List.getD_eq_getElem _ _ (by rw [hwf.2.1]; exact hi)]
      exact List.getElem_mem _
    have hk := List.mem_range.mp (hperm.subset this)
    apply hq
    unfold Line.markerOf
    rw [List.getD_eq_getElem _ _ hk]
    exact List.getElem_mem _
  · intro hq m hm
    obtain ⟨k, hk, rfl⟩ := List.getElem_of_mem hm
    have : k ∈ s._printList := hperm.symm.subset (List.mem_range.mpr hk)
    obtain ⟨i, hi, e⟩ := List.getElem_of_mem this
    have := hq i (by rw [← hwf.2.1]; exact hi)
    unfold Line.markerOf at this
    rw [List.getD_eq_getElem _ _ hi, e, List.getD_eq_getElem _ _ hk] at this
    exact this

/-- After at least one round, the counter of `AdvectionParallel` equals the number of markers
exactly when every marker has the step `UINT_MAX`. -/
theorem counter_full (owner : Nat → Nat) (P M N NT j : Nat) (r : Run)
    (h : RunInv owner P M N NT j r) (hj : 1 ≤ j) :
    r.integrationIsOverCounter = r.line._size ↔
      ∀ i < N, (r.line.markerOf i)._step = UINT_MAX := by
  obtain ⟨hs, _, _, hlen, _, _, hcnt, _⟩ := h
  rw [hcnt hj]
  show List.countP done r.line._particles = r.line._particles.length ↔ _
  rw [List.countP_eq_length, sound_markers r.line owner hs (fun m => done m = true), hlen]
  simp only [done, decide_eq_true_eq]

/-- One round of `AdvectionParallel` from a state reached after `j` rounds gives a state reached
after `j + 1` rounds, in which every marker whose integration was not over is integrated or has a
larger step. -/
theorem round_inv (c : RoundCollaborators) (force : Option ForceFunction) (dim n order : Nat)
    (T : ℚ) (owner : Nat → Nat) (P M N j : Nat) (r : Run) (hN : 0 < N)
    (hc : Contract c P M order owner)
    (h : RunInv owner P M N (nTimesOrder n order) j r) :
    ∃ r1, round c force dim n order T r = Outcome.returned r1 ∧
      RunInv owner P M N (nTimesOrder n order) (j + 1) r1 ∧
      ∀ i < N, Advanced c.toCollaborators force dim n order T (r.line.markerOf i)
        (r1.line.markerOf i) := by
  obtain ⟨hs, hP, hM, hlen, hr, _, _, hmk⟩ := h
  subst hP hM hlen
  obtain ⟨r1, e, q1, q2, q3, q4, q5, _, q7, q8⟩ :=
    round_spec c force dim n order T owner r hs hN hc
  refine ⟨r1, e, ⟨q1, q2, q3, q4, by rw [q5, hr], fun h0 => absurd h0 (by omega), fun _ => q7,
    fun i hi => ?_⟩, fun i hi => ?_⟩
  · obtain ⟨F, f1, f2⟩ := q8 i hi
    obtain ⟨a, b, _⟩ := marker_round c force dim n order T (r.line.markerOf i)._mproc
      (r.line.markerOf i)._mproc j (r.stages.getD i 0) F (r.line.markerOf i) (hmk i hi).1
      (hmk i hi).2
    rw [f1, f2]
    exact ⟨a, b⟩
  · obtain ⟨F, f1, _⟩ := q8 i hi
    obtain ⟨_, _, d⟩ := marker_round c force dim n order T (r.line.markerOf i)._mproc
      (r.line.markerOf i)._mproc j (r.stages.getD i 0) F (r.line.markerOf i) (hmk i hi).1
      (hmk i hi).2
    exact ⟨F, by rw [f1]; exact exchangeMarker_step c n order _ _, by rw [f1]; exact d⟩

theorem roundLoop_ended (c : RoundCollaborators) (force : Option ForceFunction)
    (dim n order : Nat) (T : ℚ) (r : Run) (h : r.integrationIsOverCounter = r.line._size)
    (e : Nat) : roundLoop c force dim n order T e r = some (Outcome.returned r) := by
  cases e with
  | zero => unfold roundLoop; rw [if_pos h]
  | succ e => unfold roundLoop; rw [if_pos h]

theorem roundLoop_round (c : RoundCollaborators) (force : Option ForceFunction)
    (dim n order : Nat) (T : ℚ) (r r1 : Run) (h : r.integrationIsOverCounter ≠ r.line._size)
    (hr : round c force dim n order T r = Outcome.returned r1) (e : Nat) :
    roundLoop c force dim n order T (e + 1) r = roundLoop c force dim n order T e r1 := by
  rw [roundLoop, if_neg h, hr]

theorem roundLoop_zero (c : RoundCollaborators) (force : Option ForceFunction)
    (dim n order : Nat) (T : ℚ) (r : Run) (h : r.integrationIsOverCounter ≠ r.line._size) :
    roundLoop c force dim n order T 0 r = none := by
  rw [roundLoop, if_neg h]

/-- The round loop of `AdvectionParallel` from a state reached after `j` rounds, when `d` more
rounds lead to `max 1 NT` rounds: the loop ends after some `k ≤ d` rounds and not before, in a
state in which every marker is counted; and in each of these rounds every marker whose
integration is not over gets integrated or a larger step. -/
theorem run_ends (c : RoundCollaborators) (force : Option ForceFunction) (dim n order : Nat)
    (T : ℚ) (owner : Nat → Nat) (P M N : Nat) (hN : 0 < N) (hc : Contract c P M order owner) :
    ∀ (d j : Nat) (r : Run), RunInv owner P M N (nTimesOrder n order) j r →
      j + d = max 1 (nTimesOrder n order) →
      ∃ k r1, k ≤ d ∧
        (∀ e, roundLoop c force dim n order T (k + e) r = some (Outcome.returned r1)) ∧
        (∀ f < k, roundLoop c force dim n order T f r = none) ∧
        RunInv owner P M N (nTimesOrder n order) (j + k) r1 ∧
        r1.integrationIsOverCounter = r1.line._size ∧
        ∀ t < k, ∃ rt rt1, roundsFrom c force dim n order T t r = Outcome.returned rt ∧
          rt.line._particles.length = N ∧
          rt.integrationIsOverCounter ≠ rt.line._size ∧
          round c force dim n order T rt = Outcome.returned rt1 ∧
          ∀ i < N, Advanced c.toCollaborators force dim n order T (rt.line.markerOf i)
            (rt1.line.markerOf i) := by
  intro d
  induction d with
  | zero =>
    intro j r h hj
    have hj1 : 1 ≤ j := by omega
    have hfull : r.integrationIsOverCounter = r.line._size := by
      rw [counter_full owner P M N _ j r h hj1]
      intro i hi
      rcases (h.2.2.2.2.2.2.2 i hi).1 with hd | ⟨p1, _, p3⟩
      · exact hd
      · have := p3 hj1
        omega
    exact ⟨0, r, le_refl _, fun e => roundLoop_ended c force dim n order T r hfull _,
      fun f hf => absurd hf (by omega), h, hfull, fun t ht => absurd ht (by omega)⟩
  | succ d ih =>
    intro j r h hj
    by_cases hfull : r.integrationIsOverCounter = r.line._size
    · exact ⟨0, r, by omega, fun e => roundLoop_ended c force dim n order T r hfull _,
        fun f hf => absurd hf (by omega), h, hfull, fun t ht => absurd ht (by omega)⟩
    · obtain ⟨r1, hr, hinv, hadv⟩ := round_inv c force dim n order T owner P M N j r hN hc h
      obtain ⟨k, r2, hk, a1, a2, a3, a4, a5⟩ := ih (j + 1) r1 hinv (by omega)
      refine ⟨k + 1, r2, by omega, fun e => ?_, fun f hf => ?_, ?_, a4, fun t ht => ?_⟩
      · rw [show k + 1 + e = (k + e) + 1 by omega,
          roundLoop_round c force dim n order T r r1 hfull hr]
        exact a1 e
      · cases f with
        | zero => exact roundLoop_zero c force dim n order T r hfull
        | succ f =>
          rw [roundLoop_round c force dim n order T r r1 hfull hr]
          exact a2 f (by omega)
      · rw [show j + (k + 1) = j + 1 + k by omega]; exact a3
      · cases t with
        | zero => exact ⟨r, r1, rfl, h.2.2.2.1, hfull, hr, hadv⟩
        | succ t =>
          obtain ⟨rt, rt1, b1, b2, b3⟩ := a5 t (by omega)
          refine ⟨rt, rt1, ?_, b2, b3⟩
          rw [roundsFrom, hr]
          exact b1

/-- A state of `AdvectionParallel` in which the loop ends: every marker has the step `UINT_MAX`,
and it has made `NT` stages in total or is outside the domain. -/
theorem ended_all_done (owner : Nat → Nat) (P M N NT j : Nat) (r : Run)
    (h : RunInv owner P M N NT j r) (hfull : r.integrationIsOverCounter = r.line._size) :
    ∀ i < N, (r.line.markerOf i)._step = UINT_MAX ∧
      (r.stages.getD i 0 = NT ∨ (r.line.markerOf i)._elem = UINT_MAX) := by
  intro i hi
  have hd : (r.line.markerOf i)._step = UINT_MAX := by
    by_cases hj : 1 ≤ j
    · exact (counter_full owner P M N NT j r h hj).mp hfull i hi
    · have h0 := h.2.2.2.2.2.1 (by omega)
      have hl := h.2.2.2.1
      rw [h0] at hfull
      have : r.line._particles.length = 0 := hfull.symm
      omega
  exact ⟨hd, (h.2.2.2.2.2.2.2 i hi).2.2 hd⟩

/-- The round loop of `AdvectionParallel` on a sound line with collaborators that respect their
contract, entered in the state `startRun`: the round loop ends after some `k ≤ max 1 NT` rounds and not before, in a state in
which every marker is counted; until then the counter differs from the number of markers, and in
each round every marker whose integration is not over gets integrated or a larger step. -/
theorem advection_ends (c : RoundCollaborators) (force : Option ForceFunction)
    (dim n order : Nat) (T : ℚ) (owner : Nat → Nat) (s : Line) (h : s.Sound owner)
    (hc : Contract c s._nprocs s.meshElements order owner) :
    ∃ k r, k ≤ max 1 (nTimesOrder n order) ∧
      (∀ e, roundLoop c force dim n order T (k + e) (startRun s c order) =
        some (Outcome.returned r)) ∧
      (∀ f < k, roundLoop c force dim n order T f (startRun s c order) = none) ∧
      RunInv owner s._nprocs s.meshElements s._particles.length (nTimesOrder n order) k r ∧
      r.integrationIsOverCounter = r.line._size ∧
      ∀ t < k, ∃ rt rt1,
        roundsFrom c force dim n order T t (startRun s c order) = Outcome.returned rt ∧
        rt.line._particles.length = s._particles.length ∧
        rt.integrationIsOverCounter ≠ rt.line._size ∧
        round c force dim n order T rt = Outcome.returned rt1 ∧
        ∀ i < s._particles.length,
          Advanced c.toCollaborators force dim n order T (rt.line.markerOf i)
            (rt1.line.markerOf i) := by
  have hinv := startRun_inv c n order owner s h hc
  by_cases hN : 0 < s._particles.length
  · obtain ⟨k, r, hk, a1, a2, a3, a4, a5⟩ := run_ends c force dim n order T owner s._nprocs
      s.meshElements s._particles.length hN hc (max 1 (nTimesOrder n order)) 0
      (startRun s c order) hinv (by omega)
    rw [Nat.zero_add] at a3
    exact ⟨k, r, hk, a1, a2, a3, a4, a5⟩
  · have hfull : (startRun s c order).integrationIsOverCounter =
        (startRun s c order).line._size := by
      show 0 = (startRun s c order).line._particles.length
      rw [hinv.2.2.2.1]
      omega
    exact ⟨0, startRun s c order, by omega,
      fun e => roundLoop_ended c force dim n order T _ hfull _,
      fun f hf => absurd hf (by omega), hinv, hfull, fun t ht => absurd ht (by omega)⟩

/-- The states that rounds lead to from a state reached after `j` rounds are states reached
after the rounds made. -/
theorem roundsFrom_inv (c : RoundCollaborators) (force : Option ForceFunction)
    (dim n order : Nat) (T : ℚ) (owner : Nat → Nat) (P M N : Nat) (hN : 0 < N)
    (hc : Contract c P M order owner) :
    ∀ (t j : Nat) (r : Run), RunInv owner P M N (nTimesOrder n order) j r →
      ∃ rt, roundsFrom c force dim n order T t r = Outcome.returned rt ∧
        RunInv owner P M N (nTimesOrder n order) (j + t) rt := by
  intro t
  induction t with
  | zero => intro j r h; exact ⟨r, rfl, h⟩
  | succ t ih =>
    intro j r h
    obtain ⟨r1, hr, hinv, _⟩ := round_inv c force dim n order T owner P M N j r hN hc h
    obtain ⟨rt, e, hrt⟩ := ih (j + 1) r1 hinv
    refine ⟨rt, ?_, by rw [show j + (t + 1) = j + 1 + t by omega]; exact hrt⟩
    rw [roundsFrom, hr]
    exact e

/-- The sweep leaves a marker outside the domain with the step `UINT_MAX`. -/
theorem advectMarker_outside (c : Collaborators) (force : Option ForceFunction)
    (dim iproc n order : Nat) (T : ℚ) (F : List ℚ) (m : Marker)
    (h : (advectMarker c force dim iproc n order T F m).1.marker._elem = UINT_MAX) :
    (advectMarker c force dim iproc n order T F m).1.marker._step = UINT_MAX := by
  obtain ⟨_, hs⟩ := advectMarker_end c force dim iproc n order T F m
  rcases hs with ⟨_, s2, _⟩ | ⟨_, _, _, s4, _⟩ | ⟨_, s2, _⟩
  · rw [s2]
  · exact s4
  · exact absurd h s2

/-- The sweep gives a marker that starts outside the domain the step `UINT_MAX`. -/
theorem advectMarker_started_outside (c : Collaborators) (force : Option ForceFunction)
    (dim iproc n order : Nat) (T : ℚ) (F : List ℚ) (m : Marker) (h : m._elem = UINT_MAX) :
    (advectMarker c force dim iproc n order T F m).1.marker._step = UINT_MAX := by
  obtain ⟨_, hs⟩ := advectMarker_end c force dim iproc n order T F m
  rcases hs with ⟨_, s2, _⟩ | ⟨s1, _⟩ | ⟨s1, _⟩
  · rw [s2]
  · exact absurd h s1
  · exact absurd h s1

/-- A marker that the exchange leaves outside the domain was outside the domain before the
exchange, or it was on an element of another process and the search of the exchange did not
find it. -/
theorem exchangeMarker_lost (c : RoundCollaborators) (n order jproc : Nat) (m : Marker)
    (h : (exchangeMarker c n order jproc m)._elem = UINT_MAX) :
    m._elem = UINT_MAX ∨
      (m._elem ≠ UINT_MAX ∧ m._mproc ≠ jproc ∧
        (c.GetElement m._previousElem jproc (c.GetMarkerS n order m) m).2.1 = UINT_MAX) := by
  by_cases he : m._elem = UINT_MAX
  · exact Or.inl he
  · by_cases hp : m._mproc = jproc
    · rw [exchangeMarker_own c n order jproc m hp] at h
      exact absurd h he
    · refine Or.inr ⟨he, hp, ?_⟩
      unfold exchangeMarker at h
      rw [if_pos he, if_pos hp] at h
      exact h

/-! ## The end-to-end scenario as an instance of the general statements -/

theorem scenarioElement_cases (x : List ℚ) :
    scenarioElement x = 0 ∨ scenarioElement x = 1 ∨ scenarioElement x = UINT_MAX := by
  unfold scenarioElement
  split
  · split
    · exact Or.inl rfl
    · split
      · exact Or.inr (Or.inl rfl)
      · exact Or.inr (Or.inr rfl)
  · exact Or.inr (Or.inr rfl)

theorem scenario_located (pe : Nat) (x : List ℚ) :
    Located 2 scenarioOwner (pe, scenarioElement x, scenarioProc (scenarioElement x)) := by
  unfold Located
  show (scenarioElement x = UINT_MAX ∨ scenarioElement x < 2) ∧
    scenarioProc (scenarioElement x) = scenarioOwner (scenarioElement x)
  rcases scenarioElement_cases x with h | h | h <;> rw [h] <;> decide

theorem scenarioOwner_lt (e : Nat) : scenarioOwner e < 2 := by
  unfold scenarioOwner
  split <;> omega

/-- The collaborators of the end-to-end scenario respect their contract. -/
theorem scenario_contract (order : Nat) : Contract scenario 2 2 order scenarioOwner :=
  ⟨scenarioOwner_lt, by decide, fun pe _ m => scenario_located pe m._x,
    fun pe _ _ m => scenario_located pe m._x, fun _ => ⟨rfl, rfl, rfl⟩⟩

/-- The collaborators `scenarioLost` respect their contract. -/
theorem scenarioLost_contract (order : Nat) : Contract scenarioLost 2 2 order scenarioOwner :=
  have h0 : (0 : Nat) = scenarioOwner UINT_MAX := by decide
  ⟨scenarioOwner_lt, by decide, fun pe _ m => scenario_located pe m._x,
    fun _ _ _ _ => ⟨Or.inl rfl, h0⟩, fun _ => ⟨rfl, rfl, rfl⟩⟩

/-- The line of the end-to-end scenario is sound. -/
theorem scenario_sound : scenarioLine.Sound scenarioOwner := by
  refine ⟨by decide, by decide, by decide, by decide, by decide!, ?_⟩
  intro m hm
  have h3 : m = scenarioMarker [1 / 10, 1 / 2] ∨ m = scenarioMarker [9 / 10, 1 / 2] ∨
      m = scenarioMarker [19 / 10, 1 / 2] := by
    simpa [scenarioLine, scenarioMarkers] using hm
  have hg : ∀ x, GoodMarker 2 scenarioOwner (scenarioMarker x) := fun x =>
    scenario_located 0 x
  rcases h3 with h | h | h <;> rw [h] <;> exact hg _

/-- The time fraction and the velocity of the end-to-end scenario do not depend on the stage
vectors and the old coordinates of the marker. -/
theorem scenario_blind (n order : Nat) : BlindToStages scenario.toCollaborators n order := by
  intro a b hab
  constructor
  · show (((a._step / order : Nat) : ℚ) + cAt (order - 1) (a._step % order)) / n =
      (((b._step / order : Nat) : ℚ) + cAt (order - 1) (b._step % order)) / n
    rw [hab.2.1]
  · rfl

/-! ## The empty line, and the parameters of `AdvectionParallel` -/

theorem fillLineNew_nil_labels (ps : List (Option Marker)) : fillLineNew ps [] = none := by
  unfold fillLineNew
  split
  · rfl
  · rfl

theorem fillLine_nil_labels (ps : List Marker) : fillLine ps [] = none := by
  unfold fillLine
  split
  · rfl
  · rfl

/-- The constructor on no marker: the bucketing leaves every offset 0, and the closing read
`_particles[_printList[0]]` is out of range. -/
theorem ctor_empty (P M : Nat) :
    Line.Line P M [] = Outcome.outOfRange ∧ ∀ p ≤ P, (ctorBuckets P []).2.getD p 0 = 0 := by
  constructor
  · have hl := (ctorBuckets_lengths P []).2
    have he : (ctorBuckets P []).1._printList = [] := List.eq_nil_of_length_eq_zero hl
    unfold Line.Line
    simp only [he, fillLineNew_nil_labels]
  · intro p hp
    rw [ctorBuckets_offs P [] p hp]
    split
    · have := procOrder_length_le [] p
      simpa using this
    · rfl

/-- The method `UpdateLine` on a line without markers: the reorder leaves every offset 0, and the
closing read `_particles[_printList[0]]` is out of range. -/
theorem updateLine_empty (s : Line) (h : s.WF) (he : s._particles = []) :
    s.UpdateLine = Outcome.outOfRange ∧ ∀ p ≤ s._nprocs, (afterProc s).2.getD p 0 = 0 := by
  have hoff : ∀ p ≤ s._nprocs, (afterProc s).2.getD p 0 = 0 := by
    intro p hp
    rw [afterProc_offs s h p hp, he]
    split
    · have := procOrder_length_le [] p
      simpa using this
    · rfl
  have hslice : ∀ p < s._nprocs, sliceOf (afterProc s).2 p = [] := by
    intro p hp
    unfold sliceOf
    rw [hoff p (by omega), hoff (p + 1) (by omega)]
    rfl
  refine ⟨?_, hoff⟩
  have hlab : (afterElem s).2 = [] := by
    apply List.eq_nil_of_length_eq_zero
    rw [(afterElem_length s).2, h.2.1, he]
    rfl
  have hnr : ∀ s1, s.UpdateLine ≠ Outcome.returned s1 := by
    intro s1 hr
    obtain ⟨_, l, hl, _⟩ := (UpdateLine_returned_iff s s1).mp hr
    rw [hlab, fillLine_nil_labels] at hl
    exact absurd hl (by simp)
  have hna : s.UpdateLine ≠ Outcome.aborted := by
    intro ha
    obtain ⟨p, hp, _, hc⟩ := (UpdateLine_aborted_iff s (fun p hp => by
      rw [hslice p hp]; intro j hj; exact absurd hj (List.not_mem_nil _))).mp ha
    apply hc
    rw [hslice p hp]
    intro j hj
    exact absurd hj (List.not_mem_nil _)
  cases hu : s.UpdateLine with
  | returned s1 => exact absurd hu (hnr s1)
  | aborted => exact absurd hu hna
  | outOfRange => rfl

/-! ## The local phase for one marker -/

/-- A stage loop that ends inside the domain before `n * order` stages has left through the
`break` of a stage whose search found the marker on another process. -/
theorem stageLoop_blocked (c : Collaborators) (force : Option ForceFunction)
    (dim iproc n order : Nat) (T : ℚ) :
    ∀ (fuel : Nat) (v : Local), v.markerOutsideDomain = false →
      nTimesOrder n order ≤ v.step + fuel →
      (stageLoop c force dim iproc n order T fuel v).markerOutsideDomain = false →
      (stageLoop c force dim iproc n order T fuel v).step < nTimesOrder n order →
      ∃ k u, u = stageLoop c force dim iproc n order T k v ∧
        k + 1 = stagePasses c force dim iproc n order T fuel v ∧
        u.step < nTimesOrder n order ∧
        stageLoop c force dim iproc n order T fuel v =
          located c n order u.currentElem (stageUpdate c force dim n order T u) ∧
        (searchOf c n order u.currentElem (stageUpdate c force dim n order T u)).2.1 ≠
          UINT_MAX ∧
        iproc ≠ (searchOf c n order u.currentElem (stageUpdate c force dim n order T u)).2.2 := by
  intro fuel
  induction fuel with
  | zero =>
    intro v _ h2 _ h4
    have : (stageLoop c force dim iproc n order T 0 v).step = v.step := rfl
    omega
  | succ fuel ih =>
    intro v h1 h2 h3 h4
    by_cases hlt : v.step < nTimesOrder n order
    · have eL : stageLoop c force dim iproc n order T (fuel + 1) v =
          match stageBody c force dim iproc n order T v with
          | (v1, true) => v1
          | (v1, false) => stageLoop c force dim iproc n order T fuel v1 := by
        rw [stageLoop, if_pos hlt]
      have eP : stagePasses c force dim iproc n order T (fuel + 1) v =
          match stageBody c force dim iproc n order T v with
          | (_, true) => 1
          | (v1, false) => 1 + stagePasses c force dim iproc n order T fuel v1 := by
        rw [stagePasses, if_pos hlt]
      rw [eL] at h3 h4 ⊢
      rw [eP]
      rw [stageBody_split] at h3 h4 ⊢
      by_cases hx : (searchOf c n order v.currentElem
          (stageUpdate c force dim n order T v)).2.1 = UINT_MAX
      · rw [if_pos hx] at h3
        exact absurd h3 (by simp [exitedAt])
      · rw [if_neg hx] at h3 h4 ⊢
        by_cases hp : iproc ≠ (searchOf c n order v.currentElem
            (stageUpdate c force dim n order T v)).2.2
        · rw [decide_eq_true hp]
          exact ⟨0, v, rfl, rfl, hlt, rfl, hx, hp⟩
        · rw [decide_eq_false hp] at h3 h4 ⊢
          obtain ⟨k, u, e1, e2, e3, e4, e5, e6⟩ :=
            ih (located c n order v.currentElem (stageUpdate c force dim n order T v)) h1
              (by show nTimesOrder n order ≤ v.step + 1 + fuel; omega) h3 h4
          refine ⟨k + 1, u, ?_, ?_, e3, e4, e5, e6⟩
          · rw [e1]
            conv_rhs => rw [stageLoop, if_pos hlt, stageBody_split, if_neg hx,
              decide_eq_false hp]
          · show k + 1 + 1 = 1 + stagePasses c force dim iproc n order T fuel _
            omega
    · have : stageLoop c force dim iproc n order T (fuel + 1) v = v := by
        rw [stageLoop, if_neg hlt]
      rw [this] at h4
      exact absurd h4 hlt

/-- A marker that the sweep leaves without the step `UINT_MAX`, when it entered the sweep with a
step up to `n * order`, is blocked, and its integration data are those of the last stage. -/
theorem advectMarker_blocked (c : Collaborators) (force : Option ForceFunction)
    (dim iproc n order : Nat) (T : ℚ) (F : List ℚ) (m : Marker)
    (hstep : m._step = UINT_MAX ∨ m._step ≤ nTimesOrder n order)
    (hnd : (advectMarker c force dim iproc n order T F m).1.marker._step ≠ UINT_MAX) :
    Blocked (nTimesOrder n order) iproc (advectMarker c force dim iproc n order T F m).1.marker ∧
    LastStage c force dim iproc n order T F m
      (advectMarker c force dim iproc n order T F m).1.marker := by
  have hN := nTimesOrder_le n order
  by_cases he : m._elem = UINT_MAX
  · exact absurd (by
      obtain ⟨_, hs⟩ := advectMarker_end c force dim iproc n order T F m
      rcases hs with ⟨_, s2, _⟩ | ⟨s1, _⟩ | ⟨s1, _⟩
      · rw [s2]
      · exact absurd he s1
      · exact absurd he s1) hnd
  · have hout : (startWith F m).markerOutsideDomain = false := by simp [startWith, he]
    have hl := stageLoop_end c force dim iproc n order T (nTimesOrder n order) (startWith F m)
      rfl hout he (by omega)
    have e1 := advectMarker_eq c force dim iproc n order T F m
    rw [if_pos hout] at e1
    have e2 : sweepPasses c force dim iproc n order T F m =
        stagePasses c force dim iproc n order T (nTimesOrder n order) (startWith F m) := by
      unfold sweepPasses
      rw [if_neg he]
      rfl
    by_cases hw : (stageLoop c force dim iproc n order T (nTimesOrder n order)
        (startWith F m)).step = nTimesOrder n order
    · rw [if_pos hw] at e1
      rw [e1] at hnd
      exact absurd rfl hnd
    · rw [if_neg hw] at e1
      rw [e1] at hnd ⊢
      have hv : (startWith F m).step = m._step := rfl
      rcases hl with ⟨_, _, a3, _⟩ | ⟨a1, a2, a3, a4, a5, a6, a7, a8⟩
      · exact absurd a3 hnd
      · rw [hv] at a2 a6 a7
        have hle : m._step ≤ nTimesOrder n order := by
          rcases hstep with hd | hle
          · have h0 := a7 (by omega)
            rw [a8 h0] at hnd
            exact absurd hd hnd
          · exact hle
        have hlt : (stageLoop c force dim iproc n order T (nTimesOrder n order)
            (startWith F m)).step < nTimesOrder n order := by
          have := a6 hle
          omega
        obtain ⟨k, u, b1, b2, b3, b4, b5, b6⟩ := stageLoop_blocked c force dim iproc n order T
          (nTimesOrder n order) (startWith F m) hout (by omega) a1 hlt
        refine ⟨⟨by rw [a3]; exact hlt, a4, ?_⟩, k, u, b1, by rw [e2]; exact b2, b3, ?_, ?_, ?_,
          ?_⟩
        · rw [b4]
          exact fun e => b6 e.symm
        · rw [b4]; rfl
        · rw [b4]; rfl
        · rw [b4]; rfl
        · rw [b4]; rfl

/-- The sweep over a marker outside the domain: the marker gets the step `UINT_MAX`, nothing
else changes, no stage is run and the marker is counted. -/
theorem advectMarker_exited (c : Collaborators) (force : Option ForceFunction)
    (dim iproc n order : Nat) (T : ℚ) (F : List ℚ) (m : Marker) (he : m._elem = UINT_MAX) :
    advectMarker c force dim iproc n order T F m =
      ({ marker := { m with _step := UINT_MAX }, currentElem := UINT_MAX, step := UINT_MAX,
         Fm := F, markerOutsideDomain := true }, true) ∧
    sweepPasses c force dim iproc n order T F m = 0 := by
  constructor
  · unfold advectMarker
    simp [he]
  · unfold sweepPasses
    rw [if_pos he]

/-- The sweep keeps the step `UINT_MAX`. -/
theorem advectMarker_done_stays (c : Collaborators) (force : Option ForceFunction)
    (dim iproc n order : Nat) (T : ℚ) (F : List ℚ) (m : Marker) (hd : m._step = UINT_MAX) :
    (advectMarker c force dim iproc n order T F m).1.marker._step = UINT_MAX := by
  have hN := nTimesOrder_le n order
  obtain ⟨_, hs⟩ := advectMarker_end c force dim iproc n order T F m
  rcases hs with ⟨_, s2, _⟩ | ⟨_, _, _, s4, _⟩ | ⟨_, _, _, s4, _, s6, s7, _⟩
  · rw [s2]
  · exact s4
  · have ha := s4 (by omega)
    by_cases e : m._step + sweepPasses c force dim iproc n order T F m = nTimesOrder n order
    · exact s6 e
    · rw [s7 e, ha]
      exact hd

/-- The sweep for one marker: a marker that has made at least `j` stages has afterwards the
step `UINT_MAX` or a step below `NT`, and the count of its stages is kept. -/
theorem marker_sweep (c : Collaborators) (force : Option ForceFunction)
    (dim n order : Nat) (T : ℚ) (p j g : Nat) (F : List ℚ) (m : Marker)
    (hp : Progress (nTimesOrder n order) j m) (hg : Counted (nTimesOrder n order) m g) :
    ((advectMarker c force dim p n order T F m).1.marker._step = UINT_MAX ∨
      (advectMarker c force dim p n order T F m).1.marker._step < nTimesOrder n order) ∧
    Counted (nTimesOrder n order) (advectMarker c force dim p n order T F m).1.marker
      (g + sweepPasses c force dim p n order T F m) ∧
    m._step ≤ (advectMarker c force dim p n order T F m).1.marker._step := by
  have hN := nTimesOrder_le n order
  obtain ⟨_, hs⟩ := advectMarker_end c force dim p n order T F m
  generalize sweepPasses c force dim p n order T F m = a at hs
  generalize (advectMarker c force dim p n order T F m).1.marker = m1 at hs
  have hle : m._step ≤ UINT_MAX := by
    rcases hp with h | ⟨_, h, _⟩
    · omega
    · omega
  rcases hs with ⟨s1, s2, s3⟩ | ⟨s1, s2, s3, s4, s5⟩ | ⟨s1, s2, s3, s4, s5, s6, s7, s8⟩
  · have hd : m1._step = UINT_MAX := by rw [s2]
    have he : m1._elem = UINT_MAX := by rw [s2]; exact s1
    exact ⟨Or.inl hd, ⟨fun h => absurd hd h, fun _ => Or.inr he⟩, by rw [hd]; exact hle⟩
  · exact ⟨Or.inl s4, ⟨fun h => absurd s4 h, fun _ => Or.inr s3⟩, by rw [s4]; exact hle⟩
  · by_cases hd : m._step = UINT_MAX
    · have ha : a = 0 := s4 (by omega)
      have hd1 : m1._step = UINT_MAX := by
        by_cases e : m._step + a = nTimesOrder n order
        · exact s6 e
        · rw [s7 e, ha]; exact hd
      have hgN : g = nTimesOrder n order := by
        rcases hg.2 hd with h | h
        · exact h
        · exact absurd h s1
      refine ⟨Or.inl hd1, ⟨fun h => absurd hd1 h, fun _ => Or.inl ?_⟩, by rw [hd1]; exact hle⟩
      rw [ha]; exact hgN
    · have hgs : g = m._step := hg.1 hd
      rcases hp with h | ⟨p1, p2, p3⟩
      · exact absurd h hd
      · by_cases e : m._step + a = nTimesOrder n order
        · have hd1 := s6 e
          refine ⟨Or.inl hd1, ⟨fun h => absurd hd1 h, fun _ => Or.inl ?_⟩,
            by rw [hd1]; exact hle⟩
          rw [hgs]; exact e
        · have h1 := s7 e
          have h2 := s5 p2
          refine ⟨Or.inr (by rw [h1]; omega), ⟨fun _ => by rw [h1, hgs], fun h => ?_⟩,
            by rw [h1]; omega⟩
          rw [h1] at h
          omega

/-! ## The markers in a round of the run -/

/-- Every marker enters the round loop with the step 0. -/
theorem startRun_steps (c : RoundCollaborators) (order : Nat) (owner : Nat → Nat) (s : Line)
    (h : s.Sound owner) (hc : Contract c s._nprocs s.meshElements order owner) :
    ∀ i < s._particles.length, ((startRun s c order).line.markerOf i)._step = 0 := by
  intro i hi
  have hlabel : s._printList.getD i 0 < s._particles.length := by
    have : s._printList.getD i 0 ∈ s._printList := by
      rw [List.getD_eq_getElem _ _ (by rw [h.1.2.1]; exact hi)]
      exact List.getElem_mem _
    exact List.mem_range.mp (h.2.1.subset this)
  have e : (startRun s c order).line.markerOf i =
      c.InitializeMarkerForAdvection order (s.markerOf i) :=
    (init_fold c order owner s h).2 _ hlabel
  rw [e]
  exact (hc.2.2.2.2 _).1

/-- The round made after `t` rounds of the run of `AdvectionParallel` on a sound line with at
least one marker: it returns, the states before and after it are states of the run, and every
marker is swept by its process, passed through the exchange and kept by `UpdateLine`, the stages
of the sweep being added to its count. -/
theorem round_markers (c : RoundCollaborators) (force : Option ForceFunction)
    (dim n order : Nat) (T : ℚ) (owner : Nat → Nat) (s : Line) (h : s.Sound owner)
    (hN : 0 < s._particles.length)
    (hc : Contract c s._nprocs s.meshElements order owner) (t : Nat) :
    ∃ rt rt1, roundsFrom c force dim n order T t (startRun s c order) = Outcome.returned rt ∧
      round c force dim n order T rt = Outcome.returned rt1 ∧
      RunInv owner s._nprocs s.meshElements s._particles.length (nTimesOrder n order) t rt ∧
      RunInv owner s._nprocs s.meshElements s._particles.length (nTimesOrder n order) (t + 1)
        rt1 ∧
      ∀ i < s._particles.length, ∃ F,
        rt1.line.markerOf i = exchangeMarker c n order (rt.line.markerOf i)._mproc
          (sweptMarker c.toCollaborators force dim n order T F (rt.line.markerOf i)) ∧
        rt1.stages.getD i 0 = rt.stages.getD i 0 +
          sweepPasses c.toCollaborators force dim (rt.line.markerOf i)._mproc n order T F
            (rt.line.markerOf i) := by
  obtain ⟨rt, e, hinv⟩ := roundsFrom_inv c force dim n order T owner _ _ _ hN hc t 0
    (startRun s c order) (startRun_inv c n order owner s h hc)
  rw [Nat.zero_add] at hinv
  obtain ⟨rt1, e1, hinv1, _⟩ := round_inv c force dim n order T owner _ _ _ t rt hN hc hinv
  obtain ⟨hs, hP, hM, hlen, _⟩ := hinv
  obtain ⟨rt2, e2, _, _, _, _, _, _, _, q8⟩ :=
    round_spec c force dim n order T owner rt hs (by rw [hlen]; exact hN)
      (by rw [hP, hM]; exact hc)
  have e12 : rt2 = rt1 := by
    rw [e2] at e1
    injection e1
  subst e12
  exact ⟨rt, rt2, e, e2, ⟨hs, hP, hM, hlen, ‹_›⟩, hinv1,
    fun i hi => q8 i (by rw [hlen]; exact hi)⟩

/-- On a sound line the marker with the input index `i` is stored in the slice of its
process. -/
theorem sound_slot (s : Line) (owner : Nat → Nat) (h : s.Sound owner) (i : Nat)
    (hi : i < s._particles.length) :
    s._printList.getD i 0 ∈ sliceOf s._markerOffset (s.markerOf i)._mproc := by
  have hk : s._printList.getD i 0 < s._particles.length := by
    have : s._printList.getD i 0 ∈ s._printList := by
      rw [List.getD_eq_getElem _ _ (by rw [h.1.2.1]; exact hi)]
      exact List.getElem_mem _
    exact List.mem_range.mp (h.2.1.subset this)
  exact ((mem_slotsOf _ _ _).mp ((sound_slots s owner h).2.2 _ hk)).2

/-! ## A stage at a macro-step boundary -/

/-- At a macro-step boundary (`step % order = 0`) the stage does not depend on the stage vectors
and the old coordinates that the marker holds. -/
theorem stageUpdate_stale (c : Collaborators) (force : Option ForceFunction)
    (dim n order : Nat) (T : ℚ) (F : List ℚ) (a b : Marker)
    (hblind : BlindToStages c n order) (hab : SameButStages a b)
    (ha : a._K.length = order) (hb : b._K.length = order) (hs : a._step % order = 0) :
    stageUpdate c force dim n order T (startWith F a) =
      stageUpdate c force dim n order T (startWith F b) := by
  obtain ⟨hS, hV⟩ := hblind a b hab
  obtain ⟨hx, hst, hel, hpe, hmp⟩ := hab
  have hs2 : b._step % order = 0 := by rw [← hst]; exact hs
  have e : ∀ m : Marker, m._K.length = order → m._step % order = 0 →
      stageUpdate c force dim n order T (startWith F m) =
        { marker :=
            { m with
              _x0 := m._x,
              _x := if 0 + 1 < order then
                  assignFirst dim (combine order (aAt (order - 1) (0 + 1))
                    ((List.replicate order (List.replicate dim 0)).set 0
                      (assignFirst dim (fun k =>
                        (c.GetMarkerS n order m * (c.updateVelocity m).1.getD k 0 +
                          (1 - c.GetMarkerS n order m) * (c.updateVelocity m).2.getD k 0 +
                          (match force with
                            | none => F
                            | some f => f m._x F (c.GetElementMaterial m._elem)).getD k 0) *
                        (T / n))
                        ((List.replicate order (List.replicate dim 0)).getD 0 []))) m._x) m._x
                else
                  assignFirst dim (combine order (bAt (order - 1))
                    ((List.replicate order (List.replicate dim 0)).set 0
                      (assignFirst dim (fun k =>
                        (c.GetMarkerS n order m * (c.updateVelocity m).1.getD k 0 +
                          (1 - c.GetMarkerS n order m) * (c.updateVelocity m).2.getD k 0 +
                          (match force with
                            | none => F
                            | some f => f m._x F (c.GetElementMaterial m._elem)).getD k 0) *
                        (T / n))
                        ((List.replicate order (List.replicate dim 0)).getD 0 []))) m._x) m._x,
              _K := (List.replicate order (List.replicate dim 0)).set 0
                (assignFirst dim (fun k =>
                  (c.GetMarkerS n order m * (c.updateVelocity m).1.getD k 0 +
                    (1 - c.GetMarkerS n order m) * (c.updateVelocity m).2.getD k 0 +
                    (match force with
                      | none => F
                      | some f => f m._x F (c.GetElementMaterial m._elem)).getD k 0) *
                  (T / n))
                  ((List.replicate order (List.replicate dim 0)).getD 0 [])),
              _step := m._step + 1 },
          currentElem := m._elem, step := m._step + 1,
          Fm := match force with
            | none => F
            | some f => f m._x F (c.GetElementMaterial m._elem),
          markerOutsideDomain := decide (m._elem = UINT_MAX) } := by
    intro m hK hm
    have hm2 : (startWith F m).step % order = 0 := hm
    unfold stageUpdate
    simp only [hm2, if_true]
    have hr := reset_eq_replicate order dim (startWith F m).marker._K hK
    simp only [hr]
    rfl
  rw [e a ha hs, e b hb hs2, hS, hV, hx, hst, hel]
  congr 1
  cases a
  cases b
  simp only at hx hst hel hpe hmp
  subst hx hst hel hpe hmp
  rfl

/-- At a macro-step boundary the body of the stage loop, the stage loop, the sweep and its number
of stages do not depend on the stage vectors and the old coordinates that the marker holds. -/
theorem sweep_stale (c : Collaborators) (force : Option ForceFunction)
    (dim iproc n order : Nat) (T : ℚ) (F : List ℚ) (a b : Marker)
    (hblind : BlindToStages c n order) (hab : SameButStages a b)
    (ha : a._K.length = order) (hb : b._K.length = order) (hs : a._step % order = 0)
    (hlt : a._step < nTimesOrder n order) (he : a._elem ≠ UINT_MAX) :
    stageBody c force dim iproc n order T (startWith F a) =
      stageBody c force dim iproc n order T (startWith F b) ∧
    (∀ fuel, stageLoop c force dim iproc n order T (fuel + 1) (startWith F a) =
      stageLoop c force dim iproc n order T (fuel + 1) (startWith F b)) ∧
    advectMarker c force dim iproc n order T F a = advectMarker c force dim iproc n order T F b ∧
    sweepPasses c force dim iproc n order T F a = sweepPasses c force dim iproc n order T F b := by
  have hu := stageUpdate_stale c force dim n order T F a b hblind hab ha hb hs
  have hce : (startWith F a).currentElem = (startWith F b).currentElem := hab.2.2.1
  have hbody : stageBody c force dim iproc n order T (startWith F a) =
      stageBody c force dim iproc n order T (startWith F b) := by
    rw [stageBody_split, stageBody_split, hu, hce]
  have hlta : (startWith F a).step < nTimesOrder n order := hlt
  have hltb : (startWith F b).step < nTimesOrder n order := by
    show b._step < _
    rw [← hab.2.1]; exact hlt
  have hloop : ∀ fuel, stageLoop c force dim iproc n order T (fuel + 1) (startWith F a) =
      stageLoop c force dim iproc n order T (fuel + 1) (startWith F b) := by
    intro fuel
    rw [stageLoop, stageLoop, if_pos hlta, if_pos hltb, hbody]
  have hpass : ∀ fuel, stagePasses c force dim iproc n order T (fuel + 1) (startWith F a) =
      stagePasses c force dim iproc n order T (fuel + 1) (startWith F b) := by
    intro fuel
    rw [stagePasses, stagePasses, if_pos hlta, if_pos hltb, hbody]
  obtain ⟨k, hk⟩ : ∃ k, nTimesOrder n order = k + 1 := ⟨nTimesOrder n order - 1, by omega⟩
  have hbe : b._elem ≠ UINT_MAX := by rw [← hab.2.2.1]; exact he
  have hout : (startWith F a).markerOutsideDomain = (startWith F b).markerOutsideDomain := by
    show decide (a._elem = UINT_MAX) = decide (b._elem = UINT_MAX)
    rw [hab.2.2.1]
  have h1 : (advectMarker c force dim iproc n order T F a).1 =
      (advectMarker c force dim iproc n order T F b).1 := by
    rw [advectMarker_eq, advectMarker_eq, hout]
    by_cases ho : (startWith F b).markerOutsideDomain = false
    · rw [if_pos ho, if_pos ho]
      have := hloop k
      rw [← hk] at this
      rw [this]
    · exact absurd (by simp [startWith, hbe]) ho
  refine ⟨hbody, hloop, ?_, ?_⟩
  · have h2 : ∀ x : Local × Bool, x = (x.1, x.2) := fun x => rfl
    rw [h2 (advectMarker c force dim iproc n order T F a),
      h2 (advectMarker c force dim iproc n order T F b), h1]
    have e3 : ∀ m, (advectMarker c force dim iproc n order T F m).2 =
        (decide ((advectMarker c force dim iproc n order T F m).1.step = UINT_MAX) ||
          (advectMarker c force dim iproc n order T F m).1.markerOutsideDomain) := fun _ => rfl
    rw [e3 a, e3 b, h1]
  · unfold sweepPasses
    rw [if_neg he, if_neg hbe]
    have := hpass k
    rw [← hk] at this
    exact this

/-- At a macro-step boundary the stage takes the coordinates of the marker as its old
coordinates and leaves every stage vector but the first one zero. -/
theorem stageUpdate_boundary (c : Collaborators) (force : Option ForceFunction)
    (dim n order : Nat) (T : ℚ) (F : List ℚ) (m : Marker)
    (hK : m._K.length = order) (hm : m._step % order = 0) :
    (stageUpdate c force dim n order T (startWith F m)).marker._x0 = m._x ∧
    ∀ j, 0 < j → j < order →
      (stageUpdate c force dim n order T (startWith F m)).marker._K.getD j [] =
        List.replicate dim 0 := by
  have hm2 : (startWith F m).step % order = 0 := hm
  have hr := reset_eq_replicate order dim (startWith F m).marker._K hK
  constructor
  · unfold stageUpdate
    simp only [hm2, if_true]
    rfl
  · intro j hj hjo
    unfold stageUpdate
    simp only [hm2, if_true, hr]
    show ((List.replicate order (List.replicate dim (0 : ℚ))).set 0 _).getD j [] = _
    rw [List.getD_eq_getElem?_getD, List.getElem?_set_ne (by omega),
      List.getElem?_replicate, if_pos hjo]
    rfl

/-! ## The messages of a hand-over -/

theorem firstOf_eq (count : Nat) (v : List ℚ) (h : v.length = count) : firstOf count v = v := by
  unfold firstOf
  apply List.ext_getElem
  · rw [List.length_map, List.length_range, h]
  · intro i h1 h2
    rw [List.getElem_map, List.getElem_range, List.getD_eq_getElem _ _ h2]

theorem firstOf_length (count : Nat) (v : List ℚ) : (firstOf count v).length = count := by
  unfold firstOf
  rw [List.length_map, List.length_range]

/-- A received message of `count` values replaces a buffer of `count` entries. -/
theorem store_eq (count : Nat) (data buf : List ℚ) (hd : data.length = count)
    (hb : buf.length = count) : store count data buf = data := by
  unfold store
  rw [hd, Nat.min_self, assignFirst_eq_map count _ buf hb]
  exact firstOf_eq count data hd

theorem sendState_eq (order dim jproc mproc : Nat) (m : Marker) :
    sendState order dim jproc mproc m =
      stepMessage order jproc mproc m ::
        (if m._step % order ≠ 0 then
          (List.range order).map (stageMessage dim jproc mproc m) ++
            [oldMessage order dim jproc mproc m]
        else []) := rfl

/-- The tags and counts of the messages of a hand-over. -/
theorem sendState_envelopes (order dim jproc mproc : Nat) (m : Marker) :
    envelopes (sendState order dim jproc mproc m) =
      (stepTag order, 1) ::
        (if m._step % order ≠ 0 then
          (List.range order).map (fun i => (i, dim)) ++ [(order, dim)]
        else []) := by
  rw [sendState_eq]
  unfold envelopes
  rw [List.map_cons]
  congr 1
  split
  · rw [List.map_append, List.map_map]
    congr 1
    · apply List.map_congr_left
      intro i _
      show (i, ([] : List Nat).length + (firstOf dim (m._K.getD i [])).length) = (i, dim)
      rw [firstOf_length]
      simp
    · show [(order, ([] : List Nat).length + (firstOf dim m._x0).length)] = [(order, dim)]
      rw [firstOf_length]
      simp
  · rfl

/-- A receive finds the first message of its source behind messages of other sources. -/
theorem recv_skip (source tag : Nat) (m : Message) (hs : m.source = source) (ht : m.tag = tag)
    (q : List Message) :
    ∀ pre : List Message, (∀ x ∈ pre, x.source ≠ source) →
      recv source tag (pre ++ m :: q) = some (m, pre ++ q) := by
  intro pre
  induction pre with
  | nil =>
    intro _
    show recv source tag (m :: q) = _
    rw [recv, if_pos ⟨hs, ht⟩]
    rfl
  | cons x pre ih =>
    intro hpre
    have hx : ¬ (x.source = source ∧ x.tag = tag) :=
      fun h => hpre x (List.mem_cons_self _ _) h.1
    show recv source tag (x :: (pre ++ m :: q)) = _
    rw [recv, if_neg hx, ih (fun y hy => hpre y (List.mem_cons_of_mem _ hy))]
    rfl

/-- The receives of the stage vectors: each one takes the message of the sending process that
is first in the queue, the buffer rows with the received indices are stored, and the marker
takes the buffer. -/
theorem recvStages_spec (dim jproc mproc : Nat) (m : Marker) (pre rest : List Message)
    (hpre : ∀ x ∈ pre, x.source ≠ jproc) :
    ∀ (l : List Nat) (w : Receiver), l.Nodup →
      w.queue = pre ++ l.map (stageMessage dim jproc mproc m) ++ rest →
      ∃ w1, recvStages dim jproc l w = some w1 ∧
        w1.queue = pre ++ rest ∧
        w1.posted = w.posted ++ l.map (fun i => (i, dim)) ∧
        w1.K.length = w.K.length ∧
        (∀ i ∈ l, i < w.K.length →
          w1.K.getD i [] = store dim (firstOf dim (m._K.getD i [])) (w.K.getD i [])) ∧
        (∀ i, i ∉ l → w1.K.getD i [] = w.K.getD i []) ∧
        (l ≠ [] → w1.marker._K = w1.K) ∧ (l = [] → w1.marker._K = w.marker._K) ∧
        w1.marker._x = w.marker._x ∧ w1.marker._x0 = w.marker._x0 ∧
        w1.marker._step = w.marker._step ∧ w1.marker._elem = w.marker._elem ∧
        w1.marker._previousElem = w.marker._previousElem ∧
        w1.marker._mproc = w.marker._mproc ∧ w1.x0 = w.x0 ∧ w1.x = w.x := by
  intro l
  induction l with
  | nil =>
    intro w _ hq
    refine ⟨w, rfl, ?_, by simp, rfl, fun i hi => absurd hi (List.not_mem_nil _),
      fun _ _ => rfl, fun h => absurd rfl h, fun _ => rfl, rfl, rfl, rfl, rfl, rfl, rfl, rfl,
      rfl⟩
    rw [hq]
    simp
  | cons i l ih =>
    intro w hnd hq
    rw [List.nodup_cons] at hnd
    have hq2 : w.queue = pre ++ stageMessage dim jproc mproc m i ::
        (l.map (stageMessage dim jproc mproc m) ++ rest) := by
      rw [hq, List.map_cons, List.append_assoc, List.cons_append]
    have hr := recv_skip jproc i (stageMessage dim jproc mproc m i) rfl rfl
      (l.map (stageMessage dim jproc mproc m) ++ rest) pre hpre
    rw [← hq2] at hr
    obtain ⟨v, hv⟩ : ∃ v : Receiver, v =
        { w with
          K := w.K.set i (store dim (stageMessage dim jproc mproc m i).doubleData (w.K.getD i [])),
          marker := { w.marker with
            _K := w.K.set i
              (store dim (stageMessage dim jproc mproc m i).doubleData (w.K.getD i [])) },
          queue := pre ++ (l.map (stageMessage dim jproc mproc m) ++ rest),
          posted := w.posted ++ [(i, dim)] } := ⟨_, rfl⟩
    have hst : recvStage dim jproc w i = some v := by
      unfold recvStage
      rw [hr, hv]
    obtain ⟨w1, e1, e2, e3, e4, e5, e6, e7, _, e9, e10, e11, e12, e13, e14, e15, e16⟩ :=
      ih v hnd.2 (by rw [hv, List.append_assoc])
    have hvK : v.K = w.K.set i (store dim (firstOf dim (m._K.getD i [])) (w.K.getD i [])) := by
      rw [hv]; rfl
    have hvm : v.marker._K = v.K := by rw [hv]
    refine ⟨w1, ?_, e2, ?_, ?_, ?_, ?_, ?_, fun h => absurd h (List.cons_ne_nil _ _),
      by rw [e9, hv], by rw [e10, hv], by rw [e11, hv], by rw [e12, hv], by rw [e13, hv],
      by rw [e14, hv], by rw [e15, hv], by rw [e16, hv]⟩
    · rw [recvStages, hst]
      exact e1
    · rw [e3, hv, List.map_cons, List.append_assoc]
      rfl
    · rw [e4, hvK, List.length_set]
    · intro j hj hjl
      rcases List.mem_cons.mp hj with rfl | hj
      · rw [e6 j hnd.1, hvK, getD_set_self _ _ _ _ hjl]
      · have hne : i ≠ j := fun e => hnd.1 (e ▸ hj)
        rw [e5 j hj (by rw [hvK, List.length_set]; exact hjl), hvK,
          getD_set_ne _ _ _ _ _ hne]
    · intro j hj
      rw [List.mem_cons, not_or] at hj
      rw [e6 j hj.2, hvK, getD_set_ne _ _ _ _ _ (fun e => hj.1 e.symm)]
    · intro _
      by_cases hl : l = []
      · subst hl
        have : w1 = v := by
          have := e1
          rw [recvStages] at this
          injection this with this
          exact this.symm
        rw [this, hvm]
      · exact e7 hl

/-- The receiving side of a hand-over, when the queue of the receiving process holds the
messages of the hand-over behind messages of other processes only: every receive returns with
the message posted for it, the posted receives have the tags and counts of the sends, the
marker takes the step sent, and, when `step % order ≠ 0`, the stage vectors and old coordinates
sent; otherwise its stage vectors and old coordinates are those that `InitializeVariables`
left. -/
theorem receiveState_spec (init : Nat → Marker → Marker) (order dim jproc mproc : Nat)
    (m : Marker) (w : Receiver) (pre rest : List Message)
    (hpre : ∀ x ∈ pre, x.source ≠ jproc)
    (hq : w.queue = pre ++ sendState order dim jproc mproc m ++ rest) :
    ∃ w1, receiveState init order dim jproc w = some w1 ∧
      w1.queue = pre ++ rest ∧
      w1.posted = w.posted ++ envelopes (sendState order dim jproc mproc m) ∧
      w1.marker._step = m._step ∧
      w1.marker._x = (init order w.marker)._x ∧
      w1.marker._elem = (init order w.marker)._elem ∧
      w1.marker._previousElem = (init order w.marker)._previousElem ∧
      w1.marker._mproc = (init order w.marker)._mproc ∧
      (m._step % order = 0 →
        w1.marker._K = (init order w.marker)._K ∧ w1.marker._x0 = (init order w.marker)._x0) ∧
      (m._step % order ≠ 0 →
        w1.marker._x0 = store dim (firstOf dim m._x0) w.x0 ∧
        w1.marker._K.length = (if 0 < order then w.K.length
          else (init order w.marker)._K.length) ∧
        ∀ i < order, i < w.K.length →
          w1.marker._K.getD i [] =
            store dim (firstOf dim (m._K.getD i [])) (w.K.getD i [])) := by
  rw [sendState_envelopes]
  rw [sendState_eq] at hq
  by_cases hs : m._step % order ≠ 0
  · rw [if_pos hs] at hq ⊢
    have hq2 : w.queue = pre ++ stepMessage order jproc mproc m ::
        ((List.range order).map (stageMessage dim jproc mproc m) ++
          ([oldMessage order dim jproc mproc m] ++ rest)) := by
      rw [hq]
      simp
    have hr := recv_skip jproc (stepTag order) (stepMessage order jproc mproc m) rfl rfl
      ((List.range order).map (stageMessage dim jproc mproc m) ++
        ([oldMessage order dim jproc mproc m] ++ rest)) pre hpre
    rw [← hq2] at hr
    obtain ⟨v, hv⟩ : ∃ v : Receiver, v =
        { w with
          marker := { init order w.marker with _step := m._step },
          queue := pre ++ ((List.range order).map (stageMessage dim jproc mproc m) ++
            ([oldMessage order dim jproc mproc m] ++ rest)),
          posted := w.posted ++ [(stepTag order, 1)] } := ⟨_, rfl⟩
    obtain ⟨w2, e1, e2, e3, e4, e5, _, e7, e8, e9, _, e11, e12, e13, e14, e15, _⟩ :=
      recvStages_spec dim jproc mproc m pre ([oldMessage order dim jproc mproc m] ++ rest) hpre
        (List.range order) v (List.nodup_range order) (by rw [hv, List.append_assoc])
    have hr2 := recv_skip jproc order (oldMessage order dim jproc mproc m) rfl rfl rest pre hpre
    have hq3 : w2.queue = pre ++ oldMessage order dim jproc mproc m :: rest := by
      rw [e2]; rfl
    rw [← hq3] at hr2
    have hrs : receiveState init order dim jproc w = some
        { w2 with
          x0 := store dim (oldMessage order dim jproc mproc m).doubleData w2.x0,
          marker := { w2.marker with
            _x0 := store dim (oldMessage order dim jproc mproc m).doubleData w2.x0 },
          queue := pre ++ rest,
          posted := w2.posted ++ [(order, dim)] } := by
      unfold receiveState
      rw [hr]
      show (if m._step % order ≠ 0 then _ else _) = _
      rw [if_pos hs]
      rw [← hv, e1]
      simp only
      rw [hr2]
    have hvK : v.K = w.K := by rw [hv]
    have hvx0 : v.x0 = w.x0 := by rw [hv]
    refine ⟨_, hrs, rfl, ?_, ?_, ?_, ?_, ?_, ?_, fun h => absurd h hs, fun _ => ⟨?_, ?_, ?_⟩⟩
    · show w2.posted ++ [(order, dim)] = _
      rw [e3, hv]
      simp
    · show w2.marker._step = _
      rw [e11, hv]
    · show w2.marker._x = _
      rw [e9, hv]
    · show w2.marker._elem = _
      rw [e12, hv]
    · show w2.marker._previousElem = _
      rw [e13, hv]
    · show w2.marker._mproc = _
      rw [e14, hv]
    · show store dim (oldMessage order dim jproc mproc m).doubleData w2.x0 = _
      rw [e15, hvx0]
      rfl
    · show w2.marker._K.length = _
      by_cases ho : 0 < order
      · rw [if_pos ho, e7 (by
          intro hnil
          have := congrArg List.length hnil
          rw [List.length_range] at this
          exact absurd this (by simp; omega)), e4, hvK]
      · rw [if_neg ho]
        have ho0 : order = 0 := by omega
        rw [e8 (by rw [ho0]; rfl), hv]
    · intro i hi hiK
      show w2.marker._K.getD i [] = _
      rw [e7 (by
          intro hnil
          have := congrArg List.length hnil
          rw [List.length_range] at this
          exact absurd this (by simp; omega)),
        e5 i (List.mem_range.mpr hi) (by rw [hvK]; exact hiK), hvK]
  · have hs0 : m._step % order = 0 := by
      by_contra hne
      exact hs hne
    rw [if_neg hs] at hq ⊢
    have hq2 : w.queue = pre ++ stepMessage order jproc mproc m :: rest := by
      rw [hq]
      simp
    have hr := recv_skip jproc (stepTag order) (stepMessage order jproc mproc m) rfl rfl
      rest pre hpre
    rw [← hq2] at hr
    have hrs : receiveState init order dim jproc w = some
        { w with
          marker := { init order w.marker with _step := m._step },
          queue := pre ++ rest,
          posted := w.posted ++ [(stepTag order, 1)] } := by
      unfold receiveState
      rw [hr]
      show (if m._step % order ≠ 0 then _ else _) = _
      rw [if_neg hs]
    exact ⟨_, hrs, rfl, rfl, rfl, rfl, rfl, rfl, rfl, fun _ => ⟨rfl, rfl⟩,
      fun h => absurd hs0 h⟩

/-- The vectors received in a hand-over are the vectors sent, when the vectors of the sender
and the buffers of the receiver have `order` rows of `dim` entries and `dim` entries. -/
theorem received_vectors (order dim : Nat) (K Kbuf K1 : List (List ℚ)) (x0 x0buf : List ℚ)
    (hK : KShape order dim K) (hbuf : KShape order dim Kbuf) (hx0 : x0.length = dim)
    (hx0buf : x0buf.length = dim) (hlen : K1.length = Kbuf.length)
    (hrow : ∀ i < order, i < Kbuf.length →
      K1.getD i [] = store dim (firstOf dim (K.getD i [])) (Kbuf.getD i [])) :
    K1 = K ∧ store dim (firstOf dim x0) x0buf = x0 := by
  constructor
  · apply List.ext_getElem
    · rw [hlen, hbuf.1, hK.1]
    · intro i h1 h2
      have hi : i < order := by rw [← hK.1]; exact h2
      have := hrow i hi (by rw [hbuf.1]; exact hi)
      rw [List.getD_eq_getElem _ _ h1, firstOf_eq dim _ (hK.2 i hi),
        store_eq dim _ _ (hK.2 i hi) (hbuf.2 i hi), List.getD_eq_getElem _ _ h2] at this
      exact this
  · rw [firstOf_eq dim _ hx0, store_eq dim _ _ hx0 hx0buf]

/-- The exchange changes the element, the previous element and the process of a marker only. -/
theorem exchangeMarker_keeps (c : RoundCollaborators) (n order jproc : Nat) (m : Marker) :
    (exchangeMarker c n order jproc m)._x = m._x ∧
    (exchangeMarker c n order jproc m)._x0 = m._x0 ∧
    (exchangeMarker c n order jproc m)._K = m._K ∧
    (exchangeMarker c n order jproc m)._step = m._step := by
  unfold exchangeMarker
  split
  · split
    · exact ⟨rfl, rfl, rfl, rfl⟩
    · exact ⟨rfl, rfl, rfl, rfl⟩
  · exact ⟨rfl, rfl, rfl, rfl⟩

/-- The messages that the storing process posts for a marker, in terms of the marker that the
exchange leaves: the hand-over of its state when it is found on another process, the
coordinates for process 0 when it is outside the domain and not stored on process 0. -/
theorem exchangeSends_eq (c : RoundCollaborators) (n order dim jproc : Nat) (m : Marker) :
    exchangeSends c n order dim jproc m =
      (if (exchangeMarker c n order jproc m)._elem ≠ UINT_MAX ∧
          (exchangeMarker c n order jproc m)._mproc ≠ jproc then
        sendState order dim jproc (exchangeMarker c n order jproc m)._mproc
          (exchangeMarker c n order jproc m)
      else []) ++
      (if (exchangeMarker c n order jproc m)._elem = UINT_MAX ∧ jproc ≠ 0 then
        exitedSend dim jproc (exchangeMarker c n order jproc m)
      else []) := by
  by_cases he : m._elem = UINT_MAX
  · rw [exchangeMarker_outside c n order jproc m he]
    have h1 : ¬ (m._elem ≠ UINT_MAX ∧ m._mproc ≠ jproc) := fun h => h.1 he
    rw [if_neg h1, List.nil_append]
    unfold exchangeSends
    rw [if_neg (fun h : m._elem ≠ UINT_MAX => h he)]
    by_cases hj : jproc ≠ 0
    · rw [if_pos hj, if_pos ⟨he, hj⟩]
    · rw [if_neg hj, if_neg (fun h => hj h.2)]
  · by_cases hp : m._mproc = jproc
    · rw [exchangeMarker_own c n order jproc m hp]
      have h1 : ¬ (m._elem ≠ UINT_MAX ∧ m._mproc ≠ jproc) := fun h => h.2 hp
      have h2 : ¬ (m._elem = UINT_MAX ∧ jproc ≠ 0) := fun h => he h.1
      rw [if_neg h1, if_neg h2]
      unfold exchangeSends
      rw [if_pos he]
      simp only
      rw [if_neg (fun h : m._mproc ≠ jproc => h hp), if_pos he,
        if_neg (fun h : m._mproc ≠ jproc => h hp), if_neg h2]
    · have hm : exchangeMarker c n order jproc m =
          { m with
            _previousElem := (c.GetElement m._previousElem jproc (c.GetMarkerS n order m) m).1,
            _elem := (c.GetElement m._previousElem jproc (c.GetMarkerS n order m) m).2.1,
            _mproc := (c.GetElement m._previousElem jproc (c.GetMarkerS n order m) m).2.2 } := by
        unfold exchangeMarker
        rw [if_pos he, if_pos hp]
      rw [hm]
      unfold exchangeSends
      rw [if_pos he]
      simp only
      rw [if_pos hp]
      by_cases hx : (c.GetElement m._previousElem jproc (c.GetMarkerS n order m) m).2.1 =
          UINT_MAX
      · simp [hx]
      · by_cases hq : (c.GetElement m._previousElem jproc (c.GetMarkerS n order m) m).2.2 = jproc
        · simp [hx, hq]
        · simp [hx, hq]

/-- The tags of the messages of a hand-over. -/
theorem sendState_tags (order dim jproc mproc : Nat) (m : Marker) :
    (sendState order dim jproc mproc m).map (fun q => q.tag) =
      stepTag order ::
        (if m._step % order ≠ 0 then List.range order ++ [order] else []) := by
  rw [sendState_eq, List.map_cons]
  congr 1
  split
  · rw [List.map_append, List.map_map]
    congr 1
    have : ((fun q : Message => q.tag) ∘ stageMessage dim jproc mproc m) = (id : Nat → Nat) :=
      rfl
    rw [this, List.map_id]
  · rfl

/-! ## The hand-over of a marker outside the domain, and `UpdateLineMPM` -/

theorem exchangeMarkerMPM_outside (c : RoundCollaborators) (jproc : Nat) (m : Marker)
    (h : m._elem = UINT_MAX) : exchangeMarkerMPM c jproc m = m := by
  unfold exchangeMarkerMPM
  rw [if_neg (fun hne : m._elem ≠ UINT_MAX => hne h)]

theorem exchangeMarkerMPM_own (c : RoundCollaborators) (jproc : Nat) (m : Marker)
    (h : m._mproc = jproc) : exchangeMarkerMPM c jproc m = m := by
  unfold exchangeMarkerMPM
  split
  · rw [if_neg (fun hne : m._mproc ≠ jproc => hne h)]
  · rfl

theorem exchangeMarkerMPM_keeps (c : RoundCollaborators) (jproc : Nat) (m : Marker) :
    (exchangeMarkerMPM c jproc m)._x = m._x := by
  unfold exchangeMarkerMPM
  split
  · split
    · rfl
    · rfl
  · rfl

theorem exchangeMarkerMPM_good (c : RoundCollaborators) (jproc M : Nat) (m : Marker)
    (owner : Nat → Nat) (hget : ∀ pe j s m, Located M owner (c.GetElement pe j s m))
    (h : GoodMarker M owner m) : GoodMarker M owner (exchangeMarkerMPM c jproc m) := by
  unfold exchangeMarkerMPM
  split
  · split
    · exact hget _ _ _ _
    · exact h
  · exact h

theorem exchangeSlotMPM_eq (c : RoundCollaborators) (ps : List Marker) (pk : Nat × Nat) :
    exchangeSlotMPM c ps pk =
      ps.set pk.2 (exchangeMarkerMPM c pk.1 (ps.getD pk.2 default)) := by
  unfold exchangeSlotMPM exchangeMarkerMPM
  simp only
  split
  · split
    · rfl
    · rw [set_getD_self]
  · rw [set_getD_self]

/-- The coordinate message of the exchange of `AdvectionParallel` for a marker that the exchange
leaves outside the domain: one message to process 0 when the marker is not stored on process 0,
none when it is. -/
theorem exchangeSends_exited (c : RoundCollaborators) (n order dim jproc : Nat) (a : Marker)
    (h : (exchangeMarker c n order jproc a)._elem = UINT_MAX) :
    exchangeSends c n order dim jproc a =
      if jproc ≠ 0 then
        [{ source := jproc, dest := 0, tag := 1, unsignedData := [],
           doubleData := firstOf dim a._x }]
      else [] := by
  rw [exchangeSends_eq, if_neg (fun hh => hh.1 h), List.nil_append]
  by_cases hj : jproc ≠ 0
  · rw [if_pos ⟨h, hj⟩, if_pos hj]
    unfold exitedSend
    rw [(exchangeMarker_keeps c n order jproc a).1]
  · rw [if_neg (fun hh => hj hh.2), if_neg hj]

/-- The coordinate message of `UpdateLineMPM` for a marker that its loop leaves outside the
domain. -/
theorem exitedSendsMPM_exited (c : RoundCollaborators) (dim jproc : Nat) (a : Marker)
    (h : (exchangeMarkerMPM c jproc a)._elem = UINT_MAX) :
    exitedSendsMPM c dim jproc a =
      if jproc ≠ 0 then
        [{ source := jproc, dest := 0, tag := 1, unsignedData := [],
           doubleData := firstOf dim a._x }]
      else [] := by
  by_cases he : a._elem = UINT_MAX
  · unfold exitedSendsMPM
    rw [if_neg (fun hne : a._elem ≠ UINT_MAX => hne he)]
    rfl
  · by_cases hp : a._mproc = jproc
    · rw [exchangeMarkerMPM_own c jproc a hp] at h
      exact absurd h he
    · have hm : exchangeMarkerMPM c jproc a =
          { a with
            _previousElem := (c.GetElement a._previousElem jproc 0 a).1,
            _elem := (c.GetElement a._previousElem jproc 0 a).2.1,
            _mproc := (c.GetElement a._previousElem jproc 0 a).2.2 } := by
        unfold exchangeMarkerMPM
        rw [if_pos he, if_pos hp]
      rw [hm] at h
      have hx : (c.GetElement a._previousElem jproc 0 a).2.1 = UINT_MAX := h
      unfold exitedSendsMPM
      rw [if_pos he]
      simp only
      rw [if_pos hp]
      by_cases hj : jproc ≠ 0
      · simp [hx, hj, exitedSend]
      · simp [hj]

/-- The receive of the coordinates on process 0. -/
theorem exitedReceive_spec (initX : Marker → Marker) (dim jproc : Nat) (a : Marker)
    (w : Receiver) (pre rest : List Message) (hpre : ∀ x ∈ pre, x.source ≠ jproc)
    (hq : w.queue = pre ++ exitedSend dim jproc a ++ rest)
    (hx : a._x.length = dim) (hbuf : w.x.length = dim) :
    ∃ w1, exitedReceive initX dim jproc w = some w1 ∧ w1.marker._x = a._x ∧
      w1.marker._step = (initX w.marker)._step ∧ w1.marker._elem = (initX w.marker)._elem ∧
      w1.queue = pre ++ rest ∧ w1.posted = w.posted ++ [(1, dim)] := by
  have hq2 : w.queue = pre ++
      ({ source := jproc, dest := 0, tag := 1, unsignedData := [],
         doubleData := firstOf dim a._x } : Message) :: rest := by
    rw [hq]
    unfold exitedSend
    simp
  have hr := recv_skip jproc 1
    ({ source := jproc, dest := 0, tag := 1, unsignedData := [],
       doubleData := firstOf dim a._x } : Message) rfl rfl rest pre hpre
  rw [← hq2] at hr
  refine ⟨_, by unfold exitedReceive; rw [hr], ?_, rfl, rfl, rfl, rfl⟩
  show store dim (firstOf dim a._x) w.x = a._x
  rw [firstOf_eq dim _ hx, store_eq dim _ _ hx hbuf]

/-- On a sound line a marker outside the domain is stored in the slice of process 0. -/
theorem sound_exited_slot (s : Line) (owner : Nat → Nat) (h : s.Sound owner)
    (h0 : owner UINT_MAX = 0) (i : Nat) (hi : i < s._particles.length)
    (he : (s.markerOf i)._elem = UINT_MAX) :
    s._printList.getD i 0 ∈ sliceOf s._markerOffset 0 := by
  have hg := (sound_markers s owner h (GoodMarker s.meshElements owner)).mp h.2.2.2.2.2 i hi
  have := sound_slot s owner h i hi
  rw [hg.2, he, h0] at this
  exact this

/-- The method `UpdateLineMPM` on a sound line whose markers have been replaced by markers that
respect the partition: it returns a sound line, and the marker of every input index is the one
that the loop over the slots has left for it. -/
theorem updateLineMPM_spec (c : RoundCollaborators) (owner : Nat → Nat) (s : Line)
    (h : s.Sound owner) (hpos : 0 < s._particles.length) (hP : ∀ e, owner e < s._nprocs)
    (h0 : owner UINT_MAX = 0)
    (hget : ∀ pe j st m, Located s.meshElements owner (c.GetElement pe j st m))
    (qs : List Marker) (hlen : qs.length = s._particles.length)
    (hgood : ∀ m ∈ qs, GoodMarker s.meshElements owner m) :
    ∃ s1, ({ s with _particles := qs } : Line).UpdateLineMPM c = Outcome.returned s1 ∧
      s1.Sound owner ∧ s1._particles.length = s._particles.length ∧
      ∀ i < s._particles.length,
        s1.markerOf i = exchangeMarkerMPM c (s.markerOf i)._mproc
          (qs.getD (s._printList.getD i 0) default) := by
  obtain ⟨hkeys, hin, hmem⟩ := sound_slots s owner h
  have hnd : ((slotsOf s._nprocs s._markerOffset).map Prod.snd).Nodup := by
    rw [hkeys]; exact List.nodup_range _
  obtain ⟨b1, _, b3⟩ := foldl_slots_pointwise (fun x : List Marker => x)
    (exchangeSlotMPM c) (fun p m m1 => m1 = exchangeMarkerMPM c p m)
    (fun x pk => ⟨_, exchangeSlotMPM_eq c x pk, rfl⟩)
    (slotsOf s._nprocs s._markerOffset) qs hnd
    (fun pk hpk => by rw [hlen]; exact hin.2 pk hpk)
  have hk : ∀ i < s._particles.length, s._printList.getD i 0 < s._particles.length := by
    intro i hi
    have : s._printList.getD i 0 ∈ s._printList := by
      rw [List.getD_eq_getElem _ _ (by rw [h.1.2.1]; exact hi)]
      exact List.getElem_mem _
    exact List.mem_range.mp (h.2.1.subset this)
  have hg2 : ∀ m ∈ (slotsOf s._nprocs s._markerOffset).foldl (exchangeSlotMPM c) qs,
      GoodMarker s.meshElements owner m := by
    intro m hm
    obtain ⟨k, hk1, rfl⟩ := List.getElem_of_mem hm
    have hk2 : k < s._particles.length := by rw [← hlen, ← b1]; exact hk1
    have := b3 _ (hmem k hk2)
    rw [List.getD_eq_getElem _ _ hk1] at this
    rw [this]
    apply exchangeMarkerMPM_good c _ _ _ owner hget
    apply hgood
    rw [List.getD_eq_getElem _ _ (by rw [hlen]; exact hk2)]
    exact List.getElem_mem _
  obtain ⟨s1, hret, hs1, _, _, u3, _, u5⟩ :=
    updateLine_sound s owner h hpos hP h0 _ (b1.trans hlen) hg2
  have hin2 : SlotsInside ({ s with _particles := qs } : Line) :=
    ⟨hin.1, fun pk hpk => by show pk.2 < qs.length; rw [hlen]; exact hin.2 pk hpk⟩
  refine ⟨s1, ?_, hs1, u3, fun i hi => ?_⟩
  · unfold Line.UpdateLineMPM
    rw [if_pos hin2]
    exact hret
  · rw [u5 i hi]
    exact b3 _ (hmem _ (hk i hi))

/-! ## The force vector `Fm` across the sweeps -/

/-- C1: on a line that satisfies the class invariant and whose markers have the process that
owns their element (every process is below `_nprocs`, and markers in the same mesh element have
the same process, as `GetMarkerProc` derives the process from the element): if `_printList` is a
bijection on `[0, N)` and `UpdateLine` returns, then `_printList` is again a bijection on
`[0, N)`. The elements of the markers need not even be below the number of mesh elements. -/
theorem UpdateLine_printList_bijective (s s1 : Line) (h : s.WF) (hpart : s.Partitioned)
    (hpl : s._printList.Perm (List.range s._particles.length))
    (hret : s.UpdateLine = Outcome.returned s1) :
    s1._printList.Perm (List.range s1._particles.length) := by
  obtain ⟨hok, l, _, rfl⟩ := (UpdateLine_returned_iff s s1).mp hret
  obtain ⟨ho1, ho2, _, e2, _, e4⟩ := passes_reloc s h hpart hpl hok
  simp only
  rw [(afterElem_length s).1, e4, e2]
  exact reloc_printList_perm _ _ _ ho2 (reloc_printList_perm _ _ _ ho1 hpl)

theorem UpdateLine_printList_bijective_witness :
    exLine.WF ∧ exLine.Partitioned ∧
    exLine._printList.Perm (List.range exLine._particles.length) ∧
    exLine.UpdateLine = Outcome.returned exLineAfter ∧
    exLineAfter._printList.Perm (List.range exLineAfter._particles.length) :=
  ⟨by decide, by decide, by decide, by decide,
    UpdateLine_printList_bijective exLine exLineAfter (by decide) (by decide) (by decide)
      (by decide)⟩

/-- C2: on a line that satisfies the class invariant and whose markers have a process below
`_nprocs` (`GetMarkerProc` returns the rank that owns the marker's element), after a returning
`UpdateLine` the slots `[_markerOffset[p], _markerOffset[p + 1])` hold only markers of process
`p`, for every `p < _nprocs`, and every marker outside the domain is stored in the slots
`[_markerOffset[0], _markerOffset[1])`. -/
theorem UpdateLine_slices_hold_own_process (s s1 : Line) (h : s.WF)
    (hproc : ∀ m ∈ s._particles, m._mproc < s._nprocs)
    (hret : s.UpdateLine = Outcome.returned s1) :
    (∀ p < s1._nprocs, ∀ k, s1._markerOffset.getD p 0 ≤ k → k < s1._markerOffset.getD (p + 1) 0 →
      (s1._particles.getD k default)._mproc = p) ∧
    (∀ k < s1._particles.length, (s1._particles.getD k default)._elem = UINT_MAX →
      s1._markerOffset.getD 0 0 ≤ k ∧ k < s1._markerOffset.getD 1 0) := by
  obtain ⟨hok, l, _, rfl⟩ := (UpdateLine_returned_iff s s1).mp hret
  constructor
  · intro p hp k hk1 hk2
    have hm : k ∈ sliceOf (afterProc s).2 p := (mem_sliceOf _ _ _).mpr ⟨hk1, hk2⟩
    obtain ⟨j, hj, e⟩ := afterElem_slice s h hok s._nprocs (Nat.le_refl _) p hp k hm
    have e1 : (afterElem s).1.getD k default = (afterProc s).1._particles.getD j default := by
      rw [List.getD_eq_getElem?_getD]
      unfold afterElem
      rw [e]
      rfl
    simp only
    rw [e1]
    exact (afterProc_slice_proc s h hproc p j hp hj).1
  · intro k hk he
    simp only at hk he
    rw [(afterElem_length s).1] at hk
    exact (mem_sliceOf _ 0 _).mp (afterElem_outside_slots s h hok k hk he)

theorem UpdateLine_slices_hold_own_process_witness :
    exLine.WF ∧ (∀ m ∈ exLine._particles, m._mproc < exLine._nprocs) ∧
    exLine.UpdateLine = Outcome.returned exLineAfter ∧
    ((∀ p < exLineAfter._nprocs, ∀ k, exLineAfter._markerOffset.getD p 0 ≤ k →
        k < exLineAfter._markerOffset.getD (p + 1) 0 →
        (exLineAfter._particles.getD k default)._mproc = p) ∧
      (∀ k < exLineAfter._particles.length,
        (exLineAfter._particles.getD k default)._elem = UINT_MAX →
        exLineAfter._markerOffset.getD 0 0 ≤ k ∧ k < exLineAfter._markerOffset.getD 1 0)) :=
  ⟨by decide, by decide, by decide,
    UpdateLine_slices_hold_own_process exLine exLineAfter (by decide) (by decide) (by decide)⟩

/-- C6: if `_printList` is a bijection, markers with equal element have equal process, every
process is below `_nprocs` and the markers outside the domain belong to process 0, then
`UpdateLine` does not abort, and when it returns, `_particles[_printList[j]]` is for every `j`
the marker it was before the call; the marker array after the call is a permutation of the
array before it. -/
theorem UpdateLine_tracks_markers (s : Line) (h : s.WF)
    (hpl : s._printList.Perm (List.range s._particles.length))
    (hsame : ∀ a ∈ s._particles, ∀ b ∈ s._particles, a._elem = b._elem → a._mproc = b._mproc)
    (hproc : ∀ m ∈ s._particles, m._mproc < s._nprocs)
    (hnf : ∀ m ∈ s._particles, m._elem = UINT_MAX → m._mproc = 0) :
    s.UpdateLine ≠ Outcome.aborted ∧
    ∀ s1, s.UpdateLine = Outcome.returned s1 →
      (∀ j < s._particles.length,
        s1._particles.getD (s1._printList.getD j 0) default =
          s._particles.getD (s._printList.getD j 0) default) ∧
      s1._particles.Perm s._particles := by
  have hpart : s.Partitioned := ⟨hproc, fun a ha b hb e _ => hsame a ha b hb e⟩
  constructor
  · intro hab
    rw [UpdateLine_unfold] at hab
    obtain ⟨_, hB, _, _⟩ := elemPass_cases s.meshElements (afterProc s).1._particles
      (afterProc s).1._printList (afterProc s).2 s._nprocs
    split at hab
    · rename_i hst
      obtain ⟨p, hp, hp0, hc⟩ := hB hst
      exact hc (slicesClean_of_sink s h hproc hnf p hp hp0)
    · exact Outcome.noConfusion hab
    · split at hab
      · exact Outcome.noConfusion hab
      · exact Outcome.noConfusion hab
  · intro s1 hret
    obtain ⟨hok, l, _, rfl⟩ := (UpdateLine_returned_iff s s1).mp hret
    obtain ⟨ho1, ho2, e1, e2, e3, e4⟩ := passes_reloc s h hpart hpl hok
    have hN := afterProc_particles_length s
    have hpl1 : (afterProc s).1._printList.Perm (List.range (afterProc s).1._particles.length) := by
      rw [hN, e2]
      exact reloc_printList_perm _ _ _ ho1 hpl
    have ho2' : (elemOrder1 s s._nprocs).Perm (List.range (afterProc s).1._particles.length) := by
      rw [hN]; exact ho2
    simp only
    constructor
    · intro j hj
      rw [e3, e4, reloc_track _ _ _ ho2' hpl1 j (by rw [hN]; exact hj)]
      rw [e1, e2, reloc_track _ _ _ ho1 hpl j hj]
    · rw [e3]
      exact (reloc_particles_perm _ _ ho2').trans (afterProc_perm s hproc)

theorem UpdateLine_tracks_markers_witness :
    exLine.WF ∧ exLine._printList.Perm (List.range exLine._particles.length) ∧
    (∀ a ∈ exLine._particles, ∀ b ∈ exLine._particles,
      a._elem = b._elem → a._mproc = b._mproc) ∧
    (∀ m ∈ exLine._particles, m._mproc < exLine._nprocs) ∧
    (∀ m ∈ exLine._particles, m._elem = UINT_MAX → m._mproc = 0) ∧
    exLine.UpdateLine = Outcome.returned exLineAfter ∧
    (∀ j < exLine._particles.length,
        exLineAfter._particles.getD (exLineAfter._printList.getD j 0) default =
          exLine._particles.getD (exLine._printList.getD j 0) default) ∧
    exLineAfter._particles.Perm exLine._particles :=
  ⟨by decide, by decide, by decide, by decide, by decide, by decide,
    (UpdateLine_tracks_markers exLine (by decide) (by decide) (by decide) (by decide)
      (by decide)).2 exLineAfter (by decide)⟩

/-- C8: after a returning `UpdateLine`, `NumberOfParticlesOutsideTheDomain()`, which inspects
the slots `[_markerOffset[0], _markerOffset[1])` only, is the number of slots of the whole line
that hold a marker whose element is `UINT_MAX`. -/
theorem NumberOfParticlesOutsideTheDomain_counts_all (s s1 : Line) (h : s.WF)
    (hret : s.UpdateLine = Outcome.returned s1) :
    s1.NumberOfParticlesOutsideTheDomain =
      s1._particles.countP (fun m => decide (m._elem = UINT_MAX)) := by
  obtain ⟨hok, l, _, rfl⟩ := (UpdateLine_returned_iff s s1).mp hret
  unfold Line.NumberOfParticlesOutsideTheDomain
  simp only
  rw [countP_eq_range_filter, (afterElem_length s).1]
  have h1 := foldl_count (fun i => decide (((afterElem s).1.getD i default)._elem = UINT_MAX))
    (sliceOf (afterProc s).2 0)
  have h2 := range_filter_slice_zero s h (fun i => ((afterElem s).1.getD i default)._elem)
    (fun i hi hk => afterElem_outside_slots s h hok i hi hk)
  rw [h2]
  simp only [decide_eq_true_eq] at h1
  exact h1

theorem NumberOfParticlesOutsideTheDomain_counts_all_witness :
    exLine.WF ∧ exLine.UpdateLine = Outcome.returned exLineAfter ∧
    exLineAfter.NumberOfParticlesOutsideTheDomain =
      exLineAfter._particles.countP (fun m => decide (m._elem = UINT_MAX)) :=
  ⟨by decide, by decide,
    NumberOfParticlesOutsideTheDomain_counts_all exLine exLineAfter (by decide) (by decide)⟩

/-- C3: for `P ≥ 1` processes and markers whose processes are all below `P`, the offsets
computed by the bucketing of the constructor and by the reorder by proc of `UpdateLine` (for
every number of markers, 0 and 1 included) are conserved: `_markerOffset[0] = 0`, the offsets do
not decrease, `_markerOffset[P] = N`, `_markerOffset[p + 1] - _markerOffset[p]` is the number of
markers of process `p`, and these numbers sum to `N`.  Whenever the constructor or `UpdateLine`
returns, the returned line carries exactly these offsets, conserved for its markers. -/
theorem markerOffset_conserved (P : Nat) (hP : 1 ≤ P) :
    (∀ (M : Nat) (ps : List Marker), (∀ m ∈ ps, m._mproc < P) →
      Conserved P ps (ctorBuckets P ps).2 ∧
      ∀ s, Line.Line P M ps = Outcome.returned s →
        s._markerOffset = (ctorBuckets P ps).2 ∧ Conserved P s._particles s._markerOffset) ∧
    (∀ s : Line, s.WF → s._nprocs = P → (∀ m ∈ s._particles, m._mproc < P) →
      Conserved P s._particles (afterProc s).2 ∧
      ∀ s1, s.UpdateLine = Outcome.returned s1 →
        s1._markerOffset = (afterProc s).2 ∧ Conserved P s1._particles s1._markerOffset) := by
  constructor
  · intro M ps hproc
    have hN : (procOrder ps P).length = ps.length := by
      simpa using (procOrder_perm ps P hproc).length_eq
    have hc : Conserved P ps (ctorBuckets P ps).2 := by
      apply conserved_of_offs P ps _ _ hN
      intro p hp
      rw [ctorBuckets_offs P ps p hp]
      split
      · rfl
      · have : p = P := by omega
        subst this
        exact hN.symm
    refine ⟨hc, ?_⟩
    intro s hs
    obtain ⟨_, e1, _, e3, _⟩ := Line_returned_good P M ps hproc s hs
    refine ⟨e3, ?_⟩
    rw [e3, e1]
    apply conserved_perm P ps _ _ _ hc
    rw [← procOrder_map_getD]
    exact reloc_particles_perm ps _ (procOrder_perm ps P hproc)
  · intro s h hnp hproc
    subst hnp
    have hN : (procOrder s._particles s._nprocs).length = s._particles.length := by
      simpa using (procOrder_perm _ _ hproc).length_eq
    have hc : Conserved s._nprocs s._particles (afterProc s).2 :=
      conserved_of_offs _ _ _ (fun p hp => afterProc_offs_good s h hproc p hp) hN
    refine ⟨hc, ?_⟩
    intro s1 hret
    obtain ⟨hok, l, _, rfl⟩ := (UpdateLine_returned_iff s s1).mp hret
    refine ⟨rfl, ?_⟩
    simp only
    apply conserved_of_slices _ _ _ hc.1 hc.2.1
    · rw [hc.2.2.1, (afterElem_length s).1]
    · intro p hp k hk1 hk2
      have hm : k ∈ sliceOf (afterProc s).2 p := (mem_sliceOf _ _ _).mpr ⟨hk1, hk2⟩
      obtain ⟨j, hj, e⟩ := afterElem_slice s h hok s._nprocs (Nat.le_refl _) p hp k hm
      have e1 : (afterElem s).1.getD k default = (afterProc s).1._particles.getD j default := by
        rw [List.getD_eq_getElem?_getD]
        unfold afterElem
        rw [e]
        rfl
      rw [e1]
      exact (afterProc_slice_proc s h hproc p j hp hj).1

theorem markerOffset_conserved_witness :
    1 ≤ 2 ∧ (∀ m ∈ ([] : List Marker), m._mproc < 2) ∧
    Conserved 2 [] (ctorBuckets 2 []).2 ∧
    (∀ m ∈ exLine._particles, m._mproc < 2) ∧
    Conserved 2 exLine._particles (ctorBuckets 2 exLine._particles).2 ∧
    exLine.WF ∧ exLine._nprocs = 2 ∧ exLine.UpdateLine = Outcome.returned exLineAfter ∧
    Conserved 2 exLineAfter._particles exLineAfter._markerOffset :=
  ⟨by decide, by decide, ((markerOffset_conserved 2 (by decide)).1 0 [] (by decide)).1,
    by decide, ((markerOffset_conserved 2 (by decide)).1 9 exLine._particles (by decide)).1,
    by decide, by decide, by decide,
    (((markerOffset_conserved 2 (by decide)).2 exLine (by decide) (by decide) (by decide)).2
      exLineAfter (by decide)).2⟩

/-- C5: for input markers whose processes are all below `P`, the constructor returns when the
input is not empty, and the line it returns holds the input stably bucketed by process:
`_particles` is the concatenation, for `p = 0 .. P - 1`, of the input markers of process `p` in
input order (a permutation of the input, sorted by process); `_particles[_printList[j]]` is
input marker `j`; `_printList` is a bijection on `[0, N)`; of two inputs `i < j` of the same
process `_printList[i] < _printList[j]`; and `_markerOffset[p]` is the first slot of bucket `p`,
the number of input markers of the processes below `p`. -/
theorem Line_stable_bucketing (P M : Nat) (ps : List Marker) (hproc : ∀ m ∈ ps, m._mproc < P) :
    (0 < ps.length → ∃ s, Line.Line P M ps = Outcome.returned s) ∧
    ∀ s, Line.Line P M ps = Outcome.returned s →
      s._particles = buckets ps P ∧ s._particles.Perm ps ∧
      s._particles.Pairwise (fun a b => a._mproc ≤ b._mproc) ∧
      (∀ j < ps.length, s._printList.getD j 0 < ps.length ∧
        s._particles.getD (s._printList.getD j 0) default = ps.getD j default) ∧
      s._printList.Perm (List.range ps.length) ∧
      (∀ i j, i < j → j < ps.length →
        (ps.getD i default)._mproc = (ps.getD j default)._mproc →
        s._printList.getD i 0 < s._printList.getD j 0) ∧
      (∀ p ≤ P, s._markerOffset.getD p 0 = (buckets ps p).length) := by
  refine ⟨Line_returns P M ps hproc, ?_⟩
  intro s hs
  obtain ⟨_, e1, e2, e3, _⟩ := Line_returned_good P M ps hproc s hs
  have ho := procOrder_perm ps P hproc
  have hN : (procOrder ps P).length = ps.length := by simpa using ho.length_eq
  refine ⟨e1, ?_, ?_, ?_, ?_, ?_, ?_⟩
  · rw [e1, ← procOrder_map_getD]
    exact reloc_particles_perm ps _ ho
  · rw [e1]; exact buckets_sorted ps P
  · intro j hj
    rw [e1, e2]
    exact ctor_track P ps hproc j hj
  · rw [e2]; exact ctor_printList_perm P ps hproc
  · intro i j hij hj hp
    have hi : i < ps.length := by omega
    rw [e2, List.getD_eq_getElem _ _ (by simpa using hi),
      List.getD_eq_getElem _ _ (by simpa using hj)]
    simp only [List.getElem_map, List.getElem_range]
    apply procOrder_indexOf_lt ps P i j hij hj hp
    apply hproc
    rw [List.getD_eq_getElem _ _ hj]
    exact List.getElem_mem _
  · intro p hp
    rw [e3, ctorBuckets_offs P ps p hp, ← procOrder_length]
    split
    · rfl
    · have : p = P := by omega
      subst this
      exact hN.symm

theorem Line_stable_bucketing_witness :
    (∀ m ∈ exLine._particles, m._mproc < 2) ∧
    Line.Line 2 9 exLine._particles = Outcome.returned exCtorLine ∧
    exCtorLine._particles = buckets exLine._particles 2 ∧
    exCtorLine._printList.Perm (List.range exLine._particles.length) :=
  ⟨by decide, by decide,
    ((Line_stable_bucketing 2 9 exLine._particles (by decide)).2 exCtorLine (by decide)).1,
    ((Line_stable_bucketing 2 9 exLine._particles (by decide)).2 exCtorLine (by decide)).2.2.2.2.1⟩

/-- C7: whenever the constructor returns and whenever `UpdateLine` returns, `_line[j]` is, for
every `j < N`, the coordinate vector of the marker stored in slot `_printList[j]`, and the
closing entry `_line[N]` equals `_line[0]`.  After the constructor (processes below `P`) that
marker is input marker `j`, and after `UpdateLine` under the hypotheses of C6 it is the marker
that `_printList[j]` named before the call. -/
theorem line_in_input_order :
    (∀ (P M : Nat) (ps : List Marker) (s : Line), Line.Line P M ps = Outcome.returned s →
      s.LineShows ∧
      ((∀ m ∈ ps, m._mproc < P) → ∀ j < ps.length, s._line.getD j [] = (ps.getD j default)._x)) ∧
    (∀ s s1 : Line, s.WF → s.UpdateLine = Outcome.returned s1 →
      s1.LineShows ∧
      (s.Partitioned → s._printList.Perm (List.range s._particles.length) →
        ∀ j < s._particles.length,
          s1._line.getD j [] = (s._particles.getD (s._printList.getD j 0) default)._x)) := by
  constructor
  · intro P M ps s hs
    have hwf := Line_lengths P M ps s hs
    obtain ⟨ms, l, e, hl, rfl⟩ := (Line_returned_iff P M ps s).mp hs
    obtain ⟨_, h2, h3, h4⟩ := fillLine_some ms _ l hwf hl
    refine ⟨⟨h2, fun j hj => (h3 j hj).2, h4⟩, ?_⟩
    intro hproc j hj
    obtain ⟨_, e1, e2, _, _⟩ := Line_returned_good P M ps hproc _ hs
    simp only at e1 e2 ⊢
    have hlen : ms.length = ps.length := by
      rw [e1, ← procOrder_length]; simpa using (procOrder_perm ps P hproc).length_eq
    rw [(h3 j (by omega)).2, e1, e2, (ctor_track P ps hproc j hj).2]
  · intro s s1 h hret
    have hwf := UpdateLine_WF s s1 h hret
    obtain ⟨hok, l, hl, rfl⟩ := (UpdateLine_returned_iff s s1).mp hret
    obtain ⟨_, h2, h3, h4⟩ := fillLine_some _ _ l hwf.2.1 hl
    refine ⟨⟨h2, fun j hj => (h3 j hj).2, h4⟩, ?_⟩
    intro hpart hpl j hj
    simp only
    rw [(h3 j (by rw [(afterElem_length s).1]; exact hj)).2]
    obtain ⟨ho1, ho2, e1, e2, e3, e4⟩ := passes_reloc s h hpart hpl hok
    have hN := afterProc_particles_length s
    have hpl1 : (afterProc s).1._printList.Perm (List.range (afterProc s).1._particles.length) := by
      rw [hN, e2]
      exact reloc_printList_perm _ _ _ ho1 hpl
    have ho2' : (elemOrder1 s s._nprocs).Perm (List.range (afterProc s).1._particles.length) := by
      rw [hN]; exact ho2
    rw [e3, e4, reloc_track _ _ _ ho2' hpl1 j (by rw [hN]; exact hj)]
    rw [e1, e2, reloc_track _ _ _ ho1 hpl j hj]

theorem line_in_input_order_witness :
    exLine.WF ∧ exLine.UpdateLine = Outcome.returned exLineAfter ∧ exLineAfter.LineShows ∧
    Line.Line 2 9 exLine._particles = Outcome.returned exCtorLine ∧ exCtorLine.LineShows :=
  ⟨by decide, by decide, (line_in_input_order.2 exLine exLineAfter (by decide) (by decide)).1,
    by decide, (line_in_input_order.1 2 9 exLine._particles exCtorLine (by decide)).1⟩

/-! ## The claim on calling `UpdateLine` twice -/

/-- C4: idempotence. On a line that satisfies the class invariant and whose markers have the
process that owns their element (every process is below `_nprocs`, and markers in the same mesh
element have the same process, as `GetMarkerProc` derives the process from the element): if
`UpdateLine` returns, then a second call with no marker changed returns as well and leaves the
marker order, `_markerOffset` and `_printList` (the whole line) exactly as the first call left
them. -/
theorem UpdateLine_idempotent (s s1 : Line) (h : s.WF) (hpart : s.Partitioned)
    (hret : s.UpdateLine = Outcome.returned s1) : s1.UpdateLine = Outcome.returned s1 :=
  UpdateLine_of_reordered s1 (UpdateLine_WF s s1 h hret) (afterElem_reordered s s1 h hpart hret)

theorem UpdateLine_idempotent_witness :
    exLine.WF ∧ exLine.Partitioned ∧ exLine.UpdateLine = Outcome.returned exLineAfter ∧
    exLineAfter.UpdateLine = Outcome.returned exLineAfter :=
  ⟨by decide, by decide, by decide,
    UpdateLine_idempotent exLine exLineAfter (by decide) (by decide) (by decide)⟩

/-! ## The claim on the advection in a uniform field -/

/-- C18: on a line that satisfies the class invariant and whose markers have a process below
`_nprocs` (`GetMarkerProc` returns the rank that owns the marker's element), after a returning
`UpdateLine` the slice of process 0 holds first markers inside the domain only and then exactly
the markers that were outside the domain before the call, in the order in which they were
stored before the call. -/
theorem UpdateLine_exited_at_tail (s s1 : Line) (h : s.WF)
    (hproc : ∀ m ∈ s._particles, m._mproc < s._nprocs)
    (hret : s.UpdateLine = Outcome.returned s1) :
    ∃ G, s1.sliceMarkers 0 = G ++ s._particles.filter outside ∧
      ∀ m ∈ G, m._elem ≠ UINT_MAX := by
  obtain ⟨hok, l, _, rfl⟩ := (UpdateLine_returned_iff s s1).mp hret
  have hfresh : ∀ j ∈ sliceOf (afterProc s).2 0, key1 s j ≠ UINT_MAX →
      fresh (flagsUpTo (key1 s) (afterProc s).2 (List.replicate s.meshElements false) 0)
        (key1 s j) = true := by
    intro j hj hne
    show fresh (List.replicate s.meshElements false) (key1 s j) = true
    rw [fresh_replicate]
    rcases (hok 0 h.1).1 j hj with h1 | h1
    · exact absurd h1 hne
    · exact ⟨hne, h1⟩
  obtain ⟨_, _, _, G, hG, hfound⟩ := slice_grouped s h hok 0 h.1 hfresh _ _ rfl rfl
  refine ⟨G, ?_, hfound⟩
  rw [afterProc_sliceMarkers s h hproc 0 h.1] at hG
  have e : (s._particles.filter (ofProc 0)).filter outside = s._particles.filter outside := by
    rw [List.filter_filter]
    apply List.filter_congr
    intro m hm
    by_cases ho : outside m = true
    · have hm0 : m._mproc = 0 := by
        by_contra hne
        have hp := hproc m hm
        have hin : m ∈ s._particles.filter (ofProc m._mproc) :=
          List.mem_filter.mpr ⟨hm, by simp [ofProc]⟩
        rw [← afterProc_sliceMarkers s h hproc m._mproc hp] at hin
        obtain ⟨j, hj, hjm⟩ := List.mem_map.mp hin
        apply (hok m._mproc hp).2 hne j hj
        rw [key1_eq, hjm]
        simpa [outside] using ho
      simp [ofProc, hm0, ho]
    · simp [ho]
  rw [e] at hG
  exact hG

theorem UpdateLine_exited_at_tail_witness :
    exLine.WF ∧ (∀ m ∈ exLine._particles, m._mproc < exLine._nprocs) ∧
    exLine.UpdateLine = Outcome.returned exLineAfter ∧
    ∃ G, exLineAfter.sliceMarkers 0 = G ++ exLine._particles.filter outside ∧
      ∀ m ∈ G, m._elem ≠ UINT_MAX :=
  ⟨by decide, by decide, by decide,
    UpdateLine_exited_at_tail exLine exLineAfter (by decide) (by decide) (by decide)⟩

/-- C19 (as stated, refuted): on `splitGroupLine`, where element 5 holds markers of two
processes, `UpdateLine` returns and the slice of process 1 holds the elements 7, 7, 5, 7, not
contiguous; on `exitedFirstLine`, whose slice of process 0 starts with a marker outside the
domain, `UpdateLine` returns and the groups are no longer in the order of the first occurrence
of their element. -/
theorem UpdateLine_groups_broken :
    splitGroupLine.WF ∧ splitGroupLine.UpdateLine = Outcome.returned splitGroupLineAfter ∧
    (splitGroupLineAfter.sliceMarkers 1).map (fun m => m._elem) = [7, 7, 5, 7] ∧
    ¬ Contiguous ((splitGroupLineAfter.sliceMarkers 1).map (fun m => m._elem)) ∧
    exitedFirstLine.WF ∧ exitedFirstLine.Partitioned ∧
    exitedFirstLine.UpdateLine = Outcome.returned exitedFirstLineAfter ∧
    firsts ((exitedFirstLine.sliceMarkers 0).map (fun m => m._elem)) = [UINT_MAX, 5] ∧
    firsts ((exitedFirstLineAfter.sliceMarkers 0).map (fun m => m._elem)) = [5, UINT_MAX] := by
  decide

/-- C19 (amended): if every marker's process is below `_nprocs`, markers in the same mesh element
have the same process, and `UpdateLine` returns, then in the slice of every process the markers
with the same element occupy contiguous slots, the groups of the found elements appear in the
order in which these elements first occur among the markers of the process before the call, and
the markers of each element (also those outside the domain, which follow the groups) are in the
order in which they were stored before the call. -/
theorem UpdateLine_groups_elements (s s1 : Line) (h : s.WF) (hpart : s.Partitioned)
    (hret : s.UpdateLine = Outcome.returned s1) (p : Nat) (hp : p < s._nprocs) :
    Contiguous ((s1.sliceMarkers p).map (fun m => m._elem)) ∧
    firsts (((s1.sliceMarkers p).filter (fun m => !outside m)).map (fun m => m._elem)) =
      firsts (((s._particles.filter (ofProc p)).filter (fun m => !outside m)).map
        (fun m => m._elem)) ∧
    (∀ e, (s1.sliceMarkers p).filter (inElem e) =
      (s._particles.filter (ofProc p)).filter (inElem e)) ∧
    ∃ G, s1.sliceMarkers p = G ++ (s._particles.filter (ofProc p)).filter outside ∧
      ∀ m ∈ G, m._elem ≠ UINT_MAX := by
  obtain ⟨hok, l, _, rfl⟩ := (UpdateLine_returned_iff s s1).mp hret
  have hg := slice_grouped s h hok p hp
    (fun j hj hne => fresh_in_slice s h hpart hok p j hp hj hne) _ _ rfl rfl
  rw [afterProc_sliceMarkers s h hpart.1 p hp] at hg
  exact hg

theorem UpdateLine_groups_elements_witness :
    exLine.WF ∧ exLine.Partitioned ∧ exLine.UpdateLine = Outcome.returned exLineAfter ∧
    Contiguous ((exLineAfter.sliceMarkers 1).map (fun m => m._elem)) ∧
    firsts (((exLineAfter.sliceMarkers 1).filter (fun m => !outside m)).map (fun m => m._elem)) =
      firsts (((exLine._particles.filter (ofProc 1)).filter (fun m => !outside m)).map
        (fun m => m._elem)) ∧
    (∀ e, (exLineAfter.sliceMarkers 1).filter (inElem e) =
      (exLine._particles.filter (ofProc 1)).filter (inElem e)) ∧
    ∃ G, exLineAfter.sliceMarkers 1 = G ++ (exLine._particles.filter (ofProc 1)).filter outside ∧
      ∀ m ∈ G, m._elem ≠ UINT_MAX :=
  ⟨by decide, by decide, by decide,
    UpdateLine_groups_elements exLine exLineAfter (by decide) (by decide) (by decide) 1
      (by decide)⟩

/-! ## The claims on the stage loop -/

/-- C20: one pass of the stage loop is the reference explicit Runge-Kutta stage. For an order
from 1 to 4, a marker whose position has `dim` entries and whose stage vectors have `order` rows
(the row in progress with `dim` entries), and snapshots and force vector with at least `dim`
entries: the position, the old position, the stage vectors and the step that the body writes up
to `SetIprocMarkerStep(step)` are those of `referenceStage`; the step increases by one; without
a force callback the force vector is left as it is; and the search for the new element that
ends the body changes none of the three vectors. -/
theorem stage_is_reference (c : Collaborators) (force : Option ForceFunction)
    (dim iproc n order : Nat) (T : ℚ) (v : Local) (ho1 : 1 ≤ order) (_ho4 : order ≤ 4)
    (hx : v.marker._x.length = dim) (hK : v.marker._K.length = order)
    (hrow : v.step % order ≠ 0 → (v.marker._K.getD (v.step % order) []).length = dim)
    (_hV0 : dim ≤ (c.updateVelocity v.marker).1.length)
    (_hV1 : dim ≤ (c.updateVelocity v.marker).2.length)
    (_hFm : dim ≤ (forceOf c force v).length) :
    (stageUpdate c force dim n order T v).marker._x =
      (referenceOf c force dim n order T v).position ∧
    (stageUpdate c force dim n order T v).marker._x0 =
      (referenceOf c force dim n order T v).oldPosition ∧
    (stageUpdate c force dim n order T v).marker._K =
      (referenceOf c force dim n order T v).stages ∧
    (stageUpdate c force dim n order T v).marker._step =
      (referenceOf c force dim n order T v).step ∧
    (stageUpdate c force dim n order T v).step = v.step + 1 ∧
    (referenceOf c force dim n order T v).step = v.step + 1 ∧
    (stageUpdate c none dim n order T v).Fm = v.Fm ∧
    (stageBody c force dim iproc n order T v).1.marker._x =
      (referenceOf c force dim n order T v).position ∧
    (stageBody c force dim iproc n order T v).1.marker._x0 =
      (referenceOf c force dim n order T v).oldPosition ∧
    (stageBody c force dim iproc n order T v).1.marker._K =
      (referenceOf c force dim n order T v).stages := by
  have hK0 : (if v.step % order = 0 then
        (List.range order).foldl (fun K j => K.set j (List.replicate dim (0 : ℚ))) v.marker._K
      else v.marker._K) =
      (if v.step % order = 0 then List.replicate order (List.replicate dim 0)
      else v.marker._K) := by
    split
    · exact reset_eq_replicate order dim _ hK
    · rfl
  have hrow0 : ((if v.step % order = 0 then List.replicate order (List.replicate dim (0 : ℚ))
      else v.marker._K).getD (v.step % order) []).length = dim := by
    split
    · rename_i h0
      rw [h0, List.getD_eq_getElem _ _ (by rw [List.length_replicate]; omega),
        List.getElem_replicate, List.length_replicate]
    · rename_i h0
      exact hrow h0
  have eK : (stageUpdate c force dim n order T v).marker._K =
      (referenceOf c force dim n order T v).stages := by
    show ((if v.step % order = 0 then
        (List.range order).foldl (fun K j => K.set j (List.replicate dim (0 : ℚ))) v.marker._K
      else v.marker._K).set (v.step % order) _) = List.set _ (v.step % order) _
    rw [hK0, assignFirst_eq_map _ _ _ hrow0]
    congr 1
    apply List.map_congr_left
    intro i _
    show _ = T / n * (_ + _ + (forceOf c force v).getD i 0)
    unfold forceOf
    ring
  have ex : (stageUpdate c force dim n order T v).marker._x =
      (referenceOf c force dim n order T v).position := by
    have e1 : (stageUpdate c force dim n order T v).marker._x =
        assignFirst dim (combine order
          (if v.step % order + 1 < order then aAt (order - 1) (v.step % order + 1)
            else bAt (order - 1))
          (stageUpdate c force dim n order T v).marker._K
          (if v.step % order = 0 then v.marker._x else v.marker._x0)) v.marker._x := by
      show (if v.step % order + 1 < order then _ else _) = _
      split <;> rfl
    rw [e1, eK, assignFirst_eq_map _ _ _ hx]
    apply List.map_congr_left
    intro i _
    rw [combine_eq]
    rfl
  have hb := stageBody_eq c force dim iproc n order T v
  exact ⟨ex, rfl, eK, rfl, rfl, rfl, rfl, hb.1.trans ex, hb.2.1, hb.2.2.1.trans eK⟩

theorem stage_is_reference_witness :
    (stageUpdate exField none 2 2 3 1 (startOf (exAdvected 3))).marker._x =
      (referenceOf exField none 2 2 3 1 (startOf (exAdvected 3))).position ∧
    (stageUpdate exField none 2 2 3 1 (startOf (exAdvected 3))).marker._K =
      (referenceOf exField none 2 2 3 1 (startOf (exAdvected 3))).stages ∧
    (stageUpdate exField none 2 2 3 1 (startOf (exAdvected 3))).step = 1 :=
  have h := stage_is_reference exField none 2 0 2 3 1 (startOf (exAdvected 3)) (by decide)
    (by decide) rfl rfl (fun h => absurd rfl h) (by decide) (by decide) (by decide)
  ⟨h.1, h.2.2.1, h.2.2.2.2.1⟩

/-- C11: in the end-to-end scenario (dimension 2, uniform velocity `(1, 0)`, domain
`[0,2] x [0,1]` split at `x = 1`, `T = 1`, `n = 2`, order 1, markers built at `(0.1, 0.5)`,
`(0.9, 0.5)`, `(1.9, 0.5)`) `AdvectionParallel` returns after two rounds, whatever number of
further rounds it is allowed; then marker 1 (input index 0) is at `(1.1, 0.5)` and marker 2
(input index 1) at `(1.9, 0.5)`, both with process 1 and stored in the slice of process 1. -/
theorem scenario_markers_cross (e : Nat) :
    Line.Line 2 2 scenarioMarkers = Outcome.returned scenarioLine ∧
    scenarioLine.AdvectionParallel scenario none 2 2 1 1 (2 + e) =
      some (Outcome.returned scenarioEnd) ∧
    (scenarioLine._particles.getD (scenarioLine._printList.getD 0 0) default)._x =
      [1 / 10, 1 / 2] ∧
    (scenarioLine._particles.getD (scenarioLine._printList.getD 1 0) default)._x =
      [9 / 10, 1 / 2] ∧
    (scenarioEnd.line._particles.getD (scenarioEnd.line._printList.getD 0 0) default)._x =
      [11 / 10, 1 / 2] ∧
    (scenarioEnd.line._particles.getD (scenarioEnd.line._printList.getD 0 0) default)._mproc = 1 ∧
    (scenarioEnd.line._particles.getD (scenarioEnd.line._printList.getD 1 0) default)._x =
      [19 / 10, 1 / 2] ∧
    (scenarioEnd.line._particles.getD (scenarioEnd.line._printList.getD 1 0) default)._mproc = 1 ∧
    scenarioEnd.line._printList.getD 0 0 ∈ sliceOf scenarioEnd.line._markerOffset 1 ∧
    scenarioEnd.line._printList.getD 1 0 ∈ sliceOf scenarioEnd.line._markerOffset 1 := by
  refine ⟨scenario_run.1,
    scenario_run_any_fuel e, ?_⟩
  decide!

/-- C12 (as stated, refuted): in the end-to-end scenario `AdvectionParallel` returns with marker
3 (input index 2) at `(2.4, 0.5)`, not at `(2.9, 0.5)`. -/
theorem scenario_marker3_not_advanced_to_end :
    scenarioLine.AdvectionParallel scenario none 2 2 1 1 2 =
      some (Outcome.returned scenarioEnd) ∧
    (scenarioLine._particles.getD (scenarioLine._printList.getD 2 0) default)._x =
      [19 / 10, 1 / 2] ∧
    (scenarioEnd.line._particles.getD (scenarioEnd.line._printList.getD 2 0) default)._x ≠
      [29 / 10, 1 / 2] := by
  refine ⟨scenario_run.2.2, ?_⟩
  decide!

/-- C12 (amended): in the end-to-end scenario marker 3 (input index 2), which starts at
`(1.9, 0.5)`, ends `AdvectionParallel` at `(2.4, 0.5)`, the point outside the domain that its
first stage reaches; it has run that one stage, its element is `UINT_MAX`, its step is
`UINT_MAX`, and it is stored in the slice of process 0. -/
theorem scenario_marker3_exits (e : Nat) :
    scenarioLine.AdvectionParallel scenario none 2 2 1 1 (2 + e) =
      some (Outcome.returned scenarioEnd) ∧
    (scenarioLine._particles.getD (scenarioLine._printList.getD 2 0) default)._x =
      [19 / 10, 1 / 2] ∧
    (scenarioEnd.line._particles.getD (scenarioEnd.line._printList.getD 2 0) default)._x =
      [12 / 5, 1 / 2] ∧
    (scenarioEnd.line._particles.getD (scenarioEnd.line._printList.getD 2 0) default)._elem =
      UINT_MAX ∧
    (scenarioEnd.line._particles.getD (scenarioEnd.line._printList.getD 2 0) default)._step =
      UINT_MAX ∧
    scenarioEnd.stages.getD 2 0 = 1 ∧
    scenarioElement [12 / 5, 1 / 2] = UINT_MAX ∧
    scenarioEnd.line._printList.getD 2 0 ∈ sliceOf scenarioEnd.line._markerOffset 0 := by
  refine ⟨scenario_run_any_fuel e, ?_⟩
  decide!

/-- C13: in the end-to-end scenario the loop of `AdvectionParallel` makes two rounds; the
exchange of the first round hands the state of marker 1 (input index 0) over from process 0 to
process 1, once, and the exchange of the second round hands over nothing. -/
theorem scenario_marker1_moves_once (e : Nat) :
    scenarioLine.AdvectionParallel scenario none 2 2 1 1 (2 + e) =
      some (Outcome.returned scenarioEnd) ∧
    scenarioEnd.rounds = 2 ∧ scenarioEnd.moved.length = 2 ∧
    (scenarioEnd.moved.getD 0 []).filter (fun t => decide (t.1 = 0)) = [(0, 0, 1)] ∧
    scenarioEnd.moved.getD 1 [] = [] ∧
    scenarioEnd.moved.flatten.filter (fun t => decide (t.1 = 0)) = [(0, 0, 1)] := by
  refine ⟨scenario_run_any_fuel e, ?_⟩
  decide

/-! ## The claims on the round loop of `AdvectionParallel` -/

/-- C14 (as stated, refuted): on the line of the end-to-end scenario `AdvectionParallel` with
`n = 2 ^ 30` and `order = 4` returns after one round with every marker counted as integrated,
although no marker has executed a stage and every marker is inside the domain: the product
`n * order` is `2 ^ 32`, which the 32-bit test `step == n * order` reads as 0. -/
theorem AdvectionParallel_returns_without_stages :
    scenarioLine.AdvectionParallel scenario none 2 (2 ^ 30) 4 1 1 =
      some (Outcome.returned wrappedEnd) ∧
    wrappedEnd.stages = [0, 0, 0] ∧
    wrappedEnd.line._particles.map (fun m => m._step) = [UINT_MAX, UINT_MAX, UINT_MAX] ∧
    wrappedEnd.line._particles.map (fun m => m._elem) = [0, 0, 1] ∧
    2 ^ 30 * 4 ≠ 0 ∧ nTimesOrder (2 ^ 30) 4 = 0 := by
  decide!

/-- C14 (amended): no partial results. On a sound line, with collaborators that respect their
contract, whenever `AdvectionParallel` returns (whatever number of rounds it is allowed), every
one of the `N` markers has the step `UINT_MAX`, and each marker has executed in total exactly
`n * order` stages, the product taken modulo `2 ^ 32` as the source computes it (so exactly
`n * order` stages when `n * order < 2 ^ 32`), or has the element `UINT_MAX`. The loop exits
exactly when the counter, the sum over the processes of the locally counted markers, is `N`: it
is `N` at the return, and after every smaller number of rounds it differs from `N`. -/
theorem AdvectionParallel_no_partial_results (c : RoundCollaborators)
    (force : Option ForceFunction) (dim n order : Nat) (T : ℚ) (owner : Nat → Nat) (s : Line)
    (h : s.Sound owner) (hc : Contract c s._nprocs s.meshElements order owner)
    (fuel : Nat) (r : Run)
    (hret : s.AdvectionParallel c force dim n order T fuel = some (Outcome.returned r)) :
    r.line._particles.length = s._particles.length ∧
    (∀ m ∈ r.line._particles, m._step = UINT_MAX) ∧
    (∀ i < s._particles.length, (r.line.markerOf i)._step = UINT_MAX ∧
      (r.stages.getD i 0 = nTimesOrder n order ∨ (r.line.markerOf i)._elem = UINT_MAX)) ∧
    (n * order < 2 ^ 32 → ∀ i < s._particles.length,
      r.stages.getD i 0 = n * order ∨ (r.line.markerOf i)._elem = UINT_MAX) ∧
    r.integrationIsOverCounter = s._particles.length ∧
    ∀ t < r.rounds, ∃ rt,
      roundsFrom c force dim n order T t (startRun s c order) = Outcome.returned rt ∧
      rt.line._particles.length = s._particles.length ∧
      rt.integrationIsOverCounter ≠ s._particles.length := by
  obtain ⟨_, hret⟩ := advectionParallel_returned s c force dim n order T fuel r hret
  obtain ⟨k, r1, _, a1, a2, a3, a4, a5⟩ := advection_ends c force dim n order T owner s h hc
  have hk : k ≤ fuel := by
    by_contra hlt
    have := a2 fuel (by omega)
    rw [this] at hret
    exact absurd hret (by simp)
  have hr : r = r1 := by
    have := a1 (fuel - k)
    rw [Nat.add_sub_cancel' hk, hret] at this
    injection this with this
    injection this
  subst hr
  have hd := ended_all_done owner _ _ _ _ k r a3 a4
  have hlen := a3.2.2.2.1
  refine ⟨hlen, ?_, hd, fun hn i hi => ?_, by rw [a4]; exact hlen, fun t ht => ?_⟩
  · rw [sound_markers r.line owner a3.1 (fun m => m._step = UINT_MAX), hlen]
    exact fun i hi => (hd i hi).1
  · have := (hd i hi).2
    unfold nTimesOrder at this
    rw [Nat.mod_eq_of_lt hn] at this
    exact this
  · rw [a3.2.2.2.2.1] at ht
    obtain ⟨rt, _, b1, b2, b3, _⟩ := a5 t ht
    refine ⟨rt, b1, b2, ?_⟩
    intro e
    apply b3
    rw [e]
    exact b2.symm

theorem AdvectionParallel_no_partial_results_witness :
    scenarioLine.Sound scenarioOwner ∧ Contract scenario 2 2 1 scenarioOwner ∧
    scenarioLine.AdvectionParallel scenario none 2 2 1 1 2 =
      some (Outcome.returned scenarioEnd) ∧
    (∀ m ∈ scenarioEnd.line._particles, m._step = UINT_MAX) ∧
    (scenarioEnd.stages.getD 0 0 = nTimesOrder 2 1 ∨
      (scenarioEnd.line.markerOf 0)._elem = UINT_MAX) ∧
    scenarioEnd.integrationIsOverCounter = 3 :=
  have h := AdvectionParallel_no_partial_results scenario none 2 2 1 1 scenarioOwner
    scenarioLine scenario_sound (scenario_contract 1) 2 scenarioEnd scenario_run.2.2
  ⟨scenario_sound, scenario_contract 1, scenario_run.2.2, h.2.1,
    (h.2.2.1 0 (by decide)).2, h.2.2.2.2.1⟩

/-- C15: termination. On a sound line with `N` markers, for every `n` and `order` (in
particular `order` in 1..4) and all collaborators that respect their contract (the searches
answer an element of the mesh, or `UINT_MAX`, with its process; the initialisation sets the
step to 0), the round loop of `AdvectionParallel`, entered in the state `startRun`, ends: there
is a number `k` of rounds, at most `n * order` and at most the 32-bit value of `n * order` (one
round when that is 0), such that the loop returns when it is allowed `k` rounds or more and has
not ended before; at the return every marker has the step `UINT_MAX`. Every marker enters the
loop with the step 0, and in each of the `k` rounds every marker is swept by its process, after
which it has the step `UINT_MAX` or a step at least one larger, unless its step was `UINT_MAX`
already. In the dimensions 2 and 3 the method `AdvectionParallel` reaches the loop and returns
with the result of the loop; in dimension 1 the initialisation of the parameters before the
loop writes `solVIndex[1]` out of range (claim C29), and the method ends there. -/
theorem AdvectionParallel_terminates (c : RoundCollaborators) (force : Option ForceFunction)
    (dim n order : Nat) (T : ℚ) (owner : Nat → Nat) (s : Line) (h : s.Sound owner)
    (hc : Contract c s._nprocs s.meshElements order owner) :
    ∃ k r, k ≤ max 1 (n * order) ∧ k ≤ max 1 (nTimesOrder n order) ∧
      (0 < s._particles.length → 1 ≤ k) ∧
      (∀ e, roundLoop c force dim n order T (k + e) (startRun s c order) =
        some (Outcome.returned r)) ∧
      (∀ f < k, roundLoop c force dim n order T f (startRun s c order) = none) ∧
      (dim = 2 ∨ dim = 3 →
        (∀ e, s.AdvectionParallel c force dim n order T (k + e) = some (Outcome.returned r)) ∧
        ∀ f < k, s.AdvectionParallel c force dim n order T f = none) ∧
      (dim = 1 → ∀ f, s.AdvectionParallel c force dim n order T f = some Outcome.outOfRange) ∧
      r.rounds = k ∧
      (∀ m ∈ r.line._particles, m._step = UINT_MAX) ∧
      (∀ i < s._particles.length, ((startRun s c order).line.markerOf i)._step = 0) ∧
      ∀ t < k, ∃ rt rt1,
        roundsFrom c force dim n order T t (startRun s c order) = Outcome.returned rt ∧
        round c force dim n order T rt = Outcome.returned rt1 ∧
        ∀ i < s._particles.length,
          Advanced c.toCollaborators force dim n order T (rt.line.markerOf i)
            (rt1.line.markerOf i) := by
  obtain ⟨k, r, hk, a1, a2, a3, a4, a5⟩ := advection_ends c force dim n order T owner s h hc
  have hle : nTimesOrder n order ≤ n * order := Nat.mod_le _ _
  have hd := ended_all_done owner _ _ _ _ k r a3 a4
  have hlen := a3.2.2.2.1
  have hin := (sound_slots s owner h).2.1
  refine ⟨k, r, by omega, hk, fun hN => ?_, a1, a2, fun hdim => ⟨fun e => ?_, fun f hf => ?_⟩,
    fun hdim f => advectionParallel_low s c force dim n order T (by omega) f,
    a3.2.2.2.2.1, ?_, startRun_steps c order owner s h hc, fun t ht => ?_⟩
  · by_contra hk0
    have hk1 : k = 0 := by omega
    have hz := a3.2.2.2.2.2.1 hk1
    rw [hz] at a4
    have : r.line._particles.length = 0 := a4.symm
    omega
  · rw [advectionParallel_loop s c force dim n order T (by omega) hin]
    exact a1 e
  · rw [advectionParallel_loop s c force dim n order T (by omega) hin]
    exact a2 f hf
  · rw [sound_markers r.line owner a3.1 (fun m => m._step = UINT_MAX), hlen]
    exact fun i hi => (hd i hi).1
  · obtain ⟨rt, rt1, b1, _, _, b4, b5⟩ := a5 t ht
    exact ⟨rt, rt1, b1, b4, b5⟩

theorem AdvectionParallel_terminates_witness :
    scenarioLine.Sound scenarioOwner ∧ Contract scenario 2 2 1 scenarioOwner ∧
    ∃ k r, k ≤ 2 ∧
      (∀ e, roundLoop scenario none 2 2 1 1 (k + e) (startRun scenarioLine scenario 1) =
        some (Outcome.returned r)) ∧
      (∀ e, scenarioLine.AdvectionParallel scenario none 2 2 1 1 (k + e) =
        some (Outcome.returned r)) ∧
      r.rounds = k ∧ ∀ m ∈ r.line._particles, m._step = UINT_MAX :=
  have h := AdvectionParallel_terminates scenario none 2 2 1 1 scenarioOwner scenarioLine
    scenario_sound (scenario_contract 1)
  ⟨scenario_sound, scenario_contract 1,
    h.elim fun k h1 => h1.elim fun r h2 =>
      ⟨k, r, h2.1, h2.2.2.2.1, (h2.2.2.2.2.2.1 (Or.inl rfl)).1, h2.2.2.2.2.2.2.2.1,
        h2.2.2.2.2.2.2.2.2.1⟩⟩

/-- C17 (as stated, refuted): on the line of the end-to-end scenario, with collaborators whose
search in the exchange phase does not find the marker, the first round of `AdvectionParallel`
(`n = 2`, `order = 1`) ends with marker 2 (input index 1) having the element `UINT_MAX` and the
step 1: the local phase left it in element 1 of process 1 after one stage, the exchange set its
element to `UINT_MAX` and did not touch its step. -/
theorem round_leaves_lost_marker_unfinished :
    round scenarioLost none 2 2 1 1 (startRun scenarioLine scenarioLost 1) =
      Outcome.returned lostRound ∧
    scenarioLine.AdvectionParallel scenarioLost none 2 2 1 1 1 = none ∧
    (lostRound.line.markerOf 1)._elem = UINT_MAX ∧
    (lostRound.line.markerOf 1)._step = 1 ∧
    (lostRound.line.markerOf 1)._step ≠ UINT_MAX := by
  decide!

/-- C17 (amended): the marker invariant at the end of a round. On a sound line with at least
one marker, with collaborators that respect their contract, every round of `AdvectionParallel`
(the state `rt` after any number `t` of rounds, followed by one more round) returns, and for
every marker: after the local phase, element `UINT_MAX` implies step `UINT_MAX`; at the end of
the round (after the exchange and `UpdateLine`) a marker whose element is `UINT_MAX` has the
step `UINT_MAX`, unless the local phase left it inside the domain on an element of another
process and the search `GetElement` of the exchange did not find it; and the local phase of the
next round gives every marker whose element is `UINT_MAX` the step `UINT_MAX`. -/
theorem round_keeps_exited_finished (c : RoundCollaborators) (force : Option ForceFunction)
    (dim n order : Nat) (T : ℚ) (owner : Nat → Nat) (s : Line) (h : s.Sound owner)
    (hN : 0 < s._particles.length)
    (hc : Contract c s._nprocs s.meshElements order owner) (t : Nat) :
    ∃ rt rt1, roundsFrom c force dim n order T t (startRun s c order) = Outcome.returned rt ∧
      round c force dim n order T rt = Outcome.returned rt1 ∧
      ∀ i < s._particles.length, ∃ F,
        ((sweptMarker c.toCollaborators force dim n order T F (rt.line.markerOf i))._elem =
            UINT_MAX →
          (sweptMarker c.toCollaborators force dim n order T F (rt.line.markerOf i))._step =
            UINT_MAX) ∧
        rt1.line.markerOf i = exchangeMarker c n order (rt.line.markerOf i)._mproc
          (sweptMarker c.toCollaborators force dim n order T F (rt.line.markerOf i)) ∧
        ((rt1.line.markerOf i)._elem = UINT_MAX →
          (rt1.line.markerOf i)._step = UINT_MAX ∨
          ((sweptMarker c.toCollaborators force dim n order T F (rt.line.markerOf i))._elem ≠
              UINT_MAX ∧
            (sweptMarker c.toCollaborators force dim n order T F (rt.line.markerOf i))._mproc ≠
              (rt.line.markerOf i)._mproc ∧
            (c.GetElement
              (sweptMarker c.toCollaborators force dim n order T F
                (rt.line.markerOf i))._previousElem
              (rt.line.markerOf i)._mproc
              (c.GetMarkerS n order
                (sweptMarker c.toCollaborators force dim n order T F (rt.line.markerOf i)))
              (sweptMarker c.toCollaborators force dim n order T F
                (rt.line.markerOf i))).2.1 = UINT_MAX)) ∧
        ∀ p G, (rt1.line.markerOf i)._elem = UINT_MAX →
          (advectMarker c.toCollaborators force dim p n order T G
            (rt1.line.markerOf i)).1.marker._step = UINT_MAX := by
  obtain ⟨rt, e, hinv⟩ := roundsFrom_inv c force dim n order T owner _ _ _ hN hc t 0
    (startRun s c order) (startRun_inv c n order owner s h hc)
  obtain ⟨hs, hP, hM, hlen, _⟩ := hinv
  obtain ⟨rt1, e1, _, _, _, _, _, _, _, q8⟩ :=
    round_spec c force dim n order T owner rt hs (by rw [hlen]; exact hN)
      (by rw [hP, hM]; exact hc)
  refine ⟨rt, rt1, e, e1, fun i hi => ?_⟩
  obtain ⟨F, f1, _⟩ := q8 i (by rw [hlen]; exact hi)
  refine ⟨F, advectMarker_outside c.toCollaborators force dim _ n order T F _, f1,
    fun hel => ?_, fun p G hel =>
      advectMarker_started_outside c.toCollaborators force dim p n order T G _ hel⟩
  rw [f1] at hel ⊢
  rcases exchangeMarker_lost c n order _ _ hel with ho | hl
  · left
    rw [exchangeMarker_step]
    exact advectMarker_outside c.toCollaborators force dim _ n order T F _ ho
  · exact Or.inr hl

theorem round_keeps_exited_finished_witness :
    scenarioLine.Sound scenarioOwner ∧ Contract scenarioLost 2 2 1 scenarioOwner ∧
    ∃ rt rt1,
      roundsFrom scenarioLost none 2 2 1 1 0 (startRun scenarioLine scenarioLost 1) =
        Outcome.returned rt ∧
      round scenarioLost none 2 2 1 1 rt = Outcome.returned rt1 ∧
      ∀ p G, (rt1.line.markerOf 1)._elem = UINT_MAX →
        (advectMarker scenarioLost.toCollaborators none 2 p 2 1 1 G
          (rt1.line.markerOf 1)).1.marker._step = UINT_MAX :=
  have h := round_keeps_exited_finished scenarioLost none 2 2 1 1 scenarioOwner scenarioLine
    scenario_sound (by decide) (scenarioLost_contract 1) 0
  ⟨scenario_sound, scenarioLost_contract 1,
    h.elim fun rt h1 => h1.elim fun rt1 h2 =>
      ⟨rt, rt1, h2.1, h2.2.1, (h2.2.2 1 (by decide)).elim fun _ h3 => h3.2.2.2⟩⟩

/-! ## The claim on the Butcher tableaux -/

/-- C21: each of the four tableaux `_a`, `_b`, `_c` (order `p` = 1, 2, 3, 4, entries as exact
rationals) is an explicit Runge-Kutta method of the order its comment names: `_a[p-1][i][j]` is
0 for `j ≥ i`, every node `c_i` is the sum of the row `i` of `a`, and the order conditions up to
order `p` hold (sum of `b` is 1; from order 2 on the sum of `b_i c_i` is 1/2; from order 3 on
the sums of `b_i c_i^2` and of `b_i a_ij c_j` are 1/3 and 1/6; for order 4 the sums of
`b_i c_i^3`, `b_i c_i a_ij c_j`, `b_i a_ij c_j^2` and `b_i a_ij a_jk c_k` are 1/4, 1/8, 1/12 and
1/24). -/
theorem tableaux_have_their_order :
    (tableauExplicit 1 ∧ tableauRowSums 1 ∧ orderConditions 1) ∧
    (tableauExplicit 2 ∧ tableauRowSums 2 ∧ orderConditions 2) ∧
    (tableauExplicit 3 ∧ tableauRowSums 3 ∧ orderConditions 3) ∧
    (tableauExplicit 4 ∧ tableauRowSums 4 ∧ orderConditions 4) := by
  decide!

/-! ## The claims on the empty line and on the dimensions -/

/-- C28 (the code on the empty line): with no marker, for every number `P` of processes, the
bucketing of the constructor and the reorder of `UpdateLine` leave every offset
`_markerOffset[p]`, `p ≤ P`, at 0, but neither function completes with every access in range:
the closing read `_particles[_printList[0]]` finds `_printList` empty and is out of range. -/
theorem empty_line_closing_read_out_of_range (P M : Nat) :
    Line.Line P M [] = Outcome.outOfRange ∧
    (∀ p ≤ P, (ctorBuckets P []).2.getD p 0 = 0) ∧
    ∀ s : Line, s.WF → s._particles = [] →
      s.UpdateLine = Outcome.outOfRange ∧ ∀ p ≤ s._nprocs, (afterProc s).2.getD p 0 = 0 :=
  ⟨(ctor_empty P M).1, (ctor_empty P M).2, fun s h he => updateLine_empty s h he⟩

theorem empty_line_closing_read_out_of_range_witness :
    emptyLine.WF ∧ emptyLine._particles = [] ∧ Line.Line 2 4 [] = Outcome.outOfRange ∧
    emptyLine.UpdateLine = Outcome.outOfRange :=
  have h := empty_line_closing_read_out_of_range 2 4
  ⟨by decide, rfl, h.1, (h.2.2 emptyLine (by decide) rfl).1⟩

/-- C29 (the code in dimension 1): the parameter initialisation of `AdvectionParallel` writes
`solVIndex[1]` whatever the dimension, so that in dimension 1, where `solVIndex` has one entry,
the write is out of range; in dimensions 2 and 3 every access of the initialisation is in range.
The initialisation of `solIndexVel` in `GetParticlesToGridProjections` guards the same write
with `_dim > 1` and is in range in dimensions 1, 2 and 3. The vector `Fm` has three entries, so
that the reads `Fm[k]`, `k < _dim`, are in range in every dimension up to 3. -/
theorem solVIndex_out_of_range_in_dimension_one (u v w : Nat) :
    solVIndexInit 1 u v w = Outcome.outOfRange ∧
    solVIndexInit 2 u v w = Outcome.returned [u, v] ∧
    solVIndexInit 3 u v w = Outcome.returned [u, v, w] ∧
    solIndexVelInit 1 u v w = Outcome.returned [u] ∧
    solIndexVelInit 2 u v w = Outcome.returned [u, v] ∧
    solIndexVelInit 3 u v w = Outcome.returned [u, v, w] ∧
    readFm FmInit 0 = Outcome.returned 0 ∧ readFm FmInit 1 = Outcome.returned 0 ∧
    readFm FmInit 2 = Outcome.returned 0 :=
  ⟨rfl, rfl, rfl, rfl, rfl, rfl, rfl, rfl, rfl⟩

/-! ## The claims on the local phase and on the step -/

/-- C22 (as stated, refuted): with `n = 2 ^ 30` and `order = 4` the local phase of process 0
leaves the first marker of the end-to-end scenario, which is inside the domain on process 0,
with the step `UINT_MAX` after no stage at all. With `n * order = 2 ^ 32` the marker is in none
of the three cases: it has not reached `n * order` stages, its element is found, and its
process is the sweeping process. -/
theorem local_phase_counts_marker_without_stages :
    (advectMarker scenario.toCollaborators none 2 0 (2 ^ 30) 4 1 [0, 0, 0] wrappedMarker).1.marker =
      { wrappedMarker with _step := UINT_MAX } ∧
    wrappedMarker._step = 0 ∧ wrappedMarker._elem = 0 ∧ wrappedMarker._mproc = 0 ∧
    sweepPasses scenario.toCollaborators none 2 0 (2 ^ 30) 4 1 [0, 0, 0] wrappedMarker = 0 ∧
    ¬ ReachedEnd (2 ^ 30 * 4)
      (advectMarker scenario.toCollaborators none 2 0 (2 ^ 30) 4 1 [0, 0, 0]
        wrappedMarker).1.marker 0 ∧
    ¬ ExitedDone
      (advectMarker scenario.toCollaborators none 2 0 (2 ^ 30) 4 1 [0, 0, 0]
        wrappedMarker).1.marker ∧
    ¬ Blocked (2 ^ 30 * 4) 0
      (advectMarker scenario.toCollaborators none 2 0 (2 ^ 30) 4 1 [0, 0, 0]
        wrappedMarker).1.marker := by
  decide!

/-- C22 (amended): the local phase runs each owned marker until it is blocked. In the run of
`AdvectionParallel` on a sound line with at least one marker, with collaborators that respect
their contract, the round made after any number `t` of rounds returns, and every marker is stored
in the slice of its process and is swept by that process; after the sweep exactly one of three
cases holds for it: (a) its step is `UINT_MAX`, its element is found and it has run in total
`n * order` stages, the product taken modulo `2 ^ 32` as the source computes it; (b) its step is
`UINT_MAX` and its element is `UINT_MAX`; (c) its step is below that product, its element is
found and the element belongs to another process. In case (c) its stage vectors, old
coordinates, coordinates and step are those produced by the last stage of the sweep. -/
theorem local_phase_runs_until_blocked (c : RoundCollaborators) (force : Option ForceFunction)
    (dim n order : Nat) (T : ℚ) (owner : Nat → Nat) (s : Line) (h : s.Sound owner)
    (hN : 0 < s._particles.length)
    (hc : Contract c s._nprocs s.meshElements order owner) (t : Nat) :
    ∃ rt rt1, roundsFrom c force dim n order T t (startRun s c order) = Outcome.returned rt ∧
      round c force dim n order T rt = Outcome.returned rt1 ∧
      ∀ i < s._particles.length,
        rt.line._printList.getD i 0 ∈
          sliceOf rt.line._markerOffset (rt.line.markerOf i)._mproc ∧
        ∃ F,
          rt1.line.markerOf i = exchangeMarker c n order (rt.line.markerOf i)._mproc
            (sweptMarker c.toCollaborators force dim n order T F (rt.line.markerOf i)) ∧
          ExactlyOne
            (ReachedEnd (nTimesOrder n order)
              (sweptMarker c.toCollaborators force dim n order T F (rt.line.markerOf i))
              (rt.stages.getD i 0 +
                sweepPasses c.toCollaborators force dim (rt.line.markerOf i)._mproc n order T F
                  (rt.line.markerOf i)))
            (ExitedDone
              (sweptMarker c.toCollaborators force dim n order T F (rt.line.markerOf i)))
            (Blocked (nTimesOrder n order) (rt.line.markerOf i)._mproc
              (sweptMarker c.toCollaborators force dim n order T F (rt.line.markerOf i))) ∧
          (Blocked (nTimesOrder n order) (rt.line.markerOf i)._mproc
              (sweptMarker c.toCollaborators force dim n order T F (rt.line.markerOf i)) →
            LastStage c.toCollaborators force dim (rt.line.markerOf i)._mproc n order T F
              (rt.line.markerOf i)
              (sweptMarker c.toCollaborators force dim n order T F (rt.line.markerOf i))) := by
  have hNT := nTimesOrder_le n order
  obtain ⟨rt, rt1, e, e1, hinv, _, hm⟩ := round_markers c force dim n order T owner s h hN hc t
  refine ⟨rt, rt1, e, e1, fun i hi => ⟨?_, ?_⟩⟩
  · exact sound_slot rt.line owner hinv.1 i (by rw [hinv.2.2.2.1]; exact hi)
  · obtain ⟨F, f1, _⟩ := hm i hi
    obtain ⟨hp, hg⟩ := hinv.2.2.2.2.2.2.2 i hi
    obtain ⟨_, k2, _⟩ := marker_sweep c.toCollaborators force dim n order T
      (rt.line.markerOf i)._mproc t (rt.stages.getD i 0) F (rt.line.markerOf i) hp hg
    have hstep : (rt.line.markerOf i)._step = UINT_MAX ∨
        (rt.line.markerOf i)._step ≤ nTimesOrder n order := by
      rcases hp with hd | ⟨_, h2, _⟩
      · exact Or.inl hd
      · exact Or.inr h2
    have hb := advectMarker_blocked c.toCollaborators force dim (rt.line.markerOf i)._mproc
      n order T F (rt.line.markerOf i) hstep
    refine ⟨F, f1, ⟨?_, ?_, ?_, ?_⟩, fun hB => ?_⟩
    · by_cases hd : (sweptMarker c.toCollaborators force dim n order T F
          (rt.line.markerOf i))._step = UINT_MAX
      · by_cases he : (sweptMarker c.toCollaborators force dim n order T F
            (rt.line.markerOf i))._elem = UINT_MAX
        · exact Or.inr (Or.inl ⟨hd, he⟩)
        · refine Or.inl ⟨hd, he, ?_⟩
          rcases k2.2 hd with hk | hk
          · exact hk
          · exact absurd hk he
      · exact Or.inr (Or.inr (hb hd).1)
    · rintro ⟨⟨_, a2, _⟩, ⟨_, b2⟩⟩
      exact a2 b2
    · rintro ⟨⟨a1, _, _⟩, ⟨b1, _, _⟩⟩
      rw [a1] at b1
      omega
    · rintro ⟨⟨_, a2⟩, ⟨_, b2, _⟩⟩
      exact b2 a2
    · have hnd : (sweptMarker c.toCollaborators force dim n order T F
          (rt.line.markerOf i))._step ≠ UINT_MAX := by
        intro hd
        have := hB.1
        rw [hd] at this
        omega
      exact (hb hnd).2

theorem local_phase_runs_until_blocked_witness :
    scenarioLine.Sound scenarioOwner ∧ Contract scenario 2 2 1 scenarioOwner ∧
    ∃ rt rt1,
      roundsFrom scenario none 2 2 1 1 0 (startRun scenarioLine scenario 1) =
        Outcome.returned rt ∧
      round scenario none 2 2 1 1 rt = Outcome.returned rt1 ∧
      ∃ F, ExactlyOne
        (ReachedEnd (nTimesOrder 2 1)
          (sweptMarker scenario.toCollaborators none 2 2 1 1 F (rt.line.markerOf 1))
          (rt.stages.getD 1 0 +
            sweepPasses scenario.toCollaborators none 2 (rt.line.markerOf 1)._mproc 2 1 1 F
              (rt.line.markerOf 1)))
        (ExitedDone
          (sweptMarker scenario.toCollaborators none 2 2 1 1 F (rt.line.markerOf 1)))
        (Blocked (nTimesOrder 2 1) (rt.line.markerOf 1)._mproc
          (sweptMarker scenario.toCollaborators none 2 2 1 1 F (rt.line.markerOf 1))) :=
  have h := local_phase_runs_until_blocked scenario none 2 2 1 1 scenarioOwner scenarioLine
    scenario_sound (by decide) (scenario_contract 1) 0
  ⟨scenario_sound, scenario_contract 1,
    h.elim fun rt h1 => h1.elim fun rt1 h2 =>
      ⟨rt, rt1, h2.1, h2.2.1, (h2.2.2 1 (by decide)).2.elim fun F h3 => ⟨F, h3.2.1⟩⟩⟩

/-- C23 (as stated, refuted): on the line of the end-to-end scenario `AdvectionParallel` with
`n = 0` and `order = 1` enters its round loop (the loop has not ended before a first round),
and at the start of that round the stored step of the first marker is 0, which is neither
`UINT_MAX` nor in `[0, n * order)`, the interval being empty. -/
theorem step_at_loop_entry_outside_range :
    scenarioLine.Sound scenarioOwner ∧ Contract scenario 2 2 1 scenarioOwner ∧
    scenarioLine.AdvectionParallel scenario none 2 0 1 1 0 = none ∧
    roundsFrom scenario none 2 0 1 1 0 (startRun scenarioLine scenario 1) =
      Outcome.returned (startRun scenarioLine scenario 1) ∧
    ((startRun scenarioLine scenario 1).line.markerOf 0)._step = 0 ∧
    0 * 1 = 0 ∧ nTimesOrder 0 1 = 0 ∧
    ¬ (((startRun scenarioLine scenario 1).line.markerOf 0)._step = UINT_MAX ∨
      ((startRun scenarioLine scenario 1).line.markerOf 0)._step < 0 * 1) :=
  ⟨scenario_sound, scenario_contract 1, by decide!, rfl, by decide!, rfl, by decide,
    by decide!⟩

/-- C23 (amended): the step counter. In the run of `AdvectionParallel` on a sound line with at
least one marker, with collaborators that respect their contract, every marker enters the round
loop with the step 0, and in the round made after any number `t` of rounds, for every marker:
at the start of the round its step is the 0 of the loop entry when `t = 0`, it is `UINT_MAX` or
below the 32-bit value of `n * order` from the second round on, and it is `UINT_MAX` or below
`n * order` in every round when `n * order` is not 0; after the local phase its step is
`UINT_MAX` or below `n * order` (below the 32-bit value of the product, which is at most the
product); the step after the local phase is not smaller than the step at the start of the
round, `UINT_MAX` being the largest value; a step that is `UINT_MAX` at the start of the round
is `UINT_MAX` after the local phase; the exchange keeps the step, and so does `UpdateLine`: the
marker with the same input index has after the round the step it had after the local phase. -/
theorem step_never_decreases (c : RoundCollaborators) (force : Option ForceFunction)
    (dim n order : Nat) (T : ℚ) (owner : Nat → Nat) (s : Line) (h : s.Sound owner)
    (hN : 0 < s._particles.length)
    (hc : Contract c s._nprocs s.meshElements order owner) (t : Nat) :
    (∀ i < s._particles.length, ((startRun s c order).line.markerOf i)._step = 0) ∧
    nTimesOrder n order ≤ n * order ∧
    ∃ rt rt1, roundsFrom c force dim n order T t (startRun s c order) = Outcome.returned rt ∧
      round c force dim n order T rt = Outcome.returned rt1 ∧
      ∀ i < s._particles.length,
        (t = 0 → (rt.line.markerOf i)._step = 0) ∧
        (1 ≤ t → (rt.line.markerOf i)._step = UINT_MAX ∨
          (rt.line.markerOf i)._step < nTimesOrder n order) ∧
        (0 < n * order → (rt.line.markerOf i)._step = UINT_MAX ∨
          (rt.line.markerOf i)._step < n * order) ∧
        ∃ F,
          ((sweptMarker c.toCollaborators force dim n order T F (rt.line.markerOf i))._step =
              UINT_MAX ∨
            (sweptMarker c.toCollaborators force dim n order T F (rt.line.markerOf i))._step <
              nTimesOrder n order) ∧
          (rt.line.markerOf i)._step ≤
            (sweptMarker c.toCollaborators force dim n order T F (rt.line.markerOf i))._step ∧
          (sweptMarker c.toCollaborators force dim n order T F (rt.line.markerOf i))._step ≤
            UINT_MAX ∧
          ((rt.line.markerOf i)._step = UINT_MAX →
            (sweptMarker c.toCollaborators force dim n order T F (rt.line.markerOf i))._step =
              UINT_MAX) ∧
          (exchangeMarker c n order (rt.line.markerOf i)._mproc
            (sweptMarker c.toCollaborators force dim n order T F (rt.line.markerOf i)))._step =
            (sweptMarker c.toCollaborators force dim n order T F (rt.line.markerOf i))._step ∧
          (rt1.line.markerOf i)._step =
            (sweptMarker c.toCollaborators force dim n order T F (rt.line.markerOf i))._step := by
  have hNT := nTimesOrder_le n order
  obtain ⟨rt, rt1, e, e1, hinv, _, hm⟩ := round_markers c force dim n order T owner s h hN hc t
  have h0 : t = 0 → ∀ i < s._particles.length, (rt.line.markerOf i)._step = 0 := by
    intro ht i hi
    subst ht
    have e0 : Outcome.returned (startRun s c order) = Outcome.returned rt := e
    injection e0 with e0
    rw [← e0]
    exact startRun_steps c order owner s h hc i hi
  have h1 : 1 ≤ t → ∀ i < s._particles.length, (rt.line.markerOf i)._step = UINT_MAX ∨
      (rt.line.markerOf i)._step < nTimesOrder n order := by
    intro ht i hi
    rcases (hinv.2.2.2.2.2.2.2 i hi).1 with hd | ⟨_, _, h3⟩
    · exact Or.inl hd
    · exact Or.inr (h3 ht)
  refine ⟨startRun_steps c order owner s h hc, Nat.mod_le _ _, rt, rt1, e, e1,
    fun i hi => ⟨fun ht => h0 ht i hi, fun ht => h1 ht i hi, fun hpos => ?_, ?_⟩⟩
  · by_cases ht : t = 0
    · right
      rw [h0 ht i hi]
      exact hpos
    · rcases h1 (by omega) i hi with hd | hlt
      · exact Or.inl hd
      · exact Or.inr (lt_of_lt_of_le hlt (Nat.mod_le _ _))
  · obtain ⟨F, f1, _⟩ := hm i hi
    obtain ⟨hp, hg⟩ := hinv.2.2.2.2.2.2.2 i hi
    obtain ⟨k1, _, k3⟩ := marker_sweep c.toCollaborators force dim n order T
      (rt.line.markerOf i)._mproc t (rt.stages.getD i 0) F (rt.line.markerOf i) hp hg
    refine ⟨F, k1, k3, ?_, ?_, exchangeMarker_step c n order _ _, ?_⟩
    · rcases k1 with hd | hlt
      · exact le_of_eq hd
      · exact le_of_lt (lt_of_lt_of_le hlt hNT)
    · exact advectMarker_done_stays c.toCollaborators force dim _ n order T F _
    · rw [f1]
      exact exchangeMarker_step c n order _ _

theorem step_never_decreases_witness :
    scenarioLine.Sound scenarioOwner ∧ Contract scenario 2 2 1 scenarioOwner ∧
    (∀ i < 3, ((startRun scenarioLine scenario 1).line.markerOf i)._step = 0) ∧
    ∃ rt rt1,
      roundsFrom scenario none 2 2 1 1 1 (startRun scenarioLine scenario 1) =
        Outcome.returned rt ∧
      round scenario none 2 2 1 1 rt = Outcome.returned rt1 ∧
      ((rt.line.markerOf 0)._step = UINT_MAX ∨ (rt.line.markerOf 0)._step < nTimesOrder 2 1) :=
  have h := step_never_decreases scenario none 2 2 1 1 scenarioOwner scenarioLine
    scenario_sound (by decide) (scenario_contract 1) 1
  ⟨scenario_sound, scenario_contract 1, h.1,
    h.2.2.elim fun rt h1 => h1.elim fun rt1 h2 =>
      ⟨rt, rt1, h2.1, h2.2.1, (h2.2.2 0 (by decide)).2.1 (by decide)⟩⟩

/-- C24: a marker outside the domain is left alone. For a marker whose element is `UINT_MAX` at
the start of the local phase, whatever the collaborators, the force callback and the force
vector: the sweep runs no stage, asks for no location, time fraction or velocity (its result is
the same for all collaborators and callbacks), leaves the coordinates, the old coordinates, the
stage vectors, the element, the previous element and the process of the marker and the force
vector as they are, sets the step to `UINT_MAX`, and counts the marker: the flag of the sweep is
set, and the body of the loop over the markers adds one to the counter of the process. -/
theorem exited_marker_is_left_alone (c d : Collaborators) (force force1 : Option ForceFunction)
    (dim iproc n order : Nat) (T : ℚ) (F : List ℚ) (m : Marker) (he : m._elem = UINT_MAX) :
    (advectMarker c force dim iproc n order T F m).1.marker = { m with _step := UINT_MAX } ∧
    (advectMarker c force dim iproc n order T F m).1.marker._x = m._x ∧
    (advectMarker c force dim iproc n order T F m).1.marker._x0 = m._x0 ∧
    (advectMarker c force dim iproc n order T F m).1.marker._K = m._K ∧
    (advectMarker c force dim iproc n order T F m).1.marker._elem = UINT_MAX ∧
    (advectMarker c force dim iproc n order T F m).1.marker._step = UINT_MAX ∧
    (advectMarker c force dim iproc n order T F m).1.Fm = F ∧
    (advectMarker c force dim iproc n order T F m).2 = true ∧
    sweepPasses c force dim iproc n order T F m = 0 ∧
    advectMarker c force dim iproc n order T F m =
      advectMarker d force1 dim iproc n order T F m ∧
    ∀ (w : Sweep) (pk : Nat × Nat), w._particles.getD pk.2 default = m →
      (sweepSlot c force dim n order T w pk).integrationIsOverCounterProc =
        w.integrationIsOverCounterProc.set pk.1
          (w.integrationIsOverCounterProc.getD pk.1 0 + 1) ∧
      (sweepSlot c force dim n order T w pk)._particles =
        w._particles.set pk.2 { m with _step := UINT_MAX } := by
  obtain ⟨e1, e2⟩ := advectMarker_exited c force dim iproc n order T F m he
  obtain ⟨e3, _⟩ := advectMarker_exited d force1 dim iproc n order T F m he
  refine ⟨by rw [e1], by rw [e1], by rw [e1], by rw [e1], by rw [e1]; exact he, by rw [e1],
    by rw [e1], by rw [e1], e2, by rw [e1, e3], fun w pk hw => ?_⟩
  obtain ⟨e4, _⟩ := advectMarker_exited c force dim pk.1 n order T (w.Fm.getD pk.1 []) m he
  unfold sweepSlot
  simp only [hw, e4, if_pos]
  exact ⟨trivial, trivial⟩

theorem exited_marker_is_left_alone_witness :
    exitedMarker._elem = UINT_MAX ∧
    (advectMarker scenario.toCollaborators none 2 0 2 1 1 [0, 0, 0] exitedMarker).1.marker =
      { exitedMarker with _step := UINT_MAX } ∧
    sweepPasses scenario.toCollaborators none 2 0 2 1 1 [0, 0, 0] exitedMarker = 0 :=
  have h := exited_marker_is_left_alone scenario.toCollaborators scenario.toCollaborators none
    none 2 0 2 1 1 [0, 0, 0] exitedMarker rfl
  ⟨rfl, h.1, h.2.2.2.2.2.2.2.2.1⟩

/-! ## The claim on the stage data at a macro-step boundary -/

/-- C30: omitting the stage data at a macro-step boundary is harmless. Let `a` be the copy of a
migrating marker that the new owner holds after the exchange and `b` the same marker with the
stage vectors and old coordinates of the old owner (the two agree in coordinates, step,
element, previous element and process; both hold `order` stage vectors), with
`step % order = 0`, `step < n * order` and the element found, and let the time fraction and
the velocity not depend on the stage vectors and old coordinates of the marker. Then the next
stage takes the current coordinates as old coordinates and leaves all stage vectors but the one
it computes zero; it gives the same state (stage vectors, old coordinates, coordinates, step,
element, process) for `a` and for `b`; and so do every number of passes of the stage loop and
the whole sweep. -/
theorem omitted_stage_data_is_harmless (c : Collaborators) (force : Option ForceFunction)
    (dim iproc n order : Nat) (T : ℚ) (F : List ℚ) (a b : Marker)
    (hblind : BlindToStages c n order) (hab : SameButStages a b)
    (ha : a._K.length = order) (hb : b._K.length = order) (hs : a._step % order = 0)
    (hlt : a._step < nTimesOrder n order) (he : a._elem ≠ UINT_MAX) :
    (stageUpdate c force dim n order T (startWith F a)).marker._x0 = a._x ∧
    (∀ j, 0 < j → j < order →
      (stageUpdate c force dim n order T (startWith F a)).marker._K.getD j [] =
        List.replicate dim 0) ∧
    stageUpdate c force dim n order T (startWith F a) =
      stageUpdate c force dim n order T (startWith F b) ∧
    stageBody c force dim iproc n order T (startWith F a) =
      stageBody c force dim iproc n order T (startWith F b) ∧
    (∀ fuel, stageLoop c force dim iproc n order T (fuel + 1) (startWith F a) =
      stageLoop c force dim iproc n order T (fuel + 1) (startWith F b)) ∧
    advectMarker c force dim iproc n order T F a = advectMarker c force dim iproc n order T F b ∧
    sweepPasses c force dim iproc n order T F a =
      sweepPasses c force dim iproc n order T F b := by
  obtain ⟨h1, h2⟩ := stageUpdate_boundary c force dim n order T F a ha hs
  obtain ⟨h3, h4, h5, h6⟩ := sweep_stale c force dim iproc n order T F a b hblind hab ha hb hs
    hlt he
  exact ⟨h1, h2, stageUpdate_stale c force dim n order T F a b hblind hab ha hb hs, h3, h4, h5,
    h6⟩

theorem omitted_stage_data_is_harmless_witness :
    BlindToStages scenario.toCollaborators 2 1 ∧
    SameButStages (scenarioInitializeVariables 1 movedMarker) movedMarker ∧
    (scenarioInitializeVariables 1 movedMarker)._K ≠ movedMarker._K ∧
    movedMarker._step % 1 = 0 ∧ movedMarker._step < nTimesOrder 2 1 ∧
    advectMarker scenario.toCollaborators none 2 1 2 1 1 [0, 0, 0]
        (scenarioInitializeVariables 1 movedMarker) =
      advectMarker scenario.toCollaborators none 2 1 2 1 1 [0, 0, 0] movedMarker :=
  have hab : SameButStages (scenarioInitializeVariables 1 movedMarker) movedMarker :=
    ⟨rfl, rfl, rfl, rfl, rfl⟩
  have h := omitted_stage_data_is_harmless scenario.toCollaborators none 2 1 2 1 1 [0, 0, 0]
    (scenarioInitializeVariables 1 movedMarker) movedMarker (scenario_blind 2 1) hab rfl rfl
    (by decide) (by decide) (by decide)
  ⟨scenario_blind 2 1, hab, by decide!, by decide, by decide, h.2.2.2.2.2.1⟩

/-! ## The claims on the hand-over of a marker -/

/-- C25 (as stated, refuted): in the end-to-end scenario (order 1) marker 2 is handed over from
process 0 to process 1 after one stage, with the step 1, the stage vector `(1/2, 0)` and the
old coordinates `(0.9, 0.5)`. As `step % order` is 0, process 0 posts the message with the step
only; process 1 receives the step 1, and its stage vector and old coordinates are those that
`InitializeVariables` left, not those of process 0. -/
theorem hand_over_omits_stages_at_boundary :
    exchangeSends scenario 2 1 2 0 movedMarker = sendState 1 2 0 1 movedMarker ∧
    sendState 1 2 0 1 movedMarker = [stepMessage 1 0 1 movedMarker] ∧
    (receiveState scenarioInitializeVariables 1 2 0 newOwner).map
        (fun w => (w.marker._step, w.marker._K, w.marker._x0, w.queue)) =
      some (1, [[0, 0]], [0, 0], []) ∧
    movedMarker._step = 1 ∧ movedMarker._K = [[1 / 2, 0]] ∧
    movedMarker._x0 = [9 / 10, 1 / 2] ∧
    (receiveState scenarioInitializeVariables 1 2 0 newOwner).map (fun w => w.marker._K) ≠
      some movedMarker._K ∧
    (receiveState scenarioInitializeVariables 1 2 0 newOwner).map (fun w => w.marker._x0) ≠
      some movedMarker._x0 := by
  decide!

/-- C25 (amended): the hand-over carries the step always, and the stage vectors and the old
coordinates within a macro-step. For every marker `a` that the local phase has left inside
the domain and that the exchange finds on a process other than the process `jproc` that stores
it, the messages that `jproc` posts are those of `sendState` for the marker as the exchange
leaves it, whose coordinates, old coordinates, stage vectors and step are those of `a`. For
every order from 1 on and every step, when the queue of the new owner holds these messages
behind messages of other processes only, and the stage vectors of the sender and the buffers of
the receiver have `order` rows of `dim` entries and its old coordinates and their buffer `dim`
entries: the receiving side returns; the new owner's step is the sender's; when
`step % order ≠ 0` the new owner's stage vectors and old coordinates are the sender's; when
`step % order = 0` only the step is sent, and the new owner's stage vectors and old coordinates
are those that `InitializeVariables(order)` left in its copy. -/
theorem hand_over_carries_state (c : RoundCollaborators) (init : Nat → Marker → Marker)
    (n order dim jproc : Nat) (a : Marker) (w : Receiver) (pre rest : List Message)
    (ho : 1 ≤ order)
    (hfound : (exchangeMarker c n order jproc a)._elem ≠ UINT_MAX)
    (hmoved : (exchangeMarker c n order jproc a)._mproc ≠ jproc)
    (hpre : ∀ x ∈ pre, x.source ≠ jproc)
    (hq : w.queue = pre ++ exchangeSends c n order dim jproc a ++ rest)
    (hK : KShape order dim a._K) (hbuf : KShape order dim w.K)
    (hx0 : a._x0.length = dim) (hx0buf : w.x0.length = dim) :
    exchangeSends c n order dim jproc a =
      sendState order dim jproc (exchangeMarker c n order jproc a)._mproc
        (exchangeMarker c n order jproc a) ∧
    (exchangeMarker c n order jproc a)._step = a._step ∧
    (exchangeMarker c n order jproc a)._K = a._K ∧
    (exchangeMarker c n order jproc a)._x0 = a._x0 ∧
    ∃ w1, receiveState init order dim jproc w = some w1 ∧
      w1.queue = pre ++ rest ∧
      w1.marker._step = a._step ∧
      (a._step % order ≠ 0 → w1.marker._K = a._K ∧ w1.marker._x0 = a._x0) ∧
      (a._step % order = 0 →
        exchangeSends c n order dim jproc a =
          [stepMessage order jproc (exchangeMarker c n order jproc a)._mproc
            (exchangeMarker c n order jproc a)] ∧
        w1.marker._K = (init order w.marker)._K ∧
        w1.marker._x0 = (init order w.marker)._x0) := by
  obtain ⟨_, k2, k3, k4⟩ := exchangeMarker_keeps c n order jproc a
  have hs : exchangeSends c n order dim jproc a =
      sendState order dim jproc (exchangeMarker c n order jproc a)._mproc
        (exchangeMarker c n order jproc a) := by
    rw [exchangeSends_eq, if_pos ⟨hfound, hmoved⟩, if_neg (fun h => hfound h.1),
      List.append_nil]
  rw [hs] at hq
  obtain ⟨w1, e1, e2, _, e4, _, _, _, _, e9, e10⟩ := receiveState_spec init order dim jproc
    (exchangeMarker c n order jproc a)._mproc (exchangeMarker c n order jproc a) w pre rest
    hpre hq
  rw [k4] at e4 e9 e10
  rw [k2, k3] at e10
  refine ⟨hs, k4, k3, k2, w1, e1, e2, e4, fun hne => ?_, fun h0 => ⟨?_, e9 h0⟩⟩
  · obtain ⟨f1, f2, f3⟩ := e10 hne
    rw [if_pos (by omega)] at f2
    obtain ⟨g1, g2⟩ := received_vectors order dim a._K w.K w1.marker._K a._x0 w.x0 hK hbuf hx0
      hx0buf f2 f3
    exact ⟨g1, by rw [f1]; exact g2⟩
  · rw [hs, sendState_eq, k4, if_neg (fun h => h h0)]

theorem hand_over_carries_state_witness :
    midStepOwner.queue =
      [{ source := 2, dest := 1, tag := 3, unsignedData := [7], doubleData := [] }] ++
        exchangeSends scenario 2 2 2 0 midStepMarker ++ [] ∧
    midStepMarker._step % 2 ≠ 0 ∧
    ∃ w1, receiveState scenarioInitializeVariables 2 2 0 midStepOwner = some w1 ∧
      w1.marker._step = midStepMarker._step ∧
      w1.marker._K = midStepMarker._K ∧ w1.marker._x0 = midStepMarker._x0 :=
  have hq : midStepOwner.queue =
      [{ source := 2, dest := 1, tag := 3, unsignedData := [7], doubleData := [] }] ++
        exchangeSends scenario 2 2 2 0 midStepMarker ++ [] := by decide!
  have hne : midStepMarker._step % 2 ≠ 0 := by decide
  have h := hand_over_carries_state scenario scenarioInitializeVariables 2 2 2 0 midStepMarker
    midStepOwner [{ source := 2, dest := 1, tag := 3, unsignedData := [7], doubleData := [] }]
    [] (by decide) (by decide!) (by decide!) (by decide) hq (by decide) (by decide) rfl rfl
  ⟨hq, hne, h.2.2.2.2.elim fun w1 h1 =>
    ⟨w1, h1.1, h1.2.2.1, (h1.2.2.2.1 hne).1, (h1.2.2.2.1 hne).2⟩⟩

/-- C26: the receives of a hand-over match its sends. For every migrating marker, every step
(the value `UINT_MAX` included) and every order from 1 on, when the queue of the new owner holds
the messages of the hand-over behind messages of other processes only: every receive of the new
owner returns, and the sequence of the tags and counts of the receives it posts is the sequence
of the tags and counts of the messages that the old owner posts: the step with the tag
`order + 1` and the count 1, then, only when `step % order ≠ 0`, the stage vectors 0 to
`order - 1` with the tags 0 to `order - 1` and the old coordinates with the tag `order`, each
with the count `dim`; afterwards the queue holds none of these messages. The tags of the step,
the stage vectors and the old coordinates are pairwise distinct, and the tag of the step is
`order + 1`, for every order below `UINT_MAX`, which are all the orders with which a hand-over
is reached: the order is an `unsigned`, and with the order `UINT_MAX` the sweep that precedes
the exchange cannot run (its `order` stage vectors cannot be allocated, and the tableaux have
four orders). -/
theorem hand_over_receives_match_sends (init : Nat → Marker → Marker)
    (order dim jproc mproc : Nat) (m : Marker) (w : Receiver) (pre rest : List Message)
    (ho : 1 ≤ order) (hpre : ∀ x ∈ pre, x.source ≠ jproc)
    (hq : w.queue = pre ++ sendState order dim jproc mproc m ++ rest) :
    envelopes (sendState order dim jproc mproc m) =
      (stepTag order, 1) ::
        (if m._step % order ≠ 0 then
          (List.range order).map (fun i => (i, dim)) ++ [(order, dim)]
        else []) ∧
    (∃ w1, receiveState init order dim jproc w = some w1 ∧
      w1.posted = w.posted ++ envelopes (sendState order dim jproc mproc m) ∧
      w1.queue = pre ++ rest ∧ w1.marker._step = m._step) ∧
    (order < UINT_MAX →
      stepTag order = order + 1 ∧
      ((sendState order dim jproc mproc m).map (fun q => q.tag)).Nodup) := by
  obtain ⟨w1, e1, e2, e3, e4, _⟩ := receiveState_spec init order dim jproc mproc m w pre rest
    hpre hq
  refine ⟨sendState_envelopes order dim jproc mproc m, ⟨w1, e1, e3, e2, e4⟩, fun hlt => ?_⟩
  have ht : stepTag order = order + 1 := by
    unfold stepTag
    apply Nat.mod_eq_of_lt
    unfold UINT_MAX at hlt
    omega
  refine ⟨ht, ?_⟩
  rw [sendState_tags, ht, List.nodup_cons]
  split
  · constructor
    · intro hmem
      rcases List.mem_append.mp hmem with h | h
      · have := List.mem_range.mp h
        omega
      · have := List.mem_singleton.mp h
        omega
    · rw [← List.range_succ]
      exact List.nodup_range _
  · exact ⟨List.not_mem_nil _, List.nodup_nil⟩

theorem hand_over_receives_match_sends_witness :
    midStepOwner.queue =
      [{ source := 2, dest := 1, tag := 3, unsignedData := [7], doubleData := [] }] ++
        sendState 2 2 0 1 midStepMarker ++ [] ∧
    envelopes (sendState 2 2 0 1 midStepMarker) = [(3, 1), (0, 2), (1, 2), (2, 2)] ∧
    ∃ w1, receiveState scenarioInitializeVariables 2 2 0 midStepOwner = some w1 ∧
      w1.posted = [(3, 1), (0, 2), (1, 2), (2, 2)] ∧
      w1.queue =
        [{ source := 2, dest := 1, tag := 3, unsignedData := [7], doubleData := [] }] :=
  have hq : midStepOwner.queue =
      [{ source := 2, dest := 1, tag := 3, unsignedData := [7], doubleData := [] }] ++
        sendState 2 2 0 1 midStepMarker ++ [] := by decide!
  have he : envelopes (sendState 2 2 0 1 midStepMarker) = [(3, 1), (0, 2), (1, 2), (2, 2)] := by
    decide!
  have h := hand_over_receives_match_sends scenarioInitializeVariables 2 2 0 1 midStepMarker
    midStepOwner [{ source := 2, dest := 1, tag := 3, unsignedData := [7], doubleData := [] }]
    [] (by decide) (by decide) hq
  ⟨hq, he, h.2.1.elim fun w1 h1 =>
    ⟨w1, h1.1, by rw [h1.2.1, he]; rfl, by rw [h1.2.2.1]; rfl⟩⟩

/-! ## The claim on the markers outside the domain in the exchange -/

/-- C27: exited markers are handed to process 0. On a sound line with at least one marker, with
collaborators that respect their contract (in particular a marker outside the domain belongs to
process 0): (A) in the exchange of `AdvectionParallel`, for a marker stored in the slice of
`jproc` that the exchange leaves with the element `UINT_MAX`, the process `jproc` posts exactly
one message, to process 0, with the tag 1 and the coordinates of the marker, when `jproc` is not
0, and no message when `jproc` is 0; (B) the same holds in the loop of `UpdateLineMPM`; (C) when
the queue of process 0 holds that message behind messages of other processes only and the
coordinates and their buffer have `dim` entries, the receive of process 0 returns and its copy
of the marker holds the coordinates of the sender; (D) in every round of the run of
`AdvectionParallel` a marker that the exchange leaves with the element `UINT_MAX` lies in the
slice of process 0 after the `UpdateLine` that follows; (E) so does a marker that the loop of
`UpdateLineMPM` leaves with the element `UINT_MAX`, after the `UpdateLine` that ends
`UpdateLineMPM`, whatever markers respecting the partition the line holds at the call. -/
theorem exited_markers_go_to_process_zero (c : RoundCollaborators)
    (force : Option ForceFunction) (dim n order : Nat) (T : ℚ) (owner : Nat → Nat) (s : Line)
    (h : s.Sound owner) (hN : 0 < s._particles.length)
    (hc : Contract c s._nprocs s.meshElements order owner) :
    (∀ jproc a, (exchangeMarker c n order jproc a)._elem = UINT_MAX →
      exchangeSends c n order dim jproc a =
        if jproc ≠ 0 then
          [{ source := jproc, dest := 0, tag := 1, unsignedData := [],
             doubleData := firstOf dim a._x }]
        else []) ∧
    (∀ jproc a, (exchangeMarkerMPM c jproc a)._elem = UINT_MAX →
      exitedSendsMPM c dim jproc a =
        if jproc ≠ 0 then
          [{ source := jproc, dest := 0, tag := 1, unsignedData := [],
             doubleData := firstOf dim a._x }]
        else []) ∧
    (∀ (initX : Marker → Marker) (jproc : Nat) (a : Marker) (w : Receiver)
        (pre rest : List Message),
      (∀ x ∈ pre, x.source ≠ jproc) → w.queue = pre ++ exitedSend dim jproc a ++ rest →
      a._x.length = dim → w.x.length = dim →
      ∃ w1, exitedReceive initX dim jproc w = some w1 ∧ w1.marker._x = a._x ∧
        w1.queue = pre ++ rest ∧ w1.posted = w.posted ++ [(1, dim)]) ∧
    (∀ t, ∃ rt rt1,
      roundsFrom c force dim n order T t (startRun s c order) = Outcome.returned rt ∧
      round c force dim n order T rt = Outcome.returned rt1 ∧
      ∀ i < s._particles.length,
        rt.line._printList.getD i 0 ∈
          sliceOf rt.line._markerOffset (rt.line.markerOf i)._mproc ∧
        ∃ F,
          rt1.line.markerOf i = exchangeMarker c n order (rt.line.markerOf i)._mproc
            (sweptMarker c.toCollaborators force dim n order T F (rt.line.markerOf i)) ∧
          ((rt1.line.markerOf i)._elem = UINT_MAX →
            rt1.line._printList.getD i 0 ∈ sliceOf rt1.line._markerOffset 0)) ∧
    (∀ qs : List Marker, qs.length = s._particles.length →
      (∀ m ∈ qs, GoodMarker s.meshElements owner m) →
      ∃ s1, ({ s with _particles := qs } : Line).UpdateLineMPM c = Outcome.returned s1 ∧
        ∀ i < s._particles.length,
          s1.markerOf i = exchangeMarkerMPM c (s.markerOf i)._mproc
            (qs.getD (s._printList.getD i 0) default) ∧
          ((s1.markerOf i)._elem = UINT_MAX →
            s1._printList.getD i 0 ∈ sliceOf s1._markerOffset 0)) := by
  refine ⟨fun jproc a he => exchangeSends_exited c n order dim jproc a he,
    fun jproc a he => exitedSendsMPM_exited c dim jproc a he,
    fun initX jproc a w pre rest hpre hq hx hbuf => ?_, fun t => ?_, fun qs hlen hgood => ?_⟩
  · obtain ⟨w1, e1, e2, _, _, e5, e6⟩ :=
      exitedReceive_spec initX dim jproc a w pre rest hpre hq hx hbuf
    exact ⟨w1, e1, e2, e5, e6⟩
  · obtain ⟨rt, rt1, e, e1, hinv, hinv1, hm⟩ :=
      round_markers c force dim n order T owner s h hN hc t
    refine ⟨rt, rt1, e, e1, fun i hi => ⟨?_, ?_⟩⟩
    · exact sound_slot rt.line owner hinv.1 i (by rw [hinv.2.2.2.1]; exact hi)
    · obtain ⟨F, f1, _⟩ := hm i hi
      exact ⟨F, f1, fun he => sound_exited_slot rt1.line owner hinv1.1 hc.2.1 i
        (by rw [hinv1.2.2.2.1]; exact hi) he⟩
  · obtain ⟨s1, e1, hs1, hl, hmk⟩ := updateLineMPM_spec c owner s h hN hc.1 hc.2.1
      hc.2.2.2.1 qs hlen hgood
    exact ⟨s1, e1, fun i hi => ⟨hmk i hi, fun he =>
      sound_exited_slot s1 owner hs1 hc.2.1 i (by rw [hl]; exact hi) he⟩⟩

theorem exited_markers_go_to_process_zero_witness :
    scenarioLine.Sound scenarioOwner ∧ Contract scenario 2 2 1 scenarioOwner ∧
    (exchangeMarker scenario 2 1 1 exitedMarker)._elem = UINT_MAX ∧
    exchangeSends scenario 2 1 2 1 exitedMarker =
      [{ source := 1, dest := 0, tag := 1, unsignedData := [],
         doubleData := firstOf 2 exitedMarker._x }] ∧
    exchangeSends scenario 2 1 2 0 exitedMarker = [] :=
  have h := exited_markers_go_to_process_zero scenario none 2 2 1 1 scenarioOwner scenarioLine
    scenario_sound (by decide) (scenario_contract 1)
  have he1 : (exchangeMarker scenario 2 1 1 exitedMarker)._elem = UINT_MAX := by decide
  have he0 : (exchangeMarker scenario 2 1 0 exitedMarker)._elem = UINT_MAX := by decide
  ⟨scenario_sound, scenario_contract 1, he1, h.1 1 exitedMarker he1, h.1 0 exitedMarker he0⟩

end Femus
